import Mathlib

/-!
# WFS: a shallow embedding of the on-disk file-system engine (`wfs.c`, `mkfs.c`, `wfs.h`)

The mapped image `mregion` is modelled by the record `Image`: the superblock, the two
bitmaps (arrays of 32-bit words), the inode table (one record per inode block) and the
bytes of the image addressed by their absolute byte offset (used for the data region,
where directory entries, indirect blocks and file contents live as raw bytes).

Conventions.
* `off_t`, `int`, `time_t` values are `Int`; `size_t`, `uint32_t`, `mode_t` values are `Nat`.
* A `struct wfs_inode *` is the index of the inode block it points to; a `char *` into the
  image is the absolute byte offset; `NULL` is `none`.
* C strings are lists of byte values without the terminating zero.
* A handler returns `none` when the C code has no defined behaviour on the input
  (an out-of-bounds read or write); otherwise `some (return value, image after the call)`.
* `time(NULL)`, `getuid()`, `getgid()` are parameters (`now`, `uid`, `gid`).
* The global `wfs_error` is only ever written, or read back in the statement following
  the write; it is not part of the state.
-/

namespace WFS

/-! ## Constants of `wfs.h` and of the C library -/

abbrev BLOCK_SIZE : Int := 512
abbrev MAX_NAME : Nat := 28
abbrev D_BLOCK : Nat := 6
abbrev IND_BLOCK : Nat := D_BLOCK + 1
abbrev N_BLOCKS : Nat := IND_BLOCK + 1
abbrev PATH_MAX : Nat := 4096

abbrev EPERM : Int := 1
abbrev ENOENT : Int := 2
abbrev ENOMEM : Int := 12
abbrev EEXIST : Int := 17
abbrev ENOTDIR : Int := 20
abbrev EISDIR : Int := 21
abbrev EINVAL : Int := 22
abbrev ENOSPC : Int := 28
abbrev ERANGE : Int := 34
abbrev ENODATA : Int := 61

abbrev S_IFMT : Nat := 0o170000
abbrev S_IFDIR : Nat := 0o040000
abbrev S_IFCHR : Nat := 0o020000
abbrev S_IFBLK : Nat := 0o060000
abbrev S_IFREG : Nat := 0o100000
abbrev S_IRWXU : Nat := 0o700

def S_ISDIR (mode : Nat) : Bool := mode &&& S_IFMT == S_IFDIR
def S_ISCHR (mode : Nat) : Bool := mode &&& S_IFMT == S_IFCHR
def S_ISBLK (mode : Nat) : Bool := mode &&& S_IFMT == S_IFBLK

/-- Size of `struct wfs_dentry`: `MAX_NAME` name bytes followed by a 4-byte `int`. -/
abbrev DENTRY_SIZE : Int := 32
/-- Number of dentries in a block: `BLOCK_SIZE / sizeof(struct wfs_dentry)`. -/
abbrev N_DENTRIES : Nat := 16
/-- Number of offsets in an indirect block: `BLOCK_SIZE / sizeof(off_t)`. -/
abbrev N_INDIRECT : Nat := 64

/-! ## Data model -/

/-- The superblock `struct wfs_sb`. -/
structure wfs_sb where
  num_inodes : Nat
  num_data_blocks : Nat
  i_bitmap_ptr : Int
  d_bitmap_ptr : Int
  i_blocks_ptr : Int
  d_blocks_ptr : Int

/-- The inode record `struct wfs_inode`; `blocks i` is `blocks[i]` for `i < N_BLOCKS`. -/
structure wfs_inode where
  num : Int
  mode : Nat
  uid : Nat
  gid : Nat
  size : Int
  nlinks : Int
  atim : Int
  ctim : Int
  mtim : Int
  color : Nat
  blocks : Nat → Int

/-- The mapped image. -/
structure Image where
  sb : wfs_sb
  i_bitmap : Nat → Nat
  d_bitmap : Nat → Nat
  inodes : Nat → wfs_inode
  data : Int → Nat

/-- An inode block after `memset(.., 0, BLOCK_SIZE)`. -/
def zero_inode : wfs_inode :=
  { num := 0, mode := 0, uid := 0, gid := 0, size := 0, nlinks := 0,
    atim := 0, ctim := 0, mtim := 0, color := 0, blocks := fun _ => 0 }

/-- Array update `a[i] = v`. -/
def upd {α : Type} (a : Nat → α) (i : Nat) (v : α) : Nat → α :=
  fun j => if j = i then v else a j

/-! ## Raw memory access -/

/-- The value of `memset(p, 0, n)` on the byte memory. -/
def memset0 (m : Int → Nat) (p : Int) (n : Int) : Int → Nat :=
  fun q => if p ≤ q ∧ q < p + n then 0 else m q

/-- The value of `memcpy(p, src, src.length)` on the byte memory. -/
def memcpy (m : Int → Nat) (p : Int) (src : List Nat) : Int → Nat :=
  fun q => if p ≤ q ∧ q < p + src.length then src.getD (q - p).toNat 0 else m q

/-- Read `n` bytes at `p` as a little-endian unsigned number. -/
def rd_le (m : Int → Nat) : Nat → Int → Nat
  | 0, _ => 0
  | n + 1, p => m p + 256 * rd_le m n (p + 1)

/-- The `n` little-endian bytes of `v`. -/
def le_bytes : Nat → Nat → List Nat
  | 0, _ => []
  | n + 1, v => v % 256 :: le_bytes n (v / 256)

/-- Two-complement reading of a 32-bit pattern as `int`. -/
def as_int32 (n : Nat) : Int :=
  if n % 2 ^ 32 < 2 ^ 31 then (n % 2 ^ 32 : Nat) else (n % 2 ^ 32 : Nat) - 2 ^ 32

/-- Two-complement reading of a 64-bit pattern as `off_t`. -/
def as_int64 (n : Nat) : Int :=
  if n % 2 ^ 64 < 2 ^ 63 then (n % 2 ^ 64 : Nat) else (n % 2 ^ 64 : Nat) - 2 ^ 64

/-- Load an `int` stored at `p`. -/
def rd_int (m : Int → Nat) (p : Int) : Int := as_int32 (rd_le m 4 p)

/-- Store an `int` at `p`. -/
def wr_int (m : Int → Nat) (p : Int) (v : Int) : Int → Nat :=
  memcpy m p (le_bytes 4 (v % 2 ^ 32).toNat)

/-- Load an `off_t` stored at `p`. -/
def rd_off (m : Int → Nat) (p : Int) : Int := as_int64 (rd_le m 8 p)

/-- Store an `off_t` at `p`. -/
def wr_off (m : Int → Nat) (p : Int) (v : Int) : Int → Nat :=
  memcpy m p (le_bytes 8 (v % 2 ^ 64).toNat)

/-- The bytes `m[p], ..., m[p+n-1]`. -/
def rd_bytes (m : Int → Nat) : Nat → Int → List Nat
  | 0, _ => []
  | n + 1, p => m p :: rd_bytes m n (p + 1)

/-! ## Bitmap allocator -/

/-- `free_bitmap`: clear the bit at `position`. -/
def free_bitmap (position : Nat) (bitmap : Nat → Nat) : Nat → Nat :=
  let position_word := position / 32
  let position_bit := position % 32
  upd bitmap position_word (bitmap position_word &&& (0xFFFFFFFF ^^^ (1 <<< position_bit)))

/-- Test of one bitmap bit, `(bitmap[pos / 32] >> (pos % 32)) & 1`. -/
def bit_set (bitmap : Nat → Nat) (pos : Nat) : Bool :=
  (bitmap (pos / 32) >>> (pos % 32)) &&& 1 != 0

/-- Inner loop of `allocate_block`: the first `k` in `k0, k0+1, ..` (at most `n` of them)
whose bit in the word is clear. -/
def scan_word (w : Nat) : Nat → Nat → Option Nat
  | 0, _ => none
  | n + 1, k => if (w >>> k) &&& 1 = 0 then some k else scan_word w n (k + 1)

/-- Outer loop of `allocate_block` over the words `i0, i0+1, ..` (`n` of them): the first
word that is not all-ones and has a clear bit among its 32 bits, with that bit. -/
def scan_bitmap (bitmap : Nat → Nat) : Nat → Nat → Option (Nat × Nat)
  | 0, _ => none
  | n + 1, i =>
    if bitmap i = 0xFFFFFFFF then scan_bitmap bitmap n (i + 1)
    else match scan_word (bitmap i) 32 0 with
      | some k => some (i, k)
      | none => scan_bitmap bitmap n (i + 1)

/-- `allocate_block`: first-free scan; returns the index (`none` for `-1`) and the bitmap. -/
def allocate_block (bitmap : Nat → Nat) (len : Nat) : Option Nat × (Nat → Nat) :=
  match scan_bitmap bitmap len 0 with
  | some (i, k) => (some (32 * i + k), upd bitmap i (bitmap i ||| (1 <<< k)))
  | none => (none, bitmap)

/-- `retrieve_inode`: the inode pointer for `inum`, `none` when out of range or not in use. -/
def retrieve_inode (s : Image) (inum : Int) : Option Nat :=
  if inum < 0 ∨ inum.toNat ≥ s.sb.num_inodes then none
  else if (s.i_bitmap (inum.toNat / 32) >>> (inum.toNat % 32)) &&& 1 = 0 then none
  else some inum.toNat

/-- `allocate_inode`: returns the new inode pointer (`none` for `NULL`). -/
def allocate_inode (s : Image) (now : Int) : Option Nat × Image :=
  let bitmap_entries := (s.sb.num_inodes + 31) / 32
  match allocate_block s.i_bitmap bitmap_entries with
  | (none, _) => (none, s)
  | (some free_idx, bitmap) =>
    let inode_word := free_idx / 32
    let inode_bit := free_idx % 32
    let bitmap := upd bitmap inode_word (bitmap inode_word ||| (1 <<< inode_bit))
    let new_inode := { zero_inode with num := free_idx, atim := now, mtim := now, ctim := now }
    (some free_idx, { s with i_bitmap := bitmap, inodes := upd s.inodes free_idx new_inode })

/-- `allocate_data_block`: returns the byte offset of the new block, or `-ENOSPC`. -/
def allocate_data_block (s : Image) : Int × Image :=
  let bitmap_entries := (s.sb.num_data_blocks + 31) / 32
  match allocate_block s.d_bitmap bitmap_entries with
  | (none, _) => (-ENOSPC, s)
  | (some free_idx, bitmap) =>
    let data_off := s.sb.d_blocks_ptr + (free_idx : Int) * BLOCK_SIZE
    (data_off, { s with d_bitmap := bitmap, data := memset0 s.data data_off BLOCK_SIZE })

/-- `free_inode` for the inode pointer `inode`. -/
def free_inode (s : Image) (inode : Nat) : Image :=
  let inode_idx := (s.inodes inode).num
  -- `inode_idx >= sb->num_inodes` compares as `size_t`: a negative `int` is out of range
  if inode_idx < 0 ∨ inode_idx.toNat ≥ s.sb.num_inodes then s
  else
    { s with i_bitmap := free_bitmap inode_idx.toNat s.i_bitmap,
             inodes := upd s.inodes inode_idx.toNat zero_inode }

/-- `free_block` for the block at byte offset `blk_offset`. -/
def free_block (s : Image) (blk_offset : Int) : Image :=
  if blk_offset < s.sb.d_blocks_ptr ∨
      blk_offset > s.sb.d_blocks_ptr + (s.sb.num_data_blocks : Int) * BLOCK_SIZE then s
  else
    let relative_off := blk_offset - s.sb.d_blocks_ptr
    let block_idx := (relative_off / BLOCK_SIZE).toNat % 2 ^ 32
    if block_idx ≥ s.sb.num_data_blocks then s
    else
      { s with d_bitmap := free_bitmap block_idx s.d_bitmap,
               data := memset0 s.data blk_offset BLOCK_SIZE }

/-! ## Block addressing -/

/-- Update of one inode record. -/
def set_inode (s : Image) (inode : Nat) (v : wfs_inode) : Image :=
  { s with inodes := upd s.inodes inode v }

/-- The assignment `inode->blocks[i] = v`. -/
def set_block (s : Image) (inode : Nat) (i : Nat) (v : Int) : Image :=
  set_inode s inode { s.inodes inode with blocks := upd (s.inodes inode).blocks i v }

/-- `data_offset`: the pointer for byte `offset` of the file (`none` for `NULL`), allocating
missing blocks when `alloc` is set. -/
def data_offset (s : Image) (inode : Nat) (offset : Int) (alloc : Bool) : Option Int × Image :=
  let direct_blocks : Int := D_BLOCK
  let blocks_per_indirect : Int := BLOCK_SIZE / 8
  let capacity : Int := (direct_blocks + blocks_per_indirect) * BLOCK_SIZE
  if offset ≥ capacity ∨ offset < 0 then (none, s)
  else
    -- `offset` is non-negative here, so `/` and `%` agree with the C operators
    let block_idx := offset / BLOCK_SIZE
    let inner_offset := offset % BLOCK_SIZE
    if block_idx < direct_blocks then
      if (s.inodes inode).blocks block_idx.toNat = 0 then
        if !alloc then (none, s)
        else
          let (new_block, s1) := allocate_data_block s
          if new_block < 0 then (none, s1)
          else
            let s2 := set_block s1 inode block_idx.toNat new_block
            (some ((s2.inodes inode).blocks block_idx.toNat + inner_offset), s2)
      else (some ((s.inodes inode).blocks block_idx.toNat + inner_offset), s)
    else
      let indirect_idx := block_idx - direct_blocks
      if indirect_idx < 0 ∨ indirect_idx ≥ blocks_per_indirect then (none, s)
      else
        -- first the indirect block itself: `(false, _)` stands for `return NULL`
        let r1 : Bool × Image :=
          if (s.inodes inode).blocks D_BLOCK = 0 then
            if !alloc then (false, s)
            else
              let (new_indirect_block, s1) := allocate_data_block s
              if new_indirect_block < 0 then (false, s1)
              else
                let s2 := set_block s1 inode D_BLOCK new_indirect_block
                (true, { s2 with data := memset0 s2.data new_indirect_block BLOCK_SIZE })
          else (true, s)
        if !r1.1 then (none, r1.2)
        else
          let s3 := r1.2
          let indirect := (s3.inodes inode).blocks D_BLOCK
          let slot := indirect + 8 * indirect_idx
          if rd_off s3.data slot = 0 then
            if !alloc then (none, s3)
            else
              let (new_block, s4) := allocate_data_block s3
              if new_block < 0 then (none, s4)
              else
                let s5 := { s4 with data := wr_off s4.data slot new_block }
                (some (rd_off s5.data slot + inner_offset), s5)
          else (some (rd_off s3.data slot + inner_offset), s3)

/-- `fillin_inode`. -/
def fillin_inode (s : Image) (inode : Nat) (mode : Nat) (now : Int) (uid gid : Nat) : Image :=
  set_inode s inode
    { s.inodes inode with
      mode := mode, uid := uid, gid := gid, size := 0, nlinks := 1, blocks := fun _ => 0,
      atim := now, mtim := now, ctim := now, color := 0 }

/-! ## Directory store -/

/-- Address of `entries[j]` in the dentry block at byte offset `blk`. -/
def dentry_ptr (blk : Int) (j : Nat) : Int := blk + DENTRY_SIZE * j

/-- The field `num` of the dentry at `p`. -/
def dentry_num (m : Int → Nat) (p : Int) : Int := rd_int m (p + MAX_NAME)

/-- The test `strcmp(p, name) == 0` for a C string stored at `p`; the comparison ends at
the first difference or at the terminating zero byte. -/
def strcmp_eq (m : Int → Nat) : Int → List Nat → Bool
  | p, [] => m p == 0
  | p, c :: cs => m p == c && (c == 0 || strcmp_eq m (p + 1) cs)

/-- The test `entries[j].num == 0 || entries[j].name[0] == 0` of a vacant slot. -/
def dentry_vacant (m : Int → Nat) (p : Int) : Bool :=
  dentry_num m p == 0 || m p == 0

/-- The effect of `strcpy(e->name, name); e->num = num`. -/
def write_dentry (m : Int → Nat) (p : Int) (name : List Nat) (num : Int) : Int → Nat :=
  wr_int (memcpy m p (name ++ [0])) (p + MAX_NAME) num

/-- Scan state of `add_dentry`: `next_block`, and `next_free` with `next_free_block`. -/
structure add_scan where
  next_block : Option Nat
  next_free : Option (Int × Nat)

/-- The inner loop of `add_dentry` over the slots `j0, j0+1, ..` (`n` of them) of block `i`
at offset `blk`; `none` stands for the early `return -EEXIST`. -/
def add_scan_slots (m : Int → Nat) (name : List Nat) (blk : Int) (i : Nat) :
    Nat → Nat → add_scan → Option add_scan
  | 0, _, st => some st
  | n + 1, j, st =>
    let p := dentry_ptr blk j
    if dentry_vacant m p then
      add_scan_slots m name blk i n (j + 1)
        (if st.next_free.isNone then { st with next_free := some (p, i) } else st)
    else if strcmp_eq m p name then none
    else add_scan_slots m name blk i n (j + 1) st

/-- The outer loop of `add_dentry` over the block indices `i0, i0+1, ..` (`n` of them). -/
def add_scan_blocks (m : Int → Nat) (name : List Nat) (blocks : Nat → Int) :
    Nat → Nat → add_scan → Option add_scan
  | 0, _, st => some st
  | n + 1, i, st =>
    if blocks i = 0 then
      add_scan_blocks m name blocks n (i + 1)
        (if st.next_block.isNone then { st with next_block := some i } else st)
    else
      match add_scan_slots m name (blocks i) i N_DENTRIES 0 st with
      | none => none
      | some st1 => add_scan_blocks m name blocks n (i + 1) st1

/-- The update of `parent->size`, `mtim` and `ctim` at the end of `add_dentry`. -/
def touch_parent (s : Image) (parent : Nat) (blk_index : Nat) (now : Int) : Image :=
  let needed_size : Int := ((blk_index : Int) + 1) * BLOCK_SIZE
  let ino := s.inodes parent
  set_inode s parent
    { ino with size := if ino.size < needed_size then needed_size else ino.size,
               mtim := now, ctim := now }

/-- `add_dentry(parent, num, name)`. -/
def add_dentry (s : Image) (parent : Nat) (num : Int) (name : List Nat) (now : Int) :
    Int × Image :=
  if !S_ISDIR (s.inodes parent).mode then (1, s)
  else if name.length ≥ MAX_NAME then (1, s)
  else
    match add_scan_blocks s.data name (s.inodes parent).blocks D_BLOCK 0 ⟨none, none⟩ with
    | none => (-EEXIST, s)
    | some st =>
      match st.next_free with
      | some (p, next_free_block) =>
        let s1 := { s with data := write_dentry s.data p name num }
        (0, touch_parent s1 parent next_free_block now)
      | none =>
        match st.next_block with
        | none => (-ENOSPC, s)
        | some next_block =>
          let (new_block, s1) := allocate_data_block s
          if new_block < 0 then (new_block, s1)
          else
            let s2 := { s1 with data := memset0 s1.data new_block BLOCK_SIZE }
            let s3 := set_block s2 parent next_block new_block
            let entry := (s3.inodes parent).blocks next_block
            let s4 := { s3 with data := write_dentry s3.data entry name num }
            (0, touch_parent s4 parent next_block now)

/-- The inner loop of `remove_dentry`: the first slot `j` with `entries[j].num == inum`. -/
def remove_scan_slots (m : Int → Nat) (inum : Int) (blk : Int) : Nat → Nat → Option Int
  | 0, _ => none
  | n + 1, j =>
    if dentry_num m (dentry_ptr blk j) = inum then some (dentry_ptr blk j)
    else remove_scan_slots m inum blk n (j + 1)

/-- The outer loop of `remove_dentry`: the address of the dentry that is cleared. -/
def remove_scan_blocks (m : Int → Nat) (inum : Int) (blocks : Nat → Int) : Nat → Nat → Option Int
  | 0, _ => none
  | n + 1, i =>
    if blocks i = 0 then remove_scan_blocks m inum blocks n (i + 1)
    else match remove_scan_slots m inum (blocks i) N_DENTRIES 0 with
      | some p => some p
      | none => remove_scan_blocks m inum blocks n (i + 1)

/-- `remove_dentry(dir, inum)`. -/
def remove_dentry (s : Image) (dir : Nat) (inum : Int) (now : Int) : Int × Image :=
  match remove_scan_blocks s.data inum (s.inodes dir).blocks D_BLOCK 0 with
  | none => (-ENOENT, s)
  | some p =>
    -- `entries[j].num = 0; entries[j].name[0] = 0`
    let s1 := { s with data := memcpy (wr_int s.data (p + MAX_NAME) 0) p [0] }
    (0, set_inode s1 dir { s1.inodes dir with mtim := now, ctim := now })

/-- The inner loop of a name lookup: the `num` of the first live slot named `name`. -/
def find_scan_slots (m : Int → Nat) (name : List Nat) (blk : Int) : Nat → Nat → Option Int
  | 0, _ => none
  | n + 1, j =>
    let p := dentry_ptr blk j
    if dentry_num m p = 0 then find_scan_slots m name blk n (j + 1)
    else if m p = 0 then find_scan_slots m name blk n (j + 1)
    else if strcmp_eq m p name then some (dentry_num m p)
    else find_scan_slots m name blk n (j + 1)

/-- The outer loop of a name lookup (in `get_inode_from_path` and in `wfs_unlink`), with
`found` the value of `found_inum` so far: a match whose `num` is negative does not end it. -/
def find_scan_blocks (m : Int → Nat) (name : List Nat) (blocks : Nat → Int) :
    Nat → Nat → Int → Int
  | 0, _, found => found
  | n + 1, i, found =>
    if blocks i = 0 then find_scan_blocks m name blocks n (i + 1) found
    else
      let found1 := match find_scan_slots m name (blocks i) N_DENTRIES 0 with
        | some k => k
        | none => found
      if found1 ≥ 0 then found1 else find_scan_blocks m name blocks n (i + 1) found1

/-- The dentry lookup of `name` in directory `dir`: `found_inum`, `-1` when there is none. -/
def dir_find (s : Image) (dir : Nat) (name : List Nat) : Int :=
  find_scan_blocks s.data name (s.inodes dir).blocks D_BLOCK 0 (-1)

/-! ## Strings and paths -/

/-- The C string held in a buffer: the bytes before the first zero byte. -/
def cstr (l : List Nat) : List Nat := l.takeWhile (fun c => c != 0)

/-- The string literal as a list of byte values. -/
def str (x : String) : List Nat := x.toList.map Char.toNat

/-- The byte `'/'`. -/
abbrev SLASH : Nat := 47
/-- The byte `'.'`. -/
abbrev DOT : Nat := 46
/-- The byte `ESC` (`0x1b`). -/
abbrev ESC : Nat := 27
/-- The byte `'['`. -/
abbrev LBRACKET : Nat := 91
/-- The byte `'m'`. -/
abbrev LOWER_M : Nat := 109

/-- The loop of `strip_ansi_codes` over the rest of the input; `esc` is set while the
inner `while` is skipping an escape sequence and `room` is `out_len - 1 - oi`. When the
input ends inside an escape sequence, the `i++` of the `for` steps over the terminating
zero byte and the next test reads past the string: `none`. -/
def strip_loop : List Nat → Bool → Nat → Option (List Nat)
  | [], false, _ => some []
  | [], true, _ => none
  | c :: rest, true, room =>
    if c = 0 then none
    else if c = LOWER_M then strip_loop rest false room
    else strip_loop rest true room
  | [c], false, room =>
    if c = 0 then some []
    else if room = 0 then some []
    else some [c]
  | c :: d :: rest, false, room =>
    if c = 0 then some []
    else if room = 0 then some []
    else if c = ESC ∧ d = LBRACKET then strip_loop rest true room
    else (strip_loop (d :: rest) false (room - 1)).map (fun out => c :: out)

/-- `strip_ansi_codes(in, out, out_len)`: the string left in `out`. -/
def strip_ansi_codes (inp : List Nat) (out_len : Nat) : Option (List Nat) :=
  if out_len = 0 then some [] else strip_loop inp false (out_len - 1)

/-- The tokens `strtok(.., "/")` yields: the maximal runs of bytes other than `'/'`;
`cur` is the run being read, in reverse. -/
def tokens_loop : List Nat → List Nat → List (List Nat)
  | [], cur => if cur = [] then [] else [cur.reverse]
  | c :: rest, cur =>
    if c = SLASH then
      (if cur = [] then tokens_loop rest [] else cur.reverse :: tokens_loop rest [])
    else tokens_loop rest (c :: cur)

/-- The list of the components of a path. -/
def path_tokens (path : List Nat) : List (List Nat) := tokens_loop path []

/-- Removal of the trailing `'/'` bytes. -/
def strip_trailing_slashes (l : List Nat) : List Nat :=
  (l.reverse.dropWhile (fun c => c == SLASH)).reverse

/-- Removal of the trailing bytes other than `'/'` (the last component). -/
def drop_last_component (l : List Nat) : List Nat :=
  (l.reverse.dropWhile (fun c => c != SLASH)).reverse

/-- The last component: the trailing bytes other than `'/'`. -/
def last_component (l : List Nat) : List Nat :=
  (l.reverse.takeWhile (fun c => c != SLASH)).reverse

/-- The C library function `dirname` of `libgen.h` (not part of the repository), as glibc
computes it: `"."` without a directory part, `"//"` for exactly two leading slashes. -/
def dirname (path : List Nat) : List Nat :=
  let t := strip_trailing_slashes path
  if t = [] then
    (if path = [] then [DOT] else if path.length = 2 then [SLASH, SLASH] else [SLASH])
  else
    let d := drop_last_component t
    if d = [] then [DOT]
    else
      let d1 := strip_trailing_slashes d
      if d1 = [] then (if d.length = 2 then [SLASH, SLASH] else [SLASH]) else d1

/-- The C library function `basename` of `libgen.h` (the POSIX version; not part of the
repository): the last component, without trailing slashes; `"/"` for a path of slashes
only and `"."` for the empty path. -/
def basename (path : List Nat) : List Nat :=
  if path = [] then [DOT]
  else
    let t := strip_trailing_slashes path
    if t = [] then [SLASH] else last_component t

/-! ## Path resolver -/

/-- Result of `get_inode_from_path`: the inode, a negative error code, or no defined
behaviour (an index outside the array `inode_path`). -/
inductive path_result where
  | found (inode : Nat)
  | error (rc : Int)
  | undefined
  deriving DecidableEq

/-- The `while (token)` loop of `get_inode_from_path`; `cur` is the current inode and
`stack` holds `inode_path[idx], .., inode_path[0]`. -/
def walk (s : Image) : List (List Nat) → Nat → List Nat → path_result
  | [], cur, _ => path_result.found cur
  | token :: rest, cur, stack =>
    if !S_ISDIR (s.inodes cur).mode then path_result.error (-ENOTDIR)
    else if token = [DOT] then walk s rest cur stack
    else if token = [DOT, DOT] then
      match stack with
      | _ :: prev :: below => walk s rest prev (prev :: below)
      | _ => path_result.undefined
    else
      let found_inum := dir_find s cur token
      if found_inum < 0 then path_result.error (-ENOENT)
      else match retrieve_inode s found_inum with
        | none => path_result.error (-ENOENT)
        | some next =>
          if stack.length ≥ s.sb.num_inodes then path_result.undefined
          else walk s rest next (next :: stack)

/-- `get_inode_from_path(path, &inode)`. -/
def get_inode_from_path (s : Image) (path : List Nat) : path_result :=
  if path = [SLASH] then
    match retrieve_inode s 0 with
    | some root => path_result.found root
    | none => path_result.error (-ENOENT)
  else if path.head? ≠ some SLASH then path_result.error (-ENOENT)
  else
    match retrieve_inode s 0 with
    | none => path_result.error (-ENOENT)
    | some cur => walk s (path_tokens path) cur [cur]

/-! ## Operation handlers -/

/-- The handlers return `int`; a C conversion of a `size_t` to `int` keeps the low 32 bits. -/
def size_to_int (n : Nat) : Int := as_int32 n

/-- Conversion of an `off_t` to `size_t`. -/
def off_to_size (x : Int) : Nat := (x % 2 ^ 64).toNat

/-- `wfs_mknod(path, mode, dev)`. -/
def wfs_mknod (s : Image) (path : List Nat) (mode : Nat) (now : Int) (uid gid : Nat) :
    Option (Int × Image) :=
  if S_ISCHR mode ∨ S_ISBLK mode then some (-EPERM, s)
  else
    match strip_ansi_codes path PATH_MAX with
    | none => none
    | some clean_path =>
      let parent_path := dirname clean_path
      let filename := basename clean_path
      match strip_ansi_codes parent_path PATH_MAX with
      | none => none
      | some clean_parent =>
        match get_inode_from_path s clean_parent with
        | path_result.undefined => none
        | path_result.error err => some (err, s)
        | path_result.found parent_dir =>
          if !S_ISDIR (s.inodes parent_dir).mode then some (-ENOTDIR, s)
          else
            match allocate_inode s now with
            | (none, s1) => some (-ENOSPC, s1)
            | (some inode, s1) =>
              let s2 := fillin_inode s1 inode (S_IFREG ||| mode) now uid gid
              let s3 := set_inode s2 inode { s2.inodes inode with size := 0 }
              let (add_err, s4) := add_dentry s3 parent_dir (s3.inodes inode).num filename now
              if add_err ≠ 0 then some (add_err, free_inode s4 inode)
              else some (0, s4)

/-- `wfs_mkdir(path, mode)`. -/
def wfs_mkdir (s : Image) (path : List Nat) (mode : Nat) (now : Int) (uid gid : Nat) :
    Option (Int × Image) :=
  match strip_ansi_codes path PATH_MAX with
  | none => none
  | some clean_path =>
    let parent_path := dirname clean_path
    let dirname_str := basename clean_path
    match strip_ansi_codes parent_path PATH_MAX with
    | none => none
    | some clean_parent =>
      match get_inode_from_path s clean_parent with
      | path_result.undefined => none
      | path_result.error _ => some (-ENOENT, s)
      | path_result.found parent =>
        if !S_ISDIR (s.inodes parent).mode then some (-ENOTDIR, s)
        else
          -- check if dir already exists: `strip_ansi_codes(path, clean, ..)` once more
          match get_inode_from_path s clean_path with
          | path_result.undefined => none
          | path_result.found _ => some (-EEXIST, s)
          | path_result.error _ =>
            match allocate_inode s now with
            | (none, s1) => some (-ENOSPC, s1)
            | (some inode, s1) =>
              let s2 := fillin_inode s1 inode (S_IFDIR ||| mode) now uid gid
              let s3 := set_inode s2 inode { s2.inodes inode with size := 0 }
              let (err, s4) := add_dentry s3 parent (s3.inodes inode).num dirname_str now
              if err ≠ 0 then some (err, free_inode s4 inode)
              else some (0, s4)

/-- The `while (left_to_read > 0)` loop of `wfs_read`: the bytes stored into `buf`. The
loop runs at most `fuel` times; each round consumes at least one byte. -/
def read_loop (s : Image) (inode : Nat) : Nat → Nat → Int → List Nat
  | 0, _, _ => []
  | fuel + 1, left_to_read, off =>
    if left_to_read = 0 then []
    else
      let inner_off := off.tmod BLOCK_SIZE
      let curr_chunk : Int := BLOCK_SIZE - inner_off
      -- the comparison `curr_chunk > left_to_read` is made in `size_t`
      let curr_chunk : Nat :=
        if off_to_size curr_chunk > left_to_read then left_to_read else curr_chunk.toNat
      let chunk : List Nat :=
        match (data_offset s inode off false).1 with
        | none => List.replicate curr_chunk 0
        | some src => rd_bytes s.data curr_chunk src
      chunk ++ read_loop s inode fuel (left_to_read - curr_chunk) (off + curr_chunk)

/-- `wfs_read(path, buf, len, off, fi)`: the return value, the bytes stored into `buf`
and the image. -/
def wfs_read (s : Image) (path : List Nat) (len : Nat) (off : Int) (now : Int) :
    Option (Int × List Nat × Image) :=
  match strip_ansi_codes path PATH_MAX with
  | none => none
  | some clean =>
    match get_inode_from_path s clean with
    | path_result.undefined => none
    | path_result.error _ => some (-ENOENT, [], s)
    | path_result.found inode =>
      if S_ISDIR (s.inodes inode).mode then some (-EISDIR, [], s)
      else if off ≥ (s.inodes inode).size then some (0, [], s)
      else
        -- `off + len > inode->size` is evaluated in `size_t`
        let to_read : Nat :=
          if (off_to_size off + len) % 2 ^ 64 > off_to_size (s.inodes inode).size
          then off_to_size ((s.inodes inode).size - off) else len
        let out := read_loop s inode to_read to_read off
        some (size_to_int to_read, out,
              set_inode s inode { s.inodes inode with atim := now })

/-- The `while (left_to_write > 0)` loop of `wfs_write`: `(true, image)` when the loop
ends, `(false, image)` when `data_offset` returned `NULL`. The loop runs at most `fuel`
times; each round consumes at least one byte. -/
def write_loop : Nat → Image → Nat → List Nat → Int → Int → Bool × Image
  | 0, s, _, _, _, _ => (true, s)
  | fuel + 1, s, inode, buf, left_to_write, curr_off =>
    if left_to_write ≤ 0 then (true, s)
    else
      let inner_off := curr_off.tmod BLOCK_SIZE
      let curr_chunk : Int := BLOCK_SIZE - inner_off
      let curr_chunk : Int := if curr_chunk > left_to_write then left_to_write else curr_chunk
      match data_offset s inode curr_off true with
      | (none, s1) => (false, s1)
      | (some dst, s1) =>
        let s2 := { s1 with data := memcpy s1.data dst (buf.take curr_chunk.toNat) }
        write_loop fuel s2 inode (buf.drop curr_chunk.toNat)
          (left_to_write - curr_chunk) (curr_off + curr_chunk)

/-- `wfs_write(path, buf, len, off, fi)` where `len` is the length of `buf`. -/
def wfs_write (s : Image) (path : List Nat) (buf : List Nat) (off : Int) (now : Int) :
    Option (Int × Image) :=
  let len := buf.length
  match strip_ansi_codes path PATH_MAX with
  | none => none
  | some clean =>
    match get_inode_from_path s clean with
    | path_result.undefined => none
    | path_result.error _ => some (-ENOENT, s)
    | path_result.found inode =>
      if S_ISDIR (s.inodes inode).mode then some (-EISDIR, s)
      else
        let left_to_write : Int := size_to_int len
        match write_loop left_to_write.toNat s inode buf left_to_write off with
        | (false, s1) => some (-ENOSPC, s1)
        | (true, s1) =>
          let end_ : Int := off + len
          let ino := s1.inodes inode
          -- `off + (off_t)len` overflows `off_t`
          if end_ ≥ 2 ^ 63 then none
          else some (size_to_int len,
            set_inode s1 inode
              { ino with size := if end_ > ino.size then end_ else ino.size,
                         mtim := now, ctim := now })

/-- The loop `for (i = 0; i < D_BLOCK; i++)` of `wfs_unlink` and `wfs_rmdir` that frees the
direct blocks `i0, i0+1, ..` (`n` of them) of an inode. -/
def free_direct_blocks : Nat → Nat → Image → Nat → Image
  | 0, _, s, _ => s
  | n + 1, i, s, inode =>
    let s1 :=
      if (s.inodes inode).blocks i ≠ 0 then
        set_block (free_block s ((s.inodes inode).blocks i)) inode i 0
      else s
    free_direct_blocks n (i + 1) s1 inode

/-- The loop of `wfs_unlink` over the entries `i0, i0+1, ..` (`n` of them) of the indirect
block at `indirect_off`. -/
def free_indirect_entries : Nat → Nat → Image → Int → Image
  | 0, _, s, _ => s
  | n + 1, i, s, indirect_off =>
    let p := indirect_off + 8 * (i : Int)
    let s1 :=
      if rd_off s.data p ≠ 0 then
        let s0 := free_block s (rd_off s.data p)
        { s0 with data := wr_off s0.data p 0 }
      else s
    free_indirect_entries n (i + 1) s1 indirect_off

/-- `wfs_unlink(path)`. -/
def wfs_unlink (s : Image) (path : List Nat) (now : Int) : Option (Int × Image) :=
  let path := cstr path
  if path.length = 0 then some (-ENOENT, s)
  else if path.head? ≠ some SLASH then some (-ENOENT, s)
  else if path = [SLASH] then some (0, s)
  else
    match strip_ansi_codes path PATH_MAX with
    | none => none
    | some clean_path =>
      -- `strrchr` returns `NULL` for a string without a slash, and `NULL + 1` is used
      if SLASH ∉ clean_path then none
      else
        let filename := last_component clean_path
        if filename = [] then some (-ENOENT, s)
        else
          let before := (drop_last_component clean_path).dropLast
          let parent_path := if before = [] then [SLASH] else before
          match strip_ansi_codes parent_path PATH_MAX with
          | none => none
          | some clean =>
            match get_inode_from_path s clean with
            | path_result.undefined => none
            | path_result.error err => some (err, s)
            | path_result.found parent =>
              if !S_ISDIR (s.inodes parent).mode then some (0, s)
              else
                let found := dir_find s parent filename
                if found < 0 then some (-ENOENT, s)
                else match retrieve_inode s found with
                  | none => some (-ENOENT, s)
                  | some file =>
                    if S_ISDIR (s.inodes file).mode then some (0, s)
                    else
                      let (err2, s1) := remove_dentry s parent found now
                      if err2 < 0 then some (err2, s1)
                      else
                        let s2 := free_direct_blocks D_BLOCK 0 s1 file
                        let s3 :=
                          if (s2.inodes file).blocks IND_BLOCK ≠ 0 then
                            let indirect_off := (s2.inodes file).blocks IND_BLOCK
                            let s4 := free_indirect_entries N_INDIRECT 0 s2 indirect_off
                            set_block (free_block s4 indirect_off) file IND_BLOCK 0
                          else s2
                        some (0, free_inode s3 file)

/-- `wfs_rmdir(path)`. -/
def wfs_rmdir (s : Image) (path : List Nat) (now : Int) : Option (Int × Image) :=
  match strip_ansi_codes path PATH_MAX with
  | none => none
  | some clean_path =>
    if clean_path = [SLASH] then some (-EPERM, s)
    else
      let parent_path := dirname clean_path
      match strip_ansi_codes parent_path PATH_MAX with
      | none => none
      | some clean_parent =>
        match get_inode_from_path s clean_parent with
        | path_result.undefined => none
        | path_result.error rc => some (rc, s)
        | path_result.found parent =>
          if !S_ISDIR (s.inodes parent).mode then some (-ENOTDIR, s)
          else
            match strip_ansi_codes clean_path PATH_MAX with
            | none => none
            | some clean =>
              match get_inode_from_path s clean with
              | path_result.undefined => none
              | path_result.error rc => some (rc, s)
              | path_result.found child =>
                if !S_ISDIR (s.inodes child).mode then some (-ENOTDIR, s)
                else
                  let s1 := free_direct_blocks D_BLOCK 0 s child
                  let (rc, s2) := remove_dentry s1 parent (s1.inodes child).num now
                  if rc < 0 then some (rc, s2)
                  else some (0, free_inode s2 child)

/-! ## Directory listing and the colour attribute -/

/-- The C string stored at `p`, for a name field of at most `n` bytes. -/
def rd_cstr (m : Int → Nat) : Nat → Int → List Nat
  | 0, _ => []
  | n + 1, p => if m p = 0 then [] else m p :: rd_cstr m n (p + 1)

/-- `tolower` in the C locale. -/
def tolower (c : Nat) : Nat := if 65 ≤ c ∧ c ≤ 90 then c + 32 else c

abbrev WFS_COLOR_NONE : Nat := 0
abbrev WFS_COLOR_MAX : Nat := 12

/-- The table `color_table` of names and codes. -/
def color_table : List (List Nat × Nat) :=
  [(str "none", 0), (str "red", 1), (str "green", 2), (str "blue", 3), (str "yellow", 4),
   (str "magenta", 5), (str "cyan", 6), (str "white", 7), (str "black", 8),
   (str "orange", 9), (str "purple", 10), (str "gray", 11)]

/-- `parse_color_name(s, &code)`: the code, `none` for the return value 0. -/
def parse_color_name (s : List Nat) : Option Nat :=
  let buf := ((cstr s).take 31).map tolower
  (color_table.find? (fun e => e.1 == buf)).map (fun e => e.2)

/-- The table of `wfs_color_from_code`: the ANSI prefix and the name of each code. -/
def color_info_table : List (List Nat × List Nat) :=
  [([], str "none"), (ESC :: str "[31m", str "red"), (ESC :: str "[32m", str "green"),
   (ESC :: str "[34m", str "blue"), (ESC :: str "[33m", str "yellow"),
   (ESC :: str "[35m", str "magenta"), (ESC :: str "[36m", str "cyan"),
   (ESC :: str "[37m", str "white"), (ESC :: str "[30m", str "black"),
   (ESC :: str "[38;5;208m", str "orange"), (ESC :: str "[35m", str "purple"),
   (ESC :: str "[90m", str "gray")]

/-- `wfs_color_from_code(code)`: the pair `(ansi, name)`. -/
def wfs_color_from_code (code : Nat) : List Nat × List Nat :=
  if code < WFS_COLOR_MAX then color_info_table.getD code ([], str "none")
  else color_info_table.getD WFS_COLOR_NONE ([], str "none")

/-- The inner loop of `wfs_readdir` over the slots `j0, j0+1, ..` (`n` of them) of the
block at `blk`: the names passed to `filler`, `none` when a name cannot be stripped. -/
def readdir_slots (s : Image) (is_ls : Bool) (blk : Int) : Nat → Nat → Option (List (List Nat))
  | 0, _ => some []
  | n + 1, j =>
    let p := dentry_ptr blk j
    if dentry_vacant s.data p then readdir_slots s is_ls blk n (j + 1)
    else match retrieve_inode s (dentry_num s.data p) with
      | none => readdir_slots s is_ls blk n (j + 1)
      | some child =>
        let name := rd_cstr s.data MAX_NAME p
        let out : Option (List Nat) :=
          if is_ls ∧ (s.inodes child).color ≠ WFS_COLOR_NONE then
            -- `snprintf(out, sizeof(out), "%s%s\033[0m", info->ansi, name)`
            some (((wfs_color_from_code (s.inodes child).color).1 ++ name
                    ++ ESC :: str "[0m").take (MAX_NAME + 32 - 1))
          else strip_ansi_codes name (MAX_NAME + 32)
        match out, readdir_slots s is_ls blk n (j + 1) with
        | some o, some rest => some (o :: rest)
        | _, _ => none

/-- The outer loop of `wfs_readdir` over the block indices `i0, i0+1, ..` (`n` of them). -/
def readdir_blocks (s : Image) (is_ls : Bool) (inode : Nat) : Nat → Nat → Option (List (List Nat))
  | 0, _ => some []
  | n + 1, i =>
    let blk := (s.inodes inode).blocks i
    if blk = 0 then readdir_blocks s is_ls inode n (i + 1)
    else match readdir_slots s is_ls blk N_DENTRIES 0, readdir_blocks s is_ls inode n (i + 1) with
      | some a, some b => some (a ++ b)
      | _, _ => none

/-- `wfs_readdir(path, buf, filler, off, fi)`: the return value, the names passed to
`filler` in order, and the image; `is_ls` tells whether the calling process is `ls`. -/
def wfs_readdir (s : Image) (path : List Nat) (is_ls : Bool) (now : Int) :
    Option (Int × List (List Nat) × Image) :=
  match strip_ansi_codes path PATH_MAX with
  | none => none
  | some clean_path =>
    match get_inode_from_path s clean_path with
    | path_result.undefined => none
    | path_result.error ret => some (ret, [], s)
    | path_result.found inode =>
      if !S_ISDIR (s.inodes inode).mode then some (-ENOTDIR, [], s)
      else match readdir_blocks s is_ls inode D_BLOCK 0 with
        | none => none
        | some names =>
          some (0, [DOT] :: [DOT, DOT] :: names,
                set_inode s inode { s.inodes inode with atim := now })

/-- `wfs_setxattr(path, name, value, size, flags)` where `size` is the length of `value`. -/
def wfs_setxattr (s : Image) (path name value : List Nat) (now : Int) : Option (Int × Image) :=
  match strip_ansi_codes path PATH_MAX with
  | none => none
  | some clean =>
    match get_inode_from_path s clean with
    | path_result.undefined => none
    | path_result.error rc => some (rc, s)
    | path_result.found inode =>
      if cstr name ≠ str "user.color" then some (-ENODATA, s)
      else if value.length = 0 then some (-EINVAL, s)
      else
        let n := if value.length < 32 - 1 then value.length else 32 - 1
        let buf := (value.take n).map tolower
        match strip_ansi_codes buf 32 with
        | none => none
        | some stripped =>
          match parse_color_name stripped with
          | none => some (-EINVAL, s)
          | some code => some (0, set_inode s inode { s.inodes inode with color := code, ctim := now })

/-- `wfs_removexattr(path, name)`. -/
def wfs_removexattr (s : Image) (path name : List Nat) (now : Int) : Option (Int × Image) :=
  match strip_ansi_codes path PATH_MAX with
  | none => none
  | some clean =>
    match get_inode_from_path s clean with
    | path_result.undefined => none
    | path_result.error rc => some (rc, s)
    | path_result.found inode =>
      if cstr name ≠ str "user.color" then some (-ENODATA, s)
      else some (0, set_inode s inode { s.inodes inode with color := WFS_COLOR_NONE, ctim := now })

/-- `wfs_getxattr(path, name, value, size)`: the return value, the bytes stored into
`value` (`none` when the buffer is not written) and the image. -/
def wfs_getxattr (s : Image) (path name : List Nat) (size : Nat) :
    Option (Int × Option (List Nat) × Image) :=
  match strip_ansi_codes path PATH_MAX with
  | none => none
  | some clean =>
    match get_inode_from_path s clean with
    | path_result.undefined => none
    | path_result.error rc => some (rc, none, s)
    | path_result.found inode =>
      if cstr name ≠ str "user.color" then some (-ENODATA, none, s)
      else
        let raw_name := (wfs_color_from_code (s.inodes inode).color).2
        let len := raw_name.length + 1
        if size = 0 then some (size_to_int len, none, s)
        else if size < len then some (-ERANGE, none, s)
        else some (size_to_int len, some (raw_name ++ [0]), s)

/-- The fields of `struct stat` that `wfs_getattr` assigns; the `memset` leaves 0 in every
other field. -/
structure stat where
  st_ino : Nat
  st_mode : Nat
  st_nlink : Nat
  st_uid : Nat
  st_gid : Nat
  st_size : Int
  st_blocks : Int
  st_atime : Int
  st_mtime : Int
  st_ctime : Int

/-- `wfs_getattr(path, st)`: the return value, the record stored into `st` (`none` when
`st` is not written) and the image. -/
def wfs_getattr (s : Image) (path : List Nat) : Option (Int × Option stat × Image) :=
  match strip_ansi_codes path PATH_MAX with
  | none => none
  | some clean =>
    match get_inode_from_path s clean with
    | path_result.undefined => none
    | path_result.error _ => some (-ENOENT, none, s)
    | path_result.found inode =>
      let ino := s.inodes inode
      -- `inode->size + 511` overflows `off_t`
      if ino.size + 511 ≥ 2 ^ 63 then none
      else
        some (0, some { st_ino := (ino.num % 2 ^ 64).toNat, st_mode := ino.mode,
                        st_nlink := (ino.nlinks % 2 ^ 64).toNat, st_uid := ino.uid,
                        st_gid := ino.gid, st_size := ino.size,
                        st_blocks := (ino.size + 511).tdiv 512,
                        st_atime := ino.atim, st_mtime := ino.mtim, st_ctime := ino.ctim }, s)

/-- The fields of `struct statvfs`. -/
structure statvfs where
  f_bsize : Nat
  f_frsize : Nat
  f_blocks : Nat
  f_bfree : Nat
  f_bavail : Nat
  f_files : Nat
  f_ffree : Nat
  f_favail : Nat
  f_fsid : Nat
  f_flag : Nat
  f_namemax : Nat

/-- The inner loop `for (b = 0; b < 32; b++)` of `wfs_statfs` over the bits `b0, b0+1, ..`
(`n` of them) of word `i`: the counter (a `uint32_t`) afterwards; the loop is left when the
bit index `idx` (a `uint32_t`) reaches `limit`. -/
def count_free_word (word i limit : Nat) : Nat → Nat → Nat → Nat
  | 0, _, acc => acc
  | n + 1, b, acc =>
    let idx := (i * 32 + b) % 2 ^ 32
    if idx ≥ limit then acc
    else
      count_free_word word i limit n (b + 1)
        (if (word >>> b) &&& 1 = 0 then (acc + 1) % 2 ^ 32 else acc)

/-- The outer loop of `wfs_statfs` over the words `i0, i0+1, ..` (`n` of them). -/
def count_free (bitmap : Nat → Nat) (limit : Nat) : Nat → Nat → Nat → Nat
  | 0, _, acc => acc
  | n + 1, i, acc =>
    count_free bitmap limit n (i + 1) (count_free_word (bitmap i) i limit 32 0 acc)

/-- `wfs_statfs(path, st)`: the return value, the record `*st` afterwards and the image. -/
def wfs_statfs (s : Image) (_path : List Nat) (st : statvfs) : Int × statvfs × Image :=
  let d_bitmap_len := ((s.sb.num_data_blocks + 31) % 2 ^ 64) / 32
  let free_blocks := count_free s.d_bitmap s.sb.num_data_blocks d_bitmap_len 0 0
  let i_bitmap_len := ((s.sb.num_inodes + 31) % 2 ^ 64) / 32
  let free_inodes := count_free s.i_bitmap s.sb.num_inodes i_bitmap_len 0 0
  (0, { st with f_blocks := s.sb.num_data_blocks, f_files := s.sb.num_inodes,
                f_bfree := free_blocks, f_bavail := free_blocks, f_ffree := free_inodes,
                f_bsize := BLOCK_SIZE.toNat, f_frsize := BLOCK_SIZE.toNat,
                f_namemax := MAX_NAME }, s)

/-! ## Formatter (`mkfs.c`) -/

/-- `roundup(num, factor)` on non-negative `int` values. -/
def roundup (num factor : Int) : Int :=
  if num % factor = 0 then num else num + (factor - num % factor)

/-- The value fits the type `int`. -/
def int_ok (x : Int) : Bool := decide (-2 ^ 31 ≤ x) && decide (x < 2 ^ 31)

/-- `setup_sb(&sb, inodes, blocks, sz)`: the superblock and the return value; `none` when
an `int` expression overflows. `sizeof(struct wfs_sb)` is 48. -/
def setup_sb (inodes blocks : Nat) (sz : Nat) : Option (wfs_sb × Int) :=
  let inodes := roundup inodes 32
  let blocks := roundup blocks 32
  if !(int_ok inodes && int_ok blocks && int_ok (inodes * BLOCK_SIZE) && int_ok (blocks * BLOCK_SIZE)
        && int_ok (inodes * BLOCK_SIZE + blocks * BLOCK_SIZE)) then none
  else
    let i_bitmap_ptr : Int := 48
    let d_bitmap_ptr : Int := i_bitmap_ptr + inodes / 8
    let i_blocks_ptr : Int := d_bitmap_ptr + blocks / 8
    let d_blocks_ptr : Int := i_blocks_ptr + inodes * BLOCK_SIZE
    some ({ num_inodes := inodes.toNat, num_data_blocks := blocks.toNat,
            i_bitmap_ptr := i_bitmap_ptr, d_bitmap_ptr := d_bitmap_ptr,
            i_blocks_ptr := i_blocks_ptr, d_blocks_ptr := d_blocks_ptr },
          if inodes * BLOCK_SIZE + blocks * BLOCK_SIZE + i_blocks_ptr < sz then 1 else 0)

/-- `wfs_mkfs(path, inodes, blocks)` on an image file of `sz` bytes whose content, seen
through the new layout, is `old`: the return value and the content afterwards. -/
def wfs_mkfs (old : Image) (inodes blocks : Nat) (sz : Nat) (uid gid : Nat) :
    Option (Int × Image) :=
  match setup_sb inodes blocks sz with
  | none => none
  | some (sb, ok) =>
    if ok = 0 then some (-1, old)
    else
      let inode := { zero_inode with mode := S_IFDIR ||| S_IRWXU, uid := uid, gid := gid,
                                     size := 0, nlinks := 1 }
      some (0, { old with sb := sb, i_bitmap := upd old.i_bitmap 0 1,
                          inodes := upd old.inodes 0 inode })

/-! ## Reachable images -/

/-- A freshly formatted and mounted image: `mkfs` ran on an image file whose bitmap
regions were zero, and the assertion `retrieve_inode(0) != NULL` of `main` held. -/
def Fresh (s : Image) : Prop :=
  ∃ old inodes blocks sz uid gid,
    (∀ i, old.i_bitmap i = 0) ∧ (∀ i, old.d_bitmap i = 0) ∧
    wfs_mkfs old inodes blocks sz uid gid = some (0, s) ∧ retrieve_inode s 0 ≠ none

/-- A call of one of the handlers that can change the image. -/
inductive Op where
  | mknod (path : List Nat) (mode : Nat)
  | mkdir (path : List Nat) (mode : Nat)
  | read (path : List Nat) (len : Nat) (off : Int)
  | write (path : List Nat) (buf : List Nat) (off : Int)
  | readdir (path : List Nat) (is_ls : Bool)
  | unlink (path : List Nat)
  | rmdir (path : List Nat)
  | setxattr (path name value : List Nat)
  | removexattr (path name : List Nat)

/-- The return value and the image after a handler call. -/
def step (s : Image) (now : Int) (uid gid : Nat) : Op → Option (Int × Image)
  | Op.mknod path mode => wfs_mknod s path mode now uid gid
  | Op.mkdir path mode => wfs_mkdir s path mode now uid gid
  | Op.read path len off => (wfs_read s path len off now).map (fun r => (r.1, r.2.2))
  | Op.write path buf off => wfs_write s path buf off now
  | Op.readdir path is_ls => (wfs_readdir s path is_ls now).map (fun r => (r.1, r.2.2))
  | Op.unlink path => wfs_unlink s path now
  | Op.rmdir path => wfs_rmdir s path now
  | Op.setxattr path name value => wfs_setxattr s path name value now
  | Op.removexattr path name => wfs_removexattr s path name now

/-- The images reachable from a freshly formatted image by handler calls. -/
inductive Reachable : Image → Prop where
  | fresh (s : Image) : Fresh s → Reachable s
  | step (s : Image) (now : Int) (uid gid : Nat) (op : Op) (rc : Int) (s1 : Image) :
      Reachable s → step s now uid gid op = some (rc, s1) → Reachable s1

/-- The image file of 32 inodes and 64 data blocks, all bytes zero, before formatting. -/
def blank : Image :=
  { sb := ⟨0, 0, 0, 0, 0, 0⟩, i_bitmap := fun _ => 0, d_bitmap := fun _ => 0,
    inodes := fun _ => zero_inode, data := fun _ => 0 }

/-- The image of scenario S1: formatted for 32 inodes and 64 blocks. -/
def img0 : Image :=
  match wfs_mkfs blank 32 64 100000 0 0 with
  | some (_, s) => s
  | none => blank

/-- Sequencing of handler calls on concrete images. -/
def after (r : Option (Int × Image)) : Image :=
  match r with
  | some (_, s) => s
  | none => blank

/-! ## Well-formed images

The invariant of the images reachable from a freshly formatted one. -/

/-- Inode `k` is in use: in range, with its bitmap bit set. -/
def live (s : Image) (k : Nat) : Prop :=
  k < s.sb.num_inodes ∧ bit_set s.i_bitmap k = true

/-- `b` is the byte offset of a data block whose bitmap bit is set. -/
def is_block (s : Image) (b : Int) : Prop :=
  ∃ n : Nat, n < s.sb.num_data_blocks ∧ b = s.sb.d_blocks_ptr + 512 * (n : Int) ∧
    bit_set s.d_bitmap n = true

/-- The block references of inode `k`: positions 0 to 5 are the direct blocks, position 6
is the indirect block and position `7 + j` is entry `j` of the indirect block. The value
0 means "no block". -/
def ref_at (s : Image) (k pos : Nat) : Int :=
  if pos < 7 then (s.inodes k).blocks pos
  else if pos < 71 ∧ (s.inodes k).blocks 6 ≠ 0 then
    rd_off s.data ((s.inodes k).blocks 6 + 8 * ((pos - 7 : Nat) : Int))
  else 0

/-- The superblock facts the handlers rely on; `mkfs` establishes them. -/
def sb_ok (sb : wfs_sb) : Prop :=
  sb.num_inodes % 32 = 0 ∧ sb.num_data_blocks % 32 = 0 ∧ 0 < sb.d_blocks_ptr ∧
  sb.d_blocks_ptr + 512 * (sb.num_data_blocks : Int) < 2 ^ 63 ∧ sb.num_inodes < 2 ^ 31 ∧
  sb.num_data_blocks < 2 ^ 31

/-- Inode `k` is a live directory. -/
def is_dir (s : Image) (k : Nat) : Prop :=
  live s k ∧ S_ISDIR (s.inodes k).mode = true

/-- `p` is the address of a dentry slot in an allocated direct block of inode `k`. -/
def is_slot (s : Image) (k : Nat) (p : Int) : Prop :=
  ∃ i j : Nat, i < 6 ∧ j < 16 ∧ (s.inodes k).blocks i ≠ 0 ∧
    p = dentry_ptr ((s.inodes k).blocks i) j

/-- Block-level invariant: bitmap words are 32-bit, live inodes carry their own number,
and the non-zero block references of live inodes are allocated blocks, each referenced
exactly once. -/
structure InvB (s : Image) : Prop where
  sb : sb_ok s.sb
  iw : ∀ i, s.i_bitmap i < 2 ^ 32
  dw : ∀ i, s.d_bitmap i < 2 ^ 32
  num : ∀ k, live s k → (s.inodes k).num = k
  b7 : ∀ k, live s k → (s.inodes k).blocks 7 = 0
  size : ∀ k, live s k → 0 ≤ (s.inodes k).size ∧ (s.inodes k).size < 2 ^ 63
  blk : ∀ k pos, live s k → ref_at s k pos ≠ 0 → is_block s (ref_at s k pos)
  uniq : ∀ k pos k1 pos1, live s k → live s k1 → ref_at s k pos ≠ 0 →
    ref_at s k1 pos1 = ref_at s k pos → k1 = k ∧ pos1 = pos

/-- Directory-level invariant: every slot of a live directory holds a terminated name;
a non-zero `num` names a live inode and occurs in one slot only; a name occurs in at
most one live slot of a directory; the dentries form a forest: there is a depth `r` on the
inodes such that a dentry of directory `k` names an inode one level below `k`. -/
structure InvD (s : Image) : Prop where
  nul : ∀ k p, is_dir s k → is_slot s k p → ∃ t : Nat, t < 28 ∧ s.data (p + t) = 0
  dnum : ∀ k p, is_dir s k → is_slot s k p → dentry_num s.data p ≠ 0 →
    0 < dentry_num s.data p ∧ live s (dentry_num s.data p).toNat
  duniq : ∀ k p k1 p1, is_dir s k → is_dir s k1 → is_slot s k p → is_slot s k1 p1 →
    dentry_num s.data p ≠ 0 → dentry_num s.data p1 = dentry_num s.data p → p1 = p
  names : ∀ k p p1 name, is_dir s k → is_slot s k p → is_slot s k p1 →
    dentry_vacant s.data p = false → dentry_vacant s.data p1 = false →
    strcmp_eq s.data p name = true → strcmp_eq s.data p1 name = true → p1 = p
  rank : ∃ r : Nat → Nat, ∀ k p, is_dir s k → is_slot s k p → dentry_num s.data p ≠ 0 →
    r (dentry_num s.data p).toNat = r k + 1

/-- The invariant of reachable images. -/
structure Inv (s : Image) : Prop where
  b : InvB s
  d : InvD s

/-- The position, in the sense of `ref_at`, of the block that holds byte `offset`. -/
def bpos (offset : Int) : Nat :=
  if offset / 512 < 6 then (offset / 512).toNat else (offset / 512).toNat + 1

/-! ## Shapes of the images the primitives return -/

/-- The image after a successful `allocate_inode` that returned `k`. -/
def with_new_inode (s : Image) (k : Nat) (now : Int) : Image :=
  { s with
    i_bitmap := upd s.i_bitmap (k / 32) (s.i_bitmap (k / 32) ||| (1 <<< (k % 32))),
    inodes := upd s.inodes k
      { zero_inode with num := k, atim := now, mtim := now, ctim := now } }

/-- The image after `allocate_inode` returned `k` and the caller initialised the inode
with `fillin_inode` for the type and permissions `mode`. -/
def created (s : Image) (k : Nat) (mode : Nat) (now : Int) (uid gid : Nat) : Image :=
  { s with
    i_bitmap := upd s.i_bitmap (k / 32) (s.i_bitmap (k / 32) ||| (1 <<< (k % 32))),
    inodes := upd s.inodes k
      { zero_inode with num := k, mode := mode, uid := uid, gid := gid, size := 0, nlinks := 1,
                        atim := now, mtim := now, ctim := now, color := 0 } }

/-- The byte offset of data block `n`. -/
def block_off (s : Image) (n : Nat) : Int := s.sb.d_blocks_ptr + 512 * (n : Int)

/-- The image after a successful `allocate_data_block` that took data block `n`. -/
def with_new_block (s : Image) (n : Nat) : Image :=
  { s with
    d_bitmap := upd s.d_bitmap (n / 32) (s.d_bitmap (n / 32) ||| (1 <<< (n % 32))),
    data := memset0 s.data (block_off s n) 512 }

/-- The slot at `p` is live and carries `name`: a name lookup stops at it. -/
def slot_hit (m : Int → Nat) (name : List Nat) (p : Int) : Prop :=
  dentry_vacant m p = false ∧ strcmp_eq m p name = true

/-- The byte a read returns for position `x` of the file: the stored byte, 0 in a hole
or outside the capacity. -/
def file_byte (s : Image) (inode : Nat) (x : Int) : Nat :=
  match (data_offset s inode x false).1 with
  | none => 0
  | some a => s.data a

/-- The number of set bits among the first `n` bits of a bitmap. -/
def set_bits (bitmap : Nat → Nat) : Nat → Nat
  | 0 => 0
  | n + 1 => set_bits bitmap n + (if bit_set bitmap n then 1 else 0)

/-- The number of data blocks in use: the set bits of the data bitmap. -/
def used_blocks (s : Image) : Nat := set_bits s.d_bitmap s.sb.num_data_blocks

/-- `x` is 1 when a reference went from "no block" to a block, else 0. -/
def newly (before after : Int) : Nat := if before = 0 ∧ after ≠ 0 then 1 else 0

/-- How `data_offset(inode, .., 1)` may change the image when it provisions blocks for
position `pos` of `inode`: block references are only added, at `pos` and at the indirect
entry 6 of `inode`; blocks already referenced (other than indirect blocks) keep their
bytes; a block newly attached at `pos` is zero-filled; bitmap bits are only set, one per
reference added. -/
structure Grow (s s1 : Image) (inode pos : Nat) : Prop where
  sb : s1.sb = s.sb
  ib : s1.i_bitmap = s.i_bitmap
  others : ∀ k, k ≠ inode → s1.inodes k = s.inodes k
  fields : ∃ bl, s1.inodes inode = { s.inodes inode with blocks := bl }
  bits : ∀ n, bit_set s.d_bitmap n = true → bit_set s1.d_bitmap n = true
  keep : ∀ k p, live s k → ref_at s k p ≠ 0 → ref_at s1 k p = ref_at s k p
  same : ∀ k p, live s k → ¬ (k = inode ∧ (p = pos ∨ p = 6)) → ref_at s1 k p = ref_at s k p
  ind : pos < 6 → ref_at s1 inode 6 = ref_at s inode 6
  data : ∀ k p, live s k → p ≠ 6 → ref_at s k p ≠ 0 →
    ∀ q, ref_at s k p ≤ q → q < ref_at s k p + 512 → s1.data q = s.data q
  fresh : ref_at s inode pos = 0 → ref_at s1 inode pos ≠ 0 →
    ∀ q, ref_at s1 inode pos ≤ q → q < ref_at s1 inode pos + 512 → s1.data q = 0
  count : used_blocks s1 = used_blocks s + newly (ref_at s inode pos) (ref_at s1 inode pos)
    + newly (ref_at s inode 6) (ref_at s1 inode 6)

/-- The number of positions below `n` at which inode `k` references a block. -/
def count_refs (s : Image) (k : Nat) : Nat → Nat
  | 0 => 0
  | n + 1 => count_refs s k n + (if ref_at s k n ≠ 0 then 1 else 0)

/-- The number of blocks inode `k` references: direct blocks, the indirect block and the
blocks listed in the indirect block. -/
def nrefs (s : Image) (k : Nat) : Nat := count_refs s k 71

/-- How the loop of `wfs_write` on file `inode` may change the image: only the address
array of `inode` among the inode fields; bitmap bits and block references are only added,
one bit per reference; the other inodes keep their references and the bytes of their
blocks. -/
structure Wrote (s s1 : Image) (inode : Nat) : Prop where
  sb : s1.sb = s.sb
  ib : s1.i_bitmap = s.i_bitmap
  others : ∀ k, k ≠ inode → s1.inodes k = s.inodes k
  fields : ∃ bl, s1.inodes inode = { s.inodes inode with blocks := bl }
  bits : ∀ n, bit_set s.d_bitmap n = true → bit_set s1.d_bitmap n = true
  keep : ∀ k p, live s k → ref_at s k p ≠ 0 → ref_at s1 k p = ref_at s k p
  same : ∀ k p, live s k → k ≠ inode → ref_at s1 k p = ref_at s k p
  data : ∀ k p, live s k → k ≠ inode → p ≠ 6 → ref_at s k p ≠ 0 →
    ∀ q, ref_at s k p ≤ q → q < ref_at s k p + 512 → s1.data q = s.data q
  count : used_blocks s1 + nrefs s inode = used_blocks s + nrefs s1 inode

/-- How the loop that frees the direct blocks `i, .., i+n-1` of inode `k` changes the
image: these entries of the address array become 0, the blocks they named lose their
bitmap bit and are zero-filled; nothing else changes. -/
structure Freed (s s1 : Image) (k i n : Nat) : Prop where
  sb : s1.sb = s.sb
  ib : s1.i_bitmap = s.i_bitmap
  others : ∀ j, j ≠ k → s1.inodes j = s.inodes j
  fields : ∃ bl, s1.inodes k = { s.inodes k with blocks := bl }
  kept : ∀ p, (p < i ∨ i + n ≤ p) → (s1.inodes k).blocks p = (s.inodes k).blocks p
  zero : ∀ p, i ≤ p → p < i + n → (s1.inodes k).blocks p = 0
  bits : ∀ m, bit_set s1.d_bitmap m = true → bit_set s.d_bitmap m = true
  data : ∀ q, (∀ p, i ≤ p → p < i + n → (s.inodes k).blocks p ≠ 0 →
    (q < (s.inodes k).blocks p ∨ (s.inodes k).blocks p + 512 ≤ q)) → s1.data q = s.data q
  gone : ∀ p, i ≤ p → p < i + n → (s.inodes k).blocks p ≠ 0 →
    (∀ m : Nat, (s.inodes k).blocks p = block_off s m → bit_set s1.d_bitmap m = false) ∧
    (∀ q, (s.inodes k).blocks p ≤ q → q < (s.inodes k).blocks p + 512 → s1.data q = 0)

/-- The number of clear bits among the first `n` bits of a bitmap. -/
def clear_bits (bitmap : Nat → Nat) : Nat → Nat
  | 0 => 0
  | n + 1 => clear_bits bitmap n + (if bit_set bitmap n then 0 else 1)

/-- Directory `b` has a dentry that names inode `a`. -/
def edge (s : Image) (b a : Nat) : Prop :=
  is_dir s b ∧ ∃ p, is_slot s b p ∧ dentry_num s.data p ≠ 0 ∧ (dentry_num s.data p).toNat = a

/-- The array `inode_path` of the resolver, last entry first, holds a chain of inodes in
use: each entry is named by a dentry of the entry stored before it. -/
def chain (s : Image) : List Nat → Prop
  | [] => True
  | [a] => live s a
  | a :: b :: rest => live s a ∧ edge s b a ∧ chain s (b :: rest)

/-- The image after `mknod("/f", 0644)` on the fresh image `img0`. -/
def ex_f : Image := after (step img0 1 0 0 (Op.mknod (str "/f") 0o644))

/-- The image after writing one byte at offset 3072 (the first byte of block 6) to `/f`. -/
def ex_f_big : Image := after (step ex_f 2 0 0 (Op.write (str "/f") [7] 3072))

/-- The image after `unlink("/f")` on `ex_f_big`. -/
def ex_f_gone : Image := after (step ex_f_big 3 0 0 (Op.unlink (str "/f")))

/-- The image after `mkdir("/a", 0755)` on the fresh image `img0`. -/
def ex_a : Image := after (step img0 1 0 0 (Op.mkdir (str "/a") 0o755))

/-- The image after `mknod("/a/f", 0644)` on `ex_a`. -/
def ex_af : Image := after (step ex_a 1 0 0 (Op.mknod (str "/a/f") 0o644))

/-- A larger image: formatted for 32 inodes and 128 blocks. -/
def img1 : Image :=
  match wfs_mkfs blank 32 128 100000 0 0 with
  | some (_, s) => s
  | none => blank

/-- The image after `mknod("/f", 0644)` on the fresh image `img1`. -/
def ex_g : Image := after (step img1 1 0 0 (Op.mknod (str "/f") 0o644))

/-- The image after `rmdir("/a/..")` on `ex_af`. -/
def ex_noroot : Image := after (step ex_af 3 0 0 (Op.rmdir (str "/a/..")))

/-- The image after writing `"hello"` at offset 0 to `/a/f` on `ex_af`. -/
def ex_hello : Image := after (step ex_af 2 0 0 (Op.write (str "/a/f") (str "hello") 0))

/-- A name of 27 characters. -/
def name27 : List Nat := str "abcdefghijklmnopqrstuvwxyz0"

/-- A name of 28 characters. -/
def name28 : List Nat := str "abcdefghijklmnopqrstuvwxyz01"

/-- Each call of `mknods` has defined behaviour. -/
def all_some (s : Image) : List (List Nat) → Bool
  | [] => true
  | p :: ps => (step s 1 0 0 (Op.mknod p 0o644)).isSome &&
      all_some (after (step s 1 0 0 (Op.mknod p 0o644))) ps

/-- A history of writes to one file: the calls `wfs_write(path, buf, len, off)` of a list of
`(buf, off, now)`, one after the other; `none` when one of them has no defined behaviour. -/
def writes (s : Image) (path : List Nat) : List (List Nat × Int × Int) → Option Image
  | [] => some s
  | w :: ws =>
    match wfs_write s path w.1 w.2.1 w.2.2 with
    | none => none
    | some r => writes r.2 path ws

/-- The file position `x` lies in the range `[off, off + len)` of one of the writes. -/
def written (ws : List (List Nat × Int × Int)) (x : Int) : Prop :=
  ∃ w, w ∈ ws ∧ w.2.1 ≤ x ∧ x < w.2.1 + w.1.length

/-- The image after writing one byte at offset 2000 to `/f` on `ex_f`. -/
def ex_f2000 : Image := after (step ex_f 2 0 0 (Op.write (str "/f") [7] 2000))

/-- The byte offset `sb->i_blocks_ptr + (off_t)inum * BLOCK_SIZE` of an inode block: the
address that the inode pointer `k` stands for. -/
def inode_off (s : Image) (k : Nat) : Int := s.sb.i_blocks_ptr + (k : Int) * BLOCK_SIZE

/-- The directory `k` has no live entry. -/
def dir_empty (s : Image) (k : Nat) : Prop :=
  ∀ p, is_slot s k p → dentry_vacant s.data p = true

/-- The images reachable from a freshly formatted image by handler calls among which
every `wfs_rmdir` is given a directory without live entries. -/
inductive ReachableTidy : Image → Prop where
  | fresh (s : Image) : Fresh s → ReachableTidy s
  | step (s : Image) (now : Int) (uid gid : Nat) (op : Op) (rc : Int) (s1 : Image) :
      ReachableTidy s → step s now uid gid op = some (rc, s1) →
      (∀ path clean_path clean child, op = Op.rmdir path →
        strip_ansi_codes path PATH_MAX = some clean_path →
        strip_ansi_codes clean_path PATH_MAX = some clean →
        get_inode_from_path s clean = path_result.found child → dir_empty s child) →
      ReachableTidy s1

/-- The image after `rmdir("/a")` on `ex_af`: the directory is removed while it holds the
entry `f`. -/
def ex_orphan : Image := after (step ex_af 3 0 0 (Op.rmdir (str "/a")))

/-- The image after `rmdir("/a/.")` on `ex_af`; the call returns `-ENOENT`. -/
def ex_dot : Image := after (step ex_af 3 0 0 (Op.rmdir (str "/a/.")))

/-- The image after `mknod("/g", 0644)` on `ex_f`: the root holds `f` and `g`. -/
def ex_fg : Image := after (step ex_f 2 0 0 (Op.mknod (str "/g") 0o644))

/-- The image after `unlink("/f")` on `ex_fg`: slot 0 of the root is vacant and slot 1
holds `g`. -/
def ex_hole : Image := after (step ex_fg 3 0 0 (Op.unlink (str "/f")))

/-- Inode `k` is named by a live dentry of a live directory. -/
def named (s : Image) (k : Nat) : Prop :=
  ∃ D p, is_dir s D ∧ is_slot s D p ∧ dentry_vacant s.data p = false ∧
    dentry_num s.data p = (k : Int)

/-- Data block `n` is referenced: its offset stands in the address array or in the
indirect block of an inode in use. -/
def block_referenced (s : Image) (n : Nat) : Prop :=
  ∃ k pos, live s k ∧ ref_at s k pos = block_off s n

/-- The images reachable from a freshly formatted image by handler calls among which
every `wfs_unlink` that found its file was given one without an indirect block (entry 6
of the address array is 0). -/
inductive ReachableDirect : Image → Prop where
  | fresh (s : Image) : Fresh s → ReachableDirect s
  | step (s : Image) (now : Int) (uid gid : Nat) (op : Op) (rc : Int) (s1 : Image) :
      ReachableDirect s → step s now uid gid op = some (rc, s1) →
      (∀ path clean_path clean parent file, op = Op.unlink path →
        strip_ansi_codes (cstr path) PATH_MAX = some clean_path →
        strip_ansi_codes
          (if (drop_last_component clean_path).dropLast = [] then [SLASH]
            else (drop_last_component clean_path).dropLast) PATH_MAX = some clean →
        get_inode_from_path s clean = path_result.found parent →
        retrieve_inode s (dir_find s parent (last_component clean_path)) = some file →
        (s.inodes file).blocks 6 = 0) →
      ReachableDirect s1

/-- The path `ESC ESC [ m [ x`. -/
def esc_twice : List Nat := [ESC, ESC, 91, 109, 91, 120]

/-- The string contains an ANSI CSI introducer: the byte `ESC` immediately followed by
`'['`. -/
def has_csi : List Nat → Bool
  | c :: d :: rest => (c == ESC && d == LBRACKET) || has_csi (d :: rest)
  | _ => false

/-- Every `ESC [` of the string is followed, somewhere later in the string, by the byte
`m`. -/
def csi_closed : List Nat → Bool
  | c :: d :: rest =>
    (!(c == ESC && d == LBRACKET) || rest.contains LOWER_M) && csi_closed (d :: rest)
  | _ => true

/-- The string contains the byte `ESC` immediately followed by `ESC [`. -/
def has_esc_csi : List Nat → Bool
  | c :: d :: e :: rest =>
    (c == ESC && d == ESC && e == LBRACKET) || has_esc_csi (d :: e :: rest)
  | _ => false

/-- The values of `idx` at which `get_inode_from_path` accesses `inode_path` while it walks
over the components, in order; the stack holds `idx + 1` inodes. A `".."` decrements `idx`
and reads `inode_path[idx]`, a component that is found increments `idx` and writes
`inode_path[idx]`. The trace ends with the first access outside the array. -/
def walk_indices (s : Image) : List (List Nat) → Nat → List Nat → List Int
  | [], _, _ => []
  | token :: rest, cur, stack =>
    if !S_ISDIR (s.inodes cur).mode then []
    else if token = [DOT] then walk_indices s rest cur stack
    else if token = [DOT, DOT] then
      ((stack.length : Int) - 2) ::
        (match stack with
         | _ :: prev :: below => walk_indices s rest prev (prev :: below)
         | _ => [])
    else
      let found_inum := dir_find s cur token
      if found_inum < 0 then []
      else match retrieve_inode s found_inum with
        | none => []
        | some next =>
          (stack.length : Int) ::
            (if stack.length ≥ s.sb.num_inodes then []
             else walk_indices s rest next (next :: stack))

/-- The values of `idx` at which `get_inode_from_path(path, ..)` accesses `inode_path`,
beginning with `inode_path[0] = cur`. -/
def resolver_indices (s : Image) (path : List Nat) : List Int :=
  if path = [SLASH] then []
  else if path.head? ≠ some SLASH then []
  else
    match retrieve_inode s 0 with
    | none => []
    | some cur => 0 :: walk_indices s (path_tokens path) cur [cur]

/-- The memory behind the pointer `in` holds the string `l` at index `i`: its bytes and
then a zero byte. -/
def holds_string (mem : Nat → Nat) : Nat → List Nat → Prop
  | i, [] => mem i = 0
  | i, c :: rest => mem i = c ∧ holds_string mem (i + 1) rest

/-- The indices of `in` that the loop of `strip_ansi_codes` reads, in order, on the memory
`mem` behind `in`, from the point where the `for` is about to test `in[i]` (`esc` unset)
or the inner `while` is (`esc` set); `room` is `out_len - 1 - oi`. At most `fuel` tests are
followed. -/
def strip_reads (mem : Nat → Nat) : Nat → Nat → Bool → Nat → List Nat
  | 0, _, _, _ => []
  | fuel + 1, i, true, room =>
    -- `while (in[i] && in[i] != 'm') i++;`, and after it `continue` with the `i++`
    if mem i = 0 ∨ mem i = LOWER_M then i :: strip_reads mem fuel (i + 1) false room
    else i :: strip_reads mem fuel (i + 1) true room
  | fuel + 1, i, false, room =>
    if mem i = 0 then [i]
    else if room = 0 then [i]
    else if mem i = ESC then
      if mem (i + 1) = LBRACKET then i :: (i + 1) :: strip_reads mem fuel (i + 2) true room
      else i :: (i + 1) :: strip_reads mem fuel (i + 1) false (room - 1)
    else i :: strip_reads mem fuel (i + 1) false (room - 1)

/-- The indices of `in` that `strip_ansi_codes(in, out, out_len)` reads. -/
def strip_ansi_reads (mem : Nat → Nat) (out_len : Nat) (fuel : Nat) : List Nat :=
  if out_len = 0 then [] else strip_reads mem fuel 0 false (out_len - 1)

/-- The memory that holds `ESC [ 3 1`, a zero byte, and then bytes `7`. -/
def mem_open_csi (i : Nat) : Nat := [ESC, LBRACKET, 51, 49, 0].getD i 7

end WFS

namespace WFS

/-! ## Raw memory -/

theorem memset0_in {m : Int → Nat} {p n q : Int} (h1 : p ≤ q) (h2 : q < p + n) :
    memset0 m p n q = 0 := by
  simp [memset0, h1, h2]

theorem memset0_out {m : Int → Nat} {p n q : Int} (h : q < p ∨ p + n ≤ q) :
    memset0 m p n q = m q := by
  unfold memset0
  split
  · omega
  · rfl

theorem memcpy_out {m : Int → Nat} {p q : Int} {l : List Nat} (h : q < p ∨ p + l.length ≤ q) :
    memcpy m p l q = m q := by
  unfold memcpy
  split
  · omega
  · rfl

theorem memcpy_in {m : Int → Nat} {p : Int} {l : List Nat} (i : Nat) (h : i < l.length) :
    memcpy m p l (p + i) = l.getD i 0 := by
  unfold memcpy
  have : (p + (i : Int) - p).toNat = i := by omega
  rw [this]
  split
  · rfl
  · omega

theorem rd_le_congr {m m1 : Int → Nat} : ∀ (n : Nat) (p : Int),
    (∀ q, p ≤ q → q < p + n → m q = m1 q) → rd_le m n p = rd_le m1 n p
  | 0, _, _ => rfl
  | n + 1, p, h => by
    simp only [rd_le]
    rw [h p (by omega) (by omega), rd_le_congr n (p + 1) (fun q h1 h2 => h q (by omega) (by omega))]

theorem rd_le_zero {m : Int → Nat} : ∀ (n : Nat) (p : Int),
    (∀ q, p ≤ q → q < p + n → m q = 0) → rd_le m n p = 0
  | 0, _, _ => rfl
  | n + 1, p, h => by
    simp only [rd_le]
    rw [h p (by omega) (by omega), rd_le_zero n (p + 1) (fun q h1 h2 => h q (by omega) (by omega))]

theorem le_bytes_length : ∀ (n v : Nat), (le_bytes n v).length = n
  | 0, _ => rfl
  | n + 1, v => by simp [le_bytes, le_bytes_length n]

theorem rd_le_le_bytes {m : Int → Nat} : ∀ (n : Nat) (p : Int) (v : Nat),
    (∀ i : Nat, i < n → m (p + i) = (le_bytes n v).getD i 0) → rd_le m n p = v % 256 ^ n
  | 0, _, _, _ => by simp [rd_le, Nat.mod_one]
  | n + 1, p, v, h => by
    simp only [rd_le]
    have h0 : m p = v % 256 := by
      have := h 0 (by omega)
      simpa [le_bytes] using this
    have hrec := rd_le_le_bytes n (p + 1) (v / 256) (fun i hi => by
      have h3 := h (i + 1) (by omega)
      have e : (le_bytes (n + 1) v).getD (i + 1) 0 = (le_bytes n (v / 256)).getD i 0 := by
        simp only [le_bytes, List.getD_cons_succ]
      rw [e] at h3
      rw [← h3]; congr 1; push_cast; omega)
    rw [h0, hrec, pow_succ]
    have h3 := Nat.mod_mul_left_div_self v (256 ^ n) 256
    have h1 : v % (256 ^ n * 256) = v % 256 + 256 * (v / 256 % 256 ^ n) := by
      rw [Nat.mul_comm (256 ^ n) 256, Nat.mod_mul]
    omega

theorem rd_le_memcpy (m : Int → Nat) (n : Nat) (p : Int) (v : Nat) :
    rd_le (memcpy m p (le_bytes n v)) n p = v % 256 ^ n := by
  apply rd_le_le_bytes
  intro i hi
  exact memcpy_in i (by rw [le_bytes_length]; exact hi)

theorem as_int64_ofInt (v : Int) (h1 : -2 ^ 63 ≤ v) (h2 : v < 2 ^ 63) :
    as_int64 ((v % 2 ^ 64).toNat % 256 ^ 8) = v := by
  unfold as_int64
  have e : (256 : Nat) ^ 8 = 2 ^ 64 := by norm_num
  rw [e, Nat.mod_mod]
  have hn : ((v % 2 ^ 64).toNat : Int) = v % 2 ^ 64 := by
    apply Int.toNat_of_nonneg
    apply Int.emod_nonneg; norm_num
  have hlt : (v % 2 ^ 64).toNat < 2 ^ 64 := by
    have := Int.emod_lt_of_pos v (show (0 : Int) < 2 ^ 64 by norm_num)
    omega
  rw [Nat.mod_eq_of_lt hlt]
  split <;> omega

theorem as_int32_ofInt (v : Int) (h1 : -2 ^ 31 ≤ v) (h2 : v < 2 ^ 31) :
    as_int32 ((v % 2 ^ 32).toNat % 256 ^ 4) = v := by
  unfold as_int32
  have e : (256 : Nat) ^ 4 = 2 ^ 32 := by norm_num
  rw [e, Nat.mod_mod]
  have hn : ((v % 2 ^ 32).toNat : Int) = v % 2 ^ 32 := by
    apply Int.toNat_of_nonneg
    apply Int.emod_nonneg; norm_num
  have hlt : (v % 2 ^ 32).toNat < 2 ^ 32 := by
    have := Int.emod_lt_of_pos v (show (0 : Int) < 2 ^ 32 by norm_num)
    omega
  rw [Nat.mod_eq_of_lt hlt]
  split <;> omega

theorem rd_off_wr_off (m : Int → Nat) (p v : Int) (h1 : -2 ^ 63 ≤ v) (h2 : v < 2 ^ 63) :
    rd_off (wr_off m p v) p = v := by
  unfold rd_off wr_off
  rw [rd_le_memcpy, as_int64_ofInt v h1 h2]

theorem rd_int_wr_int (m : Int → Nat) (p v : Int) (h1 : -2 ^ 31 ≤ v) (h2 : v < 2 ^ 31) :
    rd_int (wr_int m p v) p = v := by
  unfold rd_int wr_int
  rw [rd_le_memcpy, as_int32_ofInt v h1 h2]

theorem rd_off_congr {m m1 : Int → Nat} {p : Int}
    (h : ∀ q, p ≤ q → q < p + 8 → m q = m1 q) : rd_off m p = rd_off m1 p := by
  unfold rd_off
  rw [rd_le_congr 8 p (fun q h1 h2 => h q h1 (by omega))]

theorem rd_int_congr {m m1 : Int → Nat} {p : Int}
    (h : ∀ q, p ≤ q → q < p + 4 → m q = m1 q) : rd_int m p = rd_int m1 p := by
  unfold rd_int
  rw [rd_le_congr 4 p (fun q h1 h2 => h q h1 (by omega))]

theorem rd_off_zero {m : Int → Nat} {p : Int}
    (h : ∀ q, p ≤ q → q < p + 8 → m q = 0) : rd_off m p = 0 := by
  unfold rd_off
  rw [rd_le_zero 8 p (fun q h1 h2 => h q h1 (by omega))]
  decide

theorem rd_int_zero {m : Int → Nat} {p : Int}
    (h : ∀ q, p ≤ q → q < p + 4 → m q = 0) : rd_int m p = 0 := by
  unfold rd_int
  rw [rd_le_zero 4 p (fun q h1 h2 => h q h1 (by omega))]
  decide

theorem wr_off_out {m : Int → Nat} {p q v : Int} (h : q < p ∨ p + 8 ≤ q) :
    wr_off m p v q = m q := by
  unfold wr_off
  apply memcpy_out
  rw [le_bytes_length]; omega

theorem wr_int_out {m : Int → Nat} {p q v : Int} (h : q < p ∨ p + 4 ≤ q) :
    wr_int m p v q = m q := by
  unfold wr_int
  apply memcpy_out
  rw [le_bytes_length]; omega

theorem rd_bytes_length (m : Int → Nat) : ∀ (n : Nat) (p : Int), (rd_bytes m n p).length = n
  | 0, _ => rfl
  | n + 1, p => by simp [rd_bytes, rd_bytes_length m n]

theorem rd_bytes_getD (m : Int → Nat) : ∀ (n : Nat) (p : Int) (i : Nat), i < n →
    (rd_bytes m n p).getD i 0 = m (p + i)
  | 0, _, _, h => by omega
  | n + 1, p, 0, _ => by simp [rd_bytes]
  | n + 1, p, i + 1, h => by
    simp only [rd_bytes, List.getD_cons_succ]
    rw [rd_bytes_getD m n (p + 1) i (by omega)]
    congr 1; push_cast; omega

/-! ## Bitmaps -/

theorem upd_same {α : Type} (a : Nat → α) (i : Nat) (v : α) : upd a i v i = v := by
  simp [upd]

theorem upd_other {α : Type} (a : Nat → α) {i j : Nat} (v : α) (h : j ≠ i) :
    upd a i v j = a j := by
  simp [upd, h]

theorem shift_and_one (w k : Nat) : ((w >>> k) &&& 1 = 0) ↔ w.testBit k = false := by
  simp [Nat.testBit, Nat.and_comm]

theorem bit_set_eq (bm : Nat → Nat) (pos : Nat) :
    bit_set bm pos = (bm (pos / 32)).testBit (pos % 32) := by
  simp [bit_set, Nat.testBit, Nat.and_comm]

theorem testBit_set (w k i : Nat) :
    (w ||| (1 <<< k)).testBit i = (w.testBit i || decide (k = i)) := by
  rw [Nat.testBit_or, Nat.one_shiftLeft, Nat.testBit_two_pow]

theorem testBit_clear (w k i : Nat) (hi : i < 32) :
    (w &&& (0xFFFFFFFF ^^^ (1 <<< k))).testBit i = (w.testBit i && !decide (k = i)) := by
  rw [Nat.testBit_and, Nat.testBit_xor, Nat.one_shiftLeft, Nat.testBit_two_pow]
  have : (0xFFFFFFFF : Nat) = 2 ^ 32 - 1 := by norm_num
  rw [this, Nat.testBit_two_pow_sub_one]
  simp [hi]

theorem set_lt (w k : Nat) (hw : w < 2 ^ 32) (hk : k < 32) : w ||| (1 <<< k) < 2 ^ 32 := by
  apply Nat.or_lt_two_pow hw
  rw [Nat.one_shiftLeft]
  exact Nat.pow_lt_pow_right (by norm_num) hk

theorem clear_lt (w x : Nat) (hw : w < 2 ^ 32) : w &&& x < 2 ^ 32 :=
  Nat.lt_of_le_of_lt Nat.and_le_left hw

theorem clear_set (w k : Nat) (hw : w < 2 ^ 32) (hk : k < 32) (hc : w.testBit k = false) :
    (w ||| (1 <<< k)) &&& (0xFFFFFFFF ^^^ (1 <<< k)) = w := by
  apply Nat.eq_of_testBit_eq
  intro i
  by_cases hi : i < 32
  · rw [testBit_clear _ _ _ hi, testBit_set]
    by_cases hki : k = i
    · subst hki; simp [hc]
    · simp [hki]
  · have h1 : w.testBit i = false := by
      apply Nat.testBit_lt_two_pow
      exact Nat.lt_of_lt_of_le hw (Nat.pow_le_pow_right (by norm_num) (by omega))
    rw [h1]
    apply Nat.testBit_lt_two_pow
    exact Nat.lt_of_lt_of_le (clear_lt _ _ (set_lt w k hw hk))
      (Nat.pow_le_pow_right (by norm_num) (by omega))

theorem scan_word_some (w : Nat) : ∀ (n k j : Nat), scan_word w n k = some j →
    k ≤ j ∧ j < k + n ∧ w.testBit j = false ∧ ∀ i, k ≤ i → i < j → w.testBit i = true
  | 0, _, _, h => by simp [scan_word] at h
  | n + 1, k, j, h => by
    simp only [scan_word] at h
    split at h
    · next hb =>
      injection h with h; subst h
      exact ⟨le_refl _, by omega, (shift_and_one w k).1 hb, fun i h1 h2 => by omega⟩
    · next hb =>
      obtain ⟨h1, h2, h3, h4⟩ := scan_word_some w n (k + 1) j h
      refine ⟨by omega, by omega, h3, fun i hi1 hi2 => ?_⟩
      by_cases e : i = k
      · subst e
        rw [shift_and_one] at hb
        simpa using hb
      · exact h4 i (by omega) hi2

theorem scan_word_none (w : Nat) : ∀ (n k : Nat), scan_word w n k = none →
    ∀ i, k ≤ i → i < k + n → w.testBit i = true
  | 0, _, _ => fun i h1 h2 => by omega
  | n + 1, k, h => by
    simp only [scan_word] at h
    split at h
    · simp at h
    · next hb =>
      intro i h1 h2
      by_cases e : i = k
      · subst e
        rw [shift_and_one] at hb
        simpa using hb
      · exact scan_word_none w n (k + 1) h i (by omega) (by omega)

theorem all_ones_of_testBit (w : Nat) (hw : w < 2 ^ 32) (h : ∀ i, i < 32 → w.testBit i = true) :
    w = 0xFFFFFFFF := by
  apply Nat.eq_of_testBit_eq
  intro i
  have : (0xFFFFFFFF : Nat) = 2 ^ 32 - 1 := by norm_num
  rw [this, Nat.testBit_two_pow_sub_one]
  by_cases hi : i < 32
  · simp [hi, h i hi]
  · simp only [hi, decide_False]
    apply Nat.testBit_lt_two_pow
    exact Nat.lt_of_lt_of_le hw (Nat.pow_le_pow_right (by norm_num) (by omega))

theorem scan_bitmap_some (bm : Nat → Nat) : ∀ (n i a b : Nat), scan_bitmap bm n i = some (a, b) →
    i ≤ a ∧ a < i + n ∧ b < 32 ∧ (bm a).testBit b = false
  | 0, _, _, _, h => by simp [scan_bitmap] at h
  | n + 1, i, a, b, h => by
    simp only [scan_bitmap] at h
    split at h
    · obtain ⟨h1, h2, h3⟩ := scan_bitmap_some bm n (i + 1) a b h
      exact ⟨by omega, by omega, h3⟩
    · split at h
      · next k hk =>
        injection h with h
        injection h with h1 h2
        subst h1; subst h2
        obtain ⟨_, h2, h3, _⟩ := scan_word_some _ _ _ _ hk
        exact ⟨le_refl _, by omega, by omega, h3⟩
      · obtain ⟨h1, h2, h3⟩ := scan_bitmap_some bm n (i + 1) a b h
        exact ⟨by omega, by omega, h3⟩

theorem scan_bitmap_none (bm : Nat → Nat) (hw : ∀ i, bm i < 2 ^ 32) :
    ∀ (n i : Nat), scan_bitmap bm n i = none →
      ∀ a, i ≤ a → a < i + n → bm a = 0xFFFFFFFF
  | 0, _, _ => fun a h1 h2 => by omega
  | n + 1, i, h => by
    simp only [scan_bitmap] at h
    intro a h1 h2
    split at h
    · next hf =>
      by_cases e : a = i
      · subst e; exact hf
      · exact scan_bitmap_none bm hw n (i + 1) h a (by omega) (by omega)
    · split at h
      · simp at h
      · next hn =>
        by_cases e : a = i
        · subst e
          exact all_ones_of_testBit _ (hw a)
            (fun j hj => scan_word_none _ _ _ hn j (by omega) (by omega))
        · exact scan_bitmap_none bm hw n (i + 1) h a (by omega) (by omega)

/-- What a successful `allocate_block` does. -/
theorem allocate_block_some {bm bm1 : Nat → Nat} {len k : Nat}
    (h : allocate_block bm len = (some k, bm1)) :
    k < 32 * len ∧ bit_set bm k = false ∧
      bm1 = upd bm (k / 32) (bm (k / 32) ||| (1 <<< (k % 32))) := by
  unfold allocate_block at h
  split at h
  · next i b hs =>
    obtain ⟨_, h2, h3, h4⟩ := scan_bitmap_some bm len 0 i b hs
    injection h with h5 h6
    injection h5 with h5
    subst h5
    have e1 : (32 * i + b) / 32 = i := by omega
    have e2 : (32 * i + b) % 32 = b := by omega
    refine ⟨by omega, ?_, ?_⟩
    · rw [bit_set_eq, e1, e2]; exact h4
    · rw [e1, e2]; exact h6.symm
  · simp at h

theorem allocate_block_none {bm bm1 : Nat → Nat} {len : Nat}
    (h : allocate_block bm len = (none, bm1)) : bm1 = bm := by
  unfold allocate_block at h
  split at h
  · simp at h
  · injection h with _ h; exact h.symm

theorem allocate_block_full {bm bm1 : Nat → Nat} {len : Nat} (hw : ∀ i, bm i < 2 ^ 32)
    (h : allocate_block bm len = (none, bm1)) : ∀ j, j < 32 * len → bit_set bm j = true := by
  unfold allocate_block at h
  split at h
  · simp at h
  · next hs =>
    intro j hj
    have := scan_bitmap_none bm hw len 0 hs (j / 32) (by omega) (by omega)
    rw [bit_set_eq, this]
    have e : (0xFFFFFFFF : Nat) = 2 ^ 32 - 1 := by norm_num
    rw [e, Nat.testBit_two_pow_sub_one]
    simp; omega

theorem bit_set_upd_set (bm : Nat → Nat) (k j : Nat) :
    bit_set (upd bm (k / 32) (bm (k / 32) ||| (1 <<< (k % 32)))) j
      = (bit_set bm j || decide (j = k)) := by
  rw [bit_set_eq, bit_set_eq]
  by_cases hw : j / 32 = k / 32
  · rw [hw, upd_same, testBit_set]
    congr 1
    by_cases e : j = k
    · subst e; simp
    · have : ¬ (k % 32 = j % 32) := by omega
      simp [e, this]
  · rw [upd_other _ _ hw]
    have : j ≠ k := fun e => hw (by rw [e])
    simp [this]

theorem bit_set_free_bitmap (bm : Nat → Nat) (k j : Nat) :
    bit_set (free_bitmap k bm) j = (bit_set bm j && !decide (j = k)) := by
  unfold free_bitmap
  rw [bit_set_eq, bit_set_eq]
  by_cases hw : j / 32 = k / 32
  · simp only [hw, upd_same]
    rw [testBit_clear _ _ _ (Nat.mod_lt _ (by norm_num))]
    congr 1
    by_cases e : j = k
    · subst e; simp
    · have : ¬ (k % 32 = j % 32) := by omega
      simp [e, this]
  · simp only [upd_other _ _ hw]
    have : j ≠ k := fun e => hw (by rw [e])
    simp [this]

theorem free_bitmap_lt (bm : Nat → Nat) (k : Nat) (hw : ∀ i, bm i < 2 ^ 32) :
    ∀ i, free_bitmap k bm i < 2 ^ 32 := by
  intro i
  unfold free_bitmap
  by_cases e : i = k / 32
  · subst e; simp only [upd_same]; exact clear_lt _ _ (hw _)
  · simp only [upd_other _ _ e]; exact hw i

theorem upd_set_lt (bm : Nat → Nat) (k : Nat) (hw : ∀ i, bm i < 2 ^ 32) :
    ∀ i, upd bm (k / 32) (bm (k / 32) ||| (1 <<< (k % 32))) i < 2 ^ 32 := by
  intro i
  by_cases e : i = k / 32
  · subst e; simp only [upd_same]; exact set_lt _ _ (hw _) (Nat.mod_lt _ (by norm_num))
  · simp only [upd_other _ _ e]; exact hw i

theorem upd_upd_same {α : Type} (a : Nat → α) (i : Nat) (v w : α) :
    upd (upd a i v) i w = upd a i w := by
  funext j; unfold upd; split <;> rfl

theorem upd_self {α : Type} (a : Nat → α) (i : Nat) : upd a i (a i) = a := by
  funext j; unfold upd; split
  · next h => rw [h]
  · rfl

/-- Freeing the index that was just allocated restores the bitmap. -/
theorem free_bitmap_set (bm : Nat → Nat) (k : Nat) (hw : ∀ i, bm i < 2 ^ 32)
    (hc : bit_set bm k = false) :
    free_bitmap k (upd bm (k / 32) (bm (k / 32) ||| (1 <<< (k % 32)))) = bm := by
  unfold free_bitmap
  simp only [upd_same, upd_upd_same]
  rw [clear_set _ _ (hw _) (Nat.mod_lt _ (by norm_num)) (by rw [← bit_set_eq]; exact hc)]
  exact upd_self bm _

theorem set_set (w k : Nat) : (w ||| (1 <<< k)) ||| (1 <<< k) = w ||| (1 <<< k) := by
  rw [Nat.or_assoc, Nat.or_self]

end WFS

namespace WFS

/-! ## Basic facts on references and blocks -/

theorem is_block_disjoint {s : Image} {b b1 : Int} (h : is_block s b) (h1 : is_block s b1) :
    b = b1 ∨ b + 512 ≤ b1 ∨ b1 + 512 ≤ b := by
  obtain ⟨n, _, hb, _⟩ := h
  obtain ⟨n1, _, hb1, _⟩ := h1
  omega

theorem is_block_pos {s : Image} (hsb : sb_ok s.sb) {b : Int} (h : is_block s b) :
    0 < b ∧ b + 512 ≤ 2 ^ 63 := by
  obtain ⟨n, hn, hb, _⟩ := h
  obtain ⟨_, _, h3, h4, _⟩ := hsb
  constructor <;> omega

theorem ref_at_direct (s : Image) (k : Nat) {pos : Nat} (h : pos < 7) :
    ref_at s k pos = (s.inodes k).blocks pos := by
  simp [ref_at, h]

theorem ref_at_child (s : Image) (k : Nat) {pos : Nat} (h1 : 7 ≤ pos) (h2 : pos < 71)
    (h3 : (s.inodes k).blocks 6 ≠ 0) :
    ref_at s k pos = rd_off s.data ((s.inodes k).blocks 6 + 8 * ((pos - 7 : Nat) : Int)) := by
  have : ¬ pos < 7 := by omega
  simp [ref_at, this, h2, h3]

theorem ref_at_no_indirect (s : Image) (k : Nat) {pos : Nat} (h1 : 7 ≤ pos)
    (h3 : (s.inodes k).blocks 6 = 0) : ref_at s k pos = 0 := by
  have : ¬ pos < 7 := by omega
  simp [ref_at, this, h3]

theorem ref_at_high (s : Image) (k : Nat) {pos : Nat} (h1 : 71 ≤ pos) : ref_at s k pos = 0 := by
  have : ¬ pos < 7 := by omega
  have h2 : ¬ pos < 71 := by omega
  simp [ref_at, this, h2]

theorem ref_at_pos_lt (s : Image) (k : Nat) {pos : Nat} (h : ref_at s k pos ≠ 0) : pos < 71 := by
  by_contra hc
  exact h (ref_at_high s k (by omega))

/-- `ref_at` reads the address array and, for the positions from 7 on, the bytes of the
indirect block only. -/
theorem ref_at_congr {s s1 : Image} {k k1 : Nat}
    (hb : ∀ i, i < 7 → (s1.inodes k1).blocks i = (s.inodes k).blocks i)
    (hd : (s.inodes k).blocks 6 ≠ 0 → ∀ q, (s.inodes k).blocks 6 ≤ q →
      q < (s.inodes k).blocks 6 + 512 → s1.data q = s.data q) (pos : Nat) :
    ref_at s1 k1 pos = ref_at s k pos := by
  unfold ref_at
  by_cases h : pos < 7
  · simp only [h, if_true]; exact hb pos h
  · simp only [h, if_false]
    rw [hb 6 (by omega)]
    by_cases h2 : pos < 71 ∧ (s.inodes k).blocks 6 ≠ 0
    · simp only [h2, and_self, if_true, ne_eq, not_false_eq_true]
      apply rd_off_congr
      intro q hq1 hq2
      exact hd h2.2 q (by omega) (by omega)
    · simp only [h2, if_false]

theorem ref_at_congr_child {s s1 : Image} {k k1 pos : Nat} (hp : 7 ≤ pos)
    (hb : (s1.inodes k1).blocks 6 = (s.inodes k).blocks 6)
    (hd : pos < 71 → (s.inodes k).blocks 6 ≠ 0 →
      ∀ q, (s.inodes k).blocks 6 + 8 * ((pos - 7 : Nat) : Int) ≤ q →
      q < (s.inodes k).blocks 6 + 8 * ((pos - 7 : Nat) : Int) + 8 → s1.data q = s.data q) :
    ref_at s1 k1 pos = ref_at s k pos := by
  unfold ref_at
  have h : ¬ pos < 7 := by omega
  simp only [h, if_false]
  rw [hb]
  by_cases h2 : pos < 71 ∧ (s.inodes k).blocks 6 ≠ 0
  · simp only [h2, and_self, if_true, ne_eq, not_false_eq_true]
    apply rd_off_congr
    intro q hq1 hq2
    exact hd h2.1 h2.2 q hq1 hq2
  · simp only [h2, if_false]

theorem ref_at_zero_blocks (s : Image) (k : Nat) (h : ∀ i, i < 7 → (s.inodes k).blocks i = 0)
    (pos : Nat) : ref_at s k pos = 0 := by
  unfold ref_at
  by_cases h1 : pos < 7
  · simp only [h1, if_true]; exact h pos h1
  · simp [h1, h 6 (by omega)]

/-! ## Inode allocation and release -/

/-- The image `allocate_inode` returns on success. -/
theorem allocate_inode_some {s s1 : Image} {now : Int} {k : Nat}
    (h : allocate_inode s now = (some k, s1)) :
    k < 32 * ((s.sb.num_inodes + 31) / 32) ∧ bit_set s.i_bitmap k = false ∧
    s1 = { s with
      i_bitmap := upd s.i_bitmap (k / 32) (s.i_bitmap (k / 32) ||| (1 <<< (k % 32))),
      inodes := upd s.inodes k
        { zero_inode with num := k, atim := now, mtim := now, ctim := now } } := by
  unfold allocate_inode at h
  simp only at h
  split at h
  · simp at h
  · next free_idx bitmap ha =>
    injection h with h1 h2
    injection h1 with h1
    subst h1
    obtain ⟨h3, h4, h5⟩ := allocate_block_some ha
    refine ⟨h3, h4, ?_⟩
    rw [← h2, h5]
    simp only [upd_same, upd_upd_same, set_set]

theorem allocate_inode_none {s s1 : Image} {now : Int}
    (h : allocate_inode s now = (none, s1)) : s1 = s := by
  unfold allocate_inode at h
  simp only at h
  split at h
  · injection h with _ h; exact h.symm
  · simp at h

theorem live_iff {s : Image} {k : Nat} :
    live s k ↔ k < s.sb.num_inodes ∧ bit_set s.i_bitmap k = true := Iff.rfl

theorem retrieve_inode_some {s : Image} {inum : Int} {k : Nat}
    (h : retrieve_inode s inum = some k) : inum = k ∧ live s k := by
  unfold retrieve_inode at h
  split at h
  · simp at h
  · next h1 =>
    split at h
    · simp at h
    · next h2 =>
      injection h with h
      subst h
      refine ⟨by omega, by omega, ?_⟩
      rw [bit_set_eq]
      rw [shift_and_one] at h2
      simpa using h2

theorem retrieve_inode_live {s : Image} {k : Nat} (h : live s k) :
    retrieve_inode s k = some k := by
  unfold retrieve_inode
  obtain ⟨h1, h2⟩ := h
  rw [bit_set_eq] at h2
  have h3 : ¬ ((k : Int) < 0 ∨ (k : Int).toNat ≥ s.sb.num_inodes) := by omega
  have h4 : ¬ ((s.i_bitmap (k / 32) >>> (k % 32)) &&& 1 = 0) := by
    rw [shift_and_one]; simp [h2]
  rw [if_neg h3]
  simp only [Int.toNat_ofNat]
  rw [if_neg h4]

/-! ## Transfer of the block-level invariant -/

/-- The block references of the new image are references of the old one, except for at
most one new reference `(k0, pos0)` to a block `b` nobody referenced. -/
theorem InvB.transfer {s : Image} (h : InvB s) (s1 : Image) (k0 pos0 : Nat) (b : Int)
    (hsb : s1.sb = s.sb)
    (hiw : ∀ i, s1.i_bitmap i < 2 ^ 32) (hdw : ∀ i, s1.d_bitmap i < 2 ^ 32)
    (hino : ∀ k, live s1 k → (s1.inodes k).num = k ∧ (s1.inodes k).blocks 7 = 0 ∧
      0 ≤ (s1.inodes k).size ∧ (s1.inodes k).size < 2 ^ 63)
    (hrefs : ∀ k pos, live s1 k → ref_at s1 k pos ≠ 0 →
      (k = k0 ∧ pos = pos0 ∧ ref_at s1 k pos = b) ∨
      (live s k ∧ ref_at s k pos = ref_at s1 k pos))
    (hb : ref_at s1 k0 pos0 = b → b ≠ 0 → is_block s1 b)
    (hfresh : ∀ k pos, live s k → ref_at s k pos ≠ 0 → ref_at s k pos ≠ b)
    (hmono : ∀ k pos, live s1 k → live s k → ref_at s1 k pos ≠ 0 →
      ref_at s k pos = ref_at s1 k pos → is_block s (ref_at s k pos) →
      is_block s1 (ref_at s k pos)) : InvB s1 := by
  refine ⟨by rw [hsb]; exact h.sb, hiw, hdw, fun k hk => (hino k hk).1,
    fun k hk => (hino k hk).2.1, fun k hk => (hino k hk).2.2, ?_, ?_⟩
  · intro k pos hk hr
    rcases hrefs k pos hk hr with ⟨e1, e2, e3⟩ | ⟨hl, e⟩
    · subst e1; subst e2
      rw [e3]; exact hb e3 (by rw [← e3]; exact hr)
    · rw [← e]
      exact hmono k pos hk hl hr e (h.blk k pos hl (by rw [e]; exact hr))
  · intro k pos k1 pos1 hk hk1 hr he
    have hr1 : ref_at s1 k1 pos1 ≠ 0 := by rw [he]; exact hr
    rcases hrefs k pos hk hr with ⟨e1, e2, e3⟩ | ⟨hl, e⟩
    · rcases hrefs k1 pos1 hk1 hr1 with ⟨f1, f2, _⟩ | ⟨hl1, f⟩
      · exact ⟨by rw [f1, e1], by rw [f2, e2]⟩
      · exfalso
        apply hfresh k1 pos1 hl1 (by rw [f]; exact hr1)
        rw [f, he, e3]
    · rcases hrefs k1 pos1 hk1 hr1 with ⟨_, _, f3⟩ | ⟨hl1, f⟩
      · exfalso
        apply hfresh k pos hl (by rw [e]; exact hr)
        rw [e, ← he, f3]
      · exact h.uniq k pos k1 pos1 hl hl1 (by rw [e]; exact hr) (by rw [e, f]; exact he)

/-- Transfer when no reference is added. -/
theorem InvB.transfer_sub {s : Image} (h : InvB s) (s1 : Image)
    (hsb : s1.sb = s.sb)
    (hiw : ∀ i, s1.i_bitmap i < 2 ^ 32) (hdw : ∀ i, s1.d_bitmap i < 2 ^ 32)
    (hino : ∀ k, live s1 k → (s1.inodes k).num = k ∧ (s1.inodes k).blocks 7 = 0 ∧
      0 ≤ (s1.inodes k).size ∧ (s1.inodes k).size < 2 ^ 63)
    (hrefs : ∀ k pos, live s1 k → ref_at s1 k pos ≠ 0 →
      live s k ∧ ref_at s k pos = ref_at s1 k pos)
    (hmono : ∀ k pos, live s1 k → live s k → ref_at s1 k pos ≠ 0 →
      ref_at s k pos = ref_at s1 k pos → is_block s (ref_at s k pos) →
      is_block s1 (ref_at s k pos)) : InvB s1 := by
  refine ⟨by rw [hsb]; exact h.sb, hiw, hdw, fun k hk => (hino k hk).1,
    fun k hk => (hino k hk).2.1, fun k hk => (hino k hk).2.2, ?_, ?_⟩
  · intro k pos hk hr
    obtain ⟨hl, e⟩ := hrefs k pos hk hr
    rw [← e]
    exact hmono k pos hk hl hr e (h.blk k pos hl (by rw [e]; exact hr))
  · intro k pos k1 pos1 hk hk1 hr he
    have hr1 : ref_at s1 k1 pos1 ≠ 0 := by rw [he]; exact hr
    obtain ⟨hl, e⟩ := hrefs k pos hk hr
    obtain ⟨hl1, f⟩ := hrefs k1 pos1 hk1 hr1
    exact h.uniq k pos k1 pos1 hl hl1 (by rw [e]; exact hr) (by rw [e, f]; exact he)

theorem is_block_of_eq {s s1 : Image} (hsb : s1.sb = s.sb) (hd : s1.d_bitmap = s.d_bitmap)
    {b : Int} (h : is_block s b) : is_block s1 b := by
  obtain ⟨n, h1, h2, h3⟩ := h
  exact ⟨n, by rw [hsb]; exact h1, by rw [hsb]; exact h2, by rw [hd]; exact h3⟩

theorem sb_ok_words {sb : wfs_sb} (h : sb_ok sb) :
    32 * ((sb.num_inodes + 31) / 32) = sb.num_inodes ∧
    32 * ((sb.num_data_blocks + 31) / 32) = sb.num_data_blocks := by
  obtain ⟨h1, h2, _⟩ := h
  constructor <;> omega

/-! ### Inode allocation -/

theorem live_with_new_inode {s : Image} {k : Nat} {now : Int} (hk : k < s.sb.num_inodes)
    (j : Nat) : live (with_new_inode s k now) j ↔ live s j ∨ j = k := by
  unfold live with_new_inode
  simp only [bit_set_upd_set, Bool.or_eq_true, decide_eq_true_eq]
  constructor
  · rintro ⟨h1, h2 | h2⟩
    · exact Or.inl ⟨h1, h2⟩
    · exact Or.inr h2
  · rintro (⟨h1, h2⟩ | h2)
    · exact ⟨h1, Or.inl h2⟩
    · exact ⟨by rw [h2]; exact hk, Or.inr h2⟩

theorem ref_at_with_new_inode (s : Image) (k : Nat) (now : Int) (j pos : Nat) :
    ref_at (with_new_inode s k now) j pos = if j = k then 0 else ref_at s j pos := by
  by_cases e : j = k
  · subst e
    simp only [if_true]
    apply ref_at_zero_blocks
    intro i _
    simp [with_new_inode, upd_same, zero_inode]
  · simp only [e, if_false]
    apply ref_at_congr
    · intro i _; simp [with_new_inode, upd_other _ _ e]
    · intro _ q _ _; rfl

theorem InvB.with_new_inode_b {s : Image} (h : InvB s) {k : Nat} (now : Int)
    (hk : k < s.sb.num_inodes) (hf : bit_set s.i_bitmap k = false) :
    InvB (with_new_inode s k now) := by
  have hnl : ¬ live s k := fun hl => by rw [hl.2] at hf; exact Bool.noConfusion hf
  apply h.transfer_sub (WFS.with_new_inode s k now) rfl (upd_set_lt _ _ h.iw) h.dw
  · intro j hj
    rcases (live_with_new_inode hk j).1 hj with hl | e
    · have e : j ≠ k := fun e => hnl (e ▸ hl)
      simp only [WFS.with_new_inode, upd_other _ _ e]
      exact ⟨h.num j hl, h.b7 j hl, h.size j hl⟩
    · subst e
      simp [WFS.with_new_inode, upd_same, zero_inode]
  · intro j pos hj hr
    rw [ref_at_with_new_inode] at hr ⊢
    by_cases e : j = k
    · simp [e] at hr
    · rw [if_neg e] at hr ⊢
      rcases (live_with_new_inode hk j).1 hj with hl | e1
      · exact ⟨hl, rfl⟩
      · exact absurd e1 e
  · intro j pos _ _ _ _ hb
    exact is_block_of_eq rfl rfl hb

/-! ### Inode updates -/

@[simp] theorem set_inode_sb (s : Image) (k : Nat) (v : wfs_inode) :
    (set_inode s k v).sb = s.sb := rfl
@[simp] theorem set_inode_i_bitmap (s : Image) (k : Nat) (v : wfs_inode) :
    (set_inode s k v).i_bitmap = s.i_bitmap := rfl
@[simp] theorem set_inode_d_bitmap (s : Image) (k : Nat) (v : wfs_inode) :
    (set_inode s k v).d_bitmap = s.d_bitmap := rfl
@[simp] theorem set_inode_data (s : Image) (k : Nat) (v : wfs_inode) :
    (set_inode s k v).data = s.data := rfl
@[simp] theorem set_inode_same (s : Image) (k : Nat) (v : wfs_inode) :
    (set_inode s k v).inodes k = v := by simp [set_inode, upd]
theorem set_inode_other (s : Image) {k j : Nat} (v : wfs_inode) (h : j ≠ k) :
    (set_inode s k v).inodes j = s.inodes j := by simp [set_inode, upd, h]

@[simp] theorem set_block_sb (s : Image) (k i : Nat) (v : Int) :
    (set_block s k i v).sb = s.sb := rfl
@[simp] theorem set_block_i_bitmap (s : Image) (k i : Nat) (v : Int) :
    (set_block s k i v).i_bitmap = s.i_bitmap := rfl
@[simp] theorem set_block_d_bitmap (s : Image) (k i : Nat) (v : Int) :
    (set_block s k i v).d_bitmap = s.d_bitmap := rfl
@[simp] theorem set_block_data (s : Image) (k i : Nat) (v : Int) :
    (set_block s k i v).data = s.data := rfl
theorem set_block_other (s : Image) {k j : Nat} (i : Nat) (v : Int) (h : j ≠ k) :
    (set_block s k i v).inodes j = s.inodes j := by simp [set_block, set_inode, upd, h]
theorem set_block_blocks (s : Image) (k i : Nat) (v : Int) (i1 : Nat) :
    ((set_block s k i v).inodes k).blocks i1 = if i1 = i then v else (s.inodes k).blocks i1 := by
  simp [set_block, set_inode, upd]
theorem set_block_mode (s : Image) (k i : Nat) (v : Int) (j : Nat) :
    ((set_block s k i v).inodes j).mode = (s.inodes j).mode := by
  by_cases h : j = k
  · subst h; simp [set_block, set_inode, upd]
  · rw [set_block_other _ _ _ h]
theorem set_block_num (s : Image) (k i : Nat) (v : Int) (j : Nat) :
    ((set_block s k i v).inodes j).num = (s.inodes j).num := by
  by_cases h : j = k
  · subst h; simp [set_block, set_inode, upd]
  · rw [set_block_other _ _ _ h]
theorem set_block_size (s : Image) (k i : Nat) (v : Int) (j : Nat) :
    ((set_block s k i v).inodes j).size = (s.inodes j).size := by
  by_cases h : j = k
  · subst h; simp [set_block, set_inode, upd]
  · rw [set_block_other _ _ _ h]

theorem live_congr {s s1 : Image} (hsb : s1.sb = s.sb) (hi : s1.i_bitmap = s.i_bitmap)
    (k : Nat) : live s1 k ↔ live s k := by
  unfold live; rw [hsb, hi]

/-- An update of inode `k` that keeps its number and either keeps its address array or
clears it. -/
theorem InvB.set_inode_b {s : Image} (h : InvB s) {k : Nat} (hk : live s k) (v : wfs_inode)
    (hnum : v.num = k)
    (hb : (∀ i, v.blocks i = (s.inodes k).blocks i) ∨ (∀ i, v.blocks i = 0))
    (hsz : 0 ≤ v.size ∧ v.size < 2 ^ 63) : InvB (set_inode s k v) := by
  have href : ∀ j pos, ref_at (WFS.set_inode s k v) j pos ≠ 0 →
      ref_at s j pos = ref_at (WFS.set_inode s k v) j pos := by
    intro j pos hr
    by_cases e : j = k
    · subst e
      rcases hb with hb | hb
      · symm; apply ref_at_congr
        · intro i _; rw [set_inode_same]; exact hb i
        · intro _ q _ _; rfl
      · exfalso; apply hr
        apply ref_at_zero_blocks
        intro i _; rw [set_inode_same]; exact hb i
    · symm; apply ref_at_congr
      · intro i _; rw [set_inode_other _ _ e]
      · intro _ q _ _; rfl
  apply h.transfer_sub (WFS.set_inode s k v) rfl h.iw h.dw
  · intro j hj
    by_cases e : j = k
    · subst e
      rw [set_inode_same]
      refine ⟨hnum, ?_, hsz⟩
      rcases hb with hb | hb
      · rw [hb]; exact h.b7 j hk
      · exact hb 7
    · rw [set_inode_other _ _ e]
      exact ⟨h.num j hj, h.b7 j hj, h.size j hj⟩
  · intro j pos hj hr
    exact ⟨hj, href j pos hr⟩
  · intro j pos _ _ _ _ hb
    exact is_block_of_eq rfl rfl hb

/-- The image `free_inode` returns for a live inode of a well-formed image. -/
theorem free_inode_eq {s : Image} (h : InvB s) {k : Nat} (hk : live s k) :
    free_inode s k = { s with i_bitmap := free_bitmap k s.i_bitmap,
                              inodes := upd s.inodes k zero_inode } := by
  unfold free_inode
  simp only [h.num k hk]
  have : ¬ ((k : Int) < 0 ∨ (k : Int).toNat ≥ s.sb.num_inodes) := by
    have := hk.1; omega
  rw [if_neg this]
  simp

theorem live_free_inode {s : Image} (h : InvB s) {k : Nat} (hk : live s k) (j : Nat) :
    live (free_inode s k) j ↔ live s j ∧ j ≠ k := by
  rw [free_inode_eq h hk]
  unfold live
  simp only [bit_set_free_bitmap, Bool.and_eq_true, Bool.not_eq_true', decide_eq_false_iff_not]
  tauto

theorem free_inode_other {s : Image} (h : InvB s) {k j : Nat} (hk : live s k) (e : j ≠ k) :
    (free_inode s k).inodes j = s.inodes j := by
  rw [free_inode_eq h hk]; simp [upd_other _ _ e]

theorem free_inode_data {s : Image} (k : Nat) : (free_inode s k).data = s.data := by
  unfold free_inode; simp only; split <;> rfl

theorem free_inode_sb {s : Image} (k : Nat) : (free_inode s k).sb = s.sb := by
  unfold free_inode; simp only; split <;> rfl

theorem free_inode_d_bitmap {s : Image} (k : Nat) : (free_inode s k).d_bitmap = s.d_bitmap := by
  unfold free_inode; simp only; split <;> rfl

theorem InvB.free_inode_b {s : Image} (h : InvB s) {k : Nat} (hk : live s k) :
    InvB (free_inode s k) := by
  have hl := live_free_inode h hk
  apply h.transfer_sub (WFS.free_inode s k) (free_inode_sb k)
  · rw [free_inode_eq h hk]; exact free_bitmap_lt _ _ h.iw
  · rw [free_inode_d_bitmap]; exact h.dw
  · intro j hj
    obtain ⟨hj1, e⟩ := (hl j).1 hj
    rw [free_inode_other h hk e]
    exact ⟨h.num j hj1, h.b7 j hj1, h.size j hj1⟩
  · intro j pos hj hr
    obtain ⟨hj1, e⟩ := (hl j).1 hj
    refine ⟨hj1, ?_⟩
    symm; apply ref_at_congr
    · intro i _; rw [free_inode_other h hk e]
    · intro _ q _ _; rw [free_inode_data]
  · intro j pos _ _ _ _ hb
    exact is_block_of_eq (free_inode_sb k) (free_inode_d_bitmap k) hb

/-! ### Data block allocation -/

theorem allocate_data_block_cases {s : Image} (h : InvB s) :
    (allocate_data_block s = (-ENOSPC, s) ∧
      ∀ n, n < s.sb.num_data_blocks → bit_set s.d_bitmap n = true) ∨
    ∃ n : Nat, n < s.sb.num_data_blocks ∧ bit_set s.d_bitmap n = false ∧
      allocate_data_block s = (block_off s n, with_new_block s n) := by
  unfold allocate_data_block
  simp only
  have hw := (sb_ok_words h.sb).2
  cases ha : allocate_block s.d_bitmap ((s.sb.num_data_blocks + 31) / 32) with
  | mk r bm =>
    cases r with
    | none =>
      left
      refine ⟨rfl, fun n hn => ?_⟩
      exact allocate_block_full h.dw ha n (by omega)
    | some n =>
      right
      obtain ⟨h1, h2, h3⟩ := allocate_block_some ha
      refine ⟨n, by omega, h2, ?_⟩
      have e : s.sb.d_blocks_ptr + (n : Int) * BLOCK_SIZE = block_off s n := by
        unfold block_off; simp only [BLOCK_SIZE]; omega
      simp only [e, with_new_block, h3]

theorem fresh_of_clear {s : Image} (h : InvB s) {n : Nat} (hf : bit_set s.d_bitmap n = false)
    (k pos : Nat) (hk : live s k) (hr : ref_at s k pos ≠ 0) : ref_at s k pos ≠ block_off s n := by
  intro e
  obtain ⟨n1, _, h2, h3⟩ := h.blk k pos hk hr
  have : n1 = n := by unfold block_off at e; omega
  subst this
  rw [hf] at h3
  exact Bool.noConfusion h3

theorem with_new_block_data_out {s : Image} {n : Nat} {q : Int}
    (hq : q < block_off s n ∨ block_off s n + 512 ≤ q) :
    (with_new_block s n).data q = s.data q := by
  unfold with_new_block
  exact memset0_out hq

theorem with_new_block_data_in {s : Image} {n : Nat} {q : Int}
    (h1 : block_off s n ≤ q) (h2 : q < block_off s n + 512) :
    (with_new_block s n).data q = 0 := by
  unfold with_new_block
  exact memset0_in h1 h2

/-- Data outside the block `n` just allocated, in particular in every block with its
bit set before, is unchanged. -/
theorem with_new_block_frame {s : Image} {n : Nat} (hf : bit_set s.d_bitmap n = false)
    {b : Int} (hb : is_block s b) (q : Int) (h1 : b ≤ q) (h2 : q < b + 512) :
    (with_new_block s n).data q = s.data q := by
  apply with_new_block_data_out
  obtain ⟨n1, _, e, h3⟩ := hb
  have : n1 ≠ n := fun e => by subst e; rw [hf] at h3; exact Bool.noConfusion h3
  unfold block_off
  omega

theorem is_block_with_new_block {s : Image} {n : Nat} {b : Int} (hb : is_block s b) :
    is_block (with_new_block s n) b := by
  obtain ⟨n1, h1, h2, h3⟩ := hb
  refine ⟨n1, h1, h2, ?_⟩
  simp only [with_new_block, bit_set_upd_set, h3, Bool.true_or]

theorem is_block_new {s : Image} {n : Nat} (hn : n < s.sb.num_data_blocks) :
    is_block (with_new_block s n) (block_off s n) := by
  refine ⟨n, hn, rfl, ?_⟩
  simp [with_new_block, bit_set_upd_set]

theorem ref_at_with_new_block {s : Image} (h : InvB s) {n : Nat}
    (hf : bit_set s.d_bitmap n = false) {k : Nat} (hk : live s k) (pos : Nat) :
    ref_at (with_new_block s n) k pos = ref_at s k pos := by
  apply ref_at_congr
  · intro i _; rfl
  · intro h6 q h1 h2
    have hb := h.blk k 6 hk (by rw [ref_at_direct s k (by omega)]; exact h6)
    rw [ref_at_direct s k (by omega)] at hb
    exact with_new_block_frame hf hb q h1 h2

theorem InvB.with_new_block_b {s : Image} (h : InvB s) {n : Nat}
    (hf : bit_set s.d_bitmap n = false) : InvB (with_new_block s n) := by
  apply h.transfer_sub (WFS.with_new_block s n) rfl h.iw (upd_set_lt _ _ h.dw)
  · intro k hk
    exact ⟨h.num k hk, h.b7 k hk, h.size k hk⟩
  · intro k pos hk _
    exact ⟨hk, (ref_at_with_new_block h hf hk pos).symm⟩
  · intro k pos _ _ _ _ hb
    exact is_block_with_new_block hb

/-! ### Attaching a fresh block to an inode -/

theorem ref_at_set_block_other (s : Image) {k j : Nat} (i : Nat) (b : Int) (e : j ≠ k)
    (pos : Nat) : ref_at (set_block s k i b) j pos = ref_at s j pos := by
  apply ref_at_congr
  · intro i1 _; rw [set_block_other _ _ _ e]
  · intro _ q _ _; rfl

theorem ref_at_set_block_fresh {s : Image} {k i : Nat} {b : Int} (hi : i < 7)
    (h0 : (s.inodes k).blocks i = 0)
    (hz : ∀ q, b ≤ q → q < b + 512 → s.data q = 0) (pos : Nat) :
    ref_at (set_block s k i b) k pos = if pos = i then b else ref_at s k pos := by
  by_cases hp : pos < 7
  · rw [ref_at_direct _ _ hp, ref_at_direct _ _ hp, set_block_blocks]
  · have hpi : pos ≠ i := by omega
    rw [if_neg hpi]
    by_cases h6 : i = 6
    · subst h6
      rw [ref_at_no_indirect s k (by omega) h0]
      unfold ref_at
      rw [if_neg hp]
      split
      · rw [set_block_blocks, if_pos rfl]
        apply rd_off_zero
        intro q h1 h2
        apply hz <;> omega
      · rfl
    · apply ref_at_congr_child (by omega)
      · rw [set_block_blocks, if_neg (by omega)]
      · intro _ _ q _ _; rfl

/-- The assignment `inode->blocks[i] = b` of a block `b` that is allocated, zero-filled
and not referenced, to an empty entry. -/
theorem InvB.set_block_fresh_b {s : Image} (h : InvB s) {k i : Nat} {b : Int} (hk : live s k)
    (hi : i < 7) (h0 : (s.inodes k).blocks i = 0) (hb : is_block s b)
    (hfresh : ∀ j pos, live s j → ref_at s j pos ≠ 0 → ref_at s j pos ≠ b)
    (hz : ∀ q, b ≤ q → q < b + 512 → s.data q = 0) : InvB (set_block s k i b) := by
  apply h.transfer (set_block s k i b) k i b rfl h.iw h.dw
  · intro j hj
    rw [set_block_num, set_block_size]
    refine ⟨h.num j hj, ?_, h.size j hj⟩
    by_cases e : j = k
    · subst e
      rw [set_block_blocks, if_neg (by omega)]; exact h.b7 j hj
    · rw [set_block_other _ _ _ e]; exact h.b7 j hj
  · intro j pos hj hr
    by_cases e : j = k
    · subst e
      rw [ref_at_set_block_fresh hi h0 hz] at hr ⊢
      by_cases hp : pos = i
      · left; exact ⟨rfl, hp, by rw [if_pos hp]⟩
      · right; rw [if_neg hp]; exact ⟨hj, rfl⟩
    · right; rw [ref_at_set_block_other _ _ _ e]; exact ⟨hj, rfl⟩
  · intro _ _; exact is_block_of_eq rfl rfl hb
  · exact hfresh
  · intro j pos _ _ _ _ hb1; exact is_block_of_eq rfl rfl hb1

/-! ### Writes to the data region -/

/-- References of live inodes do not depend on the bytes of a block that is referenced
at a position other than 6 (so is not an indirect block). -/
theorem ref_at_data_write {s : Image} (h : InvB s) (m1 : Int → Nat) {k0 pos0 : Nat}
    (hk0 : live s k0) (hp : pos0 ≠ 6) (hc : ref_at s k0 pos0 ≠ 0)
    (hm : ∀ q, (q < ref_at s k0 pos0 ∨ ref_at s k0 pos0 + 512 ≤ q) → m1 q = s.data q)
    {k : Nat} (hk : live s k) (pos : Nat) :
    ref_at { s with data := m1 } k pos = ref_at s k pos := by
  apply ref_at_congr
  · intro i _; rfl
  · intro h6 q h1 h2
    apply hm
    have hr6 : ref_at s k 6 ≠ 0 := by rw [ref_at_direct s k (by omega)]; exact h6
    have hb6 := h.blk k 6 hk hr6
    have hb0 := h.blk k0 pos0 hk0 hc
    have hne : ref_at s k 6 ≠ ref_at s k0 pos0 := by
      intro e
      have := (h.uniq k0 pos0 k 6 hk0 hk hc e).2
      exact hp this.symm
    rw [ref_at_direct s k (by omega)] at hb6 hne
    rcases is_block_disjoint hb6 hb0 with e | e | e
    · exact absurd e hne
    · left; omega
    · right; omega

theorem InvB.data_write_b {s : Image} (h : InvB s) (m1 : Int → Nat) {k0 pos0 : Nat}
    (hk0 : live s k0) (hp : pos0 ≠ 6) (hc : ref_at s k0 pos0 ≠ 0)
    (hm : ∀ q, (q < ref_at s k0 pos0 ∨ ref_at s k0 pos0 + 512 ≤ q) → m1 q = s.data q) :
    InvB { s with data := m1 } := by
  apply h.transfer_sub { s with data := m1 } rfl h.iw h.dw
  · intro k hk
    exact ⟨h.num k hk, h.b7 k hk, h.size k hk⟩
  · intro k pos hk _
    exact ⟨hk, (ref_at_data_write h m1 hk0 hp hc hm hk pos).symm⟩
  · intro k pos _ _ _ _ hb
    exact is_block_of_eq rfl rfl hb

/-- The store `indirect[j] = b` into the indirect block of inode `k`. -/
theorem ref_at_set_child {s : Image} (h : InvB s) {k j : Nat} {b : Int} (hk : live s k)
    (h6 : (s.inodes k).blocks 6 ≠ 0) (hj : j < 64) (hb : is_block s b)
    {k1 : Nat} (hk1 : live s k1) (pos : Nat) :
    ref_at { s with data := wr_off s.data ((s.inodes k).blocks 6 + 8 * (j : Int)) b } k1 pos
      = if k1 = k ∧ pos = 7 + j then b else ref_at s k1 pos := by
  have hr6 : ref_at s k 6 ≠ 0 := by rw [ref_at_direct s k (by omega)]; exact h6
  have hb6 := h.blk k 6 hk hr6
  rw [ref_at_direct s k (by omega)] at hb6
  by_cases hc : k1 = k ∧ pos = 7 + j
  · obtain ⟨e1, e2⟩ := hc
    subst e1; subst e2
    rw [if_pos ⟨rfl, rfl⟩]
    have e3 := ref_at_child
      { s with data := wr_off s.data ((s.inodes k1).blocks 6 + 8 * (j : Int)) b } k1
      (show 7 ≤ 7 + j by omega) (show 7 + j < 71 by omega) h6
    rw [e3]
    have : ((7 + j - 7 : Nat) : Int) = j := by omega
    rw [this]
    have hbp := is_block_pos h.sb hb
    have hb1 : -2 ^ 63 ≤ b := by omega
    have hb2 : b < 2 ^ 63 := by omega
    exact rd_off_wr_off s.data ((s.inodes k1).blocks 6 + 8 * (j : Int)) b hb1 hb2
  · rw [if_neg hc]
    by_cases hp : pos < 7
    · rw [ref_at_direct _ _ hp, ref_at_direct _ _ hp]
    · apply @ref_at_congr_child s
        { s with data := wr_off s.data ((s.inodes k).blocks 6 + 8 * (j : Int)) b } k1 k1 pos
        (by omega) rfl
      intro hp71 h16 q h1 h2
      apply wr_off_out
      by_cases e : k1 = k
      · subst e
        have : pos - 7 ≠ j := fun e1 => hc ⟨rfl, by omega⟩
        omega
      · have hr16 : ref_at s k1 6 ≠ 0 := by rw [ref_at_direct s k1 (by omega)]; exact h16
        have hb16 := h.blk k1 6 hk1 hr16
        have hne : ref_at s k1 6 ≠ ref_at s k 6 := by
          intro e1
          exact e (h.uniq k 6 k1 6 hk hk1 hr6 e1).1
        rw [ref_at_direct s k1 (by omega)] at hb16 hne
        rw [ref_at_direct s k (by omega)] at hne
        rcases is_block_disjoint hb16 hb6 with e1 | e1 | e1
        · exact absurd e1 hne
        · left; omega
        · right; omega

theorem InvB.set_child_b {s : Image} (h : InvB s) {k j : Nat} {b : Int} (hk : live s k)
    (h6 : (s.inodes k).blocks 6 ≠ 0) (hj : j < 64) (hb : is_block s b)
    (hfresh : ∀ j pos, live s j → ref_at s j pos ≠ 0 → ref_at s j pos ≠ b) :
    InvB { s with data := wr_off s.data ((s.inodes k).blocks 6 + 8 * (j : Int)) b } := by
  apply h.transfer
    { s with data := wr_off s.data ((s.inodes k).blocks 6 + 8 * (j : Int)) b }
    k (7 + j) b rfl h.iw h.dw
  · intro k1 hk1
    exact ⟨h.num k1 hk1, h.b7 k1 hk1, h.size k1 hk1⟩
  · intro k1 pos hk1 hr
    rw [ref_at_set_child h hk h6 hj hb hk1] at hr ⊢
    by_cases hc : k1 = k ∧ pos = 7 + j
    · left; rw [if_pos hc]; exact ⟨hc.1, hc.2, rfl⟩
    · right; rw [if_neg hc]; exact ⟨hk1, rfl⟩
  · intro _ _; exact is_block_of_eq rfl rfl hb
  · exact hfresh
  · intro k1 pos _ _ _ _ hb1; exact is_block_of_eq rfl rfl hb1

/-! ### Releasing a direct block -/

/-- The image `free_block` returns for an allocated block. -/
theorem free_block_eq {s : Image} (hsb : sb_ok s.sb) {b : Int} (hb : is_block s b) :
    ∃ n : Nat, n < s.sb.num_data_blocks ∧ b = block_off s n ∧ bit_set s.d_bitmap n = true ∧
      free_block s b = { s with d_bitmap := free_bitmap n s.d_bitmap,
                                data := memset0 s.data b 512 } := by
  obtain ⟨n, h1, h2, h3⟩ := hb
  refine ⟨n, h1, h2, h3, ?_⟩
  unfold free_block
  simp only [BLOCK_SIZE]
  have c1 : ¬ (b < s.sb.d_blocks_ptr ∨ b > s.sb.d_blocks_ptr + (s.sb.num_data_blocks : Int) * 512) := by
    omega
  rw [if_neg c1]
  have e : ((b - s.sb.d_blocks_ptr) / 512).toNat = n := by omega
  have hlt : n % 2 ^ 32 = n := by
    apply Nat.mod_eq_of_lt
    obtain ⟨_, _, h5, h6, _, h7⟩ := hsb
    omega
  rw [e, hlt]
  have c2 : ¬ (n ≥ s.sb.num_data_blocks) := by omega
  rw [if_neg c2]

theorem free_block_sb (s : Image) (b : Int) : (free_block s b).sb = s.sb := by
  unfold free_block; simp only; split
  · rfl
  · split <;> rfl

theorem free_block_i_bitmap (s : Image) (b : Int) : (free_block s b).i_bitmap = s.i_bitmap := by
  unfold free_block; simp only; split
  · rfl
  · split <;> rfl

theorem free_block_inodes (s : Image) (b : Int) : (free_block s b).inodes = s.inodes := by
  unfold free_block; simp only; split
  · rfl
  · split <;> rfl

/-- References of live inodes after `free_block(blocks[i]); blocks[i] = 0` on a direct
block of the live inode `k`. -/
theorem ref_at_free_direct {s : Image} (h : InvB s) {k i : Nat} (hk : live s k) (hi : i < 6)
    (hb : (s.inodes k).blocks i ≠ 0) {j : Nat} (hj : live s j) (pos : Nat) :
    ref_at (set_block (free_block s ((s.inodes k).blocks i)) k i 0) j pos
      = if j = k ∧ pos = i then 0 else ref_at s j pos := by
  have hri : ref_at s k i ≠ 0 := by rw [ref_at_direct s k (by omega)]; exact hb
  have hbi := h.blk k i hk hri
  rw [ref_at_direct s k (by omega)] at hbi
  obtain ⟨n, hn, hbn, hbit, hfe⟩ := free_block_eq h.sb hbi
  by_cases hp : pos < 7
  · rw [ref_at_direct _ _ hp, ref_at_direct _ _ hp]
    by_cases e : j = k
    · subst e
      rw [set_block_blocks, free_block_inodes]
      by_cases e2 : pos = i
      · simp [e2]
      · simp [e2]
    · rw [set_block_other _ _ _ e, free_block_inodes]
      simp [e]
  · have hc : ¬ (j = k ∧ pos = i) := by omega
    rw [if_neg hc]
    apply ref_at_congr_child (by omega)
    · by_cases e : j = k
      · subst e
        rw [set_block_blocks, if_neg (by omega), free_block_inodes]
      · rw [set_block_other _ _ _ e, free_block_inodes]
    · intro hp71 h6 q h1 h2
      rw [set_block_data, hfe]
      apply memset0_out
      have hr6 : ref_at s j 6 ≠ 0 := by rw [ref_at_direct s j (by omega)]; exact h6
      have hb6 := h.blk j 6 hj hr6
      have hne : ref_at s j 6 ≠ ref_at s k i := by
        intro e1
        have := (h.uniq k i j 6 hk hj hri e1).2
        omega
      rw [ref_at_direct s j (by omega)] at hb6 hne
      rw [ref_at_direct s k (by omega)] at hne
      rcases is_block_disjoint hb6 hbi with e1 | e1 | e1
      · exact absurd e1 hne
      · left; omega
      · right; omega

theorem InvB.free_direct_b {s : Image} (h : InvB s) {k i : Nat} (hk : live s k) (hi : i < 6)
    (hb : (s.inodes k).blocks i ≠ 0) :
    InvB (set_block (free_block s ((s.inodes k).blocks i)) k i 0) := by
  have hri : ref_at s k i ≠ 0 := by rw [ref_at_direct s k (by omega)]; exact hb
  have hbi := h.blk k i hk hri
  rw [ref_at_direct s k (by omega)] at hbi
  obtain ⟨n, hn, hbn, hbit, hfe⟩ := free_block_eq h.sb hbi
  have hlive : ∀ j, live (set_block (free_block s ((s.inodes k).blocks i)) k i 0) j ↔ live s j :=
    fun j => live_congr (by rw [set_block_sb, free_block_sb])
      (by rw [set_block_i_bitmap, free_block_i_bitmap]) j
  apply h.transfer_sub (set_block (free_block s ((s.inodes k).blocks i)) k i 0)
  · rw [set_block_sb, free_block_sb]
  · rw [set_block_i_bitmap, free_block_i_bitmap]; exact h.iw
  · rw [set_block_d_bitmap, hfe]; exact free_bitmap_lt _ _ h.dw
  · intro j hj
    have hj1 := (hlive j).1 hj
    rw [set_block_num, set_block_size, free_block_inodes]
    refine ⟨h.num j hj1, ?_, h.size j hj1⟩
    by_cases e : j = k
    · subst e
      rw [set_block_blocks, if_neg (by omega), free_block_inodes]; exact h.b7 j hj1
    · rw [set_block_other _ _ _ e, free_block_inodes]; exact h.b7 j hj1
  · intro j pos hj hr
    have hj1 := (hlive j).1 hj
    rw [ref_at_free_direct h hk hi hb hj1] at hr ⊢
    by_cases hc : j = k ∧ pos = i
    · rw [if_pos hc] at hr; exact absurd rfl hr
    · rw [if_neg hc]; exact ⟨hj1, rfl⟩
  · intro j pos hj hj1 hr he hb1
    rw [ref_at_free_direct h hk hi hb hj1] at hr
    have hc : ¬ (j = k ∧ pos = i) := by
      intro hc; rw [if_pos hc] at hr; exact hr rfl
    rw [if_neg hc] at hr
    obtain ⟨n1, hn1, hbn1, hbit1⟩ := hb1
    have hne : ref_at s j pos ≠ ref_at s k i := by
      intro e1
      have := h.uniq k i j pos hk hj1 hri e1
      exact hc this
    rw [ref_at_direct s k (by omega)] at hne
    refine ⟨n1, by rw [set_block_sb, free_block_sb]; exact hn1,
      by rw [set_block_sb, free_block_sb]; exact hbn1, ?_⟩
    rw [set_block_d_bitmap, hfe]
    simp only [bit_set_free_bitmap, hbit1, Bool.true_and, Bool.not_eq_true', decide_eq_false_iff_not]
    intro e; subst e
    apply hne
    rw [hbn1, hbn]; rfl

theorem free_direct_blocks_sb : ∀ (n i : Nat) (s : Image) (k : Nat),
    (free_direct_blocks n i s k).sb = s.sb
  | 0, _, _, _ => rfl
  | n + 1, i, s, k => by
    simp only [free_direct_blocks]
    rw [free_direct_blocks_sb n]
    split
    · rw [set_block_sb, free_block_sb]
    · rfl

theorem free_direct_blocks_i_bitmap : ∀ (n i : Nat) (s : Image) (k : Nat),
    (free_direct_blocks n i s k).i_bitmap = s.i_bitmap
  | 0, _, _, _ => rfl
  | n + 1, i, s, k => by
    simp only [free_direct_blocks]
    rw [free_direct_blocks_i_bitmap n]
    split
    · rw [set_block_i_bitmap, free_block_i_bitmap]
    · rfl

theorem live_free_direct_blocks (n i : Nat) (s : Image) (k j : Nat) :
    live (free_direct_blocks n i s k) j ↔ live s j :=
  live_congr (free_direct_blocks_sb n i s k) (free_direct_blocks_i_bitmap n i s k) j

theorem InvB.free_direct_blocks_b : ∀ (n i : Nat) (s : Image) (k : Nat), InvB s → live s k →
    i + n ≤ 6 → InvB (free_direct_blocks n i s k)
  | 0, _, _, _, h, _, _ => h
  | n + 1, i, s, k, h, hk, hin => by
    simp only [WFS.free_direct_blocks]
    apply InvB.free_direct_blocks_b n (i + 1) _ k
    · split
      · next hb => exact h.free_direct_b hk (by omega) hb
      · exact h
    · split
      · exact (live_congr (by rw [set_block_sb, free_block_sb])
          (by rw [set_block_i_bitmap, free_block_i_bitmap]) k).2 hk
      · exact hk
    · omega

end WFS

namespace WFS

/-! ## Directory slots -/

theorem is_slot_block {s : Image} (h : InvB s) {k : Nat} {p : Int} (hk : live s k)
    (hs : is_slot s k p) :
    ∃ i j : Nat, i < 6 ∧ j < 16 ∧ ref_at s k i ≠ 0 ∧ is_block s (ref_at s k i) ∧
      p = ref_at s k i + 32 * (j : Int) := by
  obtain ⟨i, j, hi, hj, hb, hp⟩ := hs
  have hr : ref_at s k i ≠ 0 := by rw [ref_at_direct s k (by omega)]; exact hb
  refine ⟨i, j, hi, hj, hr, h.blk k i hk hr, ?_⟩
  rw [ref_at_direct s k (by omega), hp]
  rfl

theorem slot_disjoint {s : Image} (h : InvB s) {k k1 : Nat} {p p1 : Int} (hk : live s k)
    (hk1 : live s k1) (hs : is_slot s k p) (hs1 : is_slot s k1 p1) :
    p1 = p ∨ p1 + 32 ≤ p ∨ p + 32 ≤ p1 := by
  obtain ⟨i, j, _, hj, _, hb, hp⟩ := is_slot_block h hk hs
  obtain ⟨i1, j1, _, hj1, _, hb1, hp1⟩ := is_slot_block h hk1 hs1
  rcases is_block_disjoint hb hb1 with e | e | e
  · omega
  · omega
  · omega

theorem slot_owner {s : Image} (h : InvB s) {k k1 : Nat} {p : Int} (hk : live s k)
    (hk1 : live s k1) (hs : is_slot s k p) (hs1 : is_slot s k1 p) : k1 = k := by
  obtain ⟨i, j, _, hj, hr, hb, hp⟩ := is_slot_block h hk hs
  obtain ⟨i1, j1, _, hj1, hr1, hb1, hp1⟩ := is_slot_block h hk1 hs1
  rcases is_block_disjoint hb hb1 with e | e | e
  · exact (h.uniq k i k1 i1 hk hk1 hr e.symm).1
  · omega
  · omega

theorem dentry_num_congr {m m1 : Int → Nat} {p : Int}
    (h : ∀ q, p ≤ q → q < p + 32 → m1 q = m q) : dentry_num m1 p = dentry_num m p := by
  unfold dentry_num
  apply rd_int_congr
  intro q h1 h2
  simp only [MAX_NAME] at h1 h2
  exact h q (by omega) (by omega)

theorem strcmp_eq_congr {m m1 : Int → Nat} : ∀ (name : List Nat) (n : Nat) (p : Int),
    (∃ t : Nat, t < n ∧ m (p + t) = 0) → (∀ q, p ≤ q → q < p + n → m1 q = m q) →
    strcmp_eq m1 p name = strcmp_eq m p name
  | [], n, p, ⟨t, ht, _⟩, h => by
    simp only [strcmp_eq]
    rw [h p (by omega) (by omega)]
  | c :: cs, n, p, ⟨t, ht, hz⟩, h => by
    simp only [strcmp_eq]
    rw [h p (by omega) (by omega)]
    by_cases e : m p = c
    · by_cases e0 : c = 0
      · simp [e, e0]
      · have ht0 : t ≠ 0 := by
          intro e1; subst e1
          simp at hz
          exact e0 (by rw [← e, hz])
        have := strcmp_eq_congr cs (n - 1) (p + 1) ⟨t - 1, by omega, by
          have : p + 1 + ((t - 1 : Nat) : Int) = p + t := by omega
          rw [this]; exact hz⟩ (fun q h1 h2 => h q (by omega) (by omega))
        rw [this]
    · have e1 : (m p == c) = false := by
        rw [beq_eq_false_iff_ne]; exact e
      rw [e1]; rfl

theorem dentry_vacant_congr {m m1 : Int → Nat} {p : Int}
    (h : ∀ q, p ≤ q → q < p + 32 → m1 q = m q) : dentry_vacant m1 p = dentry_vacant m p := by
  unfold dentry_vacant
  rw [dentry_num_congr h, h p (by omega) (by omega)]

theorem dentry_num_zero {m : Int → Nat} {p : Int}
    (h : ∀ q, p ≤ q → q < p + 32 → m q = 0) : dentry_num m p = 0 := by
  unfold dentry_num
  apply rd_int_zero
  intro q h1 h2
  simp only [MAX_NAME] at h1 h2
  exact h q (by omega) (by omega)

/-- The test `strcmp_eq` only depends on the C string that `name` holds. -/
theorem strcmp_eq_both {m : Int → Nat} : ∀ (x y : List Nat) (p : Int),
    strcmp_eq m p x = true → strcmp_eq m p y = true → cstr x = cstr y
  | [], [], _, _, _ => rfl
  | [], c :: cs, p, h1, h2 => by
    simp only [strcmp_eq, beq_iff_eq, Bool.and_eq_true, Bool.or_eq_true] at h1 h2
    have : c = 0 := by rw [← h2.1, h1]
    simp [cstr, this]
  | c :: cs, [], p, h1, h2 => by
    simp only [strcmp_eq, beq_iff_eq, Bool.and_eq_true, Bool.or_eq_true] at h1 h2
    have : c = 0 := by rw [← h1.1, h2]
    simp [cstr, this]
  | c :: cs, d :: ds, p, h1, h2 => by
    simp only [strcmp_eq, beq_iff_eq, Bool.and_eq_true, Bool.or_eq_true] at h1 h2
    have e : c = d := by rw [← h1.1, h2.1]
    subst e
    by_cases e0 : c = 0
    · simp [cstr, e0]
    · have r := strcmp_eq_both cs ds (p + 1) (h1.2.resolve_left e0) (h2.2.resolve_left e0)
      unfold cstr at r ⊢
      simp only [List.takeWhile_cons, bne_iff_ne, ne_eq, e0, not_false_eq_true, decide_True, ite_true]
      rw [r]

theorem strcmp_eq_cstr {m : Int → Nat} : ∀ (x : List Nat) (p : Int),
    strcmp_eq m p (cstr x) = strcmp_eq m p x
  | [], _ => rfl
  | c :: cs, p => by
    by_cases e0 : c = 0
    · subst e0
      simp [cstr, strcmp_eq]
    · have : cstr (c :: cs) = c :: cstr cs := by
        simp [cstr, List.takeWhile_cons, e0]
      rw [this]
      simp only [strcmp_eq]
      rw [strcmp_eq_cstr cs (p + 1)]

/-! ## Transfer of the directory-level invariant -/

/-- Every slot of a directory of the new image is a slot of the same directory in the old
image with the same bytes, or is zero-filled; and inodes named by slots stay live. -/
theorem InvD.frame {s : Image} (hd : InvD s) (s1 : Image)
    (hslot : ∀ k p, is_dir s1 k → is_slot s1 k p →
      (is_dir s k ∧ is_slot s k p ∧ ∀ q, p ≤ q → q < p + 32 → s1.data q = s.data q) ∨
      (s1.data p = 0 ∧ dentry_num s1.data p = 0))
    (hlive : ∀ k p, is_dir s k → is_slot s k p → dentry_num s.data p ≠ 0 →
      live s (dentry_num s.data p).toNat → (∃ k1, is_dir s1 k1 ∧ is_slot s1 k1 p) →
      live s1 (dentry_num s.data p).toNat) : InvD s1 := by
  constructor
  · intro k p hk hp
    rcases hslot k p hk hp with ⟨hk0, hp0, hq⟩ | hz
    · obtain ⟨t, ht, h0⟩ := hd.nul k p hk0 hp0
      exact ⟨t, ht, by rw [hq _ (by omega) (by omega)]; exact h0⟩
    · exact ⟨0, by omega, by simpa using hz.1⟩
  · intro k p hk hp hn
    rcases hslot k p hk hp with ⟨hk0, hp0, hq⟩ | hz
    · rw [dentry_num_congr hq] at hn ⊢
      obtain ⟨h1, h2⟩ := hd.dnum k p hk0 hp0 hn
      exact ⟨h1, hlive k p hk0 hp0 hn h2 ⟨k, hk, hp⟩⟩
    · exact absurd hz.2 hn
  · intro k p k1 p1 hk hk1 hp hp1 hn he
    rcases hslot k p hk hp with ⟨hk0, hp0, hq⟩ | hz
    · rcases hslot k1 p1 hk1 hp1 with ⟨hk10, hp10, hq1⟩ | hz1
      · rw [dentry_num_congr hq] at hn he
        rw [dentry_num_congr hq1] at he
        exact hd.duniq k p k1 p1 hk0 hk10 hp0 hp10 hn he
      · rw [hz1.2] at he
        exact absurd he.symm hn
    · exact absurd hz.2 hn
  · intro k p p1 name hk hp hp1 hv hv1 hs hs1
    rcases hslot k p hk hp with ⟨hk0, hp0, hq⟩ | hz
    · rcases hslot k p1 hk hp1 with ⟨_, hp10, hq1⟩ | hz1
      · rw [dentry_vacant_congr hq] at hv
        rw [dentry_vacant_congr hq1] at hv1
        rw [strcmp_eq_congr name 32 p (by
          obtain ⟨t, ht, h0⟩ := hd.nul k p hk0 hp0
          exact ⟨t, by omega, h0⟩) hq] at hs
        rw [strcmp_eq_congr name 32 p1 (by
          obtain ⟨t, ht, h0⟩ := hd.nul k p1 hk0 hp10
          exact ⟨t, by omega, h0⟩) hq1] at hs1
        exact hd.names k p p1 name hk0 hp0 hp10 hv hv1 hs hs1
      · exfalso
        unfold dentry_vacant at hv1
        rw [hz1.2] at hv1
        simp at hv1
    · exfalso
      unfold dentry_vacant at hv
      rw [hz.2] at hv
      simp at hv
  · obtain ⟨r, hr⟩ := hd.rank
    refine ⟨r, fun k p hk hp hn => ?_⟩
    rcases hslot k p hk hp with ⟨hk0, hp0, hq⟩ | hz
    · rw [dentry_num_congr hq] at hn ⊢
      exact hr k p hk0 hp0 hn
    · exact absurd hz.2 hn

/-- The bytes of a slot are not touched by a write confined to a block `c` that is disjoint
from the direct blocks of the directory. -/
theorem slot_frame {s : Image} (h : InvB s) {j : Nat} {p : Int} (hj : live s j)
    (hs : is_slot s j p) {c : Int}
    (hc : ∀ i, i < 6 → ref_at s j i ≠ 0 → (c + 512 ≤ ref_at s j i ∨ ref_at s j i + 512 ≤ c))
    (m1 : Int → Nat) (hm : ∀ q, q < c ∨ c + 512 ≤ q → m1 q = s.data q) :
    ∀ q, p ≤ q → q < p + 32 → m1 q = s.data q := by
  obtain ⟨i, j1, hi, hj1, hr, hb, hp⟩ := is_slot_block h hj hs
  intro q h1 h2
  apply hm
  rcases hc i hi hr with e | e
  · right; omega
  · left; omega

theorem is_slot_congr {s s1 : Image} {k : Nat}
    (hb : ∀ i, i < 6 → (s1.inodes k).blocks i = (s.inodes k).blocks i) (p : Int) :
    is_slot s1 k p ↔ is_slot s k p := by
  unfold is_slot
  constructor
  · rintro ⟨i, j, hi, hj, h1, h2⟩
    exact ⟨i, j, hi, hj, by rw [← hb i hi]; exact h1, by rw [← hb i hi]; exact h2⟩
  · rintro ⟨i, j, hi, hj, h1, h2⟩
    exact ⟨i, j, hi, hj, by rw [hb i hi]; exact h1, by rw [hb i hi]; exact h2⟩

theorem not_slot_of_zero {s : Image} {k : Nat} (hz : ∀ i, i < 6 → (s.inodes k).blocks i = 0)
    (p : Int) : ¬ is_slot s k p := by
  rintro ⟨i, j, hi, _, h1, _⟩
  exact h1 (hz i hi)

theorem S_ISDIR_zero : S_ISDIR 0 = false := by decide

theorem Inv.with_new_inode {s : Image} (h : Inv s) {k : Nat} (now : Int)
    (hk : k < s.sb.num_inodes) (hf : bit_set s.i_bitmap k = false) :
    Inv (with_new_inode s k now) := by
  refine ⟨h.b.with_new_inode_b now hk hf, ?_⟩
  have hdir : ∀ j, is_dir (WFS.with_new_inode s k now) j → j ≠ k ∧ is_dir s j := by
    intro j ⟨hl, hm⟩
    have e : j ≠ k := by
      intro e; subst e
      simp [WFS.with_new_inode, upd_same, zero_inode, S_ISDIR_zero] at hm
    rcases (live_with_new_inode hk j).1 hl with hl1 | e1
    · refine ⟨e, hl1, ?_⟩
      simpa [WFS.with_new_inode, upd_other _ _ e] using hm
    · exact absurd e1 e
  apply h.d.frame
  · intro j p hj hp
    obtain ⟨e, hj0⟩ := hdir j hj
    left
    refine ⟨hj0, ?_, fun q _ _ => rfl⟩
    exact (is_slot_congr (fun i _ => by simp [WFS.with_new_inode, upd_other _ _ e]) p).1 hp
  · intro j p _ _ _ hl _
    exact (live_with_new_inode hk _).2 (Or.inl hl)

/-- An update of inode `k` that keeps its number and either keeps its type and address
array, or clears the address array. -/
theorem Inv.set_inode {s : Image} (h : Inv s) {k : Nat} (hk : live s k) (v : wfs_inode)
    (hnum : v.num = k)
    (hb : (S_ISDIR v.mode = S_ISDIR (s.inodes k).mode ∧ ∀ i, v.blocks i = (s.inodes k).blocks i)
      ∨ (∀ i, v.blocks i = 0))
    (hsz : 0 ≤ v.size ∧ v.size < 2 ^ 63) : Inv (set_inode s k v) := by
  refine ⟨h.b.set_inode_b hk v hnum (hb.imp (fun x => x.2) id) hsz, ?_⟩
  apply h.d.frame
  · intro j p hj hp
    by_cases e : j = k
    · subst e
      rcases hb with ⟨hm, hb⟩ | hz
      · left
        refine ⟨⟨hj.1, ?_⟩, ?_, fun q _ _ => rfl⟩
        · have := hj.2; rw [set_inode_same] at this; rw [← hm]; exact this
        · exact (is_slot_congr (fun i _ => by rw [set_inode_same]; exact hb i) p).1 hp
      · exact absurd hp (not_slot_of_zero (fun i _ => by rw [set_inode_same]; exact hz i) p)
    · left
      refine ⟨⟨hj.1, ?_⟩, ?_, fun q _ _ => rfl⟩
      · have := hj.2; rw [set_inode_other _ _ e] at this; exact this
      · exact (is_slot_congr (fun i _ => by rw [set_inode_other _ _ e]) p).1 hp
  · intro j p _ _ _ hl _
    exact hl

/-- Release of a live inode that no dentry names. -/
theorem Inv.free_inode {s : Image} (h : Inv s) {k : Nat} (hk : live s k)
    (hno : ∀ j p, is_dir s j → is_slot s j p → dentry_num s.data p ≠ 0 →
      dentry_num s.data p ≠ (k : Int)) :
    Inv (free_inode s k) := by
  refine ⟨h.b.free_inode_b hk, ?_⟩
  have hl := live_free_inode h.b hk
  apply h.d.frame
  · intro j p hj hp
    obtain ⟨hj1, e⟩ := (hl j).1 hj.1
    left
    refine ⟨⟨hj1, ?_⟩, ?_, fun q _ _ => by rw [free_inode_data]⟩
    · have := hj.2; rw [free_inode_other h.b hk e] at this; exact this
    · exact (is_slot_congr (fun i _ => by rw [free_inode_other h.b hk e]) p).1 hp
  · intro j p hj hp hn hlv _
    refine (hl _).2 ⟨hlv, ?_⟩
    intro e
    apply hno j p hj hp hn
    have := (h.d.dnum j p hj hp hn).1
    omega

theorem is_dir_congr {s s1 : Image} (hsb : s1.sb = s.sb) (hi : s1.i_bitmap = s.i_bitmap)
    {k : Nat} (hm : (s1.inodes k).mode = (s.inodes k).mode) : is_dir s1 k ↔ is_dir s k := by
  unfold is_dir
  rw [live_congr hsb hi, hm]

theorem Inv.with_new_block {s : Image} (h : Inv s) {n : Nat}
    (hf : bit_set s.d_bitmap n = false) : Inv (with_new_block s n) := by
  refine ⟨h.b.with_new_block_b hf, ?_⟩
  apply h.d.frame
  · intro j p hj hp
    left
    refine ⟨hj, hp, ?_⟩
    obtain ⟨i, j1, _, hj1, _, hb, hpe⟩ := is_slot_block h.b hj.1 hp
    intro q h1 h2
    exact with_new_block_frame hf hb q (by omega) (by omega)
  · intro j p _ _ _ hl _
    exact hl

/-- Attaching a fresh zero-filled block to an empty entry of the address array. -/
theorem Inv.set_block_fresh {s : Image} (h : Inv s) {k i : Nat} {b : Int} (hk : live s k)
    (hi : i < 7) (h0 : (s.inodes k).blocks i = 0) (hb : is_block s b)
    (hfresh : ∀ j pos, live s j → ref_at s j pos ≠ 0 → ref_at s j pos ≠ b)
    (hz : ∀ q, b ≤ q → q < b + 512 → s.data q = 0) : Inv (set_block s k i b) := by
  refine ⟨h.b.set_block_fresh_b hk hi h0 hb hfresh hz, ?_⟩
  apply h.d.frame
  · intro j p hj hp
    have hj0 : is_dir s j :=
      (@is_dir_congr s (set_block s k i b) rfl rfl j (set_block_mode s k i b j)).1 hj
    by_cases e : j = k
    · subst e
      obtain ⟨i1, j1, hi1, hj1, hb1, hpe⟩ := hp
      rw [set_block_blocks] at hb1 hpe
      by_cases e1 : i1 = i
      · right
        rw [if_pos e1] at hpe
        unfold dentry_ptr at hpe
        simp only [DENTRY_SIZE] at hpe
        have hz1 : ∀ q, p ≤ q → q < p + 32 → (set_block s j i b).data q = 0 := by
          intro q h1 h2
          rw [set_block_data]
          apply hz <;> omega
        exact ⟨hz1 p (by omega) (by omega), dentry_num_zero hz1⟩
      · left
        rw [if_neg e1] at hb1 hpe
        exact ⟨hj0, ⟨i1, j1, hi1, hj1, hb1, hpe⟩, fun q _ _ => rfl⟩
    · left
      refine ⟨hj0, ?_, fun q _ _ => rfl⟩
      exact (is_slot_congr (fun i1 _ => by rw [set_block_other _ _ _ e]) p).1 hp
  · intro j p _ _ _ hl _
    exact hl

theorem Inv.set_child {s : Image} (h : Inv s) {k j : Nat} {b : Int} (hk : live s k)
    (h6 : (s.inodes k).blocks 6 ≠ 0) (hj : j < 64) (hb : is_block s b)
    (hfresh : ∀ j pos, live s j → ref_at s j pos ≠ 0 → ref_at s j pos ≠ b) :
    Inv { s with data := wr_off s.data ((s.inodes k).blocks 6 + 8 * (j : Int)) b } := by
  refine ⟨h.b.set_child_b hk h6 hj hb hfresh, ?_⟩
  have hr6 : ref_at s k 6 ≠ 0 := by rw [ref_at_direct s k (by omega)]; exact h6
  have hb6 := h.b.blk k 6 hk hr6
  apply h.d.frame
  · intro j1 p hj1 hp
    left
    refine ⟨hj1, hp, ?_⟩
    apply @slot_frame s h.b j1 p hj1.1 hp (ref_at s k 6)
    · intro i hi hr
      have hbi := h.b.blk j1 i hj1.1 hr
      rcases is_block_disjoint hb6 hbi with e | e | e
      · have := (h.b.uniq k 6 j1 i hk hj1.1 hr6 e.symm).2
        omega
      · left; exact e
      · right; exact e
    · intro q hq
      apply wr_off_out
      rw [ref_at_direct s k (by omega)] at hq
      omega
  · intro j1 p _ _ _ hl _
    exact hl

/-- A write confined to a block referenced by an inode that is not a directory, or at a
position other than the direct ones. -/
theorem Inv.data_write {s : Image} (h : Inv s) (m1 : Int → Nat) {k0 pos0 : Nat}
    (hk0 : live s k0) (hp : pos0 ≠ 6) (hc : ref_at s k0 pos0 ≠ 0)
    (hnd : ¬ (is_dir s k0 ∧ pos0 < 6))
    (hm : ∀ q, (q < ref_at s k0 pos0 ∨ ref_at s k0 pos0 + 512 ≤ q) → m1 q = s.data q) :
    Inv { s with data := m1 } := by
  refine ⟨h.b.data_write_b m1 hk0 hp hc hm, ?_⟩
  have hb0 := h.b.blk k0 pos0 hk0 hc
  apply h.d.frame
  · intro j1 p hj1 hp1
    left
    refine ⟨hj1, hp1, ?_⟩
    apply @slot_frame s h.b j1 p hj1.1 hp1 (ref_at s k0 pos0) ?_ m1 hm
    intro i hi hr
    have hbi := h.b.blk j1 i hj1.1 hr
    rcases is_block_disjoint hb0 hbi with e | e | e
    · obtain ⟨e1, e2⟩ := h.b.uniq k0 pos0 j1 i hk0 hj1.1 hc e.symm
      exfalso
      apply hnd
      subst e1; subst e2
      exact ⟨hj1, hi⟩
    · left; exact e
    · right; exact e
  · intro j1 p _ _ _ hl _
    exact hl

theorem Inv.free_direct {s : Image} (h : Inv s) {k i : Nat} (hk : live s k) (hi : i < 6)
    (hb : (s.inodes k).blocks i ≠ 0) :
    Inv (set_block (free_block s ((s.inodes k).blocks i)) k i 0) := by
  refine ⟨h.b.free_direct_b hk hi hb, ?_⟩
  have hri : ref_at s k i ≠ 0 := by rw [ref_at_direct s k (by omega)]; exact hb
  have hbi := h.b.blk k i hk hri
  obtain ⟨n, hn, hbn, hbit, hfe⟩ := free_block_eq h.b.sb
    (by rw [ref_at_direct s k (by omega)] at hbi; exact hbi)
  have hdir : ∀ j, is_dir (set_block (free_block s ((s.inodes k).blocks i)) k i 0) j →
      is_dir s j := by
    intro j hj
    refine (is_dir_congr ?_ ?_ ?_).1 hj
    · rw [set_block_sb, free_block_sb]
    · rw [set_block_i_bitmap, free_block_i_bitmap]
    · rw [set_block_mode, free_block_inodes]
  apply h.d.frame
  · intro j p hj hp
    have hj0 := hdir j hj
    left
    have hp0 : is_slot s j p ∧ ∀ i1, i1 < 6 → ref_at s j i1 ≠ 0 →
        p < ref_at s j i1 ∨ ref_at s j i1 + 512 ≤ p ∨ ¬ (j = k ∧ i1 = i) := by
      obtain ⟨i1, j1, hi1, hj1, hb1, hpe⟩ := hp
      by_cases e : j = k
      · subst e
        rw [set_block_blocks, free_block_inodes] at hb1 hpe
        by_cases e1 : i1 = i
        · rw [if_pos e1] at hb1; exact absurd rfl hb1
        · rw [if_neg e1] at hb1 hpe
          refine ⟨⟨i1, j1, hi1, hj1, hb1, hpe⟩, ?_⟩
          intro i2 hi2 hr2
          by_cases e2 : i2 = i
          · subst e2
            have hr1 : ref_at s j i1 ≠ 0 := by rw [ref_at_direct s j (by omega)]; exact hb1
            have hb2 := h.b.blk j i2 hk hr2
            have hbb1 := h.b.blk j i1 hk hr1
            rw [ref_at_direct s j (show i1 < 7 by omega)] at hbb1 hr1
            unfold dentry_ptr at hpe
            simp only [DENTRY_SIZE] at hpe
            rcases is_block_disjoint hb2 hbb1 with e3 | e3 | e3
            · exfalso
              rw [← ref_at_direct s j (show i1 < 7 by omega)] at e3
              have := (h.b.uniq j i2 j i1 hk hk hr2 e3.symm).2
              exact e1 this
            · right; left; omega
            · left; omega
          · right; right; intro hc; exact e2 hc.2
      · rw [set_block_other _ _ _ e, free_block_inodes] at hb1 hpe
        exact ⟨⟨i1, j1, hi1, hj1, hb1, hpe⟩, fun i2 _ _ => Or.inr (Or.inr (fun hc => e hc.1))⟩
    refine ⟨hj0, hp0.1, ?_⟩
    intro q h1 h2
    rw [set_block_data, hfe]
    apply memset0_out
    obtain ⟨i1, j1, hi1, hj1, hr1, hbb1, hpe⟩ := is_slot_block h.b hj0.1 hp0.1
    rcases is_block_disjoint hbi hbb1 with e | e | e
    · obtain ⟨e1, e2⟩ := h.b.uniq k i j i1 hk hj0.1 hri e.symm
      rcases hp0.2 i1 hi1 hr1 with e3 | e3 | e3
      · omega
      · omega
      · exact absurd ⟨e1, e2⟩ e3
    · rw [ref_at_direct s k (by omega)] at e; right; omega
    · rw [ref_at_direct s k (by omega)] at e; left; omega
  · intro j p _ _ _ hl _
    exact (live_congr (by rw [set_block_sb, free_block_sb])
      (by rw [set_block_i_bitmap, free_block_i_bitmap]) _).2 hl

end WFS

namespace WFS

/-! ## Writing and clearing a dentry slot -/

theorem clear_slot_out {m : Int → Nat} {p q : Int} (h : q < p ∨ p + 32 ≤ q) :
    memcpy (wr_int m (p + MAX_NAME) 0) p [0] q = m q := by
  simp only [MAX_NAME]
  rw [memcpy_out (by simp only [List.length_singleton]; omega), wr_int_out (by omega)]

theorem clear_slot_name (m : Int → Nat) (p : Int) :
    memcpy (wr_int m (p + MAX_NAME) 0) p [0] p = 0 := by
  have := @memcpy_in (wr_int m (p + MAX_NAME) 0) p [0] 0 (by simp)
  simpa using this

theorem clear_slot_num (m : Int → Nat) (p : Int) :
    dentry_num (memcpy (wr_int m (p + MAX_NAME) 0) p [0]) p = 0 := by
  unfold dentry_num
  rw [@rd_int_congr _ (wr_int m (p + MAX_NAME) 0) _]
  · exact rd_int_wr_int _ _ 0 (by norm_num) (by norm_num)
  · intro q h1 h2
    simp only [MAX_NAME] at h1 h2
    apply memcpy_out
    simp only [List.length_singleton]; omega

theorem write_dentry_out {m : Int → Nat} {p q : Int} {name : List Nat} {num : Int}
    (hlen : name.length < 28) (h : q < p ∨ p + 32 ≤ q) :
    write_dentry m p name num q = m q := by
  unfold write_dentry
  simp only [MAX_NAME]
  rw [wr_int_out (by omega), memcpy_out (by simp only [List.length_append, List.length_singleton]; omega)]

theorem write_dentry_num (m : Int → Nat) (p : Int) (name : List Nat) {num : Int}
    (h1 : -2 ^ 31 ≤ num) (h2 : num < 2 ^ 31) :
    dentry_num (write_dentry m p name num) p = num := by
  unfold dentry_num write_dentry
  exact rd_int_wr_int _ _ num h1 h2

theorem write_dentry_name {m : Int → Nat} {p : Int} {name : List Nat} {num : Int}
    (hlen : name.length < 28) (i : Nat) (hi : i ≤ name.length) :
    write_dentry m p name num (p + i) = (name ++ [0]).getD i 0 := by
  unfold write_dentry
  simp only [MAX_NAME]
  rw [wr_int_out (by omega)]
  exact memcpy_in i (by simp only [List.length_append, List.length_singleton]; omega)

theorem strcmp_eq_of_bytes {m : Int → Nat} : ∀ (name : List Nat) (p : Int),
    (∀ i : Nat, i ≤ name.length → m (p + i) = (name ++ [0]).getD i 0) →
    strcmp_eq m p name = true
  | [], p, h => by
    have := h 0 (by simp)
    simp only [strcmp_eq, beq_iff_eq]
    simpa using this
  | c :: cs, p, h => by
    have h0 := h 0 (by simp)
    simp only [strcmp_eq, Bool.and_eq_true, beq_iff_eq, Bool.or_eq_true]
    refine ⟨by simpa using h0, Or.inr ?_⟩
    apply strcmp_eq_of_bytes cs (p + 1)
    intro i hi
    have := h (i + 1) (by simp; omega)
    have e : p + ((i + 1 : Nat) : Int) = p + 1 + i := by push_cast; omega
    rw [e] at this
    rw [this]
    simp only [List.cons_append, List.getD_cons_succ]

theorem write_dentry_strcmp {m : Int → Nat} {p : Int} {name : List Nat} {num : Int}
    (hlen : name.length < 28) : strcmp_eq (write_dentry m p name num) p name = true :=
  strcmp_eq_of_bytes name p (fun i hi => write_dentry_name hlen i hi)

/-- Clearing a slot of a directory (`remove_dentry`). -/
theorem Inv.clear_slot {s : Image} (h : Inv s) {k0 : Nat} {p0 : Int} (hk0 : is_dir s k0)
    (hp0 : is_slot s k0 p0) :
    Inv { s with data := memcpy (wr_int s.data (p0 + MAX_NAME) 0) p0 [0] } := by
  obtain ⟨i, j, hi, hj, hr, hb, hpe⟩ := is_slot_block h.b hk0.1 hp0
  constructor
  · apply h.b.data_write_b _ hk0.1 (show i ≠ 6 by omega) hr
    intro q hq
    apply clear_slot_out
    omega
  · apply h.d.frame
    · intro k p hk hp
      rcases slot_disjoint h.b hk0.1 hk.1 hp0 hp with e | e | e
      · right
        subst e
        exact ⟨clear_slot_name _ _, clear_slot_num _ _⟩
      · left
        exact ⟨hk, hp, fun q h1 h2 => clear_slot_out (by omega)⟩
      · left
        exact ⟨hk, hp, fun q h1 h2 => clear_slot_out (by omega)⟩
    · intro k p _ _ _ hl _
      exact hl

/-- Filling a slot of a directory (`add_dentry`) with a name that no other live slot of
the directory carries and the number of a live inode that no slot names yet. -/
theorem Inv.write_slot {s : Image} (h : Inv s) {k0 : Nat} {p0 : Int} (hk0 : is_dir s k0)
    (hp0 : is_slot s k0 p0) (name : List Nat) (num : Int) (hlen : name.length < 28)
    (hnum : 0 < num ∧ num < 2 ^ 31) (hlive : live s num.toNat)
    (hnew : ∀ j p, is_dir s j → is_slot s j p → dentry_num s.data p ≠ num)
    (hns : ∀ p, ¬ is_slot s num.toNat p)
    (hname : ∀ p, is_slot s k0 p → p ≠ p0 → dentry_vacant s.data p = false →
      strcmp_eq s.data p name = false) :
    Inv { s with data := write_dentry s.data p0 name num } := by
  obtain ⟨i, j, hi, hj, hr, hb, hpe⟩ := is_slot_block h.b hk0.1 hp0
  have hout : ∀ k p, is_dir s k → is_slot s k p → p ≠ p0 →
      ∀ q, p ≤ q → q < p + 32 → write_dentry s.data p0 name num q = s.data q := by
    intro k p hk hp hne q h1 h2
    apply write_dentry_out hlen
    rcases slot_disjoint h.b hk0.1 hk.1 hp0 hp with e | e | e
    · exact absurd e hne
    · left; omega
    · right; omega
  have hn0 : dentry_num (write_dentry s.data p0 name num) p0 = num :=
    write_dentry_num _ _ _ (by omega) hnum.2
  constructor
  · apply h.b.data_write_b _ hk0.1 (show i ≠ 6 by omega) hr
    intro q hq
    apply write_dentry_out hlen
    omega
  · constructor
    · intro k p hk hp
      by_cases e : p = p0
      · subst e
        refine ⟨name.length, hlen, ?_⟩
        show write_dentry s.data p name num (p + name.length) = 0
        rw [@write_dentry_name s.data p name num hlen name.length (le_refl _)]
        simp [List.getD_append_right]
      · obtain ⟨t, ht, h0⟩ := h.d.nul k p hk hp
        exact ⟨t, ht, by
          show write_dentry s.data p0 name num (p + t) = 0
          rw [hout k p hk hp e _ (by omega) (by omega)]; exact h0⟩
    · intro k p hk hp hn
      by_cases e : p = p0
      · subst e
        show 0 < dentry_num (write_dentry s.data p name num) p ∧
          live s (dentry_num (write_dentry s.data p name num) p).toNat
        rw [hn0]
        exact ⟨hnum.1, hlive⟩
      · have e1 : dentry_num (write_dentry s.data p0 name num) p = dentry_num s.data p :=
          dentry_num_congr (hout k p hk hp e)
        show 0 < dentry_num (write_dentry s.data p0 name num) p ∧
          live s (dentry_num (write_dentry s.data p0 name num) p).toNat
        rw [e1]
        exact h.d.dnum k p hk hp (by rw [← e1]; exact hn)
    · intro k p k1 p1 hk hk1 hp hp1 hn he
      change dentry_num (write_dentry s.data p0 name num) p ≠ 0 at hn
      change dentry_num (write_dentry s.data p0 name num) p1 =
        dentry_num (write_dentry s.data p0 name num) p at he
      by_cases e : p = p0
      · by_cases e1 : p1 = p0
        · rw [e, e1]
        · exfalso
          rw [e, hn0, dentry_num_congr (hout k1 p1 hk1 hp1 e1)] at he
          exact hnew k1 p1 hk1 hp1 he
      · by_cases e1 : p1 = p0
        · exfalso
          rw [e1, hn0, dentry_num_congr (hout k p hk hp e)] at he
          exact hnew k p hk hp he.symm
        · rw [dentry_num_congr (hout k p hk hp e)] at hn he
          rw [dentry_num_congr (hout k1 p1 hk1 hp1 e1)] at he
          exact h.d.duniq k p k1 p1 hk hk1 hp hp1 hn he
    · intro k p p1 nm hk hp hp1 hv hv1 hs hs1
      change dentry_vacant (write_dentry s.data p0 name num) p = false at hv
      change dentry_vacant (write_dentry s.data p0 name num) p1 = false at hv1
      change strcmp_eq (write_dentry s.data p0 name num) p nm = true at hs
      change strcmp_eq (write_dentry s.data p0 name num) p1 nm = true at hs1
      have key : ∀ p2, is_slot s k p2 → p2 ≠ p0 →
          dentry_vacant (write_dentry s.data p0 name num) p2 = false →
          strcmp_eq (write_dentry s.data p0 name num) p2 nm = true →
          dentry_vacant s.data p2 = false ∧ strcmp_eq s.data p2 nm = true := by
        intro p2 hp2 e2 hv2 hs2
        rw [dentry_vacant_congr (hout k p2 hk hp2 e2)] at hv2
        rw [strcmp_eq_congr nm 32 p2 (by
          obtain ⟨t, ht, h0⟩ := h.d.nul k p2 hk hp2
          exact ⟨t, by omega, h0⟩) (hout k p2 hk hp2 e2)] at hs2
        exact ⟨hv2, hs2⟩
      have clash : ∀ p2, is_slot s k p2 → p2 ≠ p0 → is_slot s k p0 →
          dentry_vacant (write_dentry s.data p0 name num) p2 = false →
          strcmp_eq (write_dentry s.data p0 name num) p2 nm = true →
          strcmp_eq (write_dentry s.data p0 name num) p0 nm = true → False := by
        intro p2 hp2 e2 hp00 hv2 hs2 hs0
        obtain ⟨hv3, hs3⟩ := key p2 hp2 e2 hv2 hs2
        have ek : k = k0 := slot_owner h.b hk0.1 hk.1 hp0 hp00
        subst ek
        have hc := strcmp_eq_both nm name p0 hs0 (write_dentry_strcmp hlen)
        have h1 : strcmp_eq s.data p2 name = true := by
          rw [← strcmp_eq_cstr, ← hc, strcmp_eq_cstr]; exact hs3
        rw [hname p2 hp2 e2 hv3] at h1
        exact Bool.noConfusion h1
      by_cases e : p = p0
      · by_cases e1 : p1 = p0
        · rw [e, e1]
        · exfalso
          subst e
          exact clash p1 hp1 e1 hp hv1 hs1 hs
      · by_cases e1 : p1 = p0
        · exfalso
          subst e1
          exact clash p hp e hp1 hv hs hs1
        · obtain ⟨hv2, hs2⟩ := key p hp e hv hs
          obtain ⟨hv3, hs3⟩ := key p1 hp1 e1 hv1 hs1
          exact h.d.names k p p1 nm hk hp hp1 hv2 hv3 hs2 hs3
    · obtain ⟨r, hr⟩ := h.d.rank
      refine ⟨upd r num.toNat (r k0 + 1), fun k p hk hp hn => ?_⟩
      change dentry_num (write_dentry s.data p0 name num) p ≠ 0 at hn
      show upd r num.toNat (r k0 + 1) (dentry_num (write_dentry s.data p0 name num) p).toNat
        = upd r num.toNat (r k0 + 1) k + 1
      have hkn : k ≠ num.toNat := fun e => hns p (by rw [← e]; exact hp)
      rw [upd_other _ _ hkn]
      by_cases e : p = p0
      · subst e
        have ek : k = k0 := slot_owner h.b hk0.1 hk.1 hp0 hp
        rw [hn0, upd_same, ek]
      · rw [dentry_num_congr (hout k p hk hp e)] at hn ⊢
        have hne := hnew k p hk hp
        have hpos := (h.d.dnum k p hk hp hn).1
        rw [upd_other _ _ (by omega)]
        exact hr k p hk hp hn

end WFS

namespace WFS

/-! ## The directory scans -/

theorem dentry_vacant_false {m : Int → Nat} {p : Int} :
    dentry_vacant m p = false ↔ dentry_num m p ≠ 0 ∧ m p ≠ 0 := by
  unfold dentry_vacant
  simp [Bool.or_eq_false_iff]

theorem add_scan_slots_spec (m : Int → Nat) (name : List Nat) (blk : Int) (i : Nat) :
    ∀ (n j : Nat) (st st1 : add_scan), add_scan_slots m name blk i n j st = some st1 →
      (∀ j1, j ≤ j1 → j1 < j + n → ¬ slot_hit m name (dentry_ptr blk j1)) ∧
      st1.next_block = st.next_block ∧
      (∀ x, st1.next_free = some x → st.next_free = some x ∨
        (st.next_free = none ∧ ∃ j1, j ≤ j1 ∧ j1 < j + n ∧ x = (dentry_ptr blk j1, i) ∧
          dentry_vacant m (dentry_ptr blk j1) = true)) ∧
      (st1.next_free = none → st.next_free = none ∧
        ∀ j1, j ≤ j1 → j1 < j + n → dentry_vacant m (dentry_ptr blk j1) = false)
  | 0, j, st, st1, h => by
    simp only [add_scan_slots] at h
    injection h with h; subst h
    exact ⟨fun j1 h1 h2 => by omega, rfl, fun x hx => Or.inl hx,
      fun hx => ⟨hx, fun j1 h1 h2 => by omega⟩⟩
  | n + 1, j, st, st1, h => by
    simp only [add_scan_slots] at h
    split at h
    · next hv =>
      obtain ⟨r1, r2, r3, r4⟩ := add_scan_slots_spec m name blk i n (j + 1) _ st1 h
      refine ⟨?_, ?_, ?_, ?_⟩
      · intro j1 h1 h2
        by_cases e : j1 = j
        · subst e; intro hh; rw [hh.1] at hv; exact Bool.noConfusion hv
        · exact r1 j1 (by omega) (by omega)
      · rw [r2]; split <;> rfl
      · intro x hx
        rcases r3 x hx with e | ⟨e, j1, h1, h2, h3, h4⟩
        · cases hf : st.next_free with
          | none =>
            simp only [hf, Option.isNone_none, if_true] at e
            injection e with e
            exact Or.inr ⟨rfl, j, le_refl _, by omega, e.symm, hv⟩
          | some y =>
            simp only [hf, Option.isNone_some, Bool.false_eq_true, if_false] at e
            exact Or.inl e
        · cases hf : st.next_free with
          | none => simp [hf] at e
          | some y =>
            simp only [hf, Option.isNone_some, Bool.false_eq_true, if_false] at e
            exact absurd e (by simp)
      · intro hx
        obtain ⟨e, _⟩ := r4 hx
        cases hf : st.next_free with
        | none => simp [hf] at e
        | some y => simp [hf] at e
    · next hv =>
      split at h
      · exact absurd h (by simp)
      · next hs =>
        obtain ⟨r1, r2, r3, r4⟩ := add_scan_slots_spec m name blk i n (j + 1) st st1 h
        refine ⟨?_, r2, ?_, ?_⟩
        · intro j1 h1 h2
          by_cases e : j1 = j
          · subst e; intro hh; exact hs hh.2
          · exact r1 j1 (by omega) (by omega)
        · intro x hx
          rcases r3 x hx with e | ⟨e, j1, h1, h2, h3, h4⟩
          · exact Or.inl e
          · exact Or.inr ⟨e, j1, by omega, by omega, h3, h4⟩
        · intro hx
          obtain ⟨e, r⟩ := r4 hx
          refine ⟨e, fun j1 h1 h2 => ?_⟩
          by_cases e1 : j1 = j
          · subst e1; simpa using hv
          · exact r j1 (by omega) (by omega)

theorem add_scan_slots_none (m : Int → Nat) (name : List Nat) (blk : Int) (i : Nat) :
    ∀ (n j : Nat) (st : add_scan), add_scan_slots m name blk i n j st = none →
      ∃ j1, j ≤ j1 ∧ j1 < j + n ∧ slot_hit m name (dentry_ptr blk j1)
  | 0, j, st, h => by simp [add_scan_slots] at h
  | n + 1, j, st, h => by
    simp only [add_scan_slots] at h
    split at h
    · obtain ⟨j1, h1, h2, h3⟩ := add_scan_slots_none m name blk i n (j + 1) _ h
      exact ⟨j1, by omega, by omega, h3⟩
    · next hv =>
      split at h
      · next hs => exact ⟨j, le_refl _, by omega, by simpa using hv, hs⟩
      · obtain ⟨j1, h1, h2, h3⟩ := add_scan_slots_none m name blk i n (j + 1) _ h
        exact ⟨j1, by omega, by omega, h3⟩

/-- What a completed scan of `add_dentry` found. -/
theorem add_scan_blocks_spec (m : Int → Nat) (name : List Nat) (blocks : Nat → Int) :
    ∀ (n i : Nat) (st st1 : add_scan), add_scan_blocks m name blocks n i st = some st1 →
      (∀ i1 j1, i ≤ i1 → i1 < i + n → blocks i1 ≠ 0 → j1 < 16 →
        ¬ slot_hit m name (dentry_ptr (blocks i1) j1)) ∧
      (∀ x, st1.next_free = some x → st.next_free = some x ∨
        (st.next_free = none ∧ ∃ i1 j1, i ≤ i1 ∧ i1 < i + n ∧ blocks i1 ≠ 0 ∧ j1 < 16 ∧
          x = (dentry_ptr (blocks i1) j1, i1) ∧
          dentry_vacant m (dentry_ptr (blocks i1) j1) = true)) ∧
      (st1.next_free = none → st.next_free = none ∧
        ∀ i1 j1, i ≤ i1 → i1 < i + n → blocks i1 ≠ 0 → j1 < 16 →
          dentry_vacant m (dentry_ptr (blocks i1) j1) = false) ∧
      (∀ x, st1.next_block = some x → st.next_block = some x ∨
        (st.next_block = none ∧ i ≤ x ∧ x < i + n ∧ blocks x = 0)) ∧
      (st1.next_block = none → st.next_block = none ∧
        ∀ i1, i ≤ i1 → i1 < i + n → blocks i1 ≠ 0)
  | 0, i, st, st1, h => by
    simp only [add_scan_blocks] at h
    injection h with h; subst h
    exact ⟨fun i1 j1 h1 h2 => by omega, fun x hx => Or.inl hx,
      fun hx => ⟨hx, fun i1 j1 h1 h2 => by omega⟩, fun x hx => Or.inl hx,
      fun hx => ⟨hx, fun i1 h1 h2 => by omega⟩⟩
  | n + 1, i, st, st1, h => by
    simp only [add_scan_blocks] at h
    split at h
    · next hz =>
      obtain ⟨r1, r2, r3, r4, r5⟩ := add_scan_blocks_spec m name blocks n (i + 1) _ st1 h
      have hnf : (if st.next_block.isNone = true then
            ({ st with next_block := some i } : add_scan) else st).next_free = st.next_free := by
        split <;> rfl
      rw [hnf] at r2 r3
      refine ⟨?_, ?_, ?_, ?_, ?_⟩
      · intro i1 j1 h1 h2 hb hj
        by_cases e : i1 = i
        · subst e; exact absurd hz hb
        · exact r1 i1 j1 (by omega) (by omega) hb hj
      · intro x hx
        rcases r2 x hx with e | ⟨e, i1, j1, h1, h2, h3, h4, h5, h6⟩
        · exact Or.inl e
        · exact Or.inr ⟨e, i1, j1, by omega, by omega, h3, h4, h5, h6⟩
      · intro hx
        obtain ⟨e, r⟩ := r3 hx
        refine ⟨e, fun i1 j1 h1 h2 hb hj => ?_⟩
        by_cases e1 : i1 = i
        · subst e1; exact absurd hz hb
        · exact r i1 j1 (by omega) (by omega) hb hj
      · intro x hx
        rcases r4 x hx with e | ⟨e, h1, h2, h3⟩
        · cases hf : st.next_block with
          | none =>
            simp only [hf, Option.isNone_none, if_true] at e
            injection e with e
            subst e
            exact Or.inr ⟨rfl, le_refl _, by omega, hz⟩
          | some y =>
            simp only [hf, Option.isNone_some, Bool.false_eq_true, if_false] at e
            exact Or.inl e
        · cases hf : st.next_block with
          | none => simp [hf] at e
          | some y =>
            simp only [hf, Option.isNone_some, Bool.false_eq_true, if_false] at e
            exact absurd e (by simp)
      · intro hx
        obtain ⟨e, _⟩ := r5 hx
        cases hf : st.next_block with
        | none => simp [hf] at e
        | some y => simp [hf] at e
    · next hz =>
      split at h
      · exact absurd h (by simp)
      · next st2 hs =>
        obtain ⟨q1, q2, q3, q4⟩ := add_scan_slots_spec m name (blocks i) i 16 0 st st2 hs
        obtain ⟨r1, r2, r3, r4, r5⟩ := add_scan_blocks_spec m name blocks n (i + 1) st2 st1 h
        rw [q2] at r4 r5
        refine ⟨?_, ?_, ?_, ?_, ?_⟩
        · intro i1 j1 h1 h2 hb hj
          by_cases e : i1 = i
          · subst e; exact q1 j1 (by omega) (by omega)
          · exact r1 i1 j1 (by omega) (by omega) hb hj
        · intro x hx
          rcases r2 x hx with e | ⟨e, i1, j1, h1, h2, h3, h4, h5, h6⟩
          · rcases q3 x e with e1 | ⟨e1, j1, h1, h2, h3, h4⟩
            · exact Or.inl e1
            · exact Or.inr ⟨e1, i, j1, le_refl _, by omega, hz, by omega, h3, h4⟩
          · obtain ⟨e1, _⟩ := q4 e
            exact Or.inr ⟨e1, i1, j1, by omega, by omega, h3, h4, h5, h6⟩
        · intro hx
          obtain ⟨e, r⟩ := r3 hx
          obtain ⟨e1, q⟩ := q4 e
          refine ⟨e1, fun i1 j1 h1 h2 hb hj => ?_⟩
          by_cases e2 : i1 = i
          · subst e2; exact q j1 (by omega) (by omega)
          · exact r i1 j1 (by omega) (by omega) hb hj
        · intro x hx
          rcases r4 x hx with e | ⟨e, h1, h2, h3⟩
          · exact Or.inl e
          · exact Or.inr ⟨e, by omega, by omega, h3⟩
        · intro hx
          obtain ⟨e, r⟩ := r5 hx
          refine ⟨e, fun i1 h1 h2 => ?_⟩
          by_cases e2 : i1 = i
          · subst e2; exact hz
          · exact r i1 (by omega) (by omega)

theorem add_scan_blocks_none (m : Int → Nat) (name : List Nat) (blocks : Nat → Int) :
    ∀ (n i : Nat) (st : add_scan), add_scan_blocks m name blocks n i st = none →
      ∃ i1 j1, i ≤ i1 ∧ i1 < i + n ∧ blocks i1 ≠ 0 ∧ j1 < 16 ∧
        slot_hit m name (dentry_ptr (blocks i1) j1)
  | 0, i, st, h => by simp [add_scan_blocks] at h
  | n + 1, i, st, h => by
    simp only [add_scan_blocks] at h
    split at h
    · obtain ⟨i1, j1, h1, h2, h3⟩ := add_scan_blocks_none m name blocks n (i + 1) _ h
      exact ⟨i1, j1, by omega, by omega, h3⟩
    · next hz =>
      split at h
      · next hs =>
        obtain ⟨j1, h1, h2, h3⟩ := add_scan_slots_none m name (blocks i) i 16 0 st hs
        exact ⟨i, j1, le_refl _, by omega, hz, by omega, h3⟩
      · obtain ⟨i1, j1, h1, h2, h3⟩ := add_scan_blocks_none m name blocks n (i + 1) _ h
        exact ⟨i1, j1, by omega, by omega, h3⟩

/-! ### `remove_dentry` -/

theorem remove_scan_slots_some (m : Int → Nat) (inum blk : Int) :
    ∀ (n j : Nat) (p : Int), remove_scan_slots m inum blk n j = some p →
      ∃ j1, j ≤ j1 ∧ j1 < j + n ∧ p = dentry_ptr blk j1 ∧ dentry_num m p = inum
  | 0, _, _, h => by simp [remove_scan_slots] at h
  | n + 1, j, p, h => by
    simp only [remove_scan_slots] at h
    split at h
    · next he =>
      injection h with h; subst h
      exact ⟨j, le_refl _, by omega, rfl, he⟩
    · obtain ⟨j1, h1, h2, h3⟩ := remove_scan_slots_some m inum blk n (j + 1) p h
      exact ⟨j1, by omega, by omega, h3⟩

theorem remove_scan_slots_none (m : Int → Nat) (inum blk : Int) :
    ∀ (n j : Nat), remove_scan_slots m inum blk n j = none →
      ∀ j1, j ≤ j1 → j1 < j + n → dentry_num m (dentry_ptr blk j1) ≠ inum
  | 0, _, _ => fun j1 h1 h2 => by omega
  | n + 1, j, h => by
    simp only [remove_scan_slots] at h
    split at h
    · exact absurd h (by simp)
    · next he =>
      intro j1 h1 h2
      by_cases e : j1 = j
      · subst e; exact he
      · exact remove_scan_slots_none m inum blk n (j + 1) h j1 (by omega) (by omega)

theorem remove_scan_blocks_some (m : Int → Nat) (inum : Int) (blocks : Nat → Int) :
    ∀ (n i : Nat) (p : Int), remove_scan_blocks m inum blocks n i = some p →
      ∃ i1 j1, i ≤ i1 ∧ i1 < i + n ∧ blocks i1 ≠ 0 ∧ j1 < 16 ∧
        p = dentry_ptr (blocks i1) j1 ∧ dentry_num m p = inum
  | 0, _, _, h => by simp [remove_scan_blocks] at h
  | n + 1, i, p, h => by
    simp only [remove_scan_blocks] at h
    split at h
    · obtain ⟨i1, j1, h1, h2, h3⟩ := remove_scan_blocks_some m inum blocks n (i + 1) p h
      exact ⟨i1, j1, by omega, by omega, h3⟩
    · next hz =>
      split at h
      · next p1 hs =>
        injection h with h; subst h
        obtain ⟨j1, h1, h2, h3, h4⟩ := remove_scan_slots_some m inum (blocks i) 16 0 p1 hs
        exact ⟨i, j1, le_refl _, by omega, hz, by omega, h3, h4⟩
      · obtain ⟨i1, j1, h1, h2, h3⟩ := remove_scan_blocks_some m inum blocks n (i + 1) p h
        exact ⟨i1, j1, by omega, by omega, h3⟩

theorem remove_scan_blocks_none (m : Int → Nat) (inum : Int) (blocks : Nat → Int) :
    ∀ (n i : Nat), remove_scan_blocks m inum blocks n i = none →
      ∀ i1 j1, i ≤ i1 → i1 < i + n → blocks i1 ≠ 0 → j1 < 16 →
        dentry_num m (dentry_ptr (blocks i1) j1) ≠ inum
  | 0, _, _ => fun i1 j1 h1 h2 => by omega
  | n + 1, i, h => by
    simp only [remove_scan_blocks] at h
    intro i1 j1 h1 h2 hb hj
    split at h
    · next hz =>
      by_cases e : i1 = i
      · subst e; exact absurd hz hb
      · exact remove_scan_blocks_none m inum blocks n (i + 1) h i1 j1 (by omega) (by omega) hb hj
    · split at h
      · exact absurd h (by simp)
      · next hs =>
        by_cases e : i1 = i
        · subst e
          exact remove_scan_slots_none m inum (blocks i1) 16 0 hs j1 (by omega) (by omega)
        · exact remove_scan_blocks_none m inum blocks n (i + 1) h i1 j1 (by omega) (by omega)
            hb hj

/-! ### Name lookup -/

theorem find_scan_slots_some (m : Int → Nat) (name : List Nat) (blk : Int) :
    ∀ (n j : Nat) (r : Int), find_scan_slots m name blk n j = some r →
      ∃ j1, j ≤ j1 ∧ j1 < j + n ∧ slot_hit m name (dentry_ptr blk j1) ∧
        dentry_num m (dentry_ptr blk j1) = r
  | 0, _, _, h => by simp [find_scan_slots] at h
  | n + 1, j, r, h => by
    simp only [find_scan_slots] at h
    split at h
    · obtain ⟨j1, h1, h2, h3⟩ := find_scan_slots_some m name blk n (j + 1) r h
      exact ⟨j1, by omega, by omega, h3⟩
    · next hn =>
      split at h
      · obtain ⟨j1, h1, h2, h3⟩ := find_scan_slots_some m name blk n (j + 1) r h
        exact ⟨j1, by omega, by omega, h3⟩
      · next hm =>
        split at h
        · next hs =>
          injection h with h
          exact ⟨j, le_refl _, by omega, ⟨dentry_vacant_false.2 ⟨hn, hm⟩, hs⟩, h⟩
        · obtain ⟨j1, h1, h2, h3⟩ := find_scan_slots_some m name blk n (j + 1) r h
          exact ⟨j1, by omega, by omega, h3⟩

theorem find_scan_slots_none (m : Int → Nat) (name : List Nat) (blk : Int) :
    ∀ (n j : Nat), find_scan_slots m name blk n j = none →
      ∀ j1, j ≤ j1 → j1 < j + n → ¬ slot_hit m name (dentry_ptr blk j1)
  | 0, _, _ => fun j1 h1 h2 => by omega
  | n + 1, j, h => by
    simp only [find_scan_slots] at h
    intro j1 h1 h2 hh
    have hv := dentry_vacant_false.1 hh.1
    split at h
    · next hn =>
      by_cases e : j1 = j
      · subst e; exact hv.1 hn
      · exact find_scan_slots_none m name blk n (j + 1) h j1 (by omega) (by omega) hh
    · split at h
      · next hm =>
        by_cases e : j1 = j
        · subst e; exact hv.2 hm
        · exact find_scan_slots_none m name blk n (j + 1) h j1 (by omega) (by omega) hh
      · split at h
        · exact absurd h (by simp)
        · next hs =>
          by_cases e : j1 = j
          · subst e; exact hs hh.2
          · exact find_scan_slots_none m name blk n (j + 1) h j1 (by omega) (by omega) hh

/-- Without a hit the lookup leaves `found` as it was. -/
theorem find_scan_blocks_none (m : Int → Nat) (name : List Nat) (blocks : Nat → Int) :
    ∀ (n i : Nat) (found : Int), found < 0 →
      (∀ i1 j1, i ≤ i1 → i1 < i + n → blocks i1 ≠ 0 → j1 < 16 →
        ¬ slot_hit m name (dentry_ptr (blocks i1) j1)) →
      find_scan_blocks m name blocks n i found = found
  | 0, _, _, _, _ => rfl
  | n + 1, i, found, hf, h => by
    simp only [find_scan_blocks]
    split
    · exact find_scan_blocks_none m name blocks n (i + 1) found hf
        (fun i1 j1 h1 h2 => h i1 j1 (by omega) (by omega))
    · next hz =>
      cases hs : find_scan_slots m name (blocks i) 16 0 with
      | some r =>
        obtain ⟨j1, h1, h2, h3, _⟩ := find_scan_slots_some m name (blocks i) 16 0 r hs
        exact absurd h3 (h i j1 (le_refl _) (by omega) hz (by omega))
      | none =>
        simp only
        rw [if_neg (by omega)]
        exact find_scan_blocks_none m name blocks n (i + 1) found hf
          (fun i1 j1 h1 h2 => h i1 j1 (by omega) (by omega))

/-- A non-negative result is the `num` of a live slot with that name. -/
theorem find_scan_blocks_found (m : Int → Nat) (name : List Nat) (blocks : Nat → Int) :
    ∀ (n i : Nat) (found : Int), found < 0 →
      0 ≤ find_scan_blocks m name blocks n i found →
      ∃ i1 j1, i ≤ i1 ∧ i1 < i + n ∧ blocks i1 ≠ 0 ∧ j1 < 16 ∧
        slot_hit m name (dentry_ptr (blocks i1) j1) ∧
        dentry_num m (dentry_ptr (blocks i1) j1) = find_scan_blocks m name blocks n i found
  | 0, _, found, hf, h => by simp only [find_scan_blocks] at h; omega
  | n + 1, i, found, hf, h => by
    simp only [find_scan_blocks] at h ⊢
    split at h
    · next hz =>
      rw [if_pos hz]
      obtain ⟨i1, j1, h1, h2, h3⟩ := find_scan_blocks_found m name blocks n (i + 1) found hf h
      exact ⟨i1, j1, by omega, by omega, h3⟩
    · next hz =>
      rw [if_neg hz]
      cases hs : find_scan_slots m name (blocks i) 16 0 with
      | some r =>
        rw [hs] at h
        simp only at h ⊢
        obtain ⟨j1, h1, h2, h3, h4⟩ := find_scan_slots_some m name (blocks i) 16 0 r hs
        by_cases hr : r ≥ 0
        · rw [if_pos hr]
          exact ⟨i, j1, le_refl _, by omega, hz, by omega, h3, h4⟩
        · rw [if_neg hr] at h ⊢
          obtain ⟨i1, j2, g1, g2, g3⟩ :=
            find_scan_blocks_found m name blocks n (i + 1) r (by omega) h
          exact ⟨i1, j2, by omega, by omega, g3⟩
      | none =>
        rw [hs] at h
        simp only at h ⊢
        rw [if_neg (by omega)] at h ⊢
        obtain ⟨i1, j2, g1, g2, g3⟩ :=
          find_scan_blocks_found m name blocks n (i + 1) found hf h
        exact ⟨i1, j2, by omega, by omega, g3⟩

/-- When every hit in range is the slot `p`, whose `num` is not negative, the lookup
returns that `num`. -/
theorem find_scan_blocks_hit (m : Int → Nat) (name : List Nat) (blocks : Nat → Int) (p : Int)
    (hp : 0 ≤ dentry_num m p) :
    ∀ (n i : Nat) (found : Int), found < 0 →
      (∃ i1 j1, i ≤ i1 ∧ i1 < i + n ∧ blocks i1 ≠ 0 ∧ j1 < 16 ∧
        slot_hit m name (dentry_ptr (blocks i1) j1) ∧ dentry_ptr (blocks i1) j1 = p) →
      (∀ i1 j1, i ≤ i1 → i1 < i + n → blocks i1 ≠ 0 → j1 < 16 →
        slot_hit m name (dentry_ptr (blocks i1) j1) → dentry_ptr (blocks i1) j1 = p) →
      find_scan_blocks m name blocks n i found = dentry_num m p
  | 0, _, _, _, ⟨i1, j1, h1, h2, _⟩, _ => by omega
  | n + 1, i, found, hf, ⟨i1, j1, h1, h2, hb, hj, hh, he⟩, hu => by
    simp only [find_scan_blocks]
    split
    · next hz =>
      have : i1 ≠ i := fun e => hb (by rw [e]; exact hz)
      exact find_scan_blocks_hit m name blocks p hp n (i + 1) found hf
        ⟨i1, j1, by omega, by omega, hb, hj, hh, he⟩
        (fun i2 j2 g1 g2 => hu i2 j2 (by omega) (by omega))
    · next hz =>
      cases hs : find_scan_slots m name (blocks i) 16 0 with
      | some r =>
        simp only
        obtain ⟨j2, g1, g2, g3, g4⟩ := find_scan_slots_some m name (blocks i) 16 0 r hs
        have e := hu i j2 (le_refl _) (by omega) hz (by omega) g3
        rw [e] at g4
        rw [if_pos (by omega), ← g4]
      | none =>
        simp only
        rw [if_neg (by omega)]
        have : i1 ≠ i := by
          intro e; subst e
          exact find_scan_slots_none m name (blocks i1) 16 0 hs j1 (by omega) (by omega) hh
        exact find_scan_blocks_hit m name blocks p hp n (i + 1) found hf
          ⟨i1, j1, by omega, by omega, hb, hj, hh, he⟩
          (fun i2 j2 g1 g2 => hu i2 j2 (by omega) (by omega))

/-- A negative result, when no live slot carries a negative `num`: there is no hit. -/
theorem find_scan_blocks_neg (m : Int → Nat) (name : List Nat) (blocks : Nat → Int) :
    ∀ (n i : Nat) (found : Int),
      (∀ i1 j1, i ≤ i1 → i1 < i + n → blocks i1 ≠ 0 → j1 < 16 →
        slot_hit m name (dentry_ptr (blocks i1) j1) →
        0 ≤ dentry_num m (dentry_ptr (blocks i1) j1)) →
      find_scan_blocks m name blocks n i found < 0 →
      ∀ i1 j1, i ≤ i1 → i1 < i + n → blocks i1 ≠ 0 → j1 < 16 →
        ¬ slot_hit m name (dentry_ptr (blocks i1) j1)
  | 0, _, _, _, _ => fun i1 j1 h1 h2 => by omega
  | n + 1, i, found, hpos, h => by
    simp only [find_scan_blocks] at h
    intro i1 j1 h1 h2 hb hj hh
    split at h
    · next hz =>
      have : i1 ≠ i := fun e => hb (by rw [e]; exact hz)
      exact find_scan_blocks_neg m name blocks n (i + 1) found
        (fun i2 j2 g1 g2 => hpos i2 j2 (by omega) (by omega)) h i1 j1 (by omega) (by omega)
        hb hj hh
    · next hz =>
      cases hs : find_scan_slots m name (blocks i) 16 0 with
      | some r =>
        rw [hs] at h
        simp only at h
        obtain ⟨j2, g1, g2, g3, g4⟩ := find_scan_slots_some m name (blocks i) 16 0 r hs
        have := hpos i j2 (le_refl _) (by omega) hz (by omega) g3
        rw [if_pos (by omega)] at h
        omega
      | none =>
        rw [hs] at h
        simp only at h
        by_cases e : i1 = i
        · subst e
          exact find_scan_slots_none m name (blocks i1) 16 0 hs j1 (by omega) (by omega) hh
        · by_cases hfd : found ≥ 0
          · rw [if_pos hfd] at h; omega
          · rw [if_neg hfd] at h
            exact find_scan_blocks_neg m name blocks n (i + 1) found
              (fun i2 j2 g1 g2 => hpos i2 j2 (by omega) (by omega)) h i1 j1 (by omega)
              (by omega) hb hj hh

end WFS

namespace WFS

/-! ## `add_dentry` and `remove_dentry` on well-formed images -/

theorem memset0_idem (m : Int → Nat) (p n : Int) : memset0 (memset0 m p n) p n = memset0 m p n := by
  funext q
  unfold memset0
  split <;> rfl

theorem is_slot_iff {s : Image} {k : Nat} {p : Int} :
    is_slot s k p ↔ ∃ i j : Nat, i < 6 ∧ j < 16 ∧ (s.inodes k).blocks i ≠ 0 ∧
      p = dentry_ptr ((s.inodes k).blocks i) j := Iff.rfl

/-- No live slot of directory `k` carries `name`. -/
theorem no_hit_of_scan {s : Image} {k : Nat} {name : List Nat} {st : add_scan}
    (h : add_scan_blocks s.data name (s.inodes k).blocks 6 0 ⟨none, none⟩ = some st) :
    ∀ p, is_slot s k p → ¬ slot_hit s.data name p := by
  intro p ⟨i, j, hi, hj, hb, hp⟩
  rw [hp]
  exact (add_scan_blocks_spec _ _ _ 6 0 _ st h).1 i j (by omega) (by omega) hb hj

/-- The outcomes of `add_dentry` on a well-formed image: a failure leaves the image
unchanged; a success fills a vacant slot of an allocated block, or slot 0 of a block
allocated for the first empty entry of the address array. -/
theorem add_dentry_cases {s : Image} (hb : InvB s) {parent : Nat} {num : Int}
    {name : List Nat} {now rc : Int} {s1 : Image}
    (h : add_dentry s parent num name now = (rc, s1)) :
    (rc ≠ 0 ∧ s1 = s ∧ (rc = 1 ∨ rc = -EEXIST ∨ rc = -ENOSPC)) ∨
    (rc = 0 ∧ S_ISDIR (s.inodes parent).mode = true ∧ name.length < 28 ∧
      (∀ p, is_slot s parent p → ¬ slot_hit s.data name p) ∧
      ((∃ i j : Nat, i < 6 ∧ j < 16 ∧ (s.inodes parent).blocks i ≠ 0 ∧
          dentry_vacant s.data (dentry_ptr ((s.inodes parent).blocks i) j) = true ∧
          s1 = touch_parent
            { s with data :=
                (write_dentry s.data (dentry_ptr ((s.inodes parent).blocks i) j) name num) }
            parent i now) ∨
       (∃ i n : Nat, i < 6 ∧ (s.inodes parent).blocks i = 0 ∧ n < s.sb.num_data_blocks ∧
          bit_set s.d_bitmap n = false ∧
          (∀ p, is_slot s parent p → dentry_vacant s.data p = false) ∧
          s1 = touch_parent
            { set_block (with_new_block s n) parent i (block_off s n) with
              data := write_dentry (with_new_block s n).data (block_off s n) name num }
            parent i now))) := by
  unfold add_dentry at h
  split at h
  · injection h with h1 h2
    exact Or.inl ⟨by rw [← h1]; decide, h2.symm, Or.inl h1.symm⟩
  · next hdir =>
    split at h
    · injection h with h1 h2
      exact Or.inl ⟨by rw [← h1]; decide, h2.symm, Or.inl h1.symm⟩
    · next hlen =>
      have hdir1 : S_ISDIR (s.inodes parent).mode = true := by simpa using hdir
      have hlen1 : name.length < 28 := by simp only [MAX_NAME] at hlen; omega
      split at h
      · injection h with h1 h2
        exact Or.inl ⟨by rw [← h1]; decide, h2.symm, Or.inr (Or.inl h1.symm)⟩
      · next st hst =>
        have hno := no_hit_of_scan hst
        obtain ⟨_, r2, r3, r4, r5⟩ := add_scan_blocks_spec _ _ _ 6 0 _ st hst
        split at h
        · next p nfb hnf =>
          injection h with h1 h2
          rcases r2 (p, nfb) hnf with e | ⟨_, i, j, _, hi, hbi, hj, hx, hv⟩
          · exact absurd e (by simp)
          · injection hx with hx1 hx2
            subst hx1; subst hx2
            exact Or.inr ⟨h1.symm, hdir1, hlen1, hno,
              Or.inl ⟨nfb, j, by omega, hj, hbi, hv, h2.symm⟩⟩
        · next hnf =>
          obtain ⟨_, hfull⟩ := r3 hnf
          split at h
          · injection h with h1 h2
            exact Or.inl ⟨by rw [← h1]; decide, h2.symm, Or.inr (Or.inr h1.symm)⟩
          · next nb hnb =>
            rcases r4 nb hnb with e | ⟨_, _, hi, hz⟩
            · exact absurd e (by simp)
            · rcases allocate_data_block_cases hb with ⟨ha, _⟩ | ⟨n, hn, hbit, ha⟩
              · rw [ha] at h
                simp only at h
                rw [if_pos (by decide)] at h
                injection h with h1 h2
                exact Or.inl ⟨by rw [← h1]; decide, h2.symm, Or.inr (Or.inr h1.symm)⟩
              · rw [ha] at h
                simp only at h
                have hpos : ¬ block_off s n < 0 := by
                  have := hb.sb.2.2.1
                  unfold block_off; omega
                rw [if_neg hpos] at h
                injection h with h1 h2
                refine Or.inr ⟨h1.symm, hdir1, hlen1, hno, Or.inr ⟨nb, n, by omega, hz, hn, hbit,
                  ?_, ?_⟩⟩
                · intro p ⟨i, j, hi1, hj1, hbi, hp⟩
                  rw [hp]
                  exact hfull i j (by omega) (by omega) hbi hj1
                · rw [← h2]
                  simp only [BLOCK_SIZE]
                  have e1 : memset0 (with_new_block s n).data (block_off s n) 512
                      = (with_new_block s n).data := by
                    unfold with_new_block
                    exact memset0_idem _ _ _
                  simp only [e1, set_block_blocks, if_true, set_block_data]

theorem touch_parent_eq (s : Image) (parent i : Nat) (now : Int) :
    touch_parent s parent i now = set_inode s parent
      { s.inodes parent with
        size := if (s.inodes parent).size < ((i : Int) + 1) * 512
          then ((i : Int) + 1) * 512 else (s.inodes parent).size,
        mtim := now, ctim := now } := rfl

theorem Inv.touch_parent {s : Image} (h : Inv s) {parent i : Nat} (hp : live s parent)
    (hi : i < 6) (now : Int) : Inv (touch_parent s parent i now) := by
  rw [touch_parent_eq]
  apply h.set_inode hp
  · exact h.b.num parent hp
  · exact Or.inl ⟨rfl, fun _ => rfl⟩
  · have := h.b.size parent hp
    simp only
    split <;> omega

/-- The slots of directories after a fresh block was attached to entry `i` of `parent`. -/
theorem slot_cases_new_block {s : Image} (h : InvB s) {parent i n : Nat}
    (hf : bit_set s.d_bitmap n = false) {j : Nat} {p : Int} (hj : live s j)
    (hp : is_slot (set_block (with_new_block s n) parent i (block_off s n)) j p) :
    (is_slot s j p ∧ ∀ q, p ≤ q → q < p + 32 →
      (set_block (with_new_block s n) parent i (block_off s n)).data q = s.data q) ∨
    (j = parent ∧ ∃ j1 : Nat, j1 < 16 ∧ p = dentry_ptr (block_off s n) j1 ∧
      ∀ q, p ≤ q → q < p + 32 →
        (set_block (with_new_block s n) parent i (block_off s n)).data q = 0) := by
  obtain ⟨i1, j1, hi1, hj1, hb1, hpe⟩ := hp
  have old : (s.inodes j).blocks i1 ≠ 0 → p = dentry_ptr ((s.inodes j).blocks i1) j1 →
      (is_slot s j p ∧ ∀ q, p ≤ q → q < p + 32 →
        (set_block (with_new_block s n) parent i (block_off s n)).data q = s.data q) := by
    intro hb2 hpe2
    have hs : is_slot s j p := ⟨i1, j1, hi1, hj1, hb2, hpe2⟩
    refine ⟨hs, ?_⟩
    obtain ⟨i2, j2, _, hj2, _, hbb, hpe3⟩ := is_slot_block h hj hs
    intro q h1 h2
    rw [set_block_data]
    exact with_new_block_frame hf hbb q (by omega) (by omega)
  by_cases e : j = parent
  · subst e
    rw [set_block_blocks] at hb1 hpe
    by_cases e1 : i1 = i
    · right
      rw [if_pos e1] at hpe
      refine ⟨rfl, j1, hj1, hpe, ?_⟩
      intro q h1 h2
      rw [set_block_data]
      unfold dentry_ptr at hpe
      simp only [DENTRY_SIZE] at hpe
      apply with_new_block_data_in <;> omega
    · left
      rw [if_neg e1] at hb1 hpe
      exact old hb1 hpe
  · left
    rw [set_block_other _ _ _ e] at hb1 hpe
    exact old hb1 hpe

theorem not_hit_of_zero {m : Int → Nat} {p : Int}
    (hz : ∀ q, p ≤ q → q < p + 32 → m q = 0) : dentry_vacant m p = true := by
  unfold dentry_vacant
  rw [dentry_num_zero hz]
  rfl

/-- `add_dentry` keeps the invariant when asked to add the number of a live inode that
no dentry names yet. -/
theorem add_dentry_inv {s : Image} (hinv : Inv s) {parent : Nat} {num : Int}
    {name : List Nat} {now rc : Int} {s1 : Image} (hpar : live s parent)
    (hnum : 0 < num ∧ num < 2 ^ 31) (hlive : live s num.toNat)
    (hnew : ∀ j p, is_dir s j → is_slot s j p → dentry_num s.data p ≠ num)
    (hpn : parent ≠ num.toNat) (hns : ∀ p, ¬ is_slot s num.toNat p)
    (h : add_dentry s parent num name now = (rc, s1)) : Inv s1 := by
  rcases add_dentry_cases hinv.b h with ⟨_, e, _⟩ | ⟨_, hdir, hlen, hno, hc⟩
  · rw [e]; exact hinv
  · have hpd : is_dir s parent := ⟨hpar, hdir⟩
    rcases hc with ⟨i, j, hi, hj, hbi, hv, e⟩ | ⟨i, n, hi, hz, hn, hbit, _, e⟩
    · rw [e]
      refine (hinv.write_slot hpd ⟨i, j, hi, hj, hbi, rfl⟩ name num hlen hnum hlive hnew hns
        ?_).touch_parent hpar hi now
      intro p hp _ hv1
      have := hno p hp
      unfold slot_hit at this
      cases hs : strcmp_eq s.data p name with
      | false => rfl
      | true => exact absurd ⟨hv1, hs⟩ this
    · rw [e]
      have hl : ∀ k, live (set_block (with_new_block s n) parent i (block_off s n)) k ↔
          live s k := fun k => Iff.rfl
      have hinv2 : Inv (with_new_block s n) := hinv.with_new_block hbit
      have hinv3 : Inv (set_block (with_new_block s n) parent i (block_off s n)) := by
        apply hinv2.set_block_fresh hpar (by omega) hz (is_block_new hn)
        · intro k pos hk hr
          rw [ref_at_with_new_block hinv.b hbit hk] at hr ⊢
          exact fresh_of_clear hinv.b hbit k pos hk hr
        · intro q h1 h2
          exact with_new_block_data_in h1 h2
      have hbpos : block_off s n ≠ 0 := by
        have := hinv.b.sb.2.2.1
        unfold block_off; omega
      have hdir3 : ∀ k, is_dir (set_block (with_new_block s n) parent i (block_off s n)) k →
          is_dir s k := by
        intro k hk
        exact ⟨hk.1, by have := hk.2; rw [set_block_mode] at this; exact this⟩
      have hslot : is_slot (set_block (with_new_block s n) parent i (block_off s n)) parent
          (block_off s n) := by
        refine ⟨i, 0, hi, by omega, ?_, ?_⟩
        · rw [set_block_blocks, if_pos rfl]; exact hbpos
        · rw [set_block_blocks, if_pos rfl]; simp [dentry_ptr]
      refine (hinv3.write_slot ⟨hpar, by rw [set_block_mode]; exact hdir⟩ hslot name num hlen
        hnum hlive ?_ ?_ ?_).touch_parent hpar hi now
      · intro k p hk hp
        rcases slot_cases_new_block hinv.b hbit hk.1 hp with ⟨hs, hq⟩ | ⟨_, j1, _, _, hq⟩
        · rw [dentry_num_congr hq]
          exact hnew k p (hdir3 k hk) hs
        · rw [dentry_num_zero hq]; omega
      · intro p hp
        rcases slot_cases_new_block hinv.b hbit hlive hp with ⟨hs, _⟩ | ⟨e1, _⟩
        · exact hns p hs
        · exact hpn e1.symm
      · intro p hp _ hv1
        rcases slot_cases_new_block hinv.b hbit hpar hp with ⟨hs, hq⟩ | ⟨_, j1, _, _, hq⟩
        · rw [dentry_vacant_congr hq] at hv1
          rw [strcmp_eq_congr name 32 p (by
            obtain ⟨t, ht, h0⟩ := hinv.d.nul parent p hpd hs
            exact ⟨t, by omega, h0⟩) hq]
          have := hno p hs
          unfold slot_hit at this
          cases hs1 : strcmp_eq s.data p name with
          | false => rfl
          | true => exact absurd ⟨hv1, hs1⟩ this
        · rw [not_hit_of_zero hq] at hv1
          exact Bool.noConfusion hv1

/-- The outcomes of `remove_dentry`: a failure leaves the image unchanged; a success
clears the slot found. -/
theorem remove_dentry_cases {s : Image} {dir : Nat} {inum now rc : Int} {s1 : Image}
    (h : remove_dentry s dir inum now = (rc, s1)) :
    (rc = -ENOENT ∧ s1 = s ∧
      ∀ p, is_slot s dir p → dentry_num s.data p ≠ inum) ∨
    (rc = 0 ∧ ∃ p, is_slot s dir p ∧ dentry_num s.data p = inum ∧
      s1 = set_inode { s with data := memcpy (wr_int s.data (p + MAX_NAME) 0) p [0] } dir
        { s.inodes dir with mtim := now, ctim := now }) := by
  unfold remove_dentry at h
  split at h
  · next hs =>
    injection h with h1 h2
    refine Or.inl ⟨h1.symm, h2.symm, ?_⟩
    intro p ⟨i, j, hi, hj, hb, hp⟩
    rw [hp]
    exact remove_scan_blocks_none _ _ _ 6 0 hs i j (by omega) (by omega) hb hj
  · next p hs =>
    injection h with h1 h2
    obtain ⟨i, j, _, hi, hb, hj, hp, hn⟩ := remove_scan_blocks_some _ _ _ 6 0 p hs
    exact Or.inr ⟨h1.symm, p, ⟨i, j, by omega, hj, hb, hp⟩, hn, h2.symm⟩

theorem remove_dentry_inv {s : Image} (hinv : Inv s) {dir : Nat} {inum now rc : Int}
    {s1 : Image} (hd : is_dir s dir) (h : remove_dentry s dir inum now = (rc, s1)) :
    Inv s1 := by
  rcases remove_dentry_cases h with ⟨_, e, _⟩ | ⟨_, p, hp, _, e⟩
  · rw [e]; exact hinv
  · rw [e]
    have h2 := hinv.clear_slot hd hp
    apply h2.set_inode hd.1
    · exact hinv.b.num dir hd.1
    · exact Or.inl ⟨rfl, fun _ => rfl⟩
    · exact hinv.b.size dir hd.1

end WFS

namespace WFS

/-! ## Counting allocated blocks -/

theorem set_bits_congr {bm bm1 : Nat → Nat} : ∀ (n : Nat),
    (∀ j, j < n → bit_set bm1 j = bit_set bm j) → set_bits bm1 n = set_bits bm n
  | 0, _ => rfl
  | n + 1, h => by
    simp only [set_bits]
    rw [set_bits_congr n (fun j hj => h j (by omega)), h n (by omega)]

theorem set_bits_set (bm : Nat → Nat) (k : Nat) (hc : bit_set bm k = false) : ∀ (n : Nat),
    set_bits (upd bm (k / 32) (bm (k / 32) ||| (1 <<< (k % 32)))) n
      = set_bits bm n + (if k < n then 1 else 0)
  | 0 => by simp [set_bits]
  | n + 1 => by
    simp only [set_bits]
    rw [set_bits_set bm k hc n, bit_set_upd_set]
    by_cases e : n = k
    · subst e
      simp [hc]
    · have : (decide (n = k)) = false := by simp [e]
      rw [this, Bool.or_false]
      by_cases e1 : k < n
      · have : k < n + 1 := by omega
        simp only [e1, this, if_true]; omega
      · have : ¬ k < n + 1 := by omega
        simp only [e1, this, if_false]; omega

theorem set_bits_le (bm : Nat → Nat) : ∀ (n : Nat), set_bits bm n ≤ n
  | 0 => le_refl _
  | n + 1 => by
    simp only [set_bits]
    have := set_bits_le bm n
    split <;> omega

theorem set_bits_full (bm : Nat → Nat) : ∀ (n : Nat),
    (∀ j, j < n → bit_set bm j = true) → set_bits bm n = n
  | 0, _ => rfl
  | n + 1, h => by
    simp only [set_bits]
    rw [set_bits_full bm n (fun j hj => h j (by omega)), h n (by omega)]
    simp

theorem used_blocks_with_new_block {s : Image} {n : Nat} (hn : n < s.sb.num_data_blocks)
    (hf : bit_set s.d_bitmap n = false) :
    used_blocks (with_new_block s n) = used_blocks s + 1 := by
  unfold used_blocks with_new_block
  simp only
  rw [set_bits_set _ _ hf, if_pos hn]

/-! ## Growth of a file -/

theorem newly_add {a b c : Int} (h1 : a ≠ 0 → b = a) (h2 : b ≠ 0 → c = b) :
    newly a b + newly b c = newly a c := by
  unfold newly
  by_cases ha : a = 0
  · by_cases hb : b = 0
    · simp [ha, hb]
    · have := h2 hb
      simp [ha, hb, this]
  · have hb := h1 ha
    have hc := h2 (by rw [hb]; exact ha)
    simp [ha, hb, hc]

theorem newly_same (a : Int) : newly a a = 0 := by
  unfold newly
  split
  · next h => exact absurd h.1 h.2
  · rfl

theorem Grow.refl (s : Image) (inode pos : Nat) : Grow s s inode pos where
  sb := rfl
  ib := rfl
  others := fun _ _ => rfl
  fields := ⟨_, rfl⟩
  bits := fun _ h => h
  keep := fun _ _ _ _ => rfl
  same := fun _ _ _ _ => rfl
  ind := fun _ => rfl
  data := fun _ _ _ _ _ _ _ _ => rfl
  fresh := fun h h1 => absurd h h1
  count := by simp [newly_same]

theorem Grow.live_same {s s1 : Image} {inode pos : Nat} (g : Grow s s1 inode pos) (k : Nat) :
    live s1 k ↔ live s k := live_congr g.sb g.ib k

theorem Grow.trans {s s1 s2 : Image} {inode pos : Nat} (hp : pos ≠ 6)
    (g : Grow s s1 inode pos) (g1 : Grow s1 s2 inode pos) (hl : live s inode) :
    Grow s s2 inode pos where
  sb := by rw [g1.sb, g.sb]
  ib := by rw [g1.ib, g.ib]
  others := fun k hk => by rw [g1.others k hk, g.others k hk]
  fields := by
    obtain ⟨bl, h⟩ := g.fields
    obtain ⟨bl1, h1⟩ := g1.fields
    exact ⟨bl1, by rw [h1, h]⟩
  bits := fun n h => g1.bits n (g.bits n h)
  keep := fun k p hk hr => by
    have e := g.keep k p hk hr
    rw [g1.keep k p ((g.live_same k).2 hk) (by rw [e]; exact hr), e]
  same := fun k p hk hn => by
    rw [g1.same k p ((g.live_same k).2 hk) hn, g.same k p hk hn]
  ind := fun h => by rw [g1.ind h, g.ind h]
  data := fun k p hk hp6 hr q h1 h2 => by
    have e := g.keep k p hk hr
    rw [g1.data k p ((g.live_same k).2 hk) hp6 (by rw [e]; exact hr) q (by rw [e]; exact h1)
      (by rw [e]; exact h2), g.data k p hk hp6 hr q h1 h2]
  fresh := fun h0 h2 q hq1 hq2 => by
    by_cases e : ref_at s1 inode pos = 0
    · exact g1.fresh e h2 q hq1 hq2
    · have e1 := g1.keep inode pos ((g.live_same inode).2 hl) e
      rw [e1] at hq1 hq2
      rw [g1.data inode pos ((g.live_same inode).2 hl) hp e q hq1 hq2]
      exact g.fresh h0 e q hq1 hq2
  count := by
    rw [g1.count, g.count]
    have a1 := newly_add (fun h => g.keep inode pos hl h)
      (fun h => g1.keep inode pos ((g.live_same inode).2 hl) h)
    have a2 := newly_add (fun h => g.keep inode 6 hl h)
      (fun h => g1.keep inode 6 ((g.live_same inode).2 hl) h)
    omega

theorem block_off_pos {s : Image} (h : InvB s) (n : Nat) : 0 < block_off s n := by
  have := h.sb.2.2.1
  unfold block_off; omega

theorem ref_at_attach {s : Image} (h : InvB s) {inode i n : Nat} (hi : i < 7)
    (h0 : (s.inodes inode).blocks i = 0) (hf : bit_set s.d_bitmap n = false)
    {k : Nat} (hk : live s k) (p : Nat) :
    ref_at (set_block (with_new_block s n) inode i (block_off s n)) k p
      = if k = inode ∧ p = i then block_off s n else ref_at s k p := by
  by_cases e : k = inode
  · subst e
    rw [ref_at_set_block_fresh hi (by exact h0) (fun q h1 h2 => with_new_block_data_in h1 h2),
      ref_at_with_new_block h hf hk]
    by_cases e1 : p = i
    · simp [e1]
    · simp [e1]
  · rw [ref_at_set_block_other _ _ _ e, ref_at_with_new_block h hf hk]
    simp [e]

/-- Attaching a freshly allocated block to the empty entry `i` of the address array. -/
theorem grow_attach {s : Image} (h : InvB s) {inode i n pos : Nat} (hl : live s inode)
    (hi : i < 7) (hpos : pos ≠ 6) (hip : i = pos ∨ (i = 6 ∧ 7 ≤ pos))
    (h0 : (s.inodes inode).blocks i = 0) (hn : n < s.sb.num_data_blocks)
    (hf : bit_set s.d_bitmap n = false) :
    Grow s (set_block (with_new_block s n) inode i (block_off s n)) inode pos := by
  have hr0 : ref_at s inode i = 0 := by rw [ref_at_direct s inode hi]; exact h0
  have hbp := block_off_pos h n
  refine ⟨rfl, rfl, fun k hk => set_block_other _ _ _ hk,
    ⟨upd (s.inodes inode).blocks i (block_off s n), by
      simp [set_block, set_inode, upd, with_new_block]⟩, ?_, ?_, ?_, ?_, ?_, ?_, ?_⟩
  · intro m hm
    simp only [set_block_d_bitmap, with_new_block, bit_set_upd_set, hm, Bool.true_or]
  · intro k p hk hr
    rw [ref_at_attach h hi h0 hf hk]
    split
    · next e => exfalso; apply hr; rw [e.1, e.2]; exact hr0
    · rfl
  · intro k p hk hne
    rw [ref_at_attach h hi h0 hf hk]
    split
    · next e => exfalso; apply hne; refine ⟨e.1, ?_⟩; rw [e.2]; omega
    · rfl
  · intro hp6
    rw [ref_at_attach h hi h0 hf hl]
    rw [if_neg (by omega)]
  · intro k p hk _ hr q h1 h2
    rw [set_block_data]
    exact with_new_block_frame hf (h.blk k p hk hr) q h1 h2
  · intro hz hnz q h1 h2
    rw [ref_at_attach h hi h0 hf hl] at hnz h1 h2
    rw [set_block_data]
    split at hnz
    · rw [if_pos (by assumption)] at h1 h2
      exact with_new_block_data_in h1 h2
    · exact absurd hz hnz
  · rw [ref_at_attach h hi h0 hf hl, ref_at_attach h hi h0 hf hl]
    have hu : used_blocks (set_block (with_new_block s n) inode i (block_off s n))
        = used_blocks s + 1 := used_blocks_with_new_block hn hf
    rw [hu]
    rcases hip with e | e
    · subst e
      have c2 : ¬ (inode = inode ∧ 6 = i) := by omega
      rw [if_pos ⟨rfl, rfl⟩, if_neg c2, newly_same, hr0]
      unfold newly
      rw [if_pos ⟨rfl, by omega⟩]
    · obtain ⟨e, _⟩ := e
      subst e
      have c2 : ¬ (inode = inode ∧ pos = 6) := by omega
      rw [if_neg c2, if_pos ⟨rfl, rfl⟩, newly_same, hr0]
      unfold newly
      rw [if_pos ⟨rfl, by omega⟩]

theorem inv_attach {s : Image} (h : Inv s) {inode i n : Nat} (hl : live s inode)
    (hi : i < 7) (h0 : (s.inodes inode).blocks i = 0) (hn : n < s.sb.num_data_blocks)
    (hf : bit_set s.d_bitmap n = false) :
    Inv (set_block (with_new_block s n) inode i (block_off s n)) := by
  apply (h.with_new_block hf).set_block_fresh hl hi h0 (is_block_new hn)
  · intro k pos hk hr
    rw [ref_at_with_new_block h.b hf hk] at hr ⊢
    exact fresh_of_clear h.b hf k pos hk hr
  · intro q h1 h2
    exact with_new_block_data_in h1 h2

/-- The image after `indirect[j] = new_block` for a freshly allocated block. -/
theorem ref_at_attach_child {s : Image} (h : InvB s) {inode j n : Nat} (hl : live s inode)
    (h6 : (s.inodes inode).blocks 6 ≠ 0) (hj : j < 64) (hn : n < s.sb.num_data_blocks)
    (hf : bit_set s.d_bitmap n = false) {k : Nat} (hk : live s k) (p : Nat) :
    ref_at { with_new_block s n with
        data := wr_off (with_new_block s n).data ((s.inodes inode).blocks 6 + 8 * (j : Int))
          (block_off s n) } k p
      = if k = inode ∧ p = 7 + j then block_off s n else ref_at s k p := by
  have := @ref_at_set_child (with_new_block s n) (h.with_new_block_b hf) inode j (block_off s n)
    hl h6 hj (is_block_new hn) k hk p
  rw [ref_at_with_new_block h hf hk] at this
  exact this

theorem inv_attach_child {s : Image} (h : Inv s) {inode j n : Nat} (hl : live s inode)
    (h6 : (s.inodes inode).blocks 6 ≠ 0) (hj : j < 64) (hn : n < s.sb.num_data_blocks)
    (hf : bit_set s.d_bitmap n = false) :
    Inv { with_new_block s n with
        data := wr_off (with_new_block s n).data ((s.inodes inode).blocks 6 + 8 * (j : Int))
          (block_off s n) } := by
  apply @Inv.set_child (with_new_block s n) (h.with_new_block hf) inode j (block_off s n) hl h6
    hj (is_block_new hn)
  intro k pos hk hr
  rw [ref_at_with_new_block h.b hf hk] at hr ⊢
  exact fresh_of_clear h.b hf k pos hk hr

theorem grow_attach_child {s : Image} (h : InvB s) {inode j n : Nat} (hl : live s inode)
    (h6 : (s.inodes inode).blocks 6 ≠ 0) (hj : j < 64)
    (h0 : rd_off s.data ((s.inodes inode).blocks 6 + 8 * (j : Int)) = 0)
    (hn : n < s.sb.num_data_blocks) (hf : bit_set s.d_bitmap n = false) :
    Grow s { with_new_block s n with
        data := wr_off (with_new_block s n).data ((s.inodes inode).blocks 6 + 8 * (j : Int))
          (block_off s n) } inode (7 + j) := by
  have hr0 : ref_at s inode (7 + j) = 0 := by
    rw [ref_at_child s inode (by omega) (by omega) h6]
    have : ((7 + j - 7 : Nat) : Int) = j := by omega
    rw [this]; exact h0
  have hr6 : ref_at s inode 6 ≠ 0 := by rw [ref_at_direct s inode (by omega)]; exact h6
  have hb6 := h.blk inode 6 hl hr6
  have hbp := block_off_pos h n
  have hout : ∀ q, (q < (s.inodes inode).blocks 6 ∨ (s.inodes inode).blocks 6 + 512 ≤ q) →
      wr_off (with_new_block s n).data ((s.inodes inode).blocks 6 + 8 * (j : Int))
        (block_off s n) q = (with_new_block s n).data q := by
    intro q hq
    apply wr_off_out
    omega
  refine ⟨rfl, rfl, fun k hk => rfl, ⟨_, rfl⟩, ?_, ?_, ?_, fun h7 => by omega, ?_, ?_, ?_⟩
  · intro m hm
    simp only [with_new_block, bit_set_upd_set, hm, Bool.true_or]
  · intro k p hk hr
    rw [ref_at_attach_child h hl h6 hj hn hf hk]
    split
    · next e => exfalso; apply hr; rw [e.1, e.2]; exact hr0
    · rfl
  · intro k p hk hne
    rw [ref_at_attach_child h hl h6 hj hn hf hk]
    split
    · next e => exfalso; apply hne; exact ⟨e.1, Or.inl e.2⟩
    · rfl
  · intro k p hk hp6 hr q h1 h2
    have hbk := h.blk k p hk hr
    show wr_off (with_new_block s n).data _ _ q = s.data q
    rw [hout q, with_new_block_frame hf hbk q h1 h2]
    rw [ref_at_direct s inode (by omega)] at hb6 hr6
    rcases is_block_disjoint hbk hb6 with e | e | e
    · exfalso
      rw [← ref_at_direct s inode (show 6 < 7 by omega)] at e
      exact hp6 (h.uniq inode 6 k p hl hk (by rw [ref_at_direct s inode (by omega)]; exact hr6)
        e).2
    · left; omega
    · right; omega
  · intro _ hnz q h1 h2
    rw [ref_at_attach_child h hl h6 hj hn hf hl, if_pos ⟨rfl, rfl⟩] at h1 h2
    show wr_off (with_new_block s n).data _ _ q = 0
    rw [hout q, with_new_block_data_in h1 h2]
    rw [ref_at_direct s inode (by omega)] at hb6
    obtain ⟨n1, _, e1, hbit1⟩ := hb6
    have : n1 ≠ n := fun e => by subst e; rw [hf] at hbit1; exact Bool.noConfusion hbit1
    unfold block_off at h1 h2
    omega
  · rw [ref_at_attach_child h hl h6 hj hn hf hl, ref_at_attach_child h hl h6 hj hn hf hl]
    have hu : used_blocks { with_new_block s n with
        data := wr_off (with_new_block s n).data ((s.inodes inode).blocks 6 + 8 * (j : Int))
          (block_off s n) } = used_blocks s + 1 := used_blocks_with_new_block hn hf
    rw [hu]
    have c2 : ¬ (inode = inode ∧ 6 = 7 + j) := by omega
    rw [if_pos ⟨rfl, rfl⟩, if_neg c2, newly_same, hr0]
    unfold newly
    rw [if_pos ⟨rfl, by omega⟩]

end WFS

namespace WFS

theorem bpos_ne_six (offset : Int) : bpos offset ≠ 6 := by
  unfold bpos
  split <;> omega

theorem bpos_lt {offset : Int} (h0 : 0 ≤ offset) (h1 : offset < 35840) : bpos offset < 71 := by
  unfold bpos
  split <;> omega

/-- Without allocation `data_offset` leaves the image alone and returns the address of the
byte when its block is attached. -/
theorem data_offset_read (s : Image) (inode : Nat) (offset : Int) :
    data_offset s inode offset false =
      (if 0 ≤ offset ∧ offset < 35840 ∧ ref_at s inode (bpos offset) ≠ 0
        then some (ref_at s inode (bpos offset) + offset % 512) else none, s) := by
  unfold data_offset
  simp only [D_BLOCK, BLOCK_SIZE, Bool.not_false, if_true, Nat.cast_ofNat]
  by_cases hr : offset ≥ (6 + 512 / 8) * 512 ∨ offset < 0
  · rw [if_pos hr]
    have : ¬ (0 ≤ offset ∧ offset < 35840 ∧ ref_at s inode (bpos offset) ≠ 0) := by
      intro h; omega
    rw [if_neg this]
  · rw [if_neg hr]
    have h0 : 0 ≤ offset := by omega
    have h1 : offset < 35840 := by omega
    by_cases hd : offset / 512 < 6
    · rw [if_pos hd]
      have hb : bpos offset = (offset / 512).toNat := by
        unfold bpos; rw [if_pos hd]
      have hlt : (offset / 512).toNat < 7 := by
        omega
      rw [hb, ref_at_direct s inode hlt]
      by_cases hz : (s.inodes inode).blocks (offset / 512).toNat = 0
      · rw [if_pos hz, if_neg (by intro h; exact h.2.2 hz)]
      · rw [if_neg hz, if_pos ⟨h0, h1, hz⟩]
    · rw [if_neg hd]
      have hd6 : 6 ≤ offset / 512 := by
        omega
      have hj : ¬ (offset / 512 - 6 < 0 ∨ offset / 512 - 6 ≥ 512 / 8) := by
        omega
      rw [if_neg hj]
      have hb : bpos offset = (offset / 512).toNat + 1 := by
        unfold bpos; rw [if_neg (by omega)]
      have hpos1 : ¬ (offset / 512).toNat + 1 < 7 := by omega
      have hpos2 : (offset / 512).toNat + 1 < 71 := by omega
      have hidx : (((offset / 512).toNat + 1 - 7 : Nat) : Int) = offset / 512 - 6 := by
        omega
      by_cases h6 : (s.inodes inode).blocks 6 = 0
      · simp only [h6, if_true, Bool.not_false]
        have : ref_at s inode (bpos offset) = 0 := by
          rw [hb]; unfold ref_at
          rw [if_neg hpos1, if_neg (by intro h; exact h.2 h6)]
        rw [if_neg (by intro h; exact h.2.2 this)]
      · simp only [h6, if_false, Bool.not_true, Bool.false_eq_true]
        have hre : ref_at s inode (bpos offset)
            = rd_off s.data ((s.inodes inode).blocks 6 + 8 * (offset / 512 - 6)) := by
          rw [hb]; unfold ref_at
          rw [if_neg hpos1, if_pos ⟨hpos2, h6⟩, hidx]
        rw [hre]
        by_cases hz : rd_off s.data ((s.inodes inode).blocks 6 + 8 * (offset / 512 - 6)) = 0
        · rw [if_pos hz, if_neg (by intro h; exact h.2.2 hz)]
        · rw [if_neg hz, if_pos ⟨h0, h1, hz⟩]

theorem block_off_nonneg {s : Image} (h : InvB s) (n : Nat) : ¬ block_off s n < 0 := by
  have := block_off_pos h n
  omega

theorem neg_enospc_lt : (-ENOSPC : Int) < 0 := by decide

theorem data_offset_out (s : Image) (inode : Nat) (offset : Int) (alloc : Bool)
    (h : offset < 0 ∨ 35840 ≤ offset) : data_offset s inode offset alloc = (none, s) := by
  unfold data_offset
  simp only [D_BLOCK, BLOCK_SIZE, Nat.cast_ofNat]
  rw [if_pos (by omega)]

theorem data_offset_direct (s : Image) (inode : Nat) (offset : Int)
    (h0 : 0 ≤ offset) (h1 : offset / 512 < 6) :
    data_offset s inode offset true =
      if (s.inodes inode).blocks (offset / 512).toNat = 0 then
        if (allocate_data_block s).1 < 0 then (none, (allocate_data_block s).2)
        else (some ((allocate_data_block s).1 + offset % 512),
          set_block (allocate_data_block s).2 inode (offset / 512).toNat (allocate_data_block s).1)
      else (some ((s.inodes inode).blocks (offset / 512).toNat + offset % 512), s) := by
  unfold data_offset
  simp only [D_BLOCK, BLOCK_SIZE, Bool.not_true, Bool.false_eq_true, if_false, Nat.cast_ofNat]
  rw [if_neg (by omega), if_pos h1]
  simp only [set_block_blocks, upd_same, if_true]

theorem data_offset_present (s : Image) (inode : Nat) (offset : Int)
    (h0 : 3072 ≤ offset) (h1 : offset < 35840) (h6 : (s.inodes inode).blocks 6 ≠ 0) :
    data_offset s inode offset true =
      if rd_off s.data ((s.inodes inode).blocks 6 + 8 * (offset / 512 - 6)) = 0 then
        if (allocate_data_block s).1 < 0 then (none, (allocate_data_block s).2)
        else (some (rd_off (wr_off (allocate_data_block s).2.data
              ((s.inodes inode).blocks 6 + 8 * (offset / 512 - 6)) (allocate_data_block s).1)
              ((s.inodes inode).blocks 6 + 8 * (offset / 512 - 6)) + offset % 512),
          { (allocate_data_block s).2 with
            data := wr_off (allocate_data_block s).2.data
              ((s.inodes inode).blocks 6 + 8 * (offset / 512 - 6)) (allocate_data_block s).1 })
      else (some (rd_off s.data ((s.inodes inode).blocks 6 + 8 * (offset / 512 - 6))
        + offset % 512), s) := by
  unfold data_offset
  simp only [D_BLOCK, BLOCK_SIZE, Bool.not_true, Bool.false_eq_true, if_false, Nat.cast_ofNat]
  rw [if_neg (by omega), if_neg (by omega), if_neg (by omega)]
  simp only [h6, if_false, Bool.not_true, Bool.false_eq_true]

theorem data_offset_absent_full (s : Image) (inode : Nat) (offset : Int)
    (h0 : 3072 ≤ offset) (h1 : offset < 35840) (h6 : (s.inodes inode).blocks 6 = 0)
    (ha : allocate_data_block s = (-ENOSPC, s)) :
    data_offset s inode offset true = (none, s) := by
  unfold data_offset
  simp only [D_BLOCK, BLOCK_SIZE, Bool.not_true, Bool.false_eq_true, if_false, Nat.cast_ofNat]
  rw [if_neg (by omega), if_neg (by omega), if_neg (by omega)]
  simp only [h6, ha, if_true, neg_enospc_lt, Bool.not_false]

theorem data_offset_absent {s : Image} (hb : InvB s) (inode : Nat) (offset : Int)
    (h0 : 3072 ≤ offset) (h1 : offset < 35840) (h6 : (s.inodes inode).blocks 6 = 0) (n : Nat)
    (ha : allocate_data_block s = (block_off s n, with_new_block s n)) :
    data_offset s inode offset true =
      data_offset (set_block (with_new_block s n) inode 6 (block_off s n)) inode offset true := by
  have hp := block_off_pos hb n
  have e6 : ((set_block (with_new_block s n) inode 6 (block_off s n)).inodes inode).blocks 6 ≠ 0 := by
    rw [set_block_blocks, if_pos rfl]
    exact ne_of_gt hp
  have hm : memset0 (set_block (with_new_block s n) inode 6 (block_off s n)).data
      (block_off s n) 512 = (set_block (with_new_block s n) inode 6 (block_off s n)).data := by
    rw [set_block_data]
    exact memset0_idem _ _ _
  rw [data_offset_present _ inode offset h0 h1 e6]
  unfold data_offset
  simp only [D_BLOCK, BLOCK_SIZE, Bool.not_true, Bool.false_eq_true, if_false, Nat.cast_ofNat]
  rw [if_neg (by omega), if_neg (by omega), if_neg (by omega)]
  simp only [h6, ha, if_true, block_off_nonneg hb n, if_false, Bool.not_true, Bool.false_eq_true,
    hm]

theorem bpos_direct {offset : Int} (hd : offset / 512 < 6) :
    bpos offset = (offset / 512).toNat ∧ (offset / 512).toNat < 6 := by
  unfold bpos
  rw [if_pos hd]
  omega

theorem bpos_indirect {offset : Int} (hd : ¬ offset / 512 < 6) :
    bpos offset = 7 + (offset / 512 - 6).toNat := by
  unfold bpos
  rw [if_neg hd]
  omega

/-- `data_offset` with allocation, when the indirect block is not needed or is present. -/
theorem data_offset_alloc_aux {s : Image} (h : Inv s) {inode : Nat} (hl : live s inode)
    (offset : Int) (hcase : offset / 512 < 6 ∨ (s.inodes inode).blocks 6 ≠ 0)
    {r : Option Int} {s1 : Image} (e : data_offset s inode offset true = (r, s1)) :
    Inv s1 ∧ Grow s s1 inode (bpos offset) ∧
    (∀ dst, r = some dst → 0 ≤ offset ∧ offset < 35840 ∧ ref_at s1 inode (bpos offset) ≠ 0 ∧
        dst = ref_at s1 inode (bpos offset) + offset % 512) ∧
    (r = none → (offset < 0 ∨ 35840 ≤ offset) ∨
        ((∀ n, n < s1.sb.num_data_blocks → bit_set s1.d_bitmap n = true) ∧
          ref_at s1 inode (bpos offset) = 0)) := by
  by_cases hout : offset < 0 ∨ 35840 ≤ offset
  · rw [data_offset_out s inode offset true hout] at e
    obtain ⟨rfl, rfl⟩ := Prod.mk.inj e
    exact ⟨h, Grow.refl _ _ _, fun dst hd => Option.noConfusion hd, fun _ => Or.inl hout⟩
  have h0 : 0 ≤ offset := by omega
  have h1 : offset < 35840 := by omega
  by_cases hd : offset / 512 < 6
  · obtain ⟨hb, hlt⟩ := bpos_direct hd
    rw [data_offset_direct s inode offset h0 hd] at e
    rw [hb]
    by_cases hz : (s.inodes inode).blocks (offset / 512).toNat = 0
    · rw [if_pos hz] at e
      rcases allocate_data_block_cases h.b with ⟨ha, hfull⟩ | ⟨n, hn, hf, ha⟩
      · rw [ha, if_pos neg_enospc_lt] at e
        obtain ⟨rfl, rfl⟩ := Prod.mk.inj e
        exact ⟨h, Grow.refl _ _ _, fun dst hd => Option.noConfusion hd, fun _ => Or.inr ⟨hfull, by
          rw [ref_at_direct s inode (by omega)]; exact hz⟩⟩
      · rw [ha, if_neg (block_off_nonneg h.b n)] at e
        obtain ⟨rfl, rfl⟩ := Prod.mk.inj e
        refine ⟨inv_attach h hl (by omega) hz hn hf,
          grow_attach h.b hl (by omega) (by omega) (Or.inl rfl) hz hn hf, ?_,
          fun hd => Option.noConfusion hd⟩
        intro dst hdst
        have hr := ref_at_attach h.b (show (offset / 512).toNat < 7 by omega) hz hf hl
          (offset / 512).toNat
        rw [if_pos ⟨rfl, rfl⟩] at hr
        have hp := block_off_pos h.b n
        refine ⟨h0, h1, by rw [hr]; omega, ?_⟩
        rw [hr]
        exact (Option.some.inj hdst).symm
    · rw [if_neg hz] at e
      obtain ⟨rfl, rfl⟩ := Prod.mk.inj e
      have hr : ref_at s inode (offset / 512).toNat = (s.inodes inode).blocks (offset / 512).toNat :=
        ref_at_direct s inode (by omega)
      refine ⟨h, Grow.refl _ _ _, ?_, fun hd => Option.noConfusion hd⟩
      intro dst hdst
      refine ⟨h0, h1, by rw [hr]; exact hz, ?_⟩
      rw [hr]
      exact (Option.some.inj hdst).symm
  · have h6 : (s.inodes inode).blocks 6 ≠ 0 := hcase.resolve_left hd
    have hb := bpos_indirect hd
    have hj : (offset / 512 - 6).toNat < 64 := by omega
    have hcast : offset / 512 - 6 = (((offset / 512 - 6).toNat : Nat) : Int) := by omega
    rw [data_offset_present s inode offset (by omega) h1 h6] at e
    rw [hb]
    rw [hcast] at e
    have hrs : ref_at s inode (7 + (offset / 512 - 6).toNat)
        = rd_off s.data ((s.inodes inode).blocks 6 + 8 * (((offset / 512 - 6).toNat : Nat) : Int)) := by
      rw [ref_at_child s inode (by omega) (by omega) h6]
      have : ((7 + (offset / 512 - 6).toNat - 7 : Nat) : Int)
          = (((offset / 512 - 6).toNat : Nat) : Int) := by omega
      rw [this]
    by_cases hz : rd_off s.data
        ((s.inodes inode).blocks 6 + 8 * (((offset / 512 - 6).toNat : Nat) : Int)) = 0
    · rw [if_pos hz] at e
      rcases allocate_data_block_cases h.b with ⟨ha, hfull⟩ | ⟨n, hn, hf, ha⟩
      · rw [ha, if_pos neg_enospc_lt] at e
        obtain ⟨rfl, rfl⟩ := Prod.mk.inj e
        exact ⟨h, Grow.refl _ _ _, fun dst hd => Option.noConfusion hd, fun _ => Or.inr ⟨hfull, by
          rw [hrs]; exact hz⟩⟩
      · rw [ha, if_neg (block_off_nonneg h.b n)] at e
        obtain ⟨rfl, rfl⟩ := Prod.mk.inj e
        refine ⟨inv_attach_child h hl h6 hj hn hf,
          grow_attach_child h.b hl h6 hj hz hn hf, ?_, fun hd => Option.noConfusion hd⟩
        intro dst hdst
        have hr := ref_at_attach_child h.b hl h6 hj hn hf hl (7 + (offset / 512 - 6).toNat)
        rw [if_pos ⟨rfl, rfl⟩] at hr
        have hp := block_off_pos h.b n
        have hlim := h.b.sb.2.2.2.1
        have hn1 : (n : Int) < s.sb.num_data_blocks := by exact_mod_cast hn
        have hw : rd_off (wr_off (with_new_block s n).data
            ((s.inodes inode).blocks 6 + 8 * (((offset / 512 - 6).toNat : Nat) : Int))
            (block_off s n))
            ((s.inodes inode).blocks 6 + 8 * (((offset / 512 - 6).toNat : Nat) : Int))
            = block_off s n := by
          apply rd_off_wr_off
          · omega
          · unfold block_off; omega
        refine ⟨h0, h1, by rw [hr]; omega, ?_⟩
        rw [hr]
        have := (Option.some.inj hdst).symm
        rw [hw] at this
        exact this
    · rw [if_neg hz] at e
      obtain ⟨rfl, rfl⟩ := Prod.mk.inj e
      refine ⟨h, Grow.refl _ _ _, ?_, fun hd => Option.noConfusion hd⟩
      intro dst hdst
      refine ⟨h0, h1, by rw [hrs]; exact hz, ?_⟩
      rw [hrs]
      exact (Option.some.inj hdst).symm

/-- `data_offset(inode, offset, 1)` keeps the invariant, only adds blocks for the position
of `offset`, returns the address of the byte when it succeeds, and fails only outside the
addressable range or when the data bitmap is full. -/
theorem data_offset_alloc {s : Image} (h : Inv s) {inode : Nat} (hl : live s inode)
    (offset : Int) {r : Option Int} {s1 : Image}
    (e : data_offset s inode offset true = (r, s1)) :
    Inv s1 ∧ Grow s s1 inode (bpos offset) ∧
    (∀ dst, r = some dst → 0 ≤ offset ∧ offset < 35840 ∧ ref_at s1 inode (bpos offset) ≠ 0 ∧
        dst = ref_at s1 inode (bpos offset) + offset % 512) ∧
    (r = none → (offset < 0 ∨ 35840 ≤ offset) ∨
        ((∀ n, n < s1.sb.num_data_blocks → bit_set s1.d_bitmap n = true) ∧
          ref_at s1 inode (bpos offset) = 0)) := by
  by_cases hcase : offset / 512 < 6 ∨ (s.inodes inode).blocks 6 ≠ 0
  · exact data_offset_alloc_aux h hl offset hcase e
  have hd : ¬ offset / 512 < 6 := fun x => hcase (Or.inl x)
  have h6 : (s.inodes inode).blocks 6 = 0 := by
    by_contra x; exact hcase (Or.inr x)
  by_cases hout : offset < 0 ∨ 35840 ≤ offset
  · rw [data_offset_out s inode offset true hout] at e
    obtain ⟨rfl, rfl⟩ := Prod.mk.inj e
    exact ⟨h, Grow.refl _ _ _, fun dst hd => Option.noConfusion hd, fun _ => Or.inl hout⟩
  have h0 : 3072 ≤ offset := by omega
  have h1 : offset < 35840 := by omega
  rcases allocate_data_block_cases h.b with ⟨ha, hfull⟩ | ⟨n, hn, hf, ha⟩
  · rw [data_offset_absent_full s inode offset h0 h1 h6 ha] at e
    obtain ⟨rfl, rfl⟩ := Prod.mk.inj e
    exact ⟨h, Grow.refl _ _ _, fun dst hd => Option.noConfusion hd, fun _ => Or.inr ⟨hfull, by
      rw [bpos_indirect hd]; exact ref_at_no_indirect s inode (by omega) h6⟩⟩
  · rw [data_offset_absent h.b inode offset h0 h1 h6 n ha] at e
    have hinv := inv_attach h hl (show 6 < 7 by omega) h6 hn hf
    have hg := @grow_attach s h.b inode 6 n (bpos offset) hl (by omega) (bpos_ne_six offset)
      (Or.inr ⟨rfl, by have := bpos_indirect hd; omega⟩) h6 hn hf
    have hl1 : live (set_block (with_new_block s n) inode 6 (block_off s n)) inode :=
      (hg.live_same inode).2 hl
    have e6 : ((set_block (with_new_block s n) inode 6 (block_off s n)).inodes inode).blocks 6
        ≠ 0 := by
      rw [set_block_blocks, if_pos rfl]
      exact ne_of_gt (block_off_pos h.b n)
    obtain ⟨a, b, c, d⟩ := data_offset_alloc_aux hinv hl1 offset (Or.inr e6) e
    exact ⟨a, Grow.trans (bpos_ne_six offset) hg b hl, c, d⟩

end WFS

namespace WFS

/-! ### Counting the references of a file -/

theorem ind_newly {a b : Int} (hk : a ≠ 0 → b = a) :
    (if b ≠ 0 then 1 else 0 : Nat) = (if a ≠ 0 then 1 else 0) + newly a b := by
  unfold newly
  by_cases ha : a = 0
  · by_cases hb : b = 0 <;> simp [ha, hb]
  · have := hk ha
    simp [ha, this]

theorem newly_zero_of_high (s s1 : Image) (k : Nat) {pos : Nat} (h : 71 ≤ pos) :
    newly (ref_at s k pos) (ref_at s1 k pos) = 0 := by
  rw [ref_at_high s k h, ref_at_high s1 k h]
  exact newly_same 0

theorem count_refs_grow {s s1 : Image} {inode pos : Nat} (g : Grow s s1 inode pos)
    (hp : pos ≠ 6) (hl : live s inode) : ∀ n,
    count_refs s1 inode n = count_refs s inode n
      + (if pos < n then newly (ref_at s inode pos) (ref_at s1 inode pos) else 0)
      + (if 6 < n then newly (ref_at s inode 6) (ref_at s1 inode 6) else 0)
  | 0 => by simp [count_refs]
  | n + 1 => by
    simp only [count_refs]
    rw [count_refs_grow g hp hl n]
    by_cases e1 : n = pos
    · subst e1
      rw [ind_newly (g.keep inode n hl)]
      split_ifs <;> omega
    · by_cases e2 : n = 6
      · subst e2
        rw [ind_newly (g.keep inode 6 hl)]
        split_ifs <;> omega
      · rw [g.same inode n hl (by intro h; omega)]
        split_ifs <;> omega

theorem Grow.wrote {s s1 : Image} {inode pos : Nat} (g : Grow s s1 inode pos)
    (hp : pos ≠ 6) (hl : live s inode) : Wrote s s1 inode where
  sb := g.sb
  ib := g.ib
  others := g.others
  fields := g.fields
  bits := g.bits
  keep := g.keep
  same := fun k p hk hne => g.same k p hk (fun h => hne h.1)
  data := fun k p hk _ hp6 hr => g.data k p hk hp6 hr
  count := by
    unfold nrefs
    rw [count_refs_grow g hp hl 71, g.count]
    by_cases h : pos < 71
    · rw [if_pos h, if_pos (by omega)]
      omega
    · rw [if_neg h, if_pos (by omega), newly_zero_of_high s s1 inode (by omega)]
      omega

theorem Wrote.same_image (s : Image) (inode : Nat) : Wrote s s inode where
  sb := rfl
  ib := rfl
  others := fun _ _ => rfl
  fields := ⟨_, rfl⟩
  bits := fun _ h => h
  keep := fun _ _ _ _ => rfl
  same := fun _ _ _ _ => rfl
  data := fun _ _ _ _ _ _ _ _ _ => rfl
  count := by omega

theorem Wrote.live_kept {s s1 : Image} {inode : Nat} (g : Wrote s s1 inode) (k : Nat) :
    live s1 k ↔ live s k := live_congr g.sb g.ib k

theorem Wrote.andThen {s s1 s2 : Image} {inode : Nat}
    (g : Wrote s s1 inode) (g1 : Wrote s1 s2 inode) : Wrote s s2 inode where
  sb := by rw [g1.sb, g.sb]
  ib := by rw [g1.ib, g.ib]
  others := fun k hk => by rw [g1.others k hk, g.others k hk]
  fields := by
    obtain ⟨bl, h⟩ := g.fields
    obtain ⟨bl1, h1⟩ := g1.fields
    exact ⟨bl1, by rw [h1, h]⟩
  bits := fun n h => g1.bits n (g.bits n h)
  keep := fun k p hk hr => by
    have e := g.keep k p hk hr
    rw [g1.keep k p ((g.live_kept k).2 hk) (by rw [e]; exact hr), e]
  same := fun k p hk hn => by
    rw [g1.same k p ((g.live_kept k).2 hk) hn, g.same k p hk hn]
  data := fun k p hk hne hp6 hr q h1 h2 => by
    have e := g.keep k p hk hr
    rw [g1.data k p ((g.live_kept k).2 hk) hne hp6 (by rw [e]; exact hr) q (by rw [e]; exact h1)
      (by rw [e]; exact h2), g.data k p hk hne hp6 hr q h1 h2]
  count := by
    have a := g.count
    have b := g1.count
    omega

theorem count_refs_congr {s s1 : Image} {k : Nat} (h : ∀ p, ref_at s1 k p = ref_at s k p) :
    ∀ n, count_refs s1 k n = count_refs s k n
  | 0 => rfl
  | n + 1 => by simp only [count_refs]; rw [count_refs_congr h n, h n]

/-- Storing bytes into a data block of the file. -/
theorem wrote_data {s : Image} (h : InvB s) (m1 : Int → Nat) {inode pos : Nat}
    (hl : live s inode) (hp : pos ≠ 6) (hc : ref_at s inode pos ≠ 0)
    (hm : ∀ q, (q < ref_at s inode pos ∨ ref_at s inode pos + 512 ≤ q) → m1 q = s.data q) :
    Wrote s { s with data := m1 } inode where
  sb := rfl
  ib := rfl
  others := fun _ _ => rfl
  fields := ⟨_, rfl⟩
  bits := fun _ h => h
  keep := fun k p hk _ => ref_at_data_write h m1 hl hp hc hm hk p
  same := fun k p hk _ => ref_at_data_write h m1 hl hp hc hm hk p
  data := fun k p hk hne hp6 hr q h1 h2 => by
    apply hm
    have hb := h.blk k p hk hr
    have hb0 := h.blk inode pos hl hc
    rcases is_block_disjoint hb hb0 with e | e | e
    · exact absurd (h.uniq k p inode pos hk hl hr e.symm).1.symm hne
    · left; omega
    · right; omega
  count := by
    have : nrefs { s with data := m1 } inode = nrefs s inode :=
      count_refs_congr (fun p => ref_at_data_write h m1 hl hp hc hm hl p) 71
    show used_blocks s + nrefs s inode = used_blocks s + nrefs { s with data := m1 } inode
    rw [this]

/-! ### The bytes of a file -/

theorem file_byte_eq (s : Image) (inode : Nat) (x : Int) :
    file_byte s inode x =
      if 0 ≤ x ∧ x < 35840 ∧ ref_at s inode (bpos x) ≠ 0
      then s.data (ref_at s inode (bpos x) + x % 512) else 0 := by
  unfold file_byte
  rw [data_offset_read]
  by_cases h : 0 ≤ x ∧ x < 35840 ∧ ref_at s inode (bpos x) ≠ 0
  · rw [if_pos h, if_pos h]
  · rw [if_neg h, if_neg h]

theorem bpos_eq_iff {x y : Int} (hx : 0 ≤ x) (hy : 0 ≤ y) :
    bpos x = bpos y ↔ x / 512 = y / 512 := by
  unfold bpos
  constructor
  · intro h
    split at h <;> split at h <;> omega
  · intro h
    rw [h]

/-- The bytes of a file depend on its block references and on the bytes of the blocks
that hold data. -/
theorem file_byte_congr {s s1 : Image} {k : Nat}
    (hr : ∀ p, ref_at s1 k p = ref_at s k p)
    (hd : ∀ p, p ≠ 6 → ref_at s k p ≠ 0 →
      ∀ q, ref_at s k p ≤ q → q < ref_at s k p + 512 → s1.data q = s.data q) (x : Int) :
    file_byte s1 k x = file_byte s k x := by
  rw [file_byte_eq, file_byte_eq, hr]
  split
  · next h =>
    rw [hd (bpos x) (bpos_ne_six x) h.2.2 _ (by omega) (by omega)]
  · rfl

/-- One round of the loop of `wfs_write`: after `data_offset` returned `dst` for `off`, the
bytes `c`, which fit the rest of the block, are stored at `dst`. -/
theorem write_step {s : Image} (h : Inv s) {inode : Nat} (hl : live s inode)
    (hnd : S_ISDIR (s.inodes inode).mode = false) {off : Int} (h0 : 0 ≤ off)
    {dst : Int} {s1 : Image} (e : data_offset s inode off true = (some dst, s1))
    (c : List Nat) (hc : (c.length : Int) ≤ 512 - off % 512) :
    Inv { s1 with data := memcpy s1.data dst c } ∧
    Wrote s { s1 with data := memcpy s1.data dst c } inode ∧ off < 35840 ∧
    ref_at { s1 with data := memcpy s1.data dst c } inode (bpos off) ≠ 0 ∧
    (∀ p, p ≠ bpos off → p ≠ 6 →
      ref_at { s1 with data := memcpy s1.data dst c } inode p = ref_at s inode p) ∧
    (bpos off < 6 →
      ref_at { s1 with data := memcpy s1.data dst c } inode 6 = ref_at s inode 6) ∧
    (∀ x, file_byte { s1 with data := memcpy s1.data dst c } inode x =
      if off ≤ x ∧ x < off + c.length then c.getD (x - off).toNat 0
      else file_byte s inode x) := by
  obtain ⟨hinv1, g, hdst, _⟩ := data_offset_alloc h hl off e
  obtain ⟨_, h1, hr, hd⟩ := hdst dst rfl
  have hl1 : live s1 inode := (g.live_same inode).2 hl
  have hp6 := bpos_ne_six off
  have hm : ∀ q, (q < ref_at s1 inode (bpos off) ∨ ref_at s1 inode (bpos off) + 512 ≤ q) →
      memcpy s1.data dst c q = s1.data q := by
    intro q hq
    apply memcpy_out
    omega
  have hmode : (s1.inodes inode).mode = (s.inodes inode).mode := by
    obtain ⟨bl, hbl⟩ := g.fields
    rw [hbl]
  have href : ∀ p, ref_at { s1 with data := memcpy s1.data dst c } inode p = ref_at s1 inode p :=
    fun p => ref_at_data_write hinv1.b _ hl1 hp6 hr hm hl1 p
  refine ⟨?_, (g.wrote hp6 hl).andThen (wrote_data hinv1.b _ hl1 hp6 hr hm), h1, ?_, ?_, ?_, ?_⟩
  · apply hinv1.data_write _ hl1 hp6 hr _ hm
    intro hdir
    have := hdir.1.2
    rw [hmode, hnd] at this
    exact Bool.noConfusion this
  · rw [href]; exact hr
  · intro p hp hp6
    rw [href, g.same inode p hl (by intro hh; omega)]
  · intro hlt
    rw [href, g.ind hlt]
  · intro x
    rw [file_byte_eq, file_byte_eq]
    simp only [href]
    by_cases hin : off ≤ x ∧ x < off + c.length
    · rw [if_pos hin]
      have hbx : bpos x = bpos off := (bpos_eq_iff (by omega) h0).2 (by omega)
      rw [hbx, if_pos ⟨by omega, by omega, hr⟩]
      have : ref_at s1 inode (bpos off) + x % 512 = dst + (((x - off).toNat : Nat) : Int) := by
        omega
      show memcpy s1.data dst c _ = _
      rw [this]
      exact memcpy_in _ (by omega)
    · rw [if_neg hin]
      by_cases hrange : 0 ≤ x ∧ x < 35840
      · by_cases hbx : bpos x = bpos off
        · rw [hbx, if_pos ⟨hrange.1, hrange.2, hr⟩]
          have hdiv := (bpos_eq_iff hrange.1 h0).1 hbx
          show memcpy s1.data dst c _ = _
          rw [memcpy_out (by omega)]
          by_cases hz : ref_at s inode (bpos off) = 0
          · rw [if_neg (by intro hh; exact hh.2.2 hz)]
            exact g.fresh hz hr _ (by omega) (by omega)
          · rw [if_pos ⟨hrange.1, hrange.2, hz⟩]
            have ek := g.keep inode (bpos off) hl hz
            rw [ek]
            exact g.data inode (bpos off) hl hp6 hz _ (by omega) (by omega)
        · have es := g.same inode (bpos x) hl (by intro hh; have := bpos_ne_six x; omega)
          rw [es]
          by_cases hz : ref_at s inode (bpos x) = 0
          · rw [if_neg (by intro hh; exact hh.2.2 hz), if_neg (by intro hh; exact hh.2.2 hz)]
          · rw [if_pos ⟨hrange.1, hrange.2, hz⟩, if_pos ⟨hrange.1, hrange.2, hz⟩]
            have hz1 : ref_at s1 inode (bpos x) ≠ 0 := by rw [es]; exact hz
            have hb := hinv1.b.blk inode (bpos x) hl1 hz1
            have hb0 := hinv1.b.blk inode (bpos off) hl1 hr
            rw [es] at hb
            show memcpy s1.data dst c _ = _
            rw [memcpy_out, g.data inode (bpos x) hl (bpos_ne_six x) hz _ (by omega) (by omega)]
            rcases is_block_disjoint hb hb0 with e1 | e1 | e1
            · exfalso
              apply hbx
              have := hinv1.b.uniq inode (bpos off) inode (bpos x) hl1 hl1 hr (by rw [es]; exact e1)
              exact this.2
            · left; omega
            · right; omega
      · rw [if_neg (by intro hh; exact hrange ⟨hh.1, hh.2.1⟩),
          if_neg (by intro hh; exact hrange ⟨hh.1, hh.2.1⟩)]

/-! ### The loop of `wfs_write` -/

theorem getD_take (l : List Nat) (n i : Nat) (h : i < n) :
    (l.take n).getD i 0 = l.getD i 0 := by
  simp [List.getD_eq_getElem?_getD, List.getElem?_take, h]

theorem getD_drop (l : List Nat) (n i : Nat) : (l.drop n).getD i 0 = l.getD (n + i) 0 := by
  simp [List.getD_eq_getElem?_getD, List.getElem?_drop]

/-- The loop of `wfs_write` on a regular file: it keeps the invariant; when it completes,
the bytes of the range `[off, off + left)` are those of `buf`, the other bytes of the file
are as before, and the blocks of the range are attached; it fails only when the range
leaves the addressable part or the data bitmap is full. -/
theorem write_loop_spec (inode : Nat) : ∀ (fuel : Nat) (s : Image) (buf : List Nat)
    (left off : Int) (ok : Bool) (s1 : Image), Inv s → live s inode →
    S_ISDIR (s.inodes inode).mode = false → 0 ≤ off → 0 ≤ left → left ≤ buf.length →
    left ≤ fuel →
    write_loop fuel s inode buf left off = (ok, s1) →
    Inv s1 ∧ Wrote s s1 inode ∧
    (ok = true →
      (0 < left → off + left ≤ 35840) ∧
      (∀ x, file_byte s1 inode x =
        if off ≤ x ∧ x < off + left then buf.getD (x - off).toNat 0 else file_byte s inode x) ∧
      (∀ p, p ≠ 6 → (∀ x, off ≤ x → x < off + left → p ≠ bpos x) →
        ref_at s1 inode p = ref_at s inode p) ∧
      (∀ x, off ≤ x → x < off + left → ref_at s1 inode (bpos x) ≠ 0) ∧
      (off + left ≤ 3072 → ref_at s1 inode 6 = ref_at s inode 6)) ∧
    (ok = false → 35840 < off + left ∨
      ((∀ n, n < s1.sb.num_data_blocks → bit_set s1.d_bitmap n = true) ∧
        ∃ x, off ≤ x ∧ x < off + left ∧ ref_at s1 inode (bpos x) = 0))
  | 0, s, buf, left, off, ok, s1, hinv, hl, hnd, h0, hnn, hlen, hfuel, e => by
    simp only [write_loop] at e
    obtain ⟨rfl, rfl⟩ := Prod.mk.inj e
    have hl0 : left = 0 := by
      simp only [Nat.cast_zero] at hfuel
      omega
    refine ⟨hinv, Wrote.same_image _ _, fun _ => ⟨fun h => by omega, fun x => ?_, fun _ _ _ => rfl,
      fun x h1 h2 => by omega, fun _ => rfl⟩, fun h => Bool.noConfusion h⟩
    rw [if_neg (by omega)]
  | fuel + 1, s, buf, left, off, ok, s1, hinv, hl, hnd, h0, hnn, hlen, hfuel, e => by
    simp only [write_loop] at e
    by_cases hpos : left ≤ 0
    · rw [if_pos hpos] at e
      obtain ⟨rfl, rfl⟩ := Prod.mk.inj e
      refine ⟨hinv, Wrote.same_image _ _, fun _ => ⟨fun h => by omega, fun x => ?_, fun _ _ _ => rfl,
        fun x h1 h2 => by omega, fun _ => rfl⟩, fun h => Bool.noConfusion h⟩
      rw [if_neg (by omega)]
    rw [if_neg hpos, Int.tmod_eq_emod h0 (by norm_num)] at e
    simp only [BLOCK_SIZE] at e
    generalize hc : (if 512 - off % 512 > left then left else 512 - off % 512) = c at e
    have hc1 : 1 ≤ c ∧ c ≤ left ∧ c ≤ 512 - off % 512 := by
      rw [← hc]
      split <;> omega
    cases hdo : data_offset s inode off true with
    | mk r sA =>
      rw [hdo] at e
      cases r with
      | none =>
        simp only at e
        obtain ⟨rfl, rfl⟩ := Prod.mk.inj e
        obtain ⟨hinvA, g, _, hnone⟩ := data_offset_alloc hinv hl off hdo
        refine ⟨hinvA, g.wrote (bpos_ne_six off) hl, fun h => Bool.noConfusion h, fun _ => ?_⟩
        rcases hnone rfl with hh | hh
        · left; omega
        · right; exact ⟨hh.1, off, le_refl _, by omega, hh.2⟩
      | some dst =>
        simp only at e
        have hclen : ((buf.take c.toNat).length : Int) = c := by
          rw [List.length_take]
          omega
        obtain ⟨hinv2, hw, hlt, hrpos, hrsame, hr6, hbytes⟩ :=
          write_step hinv hl hnd h0 hdo (buf.take c.toNat) (by omega)
        have hl2 := (hw.live_kept inode).2 hl
        have hnd2 : S_ISDIR (({ sA with data := memcpy sA.data dst (buf.take c.toNat) } :
            Image).inodes inode).mode = false := by
          obtain ⟨bl, hbl⟩ := hw.fields
          rw [hbl]
          exact hnd
        have hdl : left - c ≤ ((buf.drop c.toNat).length : Int) := by
          rw [List.length_drop]
          omega
        obtain ⟨hinv3, hw3, hok, hfail⟩ := write_loop_spec inode fuel _ (buf.drop c.toNat)
          (left - c) (off + c) ok s1 hinv2 hl2 hnd2 (by omega) (by omega) hdl
          (by push_cast at hfuel; omega) e
        refine ⟨hinv3, hw.andThen hw3, ?_, ?_⟩
        · intro hk
          obtain ⟨a1, a2, a3, a4, a5⟩ := hok hk
          refine ⟨?_, ?_, ?_, ?_, ?_⟩
          · intro _
            by_cases hz : 0 < left - c
            · have := a1 hz; omega
            · omega
          · intro x
            rw [a2 x, hbytes x, hclen]
            by_cases hx1 : off + c ≤ x ∧ x < off + c + (left - c)
            · rw [if_pos hx1, if_pos (by omega), getD_drop]
              congr 1
              omega
            · rw [if_neg hx1]
              by_cases hx2 : off ≤ x ∧ x < off + c
              · rw [if_pos hx2, if_pos (by omega), getD_take _ _ _ (by omega)]
              · rw [if_neg hx2, if_neg (by omega)]
          · intro p hp6 hp
            rw [a3 p hp6 (fun x h1 h2 => hp x (by omega) (by omega))]
            exact hrsame p (hp off (le_refl _) (by omega)) hp6
          · intro x h1 h2
            by_cases hx : off + c ≤ x
            · exact a4 x hx (by omega)
            · have hbx : bpos x = bpos off := (bpos_eq_iff (by omega) h0).2 (by omega)
              rw [hbx, hw3.keep inode (bpos off) hl2 hrpos]
              exact hrpos
          · intro h3072
            rw [a5 (by omega)]
            apply hr6
            unfold bpos
            split <;> omega
        · intro hk
          rcases hfail hk with hh | ⟨hh, x, hx1, hx2, hx3⟩
          · left; omega
          · right; exact ⟨hh, x, by omega, by omega, hx3⟩

/-! ### The loop of `wfs_read` -/

theorem getD_replicate_zero (n i : Nat) : (List.replicate n 0).getD i 0 = 0 := by
  simp only [List.getD_eq_getElem?_getD, List.getElem?_replicate]
  split <;> rfl

/-- The bytes one round of the loop of `wfs_read` stores are the bytes of the file. -/
theorem read_chunk (s : Image) (inode : Nat) {off : Int} (h0 : 0 ≤ off) (c : Nat)
    (hc : (c : Int) ≤ 512 - off % 512) :
    ∀ i : Nat, i < c → file_byte s inode (off + i) =
      if 0 ≤ off ∧ off < 35840 ∧ ref_at s inode (bpos off) ≠ 0
      then s.data (ref_at s inode (bpos off) + off % 512 + i) else 0 := by
  intro i hi
  rw [file_byte_eq]
  have hb : bpos (off + i) = bpos off := (bpos_eq_iff (by omega) h0).2 (by omega)
  rw [hb]
  by_cases h : 0 ≤ off ∧ off < 35840 ∧ ref_at s inode (bpos off) ≠ 0
  · rw [if_pos h, if_pos ⟨by omega, by omega, h.2.2⟩]
    congr 1
    omega
  · rw [if_neg h, if_neg (by intro hh; apply h; exact ⟨h0, by omega, hh.2.2⟩)]

/-- The loop of `wfs_read` returns the bytes of the file in the range asked for. -/
theorem read_loop_spec (s : Image) (inode : Nat) : ∀ (fuel left : Nat) (off : Int),
    0 ≤ off → left ≤ fuel →
    (read_loop s inode fuel left off).length = left ∧
    ∀ i, i < left → (read_loop s inode fuel left off).getD i 0 = file_byte s inode (off + i)
  | 0, left, off, _, hf => by
    have : left = 0 := by omega
    subst this
    exact ⟨rfl, fun i hi => by omega⟩
  | fuel + 1, left, off, h0, hf => by
    simp only [read_loop]
    by_cases hz : left = 0
    · subst hz
      exact ⟨rfl, fun i hi => by omega⟩
    rw [if_neg hz, Int.tmod_eq_emod h0 (by norm_num)]
    simp only [BLOCK_SIZE, off_to_size]
    generalize hc : (if ((512 - off % 512) % 2 ^ 64).toNat > left then left
      else (512 - off % 512).toNat) = c
    have hc1 : 1 ≤ c ∧ c ≤ left ∧ (c : Int) ≤ 512 - off % 512 := by
      rw [← hc]
      split <;> omega
    obtain ⟨ih1, ih2⟩ := read_loop_spec s inode fuel (left - c) (off + c) (by omega) (by omega)
    have hbytes := read_chunk s inode h0 c hc1.2.2
    rw [data_offset_read]
    by_cases h : 0 ≤ off ∧ off < 35840 ∧ ref_at s inode (bpos off) ≠ 0
    · rw [if_pos h]
      simp only
      have hlen := rd_bytes_length s.data c (ref_at s inode (bpos off) + off % 512)
      refine ⟨?_, ?_⟩
      · rw [List.length_append, hlen, ih1]
        omega
      · intro i hi
        by_cases hic : i < c
        · rw [List.getD_append _ _ _ _ (by rw [hlen]; exact hic), rd_bytes_getD _ _ _ _ hic,
            hbytes i hic, if_pos h]
        · rw [List.getD_append_right _ _ _ _ (by rw [hlen]; omega), hlen,
            ih2 (i - c) (by omega)]
          congr 1
          omega
    · rw [if_neg h]
      simp only
      have hlen : (List.replicate c 0).length = c := List.length_replicate _ _
      refine ⟨?_, ?_⟩
      · rw [List.length_append, hlen, ih1]
        omega
      · intro i hi
        by_cases hic : i < c
        · rw [List.getD_append _ _ _ _ (by rw [hlen]; exact hic), getD_replicate_zero,
            hbytes i hic, if_neg h]
        · rw [List.getD_append_right _ _ _ _ (by rw [hlen]; omega), hlen,
            ih2 (i - c) (by omega)]
          congr 1
          omega

end WFS

namespace WFS

/-! ### The name lookup depends on the slots of the directory only -/

theorem find_scan_slots_congr {m m1 : Int → Nat} (name : List Nat) (blk : Int) :
    ∀ (n j : Nat),
      (∀ j1, j ≤ j1 → j1 < j + n →
        (∃ t : Nat, t < 28 ∧ m (dentry_ptr blk j1 + t) = 0) ∧
        ∀ q, dentry_ptr blk j1 ≤ q → q < dentry_ptr blk j1 + 32 → m1 q = m q) →
      find_scan_slots m1 name blk n j = find_scan_slots m name blk n j
  | 0, _, _ => rfl
  | n + 1, j, h => by
    obtain ⟨⟨t, ht, hz⟩, hq⟩ := h j (le_refl _) (by omega)
    simp only [find_scan_slots]
    rw [dentry_num_congr hq, hq _ (le_refl _) (by omega),
      strcmp_eq_congr name 32 _ ⟨t, by omega, hz⟩ (fun q h1 h2 => hq q h1 (by omega)),
      find_scan_slots_congr name blk n (j + 1) (fun j1 h1 h2 => h j1 (by omega) (by omega))]

theorem find_scan_blocks_congr {m m1 : Int → Nat} (name : List Nat) {blocks blocks1 : Nat → Int} :
    ∀ (n i : Nat) (found : Int),
      (∀ i1, i ≤ i1 → i1 < i + n → blocks1 i1 = blocks i1) →
      (∀ i1 j1, i ≤ i1 → i1 < i + n → blocks i1 ≠ 0 → j1 < 16 →
        (∃ t : Nat, t < 28 ∧ m (dentry_ptr (blocks i1) j1 + t) = 0) ∧
        ∀ q, dentry_ptr (blocks i1) j1 ≤ q → q < dentry_ptr (blocks i1) j1 + 32 → m1 q = m q) →
      find_scan_blocks m1 name blocks1 n i found = find_scan_blocks m name blocks n i found
  | 0, _, _, _, _ => rfl
  | n + 1, i, found, hb, h => by
    simp only [find_scan_blocks]
    rw [hb i (le_refl _) (by omega)]
    by_cases hz : blocks i = 0
    · rw [if_pos hz, if_pos hz]
      exact find_scan_blocks_congr name n (i + 1) found
        (fun i1 h1 h2 => hb i1 (by omega) (by omega))
        (fun i1 j1 h1 h2 => h i1 j1 (by omega) (by omega))
    · rw [if_neg hz, if_neg hz]
      rw [find_scan_slots_congr name (blocks i) 16 0
        (fun j1 _ h2 => h i j1 (le_refl _) (by omega) hz (by omega))]
      split
      · rfl
      · exact find_scan_blocks_congr name n (i + 1) _
          (fun i1 h1 h2 => hb i1 (by omega) (by omega))
          (fun i1 j1 h1 h2 => h i1 j1 (by omega) (by omega))

/-- The lookup in a live directory gives the same result after a change that leaves the
address array and the blocks of the directory alone. -/
theorem dir_find_congr {s s1 : Image} (hinv : Inv s) {k : Nat} (hd : is_dir s k)
    (hb : ∀ i, i < 6 → (s1.inodes k).blocks i = (s.inodes k).blocks i)
    (hdata : ∀ i, i < 6 → (s.inodes k).blocks i ≠ 0 →
      ∀ q, (s.inodes k).blocks i ≤ q → q < (s.inodes k).blocks i + 512 → s1.data q = s.data q)
    (name : List Nat) : dir_find s1 k name = dir_find s k name := by
  unfold dir_find
  apply find_scan_blocks_congr
  · intro i1 _ h2
    exact hb i1 (by simp only [D_BLOCK] at h2; omega)
  · intro i1 j1 _ h2 hz hj
    simp only [D_BLOCK] at h2
    refine ⟨hinv.d.nul k _ hd ⟨i1, j1, by omega, hj, hz, rfl⟩, ?_⟩
    intro q h3 h4
    unfold dentry_ptr at h3 h4
    simp only [DENTRY_SIZE] at h3 h4
    apply hdata i1 (by omega) hz q <;> omega

/-! ### The resolver depends on the directories only -/

theorem retrieve_inode_congr {s s1 : Image} (hsb : s1.sb = s.sb)
    (hib : s1.i_bitmap = s.i_bitmap) (x : Int) : retrieve_inode s1 x = retrieve_inode s x := by
  unfold retrieve_inode
  rw [hsb, hib]

theorem walk_congr {s s1 : Image} (hsb : s1.sb = s.sb) (hib : s1.i_bitmap = s.i_bitmap)
    (hmode : ∀ k, live s k → S_ISDIR (s1.inodes k).mode = S_ISDIR (s.inodes k).mode)
    (hfind : ∀ k name, is_dir s k → dir_find s1 k name = dir_find s k name) :
    ∀ (tokens : List (List Nat)) (cur : Nat) (stack : List Nat), live s cur →
      (∀ k, k ∈ stack → live s k) → walk s1 tokens cur stack = walk s tokens cur stack
  | [], _, _, _, _ => rfl
  | token :: rest, cur, stack, hl, hst => by
    simp only [walk]
    rw [hmode cur hl]
    by_cases hd : S_ISDIR (s.inodes cur).mode = true
    · simp only [hd, Bool.not_true, Bool.false_eq_true, if_false]
      by_cases h1 : token = [DOT]
      · rw [if_pos h1, if_pos h1]
        exact walk_congr hsb hib hmode hfind rest cur stack hl hst
      · rw [if_neg h1, if_neg h1]
        by_cases h2 : token = [DOT, DOT]
        · rw [if_pos h2, if_pos h2]
          match stack, hst with
          | [], _ => rfl
          | [_], _ => rfl
          | a :: prev :: below, hst =>
            simp only
            have hp : live s prev := hst prev (by simp)
            exact walk_congr hsb hib hmode hfind rest prev (prev :: below) hp
              (fun k hk => hst k (List.mem_cons_of_mem _ hk))
        · rw [if_neg h2, if_neg h2]
          rw [hfind cur token ⟨hl, hd⟩]
          by_cases hneg : dir_find s cur token < 0
          · rw [if_pos hneg, if_pos hneg]
          · rw [if_neg hneg, if_neg hneg, retrieve_inode_congr hsb hib, hsb]
            cases hr : retrieve_inode s (dir_find s cur token) with
            | none => rfl
            | some next =>
              simp only
              have hn := (retrieve_inode_some hr).2
              by_cases hlen : stack.length ≥ s.sb.num_inodes
              · rw [if_pos hlen, if_pos hlen]
              · rw [if_neg hlen, if_neg hlen]
                exact walk_congr hsb hib hmode hfind rest next (next :: stack) hn
                  (fun k hk => by
                    rcases List.mem_cons.1 hk with e | e
                    · rw [e]; exact hn
                    · exact hst k e)
    · have hd1 : S_ISDIR (s.inodes cur).mode = false := by
        cases h : S_ISDIR (s.inodes cur).mode
        · rfl
        · exact absurd h hd
      simp only [hd1, Bool.not_false, if_true]

theorem get_inode_from_path_congr {s s1 : Image} (hsb : s1.sb = s.sb)
    (hib : s1.i_bitmap = s.i_bitmap)
    (hmode : ∀ k, live s k → S_ISDIR (s1.inodes k).mode = S_ISDIR (s.inodes k).mode)
    (hfind : ∀ k name, is_dir s k → dir_find s1 k name = dir_find s k name)
    (path : List Nat) : get_inode_from_path s1 path = get_inode_from_path s path := by
  unfold get_inode_from_path
  rw [retrieve_inode_congr hsb hib]
  by_cases h1 : path = [SLASH]
  · rw [if_pos h1, if_pos h1]
  · rw [if_neg h1, if_neg h1]
    by_cases h2 : path.head? ≠ some SLASH
    · rw [if_pos h2, if_pos h2]
    · rw [if_neg h2, if_neg h2]
      cases hr : retrieve_inode s 0 with
      | none => rfl
      | some cur =>
        simp only
        have hl := (retrieve_inode_some hr).2
        exact walk_congr hsb hib hmode hfind _ cur [cur] hl
          (fun k hk => by rw [List.mem_singleton.1 hk]; exact hl)

end WFS

namespace WFS

/-! ### What the resolver returns is a live inode -/

theorem walk_live {s : Image} : ∀ (tokens : List (List Nat)) (cur : Nat) (stack : List Nat)
    (x : Nat), live s cur → (∀ k, k ∈ stack → live s k) →
    walk s tokens cur stack = path_result.found x → live s x
  | [], cur, _, x, hl, _, h => by
    simp only [walk] at h
    injection h with h
    rw [← h]; exact hl
  | token :: rest, cur, stack, x, hl, hst, h => by
    simp only [walk] at h
    split at h
    · exact absurd h (by simp)
    · split at h
      · exact walk_live rest cur stack x hl hst h
      · split at h
        · split at h
          · next a prev below =>
            exact walk_live rest prev (prev :: below) x (hst prev (by simp))
              (fun k hk => hst k (List.mem_cons_of_mem _ hk)) h
          · exact absurd h (by simp)
        · split at h
          · exact absurd h (by simp)
          · split at h
            · exact absurd h (by simp)
            · next next hr =>
              have hn := (retrieve_inode_some hr).2
              split at h
              · exact absurd h (by simp)
              · exact walk_live rest next (next :: stack) x hn
                  (fun k hk => by
                    rcases List.mem_cons.1 hk with e | e
                    · rw [e]; exact hn
                    · exact hst k e) h

theorem resolve_live {s : Image} {path : List Nat} {x : Nat}
    (h : get_inode_from_path s path = path_result.found x) : live s x ∧ live s 0 := by
  unfold get_inode_from_path at h
  split at h
  · split at h
    · next root hr =>
      injection h with h
      have := retrieve_inode_some hr
      have e : root = 0 := by omega
      subst e; subst h
      exact ⟨this.2, this.2⟩
    · exact absurd h (by simp)
  · split at h
    · exact absurd h (by simp)
    · split at h
      · exact absurd h (by simp)
      · next cur hr =>
        have := retrieve_inode_some hr
        have e : cur = 0 := by omega
        subst e
        exact ⟨walk_live _ 0 [0] x this.2
          (fun k hk => by rw [List.mem_singleton.1 hk]; exact this.2) h, this.2⟩

/-- An update of fields other than the type and the address array. -/
theorem Inv.set_fields {s : Image} (h : Inv s) {k : Nat} (hk : live s k) (v : wfs_inode)
    (hnum : v.num = (s.inodes k).num) (hmode : v.mode = (s.inodes k).mode)
    (hb : v.blocks = (s.inodes k).blocks) (hsz : 0 ≤ v.size ∧ v.size < 2 ^ 63) :
    Inv (WFS.set_inode s k v) :=
  h.set_inode hk v (by rw [hnum]; exact h.b.num k hk)
    (Or.inl ⟨by rw [hmode], fun i => by rw [hb]⟩) hsz

/-! ### The handlers keep the invariant -/

theorem wfs_setxattr_inv {s : Image} (h : Inv s) {path name value : List Nat} {now rc : Int}
    {s1 : Image} (e : wfs_setxattr s path name value now = some (rc, s1)) : Inv s1 := by
  unfold wfs_setxattr at e
  split at e
  · exact absurd e (by simp)
  · split at e
    · exact absurd e (by simp)
    · injection e with e; injection e with _ e; rw [← e]; exact h
    · next inode hr =>
      have hl := (resolve_live hr).1
      split at e
      · injection e with e; injection e with _ e; rw [← e]; exact h
      · split at e
        · injection e with e; injection e with _ e; rw [← e]; exact h
        · simp only at e
          split at e
          · exact absurd e (by simp)
          · split at e
            · injection e with e; injection e with _ e; rw [← e]; exact h
            · injection e with e; injection e with _ e; rw [← e]
              exact h.set_fields hl _ rfl rfl rfl (h.b.size _ hl)

theorem wfs_removexattr_inv {s : Image} (h : Inv s) {path name : List Nat} {now rc : Int}
    {s1 : Image} (e : wfs_removexattr s path name now = some (rc, s1)) : Inv s1 := by
  unfold wfs_removexattr at e
  split at e
  · exact absurd e (by simp)
  · split at e
    · exact absurd e (by simp)
    · injection e with e; injection e with _ e; rw [← e]; exact h
    · next inode hr =>
      have hl := (resolve_live hr).1
      split at e
      · injection e with e; injection e with _ e; rw [← e]; exact h
      · injection e with e; injection e with _ e; rw [← e]
        exact h.set_fields hl _ rfl rfl rfl (h.b.size _ hl)

theorem wfs_read_inv {s : Image} (h : Inv s) {path : List Nat} {len : Nat} {off now rc : Int}
    {out : List Nat} {s1 : Image} (e : wfs_read s path len off now = some (rc, out, s1)) :
    Inv s1 := by
  unfold wfs_read at e
  split at e
  · exact absurd e (by simp)
  · split at e
    · exact absurd e (by simp)
    · injection e with e; injection e with _ e; injection e with _ e; rw [← e]; exact h
    · next inode hr =>
      have hl := (resolve_live hr).1
      split at e
      · injection e with e; injection e with _ e; injection e with _ e; rw [← e]; exact h
      · split at e
        · injection e with e; injection e with _ e; injection e with _ e; rw [← e]; exact h
        · injection e with e; injection e with _ e; injection e with _ e; rw [← e]
          exact h.set_fields hl _ rfl rfl rfl (h.b.size _ hl)

theorem wfs_readdir_inv {s : Image} (h : Inv s) {path : List Nat} {is_ls : Bool} {now rc : Int}
    {out : List (List Nat)} {s1 : Image}
    (e : wfs_readdir s path is_ls now = some (rc, out, s1)) : Inv s1 := by
  unfold wfs_readdir at e
  split at e
  · exact absurd e (by simp)
  · split at e
    · exact absurd e (by simp)
    · injection e with e; injection e with _ e; injection e with _ e; rw [← e]; exact h
    · next inode hr =>
      have hl := (resolve_live hr).1
      split at e
      · injection e with e; injection e with _ e; injection e with _ e; rw [← e]; exact h
      · split at e
        · exact absurd e (by simp)
        · injection e with e; injection e with _ e; injection e with _ e; rw [← e]
          exact h.set_fields hl _ rfl rfl rfl (h.b.size _ hl)

/-! ### `wfs_write` -/

theorem size_to_int_le (n : Nat) : size_to_int n ≤ n := by
  unfold size_to_int as_int32
  have h1 : n % 2 ^ 32 ≤ n := Nat.mod_le _ _
  split
  · exact_mod_cast h1
  · have : ((n % 2 ^ 32 : Nat) : Int) ≤ n := by exact_mod_cast h1
    omega

theorem size_to_int_eq {n : Nat} (h : n < 2 ^ 31) : size_to_int n = n := by
  unfold size_to_int as_int32
  have h1 : n % 2 ^ 32 = n := Nat.mod_eq_of_lt (by omega)
  rw [h1, if_pos h]

theorem size_to_int_lt (n : Nat) : size_to_int n < 2 ^ 31 := by
  unfold size_to_int as_int32
  have h1 : n % 2 ^ 32 < 2 ^ 32 := Nat.mod_lt _ (by norm_num)
  split
  · next h => exact_mod_cast h
  · have : ((n % 2 ^ 32 : Nat) : Int) < 2 ^ 32 := by exact_mod_cast h1
    omega

/-- The loop of `wfs_write` as the handler runs it. -/
theorem write_loop_inv {s : Image} (h : Inv s) {inode : Nat} (hl : live s inode)
    (hnd : S_ISDIR (s.inodes inode).mode = false) (buf : List Nat) (left off : Int)
    (hlen : left ≤ buf.length) {ok : Bool} {s1 : Image}
    (e : write_loop left.toNat s inode buf left off = (ok, s1)) :
    Inv s1 ∧ Wrote s s1 inode := by
  by_cases hpos : left ≤ 0
  · have : left.toNat = 0 := by omega
    rw [this] at e
    simp only [write_loop] at e
    obtain ⟨_, rfl⟩ := Prod.mk.inj e
    exact ⟨h, Wrote.same_image _ _⟩
  by_cases h0 : 0 ≤ off
  · obtain ⟨a, b, _⟩ := write_loop_spec inode left.toNat s buf left off ok s1 h hl hnd h0
      (by omega) hlen (by omega) e
    exact ⟨a, b⟩
  · obtain ⟨f, hf⟩ : ∃ f, left.toNat = f + 1 := ⟨left.toNat - 1, by omega⟩
    rw [hf] at e
    simp only [write_loop] at e
    rw [if_neg hpos, data_offset_out s inode off true (by omega)] at e
    simp only at e
    obtain ⟨_, rfl⟩ := Prod.mk.inj e
    exact ⟨h, Wrote.same_image _ _⟩

/-- The shape of the result of `wfs_write`. -/
theorem wfs_write_cases {s : Image} {path buf : List Nat} {off now rc : Int} {s1 : Image}
    (e : wfs_write s path buf off now = some (rc, s1)) :
    (s1 = s ∧ (rc = -ENOENT ∨ rc = -EISDIR)) ∨
    ∃ clean inode ok sL, strip_ansi_codes path PATH_MAX = some clean ∧
      get_inode_from_path s clean = path_result.found inode ∧
      S_ISDIR (s.inodes inode).mode = false ∧
      write_loop (size_to_int buf.length).toNat s inode buf (size_to_int buf.length) off
        = (ok, sL) ∧
      ((ok = false ∧ rc = -ENOSPC ∧ s1 = sL) ∨
       (ok = true ∧ off + buf.length < 2 ^ 63 ∧ rc = size_to_int buf.length ∧
        s1 = set_inode sL inode
          { sL.inodes inode with
            size := if off + buf.length > (sL.inodes inode).size then off + buf.length
              else (sL.inodes inode).size,
            mtim := now, ctim := now })) := by
  unfold wfs_write at e
  simp only at e
  split at e
  · exact absurd e (by simp)
  · next clean hc =>
    split at e
    · exact absurd e (by simp)
    · injection e with e; injection e with e1 e2
      exact Or.inl ⟨e2.symm, Or.inl e1.symm⟩
    · next inode hr =>
      split at e
      · injection e with e; injection e with e1 e2
        exact Or.inl ⟨e2.symm, Or.inr e1.symm⟩
      · next hnd =>
        right
        have hnd1 : S_ISDIR (s.inodes inode).mode = false := by
          cases hh : S_ISDIR (s.inodes inode).mode
          · rfl
          · exact absurd hh hnd
        split at e
        · next sL hw =>
          injection e with e; injection e with e1 e2
          exact ⟨clean, inode, false, sL, hc, hr, hnd1, hw, Or.inl ⟨rfl, e1.symm, e2.symm⟩⟩
        · next sL hw =>
          split at e
          · exact absurd e (by simp)
          · next hlt =>
            injection e with e; injection e with e1 e2
            exact ⟨clean, inode, true, sL, hc, hr, hnd1, hw,
              Or.inr ⟨rfl, by omega, e1.symm, e2.symm⟩⟩

theorem wfs_write_inv {s : Image} (h : Inv s) {path buf : List Nat} {off now rc : Int}
    {s1 : Image} (e : wfs_write s path buf off now = some (rc, s1)) : Inv s1 := by
  rcases wfs_write_cases e with ⟨rfl, _⟩ | ⟨clean, inode, ok, sL, _, hr, hnd, hw, hres⟩
  · exact h
  · have hl := (resolve_live hr).1
    obtain ⟨hinvL, hwr⟩ := write_loop_inv h hl hnd buf _ off (size_to_int_le _) hw
    rcases hres with ⟨_, _, rfl⟩ | ⟨_, hlt, _, rfl⟩
    · exact hinvL
    · have hlL := (hwr.live_kept inode).2 hl
      have hsz := hinvL.b.size inode hlL
      exact hinvL.set_fields hlL _ rfl rfl rfl (by simp only; split <;> omega)

/-! ### `wfs_mknod` and `wfs_mkdir` -/

theorem created_eq {s s1 : Image} {now : Int} {k : Nat}
    (ha : allocate_inode s now = (some k, s1)) (mode : Nat) (uid gid : Nat) :
    set_inode (fillin_inode s1 k mode now uid gid) k
      { (fillin_inode s1 k mode now uid gid).inodes k with size := 0 }
      = created s k mode now uid gid := by
  obtain ⟨_, _, rfl⟩ := allocate_inode_some ha
  simp [created, fillin_inode, set_inode, upd_upd_same, upd_same, zero_inode]

theorem created_set (s : Image) (k mode : Nat) (now : Int) (uid gid : Nat) :
    created s k mode now uid gid = set_inode (with_new_inode s k now) k
      { zero_inode with num := k, mode := mode, uid := uid, gid := gid, size := 0, nlinks := 1,
                        atim := now, mtim := now, ctim := now, color := 0 } := by
  simp [created, with_new_inode, set_inode, upd_upd_same]

theorem live_created {s : Image} {k : Nat} (hk : k < s.sb.num_inodes) (mode : Nat) (now : Int)
    (uid gid : Nat) (j : Nat) : live (created s k mode now uid gid) j ↔ live s j ∨ j = k :=
  @live_with_new_inode s k now hk j

theorem created_other (s : Image) {k j : Nat} (mode : Nat) (now : Int) (uid gid : Nat)
    (h : j ≠ k) : (created s k mode now uid gid).inodes j = s.inodes j := by
  simp [created, upd_other _ _ h]

theorem created_same (s : Image) (k : Nat) (mode : Nat) (now : Int) (uid gid : Nat) :
    (created s k mode now uid gid).inodes k =
      { zero_inode with num := k, mode := mode, uid := uid, gid := gid, size := 0, nlinks := 1,
                        atim := now, mtim := now, ctim := now, color := 0 } := by
  simp [created, upd_same]

theorem Inv.created {s : Image} (h : Inv s) {k : Nat} (hk : k < s.sb.num_inodes)
    (hf : bit_set s.i_bitmap k = false) (mode : Nat) (now : Int) (uid gid : Nat) :
    Inv (WFS.created s k mode now uid gid) := by
  rw [created_set]
  exact (h.with_new_inode now hk hf).set_inode ((live_with_new_inode hk k).2 (Or.inr rfl)) _ rfl
    (Or.inr (fun _ => rfl)) ⟨le_refl _, by norm_num⟩

/-- No dentry names the inode that was just allocated. -/
theorem created_unnamed {s : Image} (h : Inv s) {k : Nat} (hk : k < s.sb.num_inodes)
    (hf : bit_set s.i_bitmap k = false) (hpos : 0 < k) (mode : Nat) (now : Int)
    (uid gid : Nat) (j : Nat) (p : Int) (hj : is_dir (created s k mode now uid gid) j)
    (hp : is_slot (created s k mode now uid gid) j p) :
    dentry_num (created s k mode now uid gid).data p ≠ (k : Int) := by
  by_cases e : j = k
  · subst e
    exfalso
    exact not_slot_of_zero (fun i _ => by rw [created_same]; rfl) p hp
  · have hl : live s j := by
      rcases (live_created hk mode now uid gid j).1 hj.1 with h1 | h1
      · exact h1
      · exact absurd h1 e
    have hd : is_dir s j := ⟨hl, by have := hj.2; rw [created_other s mode now uid gid e] at this; exact this⟩
    have hs : is_slot s j p :=
      (is_slot_congr (fun i _ => by rw [created_other s mode now uid gid e]) p).1 hp
    intro hn
    have hn1 : dentry_num s.data p = (k : Int) := hn
    have := (h.d.dnum j p hd hs (by rw [hn1]; omega)).2
    rw [hn1] at this
    have hb := this.2
    simp only [Int.toNat_ofNat] at hb
    rw [hf] at hb
    exact Bool.noConfusion hb

theorem allocate_inode_fresh {s s1 : Image} (h : InvB s) {now : Int} {k : Nat}
    (ha : allocate_inode s now = (some k, s1)) :
    k < s.sb.num_inodes ∧ bit_set s.i_bitmap k = false := by
  obtain ⟨h1, h2, _⟩ := allocate_inode_some ha
  rw [(sb_ok_words h.sb).1] at h1
  exact ⟨h1, h2⟩

/-- The shape of the result of `wfs_mknod`: an early failure that leaves the image alone, or
an inode `k` was allocated and initialised and `add_dentry` ran; when that fails the inode
is freed again. -/
theorem wfs_mknod_cases {s : Image} {path : List Nat} {mode : Nat} {now rc : Int}
    {uid gid : Nat} {s1 : Image} (e : wfs_mknod s path mode now uid gid = some (rc, s1)) :
    (s1 = s ∧ (rc = -EPERM ∨ rc = -ENOTDIR ∨ rc = -ENOSPC ∨
      ∃ clean cp, strip_ansi_codes path PATH_MAX = some clean ∧
        strip_ansi_codes (dirname clean) PATH_MAX = some cp ∧
        get_inode_from_path s cp = path_result.error rc)) ∨
    ∃ clean cp parent k rc1 s4, ¬ (S_ISCHR mode ∨ S_ISBLK mode) ∧
      strip_ansi_codes path PATH_MAX = some clean ∧
      strip_ansi_codes (dirname clean) PATH_MAX = some cp ∧
      get_inode_from_path s cp = path_result.found parent ∧
      S_ISDIR (s.inodes parent).mode = true ∧
      (allocate_inode s now).1 = some k ∧
      add_dentry (created s k (S_IFREG ||| mode) now uid gid) parent
        ((created s k (S_IFREG ||| mode) now uid gid).inodes k).num (basename clean) now
        = (rc1, s4) ∧
      ((rc1 ≠ 0 ∧ rc = rc1 ∧ s1 = free_inode s4 k) ∨ (rc1 = 0 ∧ rc = 0 ∧ s1 = s4)) := by
  unfold wfs_mknod at e
  split at e
  · injection e with e; injection e with e1 e2
    exact Or.inl ⟨e2.symm, Or.inl e1.symm⟩
  · next hdev =>
    split at e
    · exact absurd e (by simp)
    · next clean hc =>
      simp only at e
      split at e
      · exact absurd e (by simp)
      · next cp hcp =>
        split at e
        · exact absurd e (by simp)
        · next err hr =>
          injection e with e; injection e with e1 e2
          subst e1
          exact Or.inl ⟨e2.symm, Or.inr (Or.inr (Or.inr ⟨clean, cp, hc, hcp, hr⟩))⟩
        · next parent hr =>
          split at e
          · injection e with e; injection e with e1 e2
            exact Or.inl ⟨e2.symm, Or.inr (Or.inl e1.symm)⟩
          · next hd =>
            have hd1 : S_ISDIR (s.inodes parent).mode = true := by
              cases hh : S_ISDIR (s.inodes parent).mode
              · rw [hh] at hd; exact absurd rfl hd
              · rfl
            split at e
            · next sA ha =>
              injection e with e; injection e with e1 e2
              rw [allocate_inode_none ha] at e2
              exact Or.inl ⟨e2.symm, Or.inr (Or.inr (Or.inl e1.symm))⟩
            · next k sA ha =>
              right
              rw [created_eq ha] at e
              cases hadd : add_dentry (created s k (S_IFREG ||| mode) now uid gid) parent
                ((created s k (S_IFREG ||| mode) now uid gid).inodes k).num (basename clean) now with
              | mk rc1 s4 =>
                rw [hadd] at e
                simp only at e
                refine ⟨clean, cp, parent, k, rc1, s4, hdev, hc, hcp, hr, hd1, by rw [ha], hadd, ?_⟩
                split at e
                · next hne =>
                  injection e with e; injection e with e1 e2
                  exact Or.inl ⟨hne, e1.symm, e2.symm⟩
                · next hne =>
                  injection e with e; injection e with e1 e2
                  exact Or.inr ⟨by simpa using hne, e1.symm, e2.symm⟩

theorem allocate_inode_fst {s : Image} {now : Int} {k : Nat}
    (ha : (allocate_inode s now).1 = some k) : ∃ sA, allocate_inode s now = (some k, sA) := by
  cases h : allocate_inode s now with
  | mk r sA =>
    rw [h] at ha
    simp only at ha
    subst ha
    exact ⟨sA, rfl⟩

/-- The part of `wfs_mknod` and `wfs_mkdir` after the allocation of inode `k`. -/
theorem create_entry_inv {s : Image} (h : Inv s) {parent k : Nat} {now : Int}
    (hr0 : live s 0) (hpar : live s parent) (ha : (allocate_inode s now).1 = some k)
    (mode uid gid : Nat) (name : List Nat) {rc1 : Int} {s4 : Image}
    (hadd : add_dentry (created s k mode now uid gid) parent
      ((created s k mode now uid gid).inodes k).num name now = (rc1, s4)) :
    k < s.sb.num_inodes ∧ bit_set s.i_bitmap k = false ∧ 0 < k ∧
    Inv s4 ∧ (rc1 ≠ 0 → s4 = created s k mode now uid gid ∧ Inv (free_inode s4 k)) := by
  obtain ⟨sA, ha1⟩ := allocate_inode_fst ha
  obtain ⟨hk, hf⟩ := allocate_inode_fresh h.b ha1
  have hpos : 0 < k := by
    rcases Nat.eq_zero_or_pos k with e | e
    · subst e
      have := hr0.2
      rw [hf] at this
      exact Bool.noConfusion this
    · exact e
  have hinv := h.created hk hf mode now uid gid
  have hl : live (created s k mode now uid gid) k :=
    (live_created hk mode now uid gid k).2 (Or.inr rfl)
  have hnum : ((created s k mode now uid gid).inodes k).num = (k : Int) := by
    rw [created_same]
  rw [hnum] at hadd
  have hlim := h.b.sb.2.2.2.2.1
  have hinv4 : Inv s4 := add_dentry_inv hinv
    ((live_created hk mode now uid gid parent).2 (Or.inl hpar))
    ⟨by omega, by omega⟩ (by simpa using hl)
    (fun j p hj hp => created_unnamed h hk hf hpos mode now uid gid j p hj hp)
    (by
      simp only [Int.toNat_ofNat]
      intro e
      rw [e] at hpar
      have := hpar.2
      rw [hf] at this
      exact Bool.noConfusion this)
    (by
      simp only [Int.toNat_ofNat]
      exact fun p => not_slot_of_zero (fun i _ => by rw [created_same]; rfl) p) hadd
  refine ⟨hk, hf, hpos, hinv4, ?_⟩
  intro hne
  rcases add_dentry_cases hinv.b hadd with ⟨_, e, _⟩ | ⟨e, _⟩
  · refine ⟨e, ?_⟩
    rw [e]
    exact hinv.free_inode hl
      (fun j p hj hp _ => created_unnamed h hk hf hpos mode now uid gid j p hj hp)
  · exact absurd e hne

theorem wfs_mknod_inv {s : Image} (h : Inv s) {path : List Nat} {mode : Nat} {now rc : Int}
    {uid gid : Nat} {s1 : Image} (e : wfs_mknod s path mode now uid gid = some (rc, s1)) :
    Inv s1 := by
  rcases wfs_mknod_cases e with ⟨rfl, _⟩ |
    ⟨clean, cp, parent, k, rc1, s4, _, _, _, hr, _, ha, hadd, hres⟩
  · exact h
  · obtain ⟨hpar, hr0⟩ := resolve_live hr
    obtain ⟨_, _, _, hinv4, hfail⟩ := create_entry_inv h hr0 hpar ha _ uid gid _ hadd
    rcases hres with ⟨hne, _, rfl⟩ | ⟨_, _, rfl⟩
    · exact (hfail hne).2
    · exact hinv4

/-- The shape of the result of `wfs_mkdir`. -/
theorem wfs_mkdir_cases {s : Image} {path : List Nat} {mode : Nat} {now rc : Int}
    {uid gid : Nat} {s1 : Image} (e : wfs_mkdir s path mode now uid gid = some (rc, s1)) :
    (s1 = s ∧ (rc = -ENOENT ∨ rc = -ENOTDIR ∨ rc = -ENOSPC ∨
      (rc = -EEXIST ∧ ∃ clean x, strip_ansi_codes path PATH_MAX = some clean ∧
        get_inode_from_path s clean = path_result.found x))) ∨
    ∃ clean cp parent k rc1 s4,
      strip_ansi_codes path PATH_MAX = some clean ∧
      strip_ansi_codes (dirname clean) PATH_MAX = some cp ∧
      get_inode_from_path s cp = path_result.found parent ∧
      S_ISDIR (s.inodes parent).mode = true ∧
      (∃ err, get_inode_from_path s clean = path_result.error err) ∧
      (allocate_inode s now).1 = some k ∧
      add_dentry (created s k (S_IFDIR ||| mode) now uid gid) parent
        ((created s k (S_IFDIR ||| mode) now uid gid).inodes k).num (basename clean) now
        = (rc1, s4) ∧
      ((rc1 ≠ 0 ∧ rc = rc1 ∧ s1 = free_inode s4 k) ∨ (rc1 = 0 ∧ rc = 0 ∧ s1 = s4)) := by
  unfold wfs_mkdir at e
  split at e
  · exact absurd e (by simp)
  · next clean hc =>
    simp only at e
    split at e
    · exact absurd e (by simp)
    · next cp hcp =>
      split at e
      · exact absurd e (by simp)
      · injection e with e; injection e with e1 e2
        exact Or.inl ⟨e2.symm, Or.inl e1.symm⟩
      · next parent hr =>
        split at e
        · injection e with e; injection e with e1 e2
          exact Or.inl ⟨e2.symm, Or.inr (Or.inl e1.symm)⟩
        · next hd =>
          have hd1 : S_ISDIR (s.inodes parent).mode = true := by
            cases hh : S_ISDIR (s.inodes parent).mode
            · rw [hh] at hd; exact absurd rfl hd
            · rfl
          split at e
          · exact absurd e (by simp)
          · next x hx =>
            injection e with e; injection e with e1 e2
            exact Or.inl ⟨e2.symm, Or.inr (Or.inr (Or.inr ⟨e1.symm, clean, x, hc, hx⟩))⟩
          · next err herr =>
            split at e
            · next sA ha =>
              injection e with e; injection e with e1 e2
              rw [allocate_inode_none ha] at e2
              exact Or.inl ⟨e2.symm, Or.inr (Or.inr (Or.inl e1.symm))⟩
            · next k sA ha =>
              right
              rw [created_eq ha] at e
              cases hadd : add_dentry (created s k (S_IFDIR ||| mode) now uid gid) parent
                ((created s k (S_IFDIR ||| mode) now uid gid).inodes k).num (basename clean) now with
              | mk rc1 s4 =>
                rw [hadd] at e
                simp only at e
                refine ⟨clean, cp, parent, k, rc1, s4, hc, hcp, hr, hd1, ⟨err, herr⟩,
                  by rw [ha], hadd, ?_⟩
                split at e
                · next hne =>
                  injection e with e; injection e with e1 e2
                  exact Or.inl ⟨hne, e1.symm, e2.symm⟩
                · next hne =>
                  injection e with e; injection e with e1 e2
                  exact Or.inr ⟨by simpa using hne, e1.symm, e2.symm⟩

theorem wfs_mkdir_inv {s : Image} (h : Inv s) {path : List Nat} {mode : Nat} {now rc : Int}
    {uid gid : Nat} {s1 : Image} (e : wfs_mkdir s path mode now uid gid = some (rc, s1)) :
    Inv s1 := by
  rcases wfs_mkdir_cases e with ⟨rfl, _⟩ |
    ⟨clean, cp, parent, k, rc1, s4, _, _, hr, _, _, ha, hadd, hres⟩
  · exact h
  · obtain ⟨hpar, hr0⟩ := resolve_live hr
    obtain ⟨_, _, _, hinv4, hfail⟩ := create_entry_inv h hr0 hpar ha _ uid gid _ hadd
    rcases hres with ⟨hne, _, rfl⟩ | ⟨_, _, rfl⟩
    · exact (hfail hne).2
    · exact hinv4

end WFS

namespace WFS

/-! ### Freeing the direct blocks of an inode -/

theorem Freed.nothing (s : Image) (k i : Nat) : Freed s s k i 0 where
  sb := rfl
  ib := rfl
  others := fun _ _ => rfl
  fields := ⟨_, rfl⟩
  kept := fun _ _ => rfl
  zero := fun p h1 h2 => by omega
  bits := fun _ h => h
  data := fun _ _ => rfl
  gone := fun p h1 h2 => by omega

/-- One round of the loop: `free_block(blocks[i]); blocks[i] = 0`. -/
theorem freed_one {s : Image} (h : InvB s) {k i : Nat} (hk : live s k) (hi : i < 6)
    (hb : (s.inodes k).blocks i ≠ 0) :
    Freed s (set_block (free_block s ((s.inodes k).blocks i)) k i 0) k i 1 := by
  have hri : ref_at s k i ≠ 0 := by rw [ref_at_direct s k (by omega)]; exact hb
  have hbi := h.blk k i hk hri
  rw [ref_at_direct s k (by omega)] at hbi
  obtain ⟨n, hn, hbn, hbit, hfe⟩ := free_block_eq h.sb hbi
  refine ⟨?_, ?_, ?_, ?_, ?_, ?_, ?_, ?_, ?_⟩
  · rw [set_block_sb, free_block_sb]
  · rw [set_block_i_bitmap, free_block_i_bitmap]
  · intro j hj
    rw [set_block_other _ _ _ hj, free_block_inodes]
  · exact ⟨upd (s.inodes k).blocks i 0, by simp [set_block, set_inode, upd, free_block_inodes]⟩
  · intro p hp
    rw [set_block_blocks, if_neg (by omega), free_block_inodes]
  · intro p h1 h2
    rw [set_block_blocks, if_pos (by omega)]
  · intro m hm
    rw [set_block_d_bitmap, hfe] at hm
    simp only [bit_set_free_bitmap, Bool.and_eq_true] at hm
    exact hm.1
  · intro q hq
    rw [set_block_data, hfe]
    exact memset0_out (hq i (le_refl _) (by omega) hb)
  · intro p h1 h2 _
    have e : p = i := by omega
    subst e
    refine ⟨?_, ?_⟩
    · intro m hm
      have : m = n := by
        rw [hbn] at hm
        unfold block_off at hm
        omega
      subst this
      rw [set_block_d_bitmap, hfe]
      simp [bit_set_free_bitmap]
    · intro q hq1 hq2
      rw [set_block_data, hfe]
      exact memset0_in hq1 hq2

theorem Freed.step {s s1 s2 : Image} {k i n : Nat} (h : InvB s) (hk : live s k)
    (hin : i + n < 6) (g : Freed s s1 k i 1) (g1 : Freed s1 s2 k (i + 1) n) :
    Freed s s2 k i (n + 1) where
  sb := by rw [g1.sb, g.sb]
  ib := by rw [g1.ib, g.ib]
  others := fun j hj => by rw [g1.others j hj, g.others j hj]
  fields := by
    obtain ⟨bl, e⟩ := g.fields
    obtain ⟨bl1, e1⟩ := g1.fields
    exact ⟨bl1, by rw [e1, e]⟩
  kept := fun p hp => by
    rw [g1.kept p (by omega), g.kept p (by omega)]
  zero := fun p h1 h2 => by
    by_cases e : p = i
    · subst e
      rw [g1.kept p (by omega)]
      exact g.zero p (le_refl _) (by omega)
    · exact g1.zero p (by omega) (by omega)
  bits := fun m hm => g.bits m (g1.bits m hm)
  data := fun q hq => by
    rw [g1.data q (fun p h1 h2 hb => by
      rw [g.kept p (by omega)] at hb ⊢
      exact hq p (by omega) (by omega) hb)]
    exact g.data q (fun p h1 h2 hb => hq p (by omega) (by omega) hb)
  gone := fun p h1 h2 hb => by
    by_cases e : p = i
    · subst e
      obtain ⟨a, b⟩ := g.gone p (le_refl _) (by omega) hb
      refine ⟨fun m hm => ?_, fun q hq1 hq2 => ?_⟩
      · cases hh : bit_set s2.d_bitmap m
        · rfl
        · have := g1.bits m hh
          rw [a m hm] at this
          exact Bool.noConfusion this
      · rw [g1.data q (fun p1 g1' g2 hb1 => ?_)]
        · exact b q hq1 hq2
        · rw [g.kept p1 (by omega)] at hb1 ⊢
          have hr : ref_at s k p ≠ 0 := by rw [ref_at_direct s k (by omega)]; exact hb
          have hr1 : ref_at s k p1 ≠ 0 := by rw [ref_at_direct s k (by omega)]; exact hb1
          have hb0 := h.blk k p hk hr
          have hb01 := h.blk k p1 hk hr1
          rw [ref_at_direct s k (by omega)] at hb0 hb01
          rcases is_block_disjoint hb0 hb01 with e1 | e1 | e1
          · exfalso
            have := (h.uniq k p k p1 hk hk hr (by
              rw [ref_at_direct s k (show p1 < 7 by omega), ref_at_direct s k (show p < 7 by omega)]
              exact e1.symm)).2
            omega
          · left; omega
          · right; omega
    · obtain ⟨a, b⟩ := g1.gone p (by omega) (by omega) (by rw [g.kept p (by omega)]; exact hb)
      rw [g.kept p (by omega)] at a b
      refine ⟨fun m hm => a m ?_, b⟩
      rw [hm]; unfold block_off; rw [g.sb]

theorem Freed.skip {s s1 : Image} {k i n : Nat} (hz : (s.inodes k).blocks i = 0)
    (g1 : Freed s s1 k (i + 1) n) : Freed s s1 k i (n + 1) where
  sb := g1.sb
  ib := g1.ib
  others := g1.others
  fields := g1.fields
  kept := fun p hp => g1.kept p (by omega)
  zero := fun p h1 h2 => by
    by_cases e : p = i
    · subst e
      rw [g1.kept p (by omega)]
      exact hz
    · exact g1.zero p (by omega) (by omega)
  bits := g1.bits
  data := fun q hq => g1.data q (fun p h1 h2 hb => hq p (by omega) (by omega) hb)
  gone := fun p h1 h2 hb => by
    by_cases e : p = i
    · subst e; exact absurd hz hb
    · exact g1.gone p (by omega) (by omega) hb

theorem Inv.free_direct_blocks : ∀ (n i : Nat) (s : Image) (k : Nat), Inv s → live s k →
    i + n ≤ 6 →
    Inv (free_direct_blocks n i s k) ∧ Freed s (free_direct_blocks n i s k) k i n
  | 0, i, s, k, h, _, _ => ⟨h, Freed.nothing s k i⟩
  | n + 1, i, s, k, h, hk, hin => by
    simp only [WFS.free_direct_blocks]
    by_cases hb : (s.inodes k).blocks i ≠ 0
    · rw [if_pos hb]
      have hinv1 := h.free_direct hk (show i < 6 by omega) hb
      have g := freed_one h.b hk (show i < 6 by omega) hb
      have hk1 : live (set_block (free_block s ((s.inodes k).blocks i)) k i 0) k :=
        (live_congr g.sb g.ib k).2 hk
      obtain ⟨a, b⟩ := Inv.free_direct_blocks n (i + 1) _ k hinv1 hk1 (by omega)
      exact ⟨a, Freed.step h.b hk (by omega) g b⟩
    · rw [if_neg hb]
      obtain ⟨a, b⟩ := Inv.free_direct_blocks n (i + 1) s k h hk (by omega)
      exact ⟨a, Freed.skip (by simpa using hb) b⟩

/-! ### Removing a dentry -/

/-- After a successful `remove_dentry(dir, inum)` with `inum != 0` no dentry carries
`inum`. -/
theorem remove_dentry_unnamed {s : Image} (hinv : Inv s) {dir : Nat} {inum now rc : Int}
    {s1 : Image} (hd : is_dir s dir) (h : remove_dentry s dir inum now = (rc, s1))
    (hrc : ¬ rc < 0) (hne : inum ≠ 0) :
    ∀ j p, is_dir s1 j → is_slot s1 j p → dentry_num s1.data p ≠ inum := by
  rcases remove_dentry_cases h with ⟨e, _, _⟩ | ⟨_, p0, hp0, hn0, e⟩
  · rw [e] at hrc
    exact absurd (by decide) hrc
  · intro j p hj hp
    rw [e] at hj hp ⊢
    have hjl : live s j := hj.1
    have hjd : is_dir s j := by
      refine ⟨hjl, ?_⟩
      have := hj.2
      by_cases ej : j = dir
      · subst ej
        rw [set_inode_same] at this
        exact this
      · rw [set_inode_other _ _ ej] at this
        exact this
    have hjs : is_slot s j p := by
      refine (is_slot_congr (fun i _ => ?_) p).1 hp
      by_cases ej : j = dir
      · subst ej
        rw [set_inode_same]
      · rw [set_inode_other _ _ ej]
    show dentry_num (memcpy (wr_int s.data (p0 + MAX_NAME) 0) p0 [0]) p ≠ inum
    rcases slot_disjoint hinv.b hd.1 hjl hp0 hjs with e1 | e1 | e1
    · rw [e1, clear_slot_num]
      exact fun x => hne x.symm
    · rw [dentry_num_congr (fun q h1 h2 => clear_slot_out (by omega))]
      intro hx
      have := hinv.d.duniq dir p0 j p hd hjd hp0 hjs (by rw [hn0]; exact hne) (by rw [hx, hn0])
      omega
    · rw [dentry_num_congr (fun q h1 h2 => clear_slot_out (by omega))]
      intro hx
      have := hinv.d.duniq dir p0 j p hd hjd hp0 hjs (by rw [hn0]; exact hne) (by rw [hx, hn0])
      omega

/-- The slots of the other inodes keep their bytes when blocks of `k` are freed. -/
theorem freed_slot_frame {s s1 : Image} (h : InvB s) {k i n : Nat} (g : Freed s s1 k i n)
    (hin : i + n ≤ 6) (hk : live s k) {j : Nat} (hj : live s j) (hjk : j ≠ k) {p : Int}
    (hp : is_slot s j p) : ∀ q, p ≤ q → q < p + 32 → s1.data q = s.data q := by
  obtain ⟨i1, j1, hi1, hj1, hr, hb, e⟩ := is_slot_block h hj hp
  intro q h1 h2
  apply g.data
  intro p1 g1 g2 hb1
  have hr1 : ref_at s k p1 ≠ 0 := by rw [ref_at_direct s k (by omega)]; exact hb1
  have hbk := h.blk k p1 hk hr1
  rw [ref_at_direct s k (by omega)] at hbk
  rcases is_block_disjoint hb hbk with e1 | e1 | e1
  · exfalso
    have := (h.uniq j i1 k p1 hj hk hr (by
      rw [ref_at_direct s k (show p1 < 7 by omega)]; exact e1.symm)).1
    exact hjk this.symm
  · left; omega
  · right; omega

theorem freed_unnamed {s s1 : Image} (hinv : Inv s) {k i n : Nat} (g : Freed s s1 k i n)
    (hin : i + n ≤ 6) (hk : live s k) (hz : ∀ p, p < 6 → (s1.inodes k).blocks p = 0)
    {inum : Int}
    (hno : ∀ j p, is_dir s j → is_slot s j p → dentry_num s.data p ≠ inum) :
    ∀ j p, is_dir s1 j → is_slot s1 j p → dentry_num s1.data p ≠ inum := by
  intro j p hj hp
  by_cases hjk : j = k
  · subst hjk
    exact absurd hp (not_slot_of_zero hz p)
  · have hjl : live s j := (live_congr g.sb g.ib j).1 hj.1
    have hjd : is_dir s j := ⟨hjl, by have := hj.2; rw [g.others j hjk] at this; exact this⟩
    have hjs : is_slot s j p := (is_slot_congr (fun i _ => by rw [g.others j hjk]) p).1 hp
    rw [dentry_num_congr (freed_slot_frame hinv.b g hin hk hjl hjk hjs)]
    exact hno j p hjd hjs

/-! ### `wfs_unlink` -/

set_option maxHeartbeats 4000000 in
/-- The shape of the result of `wfs_unlink`: either the image is unchanged, or the dentry
of a regular file was looked up in its directory and removed, and then the blocks and the
inode of the file were freed. -/
theorem wfs_unlink_cases {s : Image} {path : List Nat} {now rc : Int} {s1 : Image}
    (e : wfs_unlink s path now = some (rc, s1)) :
    s1 = s ∨
    ∃ clean_path clean parent file err2 sA,
      strip_ansi_codes (cstr path) PATH_MAX = some clean_path ∧
      strip_ansi_codes
        (if (drop_last_component clean_path).dropLast = [] then [SLASH]
          else (drop_last_component clean_path).dropLast) PATH_MAX = some clean ∧
      get_inode_from_path s clean = path_result.found parent ∧
      S_ISDIR (s.inodes parent).mode = true ∧
      ¬ dir_find s parent (last_component clean_path) < 0 ∧
      retrieve_inode s (dir_find s parent (last_component clean_path)) = some file ∧
      S_ISDIR (s.inodes file).mode = false ∧
      remove_dentry s parent (dir_find s parent (last_component clean_path)) now = (err2, sA) ∧
      ((err2 < 0 ∧ rc = err2 ∧ s1 = sA) ∨
       (¬ err2 < 0 ∧ rc = 0 ∧
        s1 = free_inode
          (if ((free_direct_blocks D_BLOCK 0 sA file).inodes file).blocks IND_BLOCK ≠ 0 then
            set_block
              (free_block
                (free_indirect_entries N_INDIRECT 0 (free_direct_blocks D_BLOCK 0 sA file)
                  (((free_direct_blocks D_BLOCK 0 sA file).inodes file).blocks IND_BLOCK))
                (((free_direct_blocks D_BLOCK 0 sA file).inodes file).blocks IND_BLOCK))
              file IND_BLOCK 0
           else free_direct_blocks D_BLOCK 0 sA file) file)) := by
  unfold wfs_unlink at e
  conv at e => lhs; zeta
  split at e
  · injection e with e; injection e with _ e2; exact Or.inl e2.symm
  · split at e
    · injection e with e; injection e with _ e2; exact Or.inl e2.symm
    · split at e
      · injection e with e; injection e with _ e2; exact Or.inl e2.symm
      · split at e
        · exact absurd e (by simp)
        · next clean_path hc =>
          split at e
          · exact absurd e (by simp)
          · split at e
            · injection e with e; injection e with _ e2; exact Or.inl e2.symm
            · split at e
              · exact absurd e (by simp)
              · next clean hcl =>
                split at e
                · exact absurd e (by simp)
                · injection e with e; injection e with _ e2; exact Or.inl e2.symm
                · next parent hr =>
                  split at e
                  · injection e with e; injection e with _ e2; exact Or.inl e2.symm
                  · next hd =>
                    have hd1 : S_ISDIR (s.inodes parent).mode = true := by
                      cases hh : S_ISDIR (s.inodes parent).mode
                      · rw [hh] at hd; exact absurd rfl hd
                      · rfl
                    split at e
                    · injection e with e; injection e with _ e2; exact Or.inl e2.symm
                    · next hfound =>
                      split at e
                      · injection e with e; injection e with _ e2; exact Or.inl e2.symm
                      · next file hfile =>
                        split at e
                        · injection e with e; injection e with _ e2; exact Or.inl e2.symm
                        · next hnd =>
                          have hnd1 : S_ISDIR (s.inodes file).mode = false := by
                            cases hh : S_ISDIR (s.inodes file).mode
                            · rfl
                            · exact absurd hh hnd
                          right
                          cases hrem : remove_dentry s parent
                            (dir_find s parent (last_component clean_path)) now with
                          | mk err2 sA =>
                            rw [hrem] at e
                            simp only at e
                            refine ⟨clean_path, clean, parent, file, err2, sA, hc, hcl, hr, hd1,
                              hfound, hfile, hnd1, hrem, ?_⟩
                            split at e
                            · next hneg =>
                              injection e with e; injection e with e1 e2
                              exact Or.inl ⟨hneg, e1.symm, e2.symm⟩
                            · next hneg =>
                              injection e with e; injection e with e1 e2
                              exact Or.inr ⟨hneg, e1.symm, e2.symm⟩

/-- A successful lookup returns the `num` of a live slot that carries the name. -/
theorem dir_find_hit {s : Image} {k : Nat} {name : List Nat} (h : ¬ dir_find s k name < 0) :
    ∃ p, is_slot s k p ∧ slot_hit s.data name p ∧ dentry_num s.data p = dir_find s k name := by
  obtain ⟨i1, j1, _, h2, h3, h4, h5, h6⟩ :=
    find_scan_blocks_found s.data name (s.inodes k).blocks 6 0 (-1) (by norm_num)
      (by unfold dir_find at h; simp only [D_BLOCK] at h; omega)
  exact ⟨_, ⟨i1, j1, by omega, h4, h3, rfl⟩, h5, h6⟩

theorem wfs_unlink_inv {s : Image} (h : Inv s) {path : List Nat} {now rc : Int} {s1 : Image}
    (e : wfs_unlink s path now = some (rc, s1)) : Inv s1 := by
  rcases wfs_unlink_cases e with rfl |
    ⟨clean_path, clean, parent, file, err2, sA, _, _, hr, hd, hfound, hfile, hnd, hrem, hres⟩
  · exact h
  · have hpar := (resolve_live hr).1
    have hpd : is_dir s parent := ⟨hpar, hd⟩
    have hinvA := remove_dentry_inv h hpd hrem
    rcases hres with ⟨_, _, rfl⟩ | ⟨hok, _, rfl⟩
    · exact hinvA
    · obtain ⟨hfe, hfl⟩ := retrieve_inode_some hfile
      obtain ⟨p, hp, hhit, hnum⟩ := dir_find_hit hfound
      have hne : dir_find s parent (last_component clean_path) ≠ 0 := by
        rw [← hnum]
        exact (dentry_vacant_false.1 hhit.1).1
      have hun := remove_dentry_unnamed h hpd hrem hok hne
      have hsbA : sA.sb = s.sb ∧ sA.i_bitmap = s.i_bitmap ∧
          (sA.inodes file).mode = (s.inodes file).mode := by
        rcases remove_dentry_cases hrem with ⟨_, e1, _⟩ | ⟨_, p0, _, _, e1⟩
        · rw [e1]; exact ⟨rfl, rfl, rfl⟩
        · rw [e1]
          refine ⟨rfl, rfl, ?_⟩
          by_cases ef : file = parent
          · subst ef; rw [set_inode_same]
          · rw [set_inode_other _ _ ef]
      have hflA : live sA file := (live_congr hsbA.1 hsbA.2.1 file).2 hfl
      obtain ⟨hinv2, g⟩ := Inv.free_direct_blocks 6 0 sA file hinvA hflA (by omega)
      have hfl2 : live (free_direct_blocks 6 0 sA file) file := (live_congr g.sb g.ib file).2 hflA
      have hb7 := hinv2.b.b7 file hfl2
      simp only [D_BLOCK, IND_BLOCK]
      rw [if_neg (by intro hx; exact hx hb7)]
      apply hinv2.free_inode hfl2
      intro j p1 hj hp1 _
      rw [← hfe]
      exact freed_unnamed hinvA g (by omega) hflA (fun p hp => g.zero p (by omega) (by omega)) hun
        j p1 hj hp1

/-! ### `wfs_rmdir` -/

theorem walk_error_neg {s : Image} : ∀ (tokens : List (List Nat)) (cur : Nat)
    (stack : List Nat) (rc : Int), walk s tokens cur stack = path_result.error rc → rc < 0
  | [], _, _, _, h => by simp [walk] at h
  | token :: rest, cur, stack, rc, h => by
    simp only [walk] at h
    split at h
    · injection h with h; rw [← h]; decide
    · split at h
      · exact walk_error_neg rest cur stack rc h
      · split at h
        · split at h
          · next a prev below => exact walk_error_neg rest prev (prev :: below) rc h
          · exact absurd h (by simp)
        · split at h
          · injection h with h; rw [← h]; decide
          · split at h
            · injection h with h; rw [← h]; decide
            · next next hr =>
              split at h
              · exact absurd h (by simp)
              · exact walk_error_neg rest next (next :: stack) rc h

theorem resolve_error_neg {s : Image} {path : List Nat} {rc : Int}
    (h : get_inode_from_path s path = path_result.error rc) : rc < 0 := by
  unfold get_inode_from_path at h
  split at h
  · split at h
    · exact absurd h (by simp)
    · injection h with h; rw [← h]; decide
  · split at h
    · injection h with h; rw [← h]; decide
    · split at h
      · injection h with h; rw [← h]; decide
      · exact walk_error_neg _ _ _ rc h

/-- The shape of the result of `wfs_rmdir`: an early failure that leaves the image alone, or
the direct blocks of the directory were freed and `remove_dentry` ran on the parent; when
that succeeds the inode is freed. -/
theorem wfs_rmdir_cases {s : Image} {path : List Nat} {now rc : Int} {s1 : Image}
    (e : wfs_rmdir s path now = some (rc, s1)) :
    (s1 = s ∧ rc < 0) ∨
    ∃ clean_path cp parent clean child rc2 s2,
      strip_ansi_codes path PATH_MAX = some clean_path ∧ clean_path ≠ [SLASH] ∧
      strip_ansi_codes (dirname clean_path) PATH_MAX = some cp ∧
      get_inode_from_path s cp = path_result.found parent ∧
      S_ISDIR (s.inodes parent).mode = true ∧
      strip_ansi_codes clean_path PATH_MAX = some clean ∧
      get_inode_from_path s clean = path_result.found child ∧
      S_ISDIR (s.inodes child).mode = true ∧
      remove_dentry (free_direct_blocks D_BLOCK 0 s child) parent
        ((free_direct_blocks D_BLOCK 0 s child).inodes child).num now = (rc2, s2) ∧
      ((rc2 < 0 ∧ rc = rc2 ∧ s1 = s2) ∨ (¬ rc2 < 0 ∧ rc = 0 ∧ s1 = free_inode s2 child)) := by
  unfold wfs_rmdir at e
  split at e
  · exact absurd e (by simp)
  · next clean_path hc =>
    split at e
    · injection e with e; injection e with e1 e2
      exact Or.inl ⟨e2.symm, by rw [← e1]; decide⟩
    · next hns =>
      simp only at e
      split at e
      · exact absurd e (by simp)
      · next cp hcp =>
        split at e
        · exact absurd e (by simp)
        · next err herr =>
          injection e with e; injection e with e1 e2
          exact Or.inl ⟨e2.symm, by rw [← e1]; exact resolve_error_neg herr⟩
        · next parent hr =>
          split at e
          · injection e with e; injection e with e1 e2
            exact Or.inl ⟨e2.symm, by rw [← e1]; decide⟩
          · next hd =>
            have hd1 : S_ISDIR (s.inodes parent).mode = true := by
              cases hh : S_ISDIR (s.inodes parent).mode
              · rw [hh] at hd; exact absurd rfl hd
              · rfl
            split at e
            · exact absurd e (by simp)
            · next clean hcl =>
              split at e
              · exact absurd e (by simp)
              · next err herr =>
                injection e with e; injection e with e1 e2
                exact Or.inl ⟨e2.symm, by rw [← e1]; exact resolve_error_neg herr⟩
              · next child hrc =>
                split at e
                · injection e with e; injection e with e1 e2
                  exact Or.inl ⟨e2.symm, by rw [← e1]; decide⟩
                · next hcd =>
                  have hcd1 : S_ISDIR (s.inodes child).mode = true := by
                    cases hh : S_ISDIR (s.inodes child).mode
                    · rw [hh] at hcd; exact absurd rfl hcd
                    · rfl
                  right
                  cases hrem : remove_dentry (free_direct_blocks D_BLOCK 0 s child) parent
                    ((free_direct_blocks D_BLOCK 0 s child).inodes child).num now with
                  | mk rc2 s2 =>
                    rw [hrem] at e
                    simp only at e
                    refine ⟨clean_path, cp, parent, clean, child, rc2, s2, hc, hns, hcp, hr, hd1,
                      hcl, hrc, hcd1, hrem, ?_⟩
                    split at e
                    · next hneg =>
                      injection e with e; injection e with e1 e2
                      exact Or.inl ⟨hneg, e1.symm, e2.symm⟩
                    · next hneg =>
                      injection e with e; injection e with e1 e2
                      exact Or.inr ⟨hneg, e1.symm, e2.symm⟩

theorem wfs_rmdir_inv {s : Image} (h : Inv s) {path : List Nat} {now rc : Int} {s1 : Image}
    (e : wfs_rmdir s path now = some (rc, s1)) : Inv s1 := by
  rcases wfs_rmdir_cases e with ⟨rfl, _⟩ |
    ⟨clean_path, cp, parent, clean, child, rc2, s2, _, _, _, hr, hd, _, hrc, hcd, hrem, hres⟩
  · exact h
  · have hpar := (resolve_live hr).1
    have hcl := (resolve_live hrc).1
    obtain ⟨hinv1, g⟩ := Inv.free_direct_blocks 6 0 s child h hcl (by omega)
    have hmode : ∀ j, ((free_direct_blocks 6 0 s child).inodes j).mode = (s.inodes j).mode := by
      intro j
      by_cases ej : j = child
      · subst ej
        obtain ⟨bl, hbl⟩ := g.fields
        rw [hbl]
      · rw [g.others j ej]
    have hnum : ((free_direct_blocks 6 0 s child).inodes child).num = (child : Int) := by
      obtain ⟨bl, hbl⟩ := g.fields
      rw [hbl]
      exact h.b.num child hcl
    have hpd1 : is_dir (free_direct_blocks 6 0 s child) parent :=
      ⟨(live_congr g.sb g.ib parent).2 hpar, by rw [hmode]; exact hd⟩
    simp only [D_BLOCK] at hrem
    have hinv2 := remove_dentry_inv hinv1 hpd1 hrem
    rcases hres with ⟨_, _, rfl⟩ | ⟨hok, _, rfl⟩
    · exact hinv2
    · have hl2 : live s2 child := by
        have hl1 : live (free_direct_blocks 6 0 s child) child := (live_congr g.sb g.ib child).2 hcl
        rcases remove_dentry_cases hrem with ⟨_, e1, _⟩ | ⟨_, p0, _, _, e1⟩
        · rw [e1]; exact hl1
        · rw [e1]; exact hl1
      apply hinv2.free_inode hl2
      intro j p hj hp hn0
      by_cases hc0 : child = 0
      · subst hc0
        exact hn0
      · rw [hnum] at hrem
        exact remove_dentry_unnamed hinv1 hpd1 hrem hok (by exact_mod_cast hc0) j p hj hp

end WFS

namespace WFS

/-! ### The freshly formatted image -/

theorem roundup_spec (n : Nat) : 0 ≤ roundup n 32 ∧ roundup n 32 % 32 = 0 ∧
    (n : Int) ≤ roundup n 32 := by
  unfold roundup
  split <;> omega

theorem setup_sb_ok {inodes blocks sz : Nat} {sb : wfs_sb} {ok : Int}
    (h : setup_sb inodes blocks sz = some (sb, ok)) : sb_ok sb := by
  unfold setup_sb at h
  simp only [BLOCK_SIZE] at h
  split at h
  · exact absurd h (by simp)
  · next hok =>
    injection h with h
    injection h with h1 h2
    simp only [int_ok, Bool.and_eq_true, decide_eq_true_eq, Bool.not_eq_true',
      Bool.not_eq_false] at hok
    obtain ⟨a0, a1, a2⟩ := roundup_spec inodes
    obtain ⟨b0, b1, b2⟩ := roundup_spec blocks
    rw [← h1]
    unfold sb_ok
    simp only
    refine ⟨?_, ?_, ?_, ?_, ?_, ?_⟩ <;> omega

theorem bit_set_one (k : Nat) : bit_set (upd (fun _ => 0) 0 1) k = decide (k = 0) := by
  rw [bit_set_eq]
  by_cases h : k / 32 = 0
  · rw [h, upd_same]
    by_cases h0 : k = 0
    · subst h0; simp
    · have h1 : k % 32 ≠ 0 := by omega
      have e1 : (1 : Nat) = 2 ^ 0 := rfl
      rw [e1, Nat.testBit_two_pow]
      simp [h0, Ne.symm h1]
  · rw [upd_other _ _ h]
    have : k ≠ 0 := by intro e; subst e; simp at h
    simp [this]

/-- A freshly formatted image satisfies the invariant: the root is its only live inode
and it has no blocks. -/
theorem fresh_inv {s : Image} (h : Fresh s) : Inv s := by
  obtain ⟨old, inodes, blocks, sz, uid, gid, hi, hd, hm, _⟩ := h
  unfold wfs_mkfs at hm
  split at hm
  · exact absurd hm (by simp)
  · next sb ok hsb =>
    split at hm
    · injection hm with hm; injection hm with hm _
      exact absurd hm (by decide)
    · injection hm with hm; injection hm with _ hm
      have hib : old.i_bitmap = fun _ => 0 := funext hi
      have hdb : old.d_bitmap = fun _ => 0 := funext hd
      have hlive : ∀ k, live s k → k = 0 := by
        intro k hk
        have := hk.2
        rw [← hm] at this
        simp only [hib, bit_set_one, decide_eq_true_eq] at this
        exact this
      have hblocks : ∀ i, (s.inodes 0).blocks i = 0 := by
        intro i
        rw [← hm]
        simp [upd_same, zero_inode]
      have href : ∀ k pos, live s k → ref_at s k pos = 0 := by
        intro k pos hk
        rw [hlive k hk]
        exact ref_at_zero_blocks s 0 (fun i _ => hblocks i) pos
      have hslot : ∀ k p, is_dir s k → ¬ is_slot s k p := by
        intro k p hk
        rw [hlive k hk.1]
        exact not_slot_of_zero (fun i _ => hblocks i) p
      refine ⟨⟨?_, ?_, ?_, ?_, ?_, ?_, ?_, ?_⟩, ⟨?_, ?_, ?_, ?_,
        ⟨fun _ => 0, fun k p hk hp => absurd hp (hslot k p hk)⟩⟩⟩
      · rw [← hm]; exact setup_sb_ok hsb
      · intro i
        rw [← hm]
        simp only [hib]
        unfold upd
        split <;> norm_num
      · intro i
        rw [← hm]
        simp only [hdb]
        norm_num
      · intro k hk
        rw [hlive k hk, ← hm]
        simp [upd_same, zero_inode]
      · intro k hk
        rw [hlive k hk]
        exact hblocks 7
      · intro k hk
        rw [hlive k hk, ← hm]
        simp [upd_same]
      · intro k pos hk hr
        exact absurd (href k pos hk) hr
      · intro k pos k1 pos1 hk _ hr
        exact absurd (href k pos hk) hr
      · intro k p hk hp
        exact absurd hp (hslot k p hk)
      · intro k p hk hp
        exact absurd hp (hslot k p hk)
      · intro k p k1 p1 hk _ hp
        exact absurd hp (hslot k p hk)
      · intro k p p1 name hk hp
        exact absurd hp (hslot k p hk)

/-- Every handler keeps the invariant. -/
theorem step_inv {s : Image} (h : Inv s) {now : Int} {uid gid : Nat} {op : Op} {rc : Int}
    {s1 : Image} (e : step s now uid gid op = some (rc, s1)) : Inv s1 := by
  cases op with
  | mknod path mode => exact wfs_mknod_inv h e
  | mkdir path mode => exact wfs_mkdir_inv h e
  | read path len off =>
    simp only [step] at e
    cases hr : wfs_read s path len off now with
    | none => rw [hr] at e; exact absurd e (by simp)
    | some r =>
      obtain ⟨a, b, c⟩ := r
      rw [hr] at e
      simp only [Option.map_some', Option.some.injEq, Prod.mk.injEq] at e
      rw [← e.2]
      exact wfs_read_inv h hr
  | write path buf off => exact wfs_write_inv h e
  | readdir path is_ls =>
    simp only [step] at e
    cases hr : wfs_readdir s path is_ls now with
    | none => rw [hr] at e; exact absurd e (by simp)
    | some r =>
      obtain ⟨a, b, c⟩ := r
      rw [hr] at e
      simp only [Option.map_some', Option.some.injEq, Prod.mk.injEq] at e
      rw [← e.2]
      exact wfs_readdir_inv h hr
  | unlink path => exact wfs_unlink_inv h e
  | rmdir path => exact wfs_rmdir_inv h e
  | setxattr path name value => exact wfs_setxattr_inv h e
  | removexattr path name => exact wfs_removexattr_inv h e

/-- Every image reachable from a freshly formatted one satisfies the invariant. -/
theorem reachable_inv {s : Image} (h : Reachable s) : Inv s := by
  induction h with
  | fresh s hf => exact fresh_inv hf
  | step s now uid gid op rc s1 _ e ih => exact step_inv ih e

end WFS

namespace WFS

/-! ### Preparations for the claims about file data -/

theorem count_refs_le (s : Image) (k : Nat) : ∀ n, count_refs s k n ≤ n
  | 0 => le_refl _
  | n + 1 => by
    simp only [count_refs]
    have := count_refs_le s k n
    split <;> omega

theorem count_refs_full (s : Image) (k : Nat) : ∀ n, count_refs s k n = n →
    ∀ p, p < n → ref_at s k p ≠ 0
  | 0, _ => fun p hp => by omega
  | n + 1, h => by
    simp only [count_refs] at h
    have hle := count_refs_le s k n
    intro p hp
    by_cases e : p = n
    · subst e
      intro hz
      rw [if_neg (by simpa using hz)] at h
      omega
    · have hn : count_refs s k n = n := by
        split at h <;> omega
      exact count_refs_full s k n hn p (by omega)

theorem count_refs_zero (s : Image) (k : Nat) (h : ∀ p, ref_at s k p = 0) :
    ∀ n, count_refs s k n = 0
  | 0 => rfl
  | n + 1 => by
    simp only [count_refs]
    rw [count_refs_zero s k h n, if_neg (by simpa using h n)]

theorem list_eq_of_getD : ∀ (l1 l2 : List Nat), l1.length = l2.length →
    (∀ i, i < l1.length → l1.getD i 0 = l2.getD i 0) → l1 = l2
  | [], [], _, _ => rfl
  | [], _ :: _, h, _ => by simp at h
  | _ :: _, [], h, _ => by simp at h
  | a :: l1, b :: l2, h, hg => by
    have h0 := hg 0 (by simp)
    simp only [List.getD_cons_zero] at h0
    rw [h0, list_eq_of_getD l1 l2 (by simpa using h) (fun i hi => by
      have := hg (i + 1) (by simp; omega)
      simpa only [List.getD_cons_succ] using this)]

/-- A handler call that returned `rc` returned the image `after` it. -/
theorem some_after {r : Option (Int × Image)} {rc : Int} (h : r.map Prod.fst = some rc) :
    r = some (rc, after r) := by
  cases r with
  | none => simp at h
  | some x =>
    obtain ⟨a, b⟩ := x
    simp only [Option.map_some', Option.some.injEq] at h
    subst h
    rfl

/-- The resolver gives the same results after a change that leaves the liveness and the
types of the inodes and the directories alone. -/
theorem resolve_same_dirs {s s1 : Image} (hinv : Inv s) (hsb : s1.sb = s.sb)
    (hib : s1.i_bitmap = s.i_bitmap)
    (hmode : ∀ k, live s k → (s1.inodes k).mode = (s.inodes k).mode)
    (hb : ∀ k i, is_dir s k → i < 6 → (s1.inodes k).blocks i = (s.inodes k).blocks i)
    (hdata : ∀ k i, is_dir s k → i < 6 → (s.inodes k).blocks i ≠ 0 →
      ∀ q, (s.inodes k).blocks i ≤ q → q < (s.inodes k).blocks i + 512 → s1.data q = s.data q)
    (path : List Nat) : get_inode_from_path s1 path = get_inode_from_path s path :=
  get_inode_from_path_congr hsb hib (fun k hk => by rw [hmode k hk])
    (fun k name hk => dir_find_congr hinv hk (hb k · hk) (hdata k · hk) name) path

theorem resolve_wrote {s s1 : Image} (hinv : Inv s) {inode : Nat} (g : Wrote s s1 inode)
    (hnd : S_ISDIR (s.inodes inode).mode = false) (path : List Nat) :
    get_inode_from_path s1 path = get_inode_from_path s path := by
  have hne : ∀ k, is_dir s k → k ≠ inode := by
    intro k hk e
    subst e
    rw [hk.2] at hnd
    exact Bool.noConfusion hnd
  apply resolve_same_dirs hinv g.sb g.ib
  · intro k _
    by_cases e : k = inode
    · subst e
      obtain ⟨bl, hbl⟩ := g.fields
      rw [hbl]
    · rw [g.others k e]
  · intro k i hk _
    rw [g.others k (hne k hk)]
  · intro k i hk hi hz q h1 h2
    have hr : ref_at s k i = (s.inodes k).blocks i := ref_at_direct s k (by omega)
    exact g.data k i hk.1 (hne k hk) (by omega) (by rw [hr]; exact hz) q (by rw [hr]; exact h1)
      (by rw [hr]; exact h2)

theorem resolve_set_fields {s : Image} (hinv : Inv s) (k : Nat) (v : wfs_inode)
    (hmode : v.mode = (s.inodes k).mode) (hb : v.blocks = (s.inodes k).blocks)
    (path : List Nat) :
    get_inode_from_path (set_inode s k v) path = get_inode_from_path s path := by
  apply @resolve_same_dirs s (set_inode s k v) hinv rfl rfl
  · intro j _
    by_cases e : j = k
    · subst e; rw [set_inode_same, hmode]
    · rw [set_inode_other _ _ e]
  · intro j i _ _
    by_cases e : j = k
    · subst e; rw [set_inode_same, hb]
    · rw [set_inode_other _ _ e]
  · intro j i _ _ _ q _ _
    rfl

theorem file_byte_set_fields (s : Image) (k : Nat) (v : wfs_inode)
    (hb : v.blocks = (s.inodes k).blocks) (j : Nat) (x : Int) :
    file_byte (set_inode s k v) j x = file_byte s j x := by
  apply file_byte_congr
  · intro p
    apply ref_at_congr
    · intro i _
      by_cases e : j = k
      · subst e; rw [set_inode_same, hb]
      · rw [set_inode_other _ _ e]
    · intro _ q _ _; rfl
  · intro p _ _ q _ _; rfl

/-- A call of `wfs_write` that returned the length of its buffer: the path names a regular
file, the loop ran to its end, and the size was updated. -/
theorem wfs_write_ok {s : Image} (hinv : Inv s) {path buf : List Nat} {off now : Int}
    {s1 : Image} (h0 : 0 ≤ off)
    (e : wfs_write s path buf off now = some ((buf.length : Int), s1)) :
    ∃ clean F sL, strip_ansi_codes path PATH_MAX = some clean ∧
      get_inode_from_path s clean = path_result.found F ∧ live s F ∧
      S_ISDIR (s.inodes F).mode = false ∧ buf.length < 2 ^ 31 ∧
      Inv sL ∧ Wrote s sL F ∧
      s1 = set_inode sL F
        { sL.inodes F with
          size := if off + buf.length > (sL.inodes F).size then off + buf.length
            else (sL.inodes F).size,
          mtim := now, ctim := now } ∧
      (0 < buf.length → off + buf.length ≤ 35840) ∧
      (∀ x, file_byte sL F x =
        if off ≤ x ∧ x < off + buf.length then buf.getD (x - off).toNat 0
        else file_byte s F x) ∧
      (∀ p, p ≠ 6 → (∀ x, off ≤ x → x < off + buf.length → p ≠ bpos x) →
        ref_at sL F p = ref_at s F p) ∧
      (∀ x, off ≤ x → x < off + buf.length → ref_at sL F (bpos x) ≠ 0) ∧
      (off + buf.length ≤ 3072 → ref_at sL F 6 = ref_at s F 6) := by
  rcases wfs_write_cases e with ⟨_, hrc⟩ | ⟨clean, F, ok, sL, hc, hr, hnd, hw, hres⟩
  · exfalso
    have : (0 : Int) ≤ buf.length := Int.natCast_nonneg _
    rcases hrc with h | h <;> rw [h] at this <;> revert this <;> decide
  · have hl := (resolve_live hr).1
    have hlt : buf.length < 2 ^ 31 := by
      rcases hres with ⟨_, h, _⟩ | ⟨_, _, h, _⟩
      · exfalso
        have : (0 : Int) ≤ buf.length := Int.natCast_nonneg _
        rw [h] at this
        revert this
        decide
      · have := size_to_int_lt buf.length
        rw [← h] at this
        exact_mod_cast this
    rw [size_to_int_eq hlt] at hw
    simp only [Int.toNat_ofNat] at hw
    obtain ⟨hinvL, hwr, hok, hfail⟩ := write_loop_spec F buf.length s buf buf.length off ok sL
      hinv hl hnd h0 (Int.natCast_nonneg _) (le_refl _) (le_refl _) hw
    rcases hres with ⟨_, h, _⟩ | ⟨hk, _, _, hs1⟩
    · exfalso
      have : (0 : Int) ≤ buf.length := Int.natCast_nonneg _
      rw [h] at this
      revert this
      decide
    · obtain ⟨a1, a2, a3, a4, a5⟩ := hok hk
      exact ⟨clean, F, sL, hc, hr, hl, hnd, hlt, hinvL, hwr, hs1,
        fun h => a1 (by exact_mod_cast h), a2, a3, a4, a5⟩

/-- `wfs_read` on a regular file: the count is clamped to the size and the bytes are the
bytes of the file. -/
theorem wfs_read_spec {s : Image} (hinv : Inv s) {path clean : List Nat} {F : Nat}
    (hc : strip_ansi_codes path PATH_MAX = some clean)
    (hr : get_inode_from_path s clean = path_result.found F)
    (hnd : S_ISDIR (s.inodes F).mode = false) {off : Int} (h0 : 0 ≤ off) {len : Nat}
    (hlen : len < 2 ^ 31) (now : Int) :
    ∃ out s1, wfs_read s path len off now = some ((out.length : Int), out, s1) ∧
      (out.length : Int) =
        (if off ≥ (s.inodes F).size then 0 else min (len : Int) ((s.inodes F).size - off)) ∧
      ∀ i, i < out.length → out.getD i 0 = file_byte s F (off + i) := by
  have hsz := hinv.b.size F (resolve_live hr).1
  unfold wfs_read
  rw [hc]
  simp only
  rw [hr]
  simp only [hnd, Bool.false_eq_true, if_false]
  by_cases hge : off ≥ (s.inodes F).size
  · rw [if_pos hge, if_pos hge]
    exact ⟨[], s, rfl, rfl, fun i hi => by simp at hi⟩
  · rw [if_neg hge, if_neg hge]
    have e1 : off_to_size off = off.toNat := by
      unfold off_to_size
      congr 1
      omega
    have e2 : off_to_size (s.inodes F).size = (s.inodes F).size.toNat := by
      unfold off_to_size
      congr 1
      omega
    have e3 : off_to_size ((s.inodes F).size - off) = ((s.inodes F).size - off).toNat := by
      unfold off_to_size
      congr 1
      omega
    rw [e1, e2, e3]
    have e4 : (off.toNat + len) % 2 ^ 64 = off.toNat + len := by
      apply Nat.mod_eq_of_lt
      omega
    rw [e4]
    generalize hn : (if off.toNat + len > (s.inodes F).size.toNat
      then ((s.inodes F).size - off).toNat else len) = n
    have hn1 : (n : Int) = min (len : Int) ((s.inodes F).size - off) ∧ n < 2 ^ 31 := by
      rw [← hn]
      split
      · constructor
        · rw [min_def]; split <;> omega
        · omega
      · constructor
        · rw [min_def]; split <;> omega
        · omega
    obtain ⟨r1, r2⟩ := read_loop_spec s F n n off h0 (le_refl _)
    refine ⟨read_loop s F n n off, set_inode s F { s.inodes F with atim := now }, ?_, ?_, ?_⟩
    · rw [r1, size_to_int_eq hn1.2]
    · rw [r1]; exact hn1.1
    · intro i hi
      exact r2 i (by rw [r1] at hi; exact hi)

/-- `wfs_write` on a path that names a regular file, in terms of its loop. -/
theorem wfs_write_eq {s : Image} {path clean buf : List Nat} {F : Nat} {off : Int}
    (hc : strip_ansi_codes path PATH_MAX = some clean)
    (hr : get_inode_from_path s clean = path_result.found F)
    (hnd : S_ISDIR (s.inodes F).mode = false) {ok : Bool} {sL : Image}
    (hw : write_loop (size_to_int buf.length).toNat s F buf (size_to_int buf.length) off
      = (ok, sL)) (now : Int) :
    wfs_write s path buf off now =
      if ok = true then
        (if off + buf.length ≥ 2 ^ 63 then none
         else some (size_to_int buf.length,
          set_inode sL F
            { sL.inodes F with
              size := if off + buf.length > (sL.inodes F).size then off + buf.length
                else (sL.inodes F).size,
              mtim := now, ctim := now }))
      else some (-ENOSPC, sL) := by
  unfold wfs_write
  simp only
  rw [hc]
  simp only
  rw [hr]
  simp only [hnd, Bool.false_eq_true, if_false]
  rw [hw]
  cases ok
  · simp
  · simp

theorem count_refs_countP (s : Image) (k : Nat) (P : Nat → Bool) : ∀ n,
    (∀ p, p < n → (ref_at s k p ≠ 0 ↔ P p = true)) →
    count_refs s k n = (List.range n).countP P
  | 0, _ => rfl
  | n + 1, h => by
    simp only [count_refs]
    rw [List.range_succ, List.countP_append, count_refs_countP s k P n (fun p hp => h p (by omega))]
    congr 1
    by_cases hn : ref_at s k n ≠ 0
    · rw [if_pos hn]
      simp [(h n (by omega)).1 hn]
    · rw [if_neg hn]
      have : P n = false := by
        cases hp : P n
        · rfl
        · exact absurd ((h n (by omega)).2 hp) hn
      simp [this]

/-- The positions a file of `m` blocks occupies: `m` data blocks, and the indirect block
when `m > 6`. -/
theorem count_positions : ∀ m, m < 71 →
    (List.range 71).countP (fun p => decide (p < 6 ∧ p < m) || decide (p = 6 ∧ 6 < m)
      || decide (7 ≤ p ∧ p - 1 < m)) = m + (if m > 6 then 1 else 0) := by
  decide

/-- With 71 free data blocks a write inside the addressable range succeeds. -/
theorem wfs_write_fits {s : Image} (hinv : Inv s) {path clean buf : List Nat} {F : Nat}
    {off : Int} (hc : strip_ansi_codes path PATH_MAX = some clean)
    (hr : get_inode_from_path s clean = path_result.found F)
    (hreg : S_ISDIR (s.inodes F).mode = false)
    (hfree : used_blocks s + 71 ≤ s.sb.num_data_blocks)
    (h0 : 0 ≤ off) (hlen : off + buf.length ≤ 35840) (now : Int) :
    ∃ sL, Inv sL ∧ Wrote s sL F ∧
      wfs_write s path buf off now = some ((buf.length : Int),
        set_inode sL F
          { sL.inodes F with
            size := if off + buf.length > (sL.inodes F).size then off + buf.length
              else (sL.inodes F).size,
            mtim := now, ctim := now }) := by
  have hl := (resolve_live hr).1
  have hlt : buf.length < 2 ^ 31 := by omega
  have hsz : size_to_int buf.length = buf.length := size_to_int_eq hlt
  cases hwl : write_loop (size_to_int buf.length).toNat s F buf (size_to_int buf.length) off with
  | mk ok sL =>
    obtain ⟨hinvL, g, hok, hfail⟩ := write_loop_spec F _ s buf _ off ok sL
      hinv hl hreg h0 (by omega) (by omega) (by omega) hwl
    have hok1 : ok = true := by
      cases ok
      · exfalso
        rcases hfail rfl with h | ⟨hfull, x, hx1, hx2, hx3⟩
        · omega
        · have hu : used_blocks sL = sL.sb.num_data_blocks := set_bits_full _ _ hfull
          have hc1 := g.count
          rw [hu, g.sb] at hc1
          have hle := count_refs_le sL F 71
          have hge := count_refs_le s F 71
          have hfull71 : nrefs sL F = 71 := by
            unfold nrefs at hc1 ⊢
            omega
          exact count_refs_full sL F 71 hfull71 (bpos x) (bpos_lt (by omega) (by omega)) hx3
      · rfl
    subst hok1
    have hw := wfs_write_eq hc hr hreg hwl now
    rw [if_pos rfl, if_neg (by omega), hsz] at hw
    exact ⟨sL, hinvL, g, hw⟩

theorem some_after_of_exists {r : Option (Int × Image)} {rc : Int}
    (h : ∃ s1, r = some (rc, s1)) : r = some (rc, after r) := by
  obtain ⟨s1, h⟩ := h
  subst h
  rfl

end WFS

namespace WFS

/-! ### What a name lookup returns -/

/-- In a live directory the lookup of a name returns the `num` of the slot that carries it. -/
theorem dir_find_of_hit {s : Image} (hinv : Inv s) {D : Nat} (hd : is_dir s D) {p : Int}
    (hp : is_slot s D p) {name : List Nat} (hh : slot_hit s.data name p) :
    dir_find s D name = dentry_num s.data p := by
  obtain ⟨i, j, hi, hj, hb, he⟩ := hp
  have hp1 : is_slot s D p := ⟨i, j, hi, hj, hb, he⟩
  have hn0 := (dentry_vacant_false.1 hh.1).1
  have hpos := (hinv.d.dnum D p hd hp1 hn0).1
  unfold dir_find
  apply find_scan_blocks_hit s.data name (s.inodes D).blocks p (by omega) 6 0 (-1) (by norm_num)
  · exact ⟨i, j, by omega, by omega, hb, hj, by rw [← he]; exact hh, he.symm⟩
  · intro i1 j1 _ h2 hb1 hj1 hh1
    exact hinv.d.names D p _ name hd hp1 ⟨i1, j1, by omega, hj1, hb1, rfl⟩ hh.1 hh1.1 hh.2 hh1.2

theorem dir_find_no_hit {s : Image} {D : Nat} {name : List Nat}
    (h : ∀ p, is_slot s D p → ¬ slot_hit s.data name p) : dir_find s D name = -1 := by
  unfold dir_find
  apply find_scan_blocks_none s.data name (s.inodes D).blocks 6 0 (-1) (by norm_num)
  intro i1 j1 _ h2 hb hj
  exact h _ ⟨i1, j1, by omega, hj, hb, rfl⟩

theorem dir_find_neg_no_hit {s : Image} (hinv : Inv s) {D : Nat} (hd : is_dir s D)
    {name : List Nat} (h : dir_find s D name < 0) :
    ∀ p, is_slot s D p → ¬ slot_hit s.data name p := by
  intro p ⟨i, j, hi, hj, hb, he⟩
  rw [he]
  apply find_scan_blocks_neg s.data name (s.inodes D).blocks 6 0 (-1) _ h i j (by omega)
    (by omega) hb hj
  intro i1 j1 _ h2 hb1 hj1 hh
  have hs : is_slot s D (dentry_ptr ((s.inodes D).blocks i1) j1) :=
    ⟨i1, j1, by omega, hj1, hb1, rfl⟩
  have := (hinv.d.dnum D _ hd hs (dentry_vacant_false.1 hh.1).1).1
  omega

/-- The lookup either fails with `-1` or returns the number of a live inode. -/
theorem dir_find_cases {s : Image} (hinv : Inv s) {D : Nat} (hd : is_dir s D)
    (name : List Nat) :
    dir_find s D name = -1 ∨
    ∃ p, is_slot s D p ∧ slot_hit s.data name p ∧ dir_find s D name = dentry_num s.data p ∧
      0 < dentry_num s.data p ∧ live s (dentry_num s.data p).toNat := by
  by_cases h : dir_find s D name < 0
  · left
    exact dir_find_no_hit (dir_find_neg_no_hit hinv hd h)
  · right
    obtain ⟨p, hp, hh, he⟩ := dir_find_hit h
    obtain ⟨a, b⟩ := hinv.d.dnum D p hd hp (dentry_vacant_false.1 hh.1).1
    exact ⟨p, hp, hh, he.symm, a, b⟩

/-! ### `strip_ansi_codes` -/

/-- What `strip_ansi_codes` leaves in `out`: non-zero bytes of the input, fewer than the
size of the buffer. -/
theorem strip_loop_out : ∀ (l : List Nat) (esc : Bool) (room : Nat) (out : List Nat),
    strip_loop l esc room = some out → (∀ x ∈ out, x ∈ l ∧ x ≠ 0) ∧ out.length ≤ room
  | [], false, _, out, h => by
    simp [strip_loop] at h; subst h; simp
  | [], true, _, out, h => by simp [strip_loop] at h
  | c :: rest, true, room, out, h => by
    simp only [strip_loop] at h
    split at h
    · exact absurd h (by simp)
    · split at h
      · obtain ⟨a, b⟩ := strip_loop_out rest false room out h
        exact ⟨fun x hx => ⟨List.mem_cons_of_mem _ (a x hx).1, (a x hx).2⟩, b⟩
      · obtain ⟨a, b⟩ := strip_loop_out rest true room out h
        exact ⟨fun x hx => ⟨List.mem_cons_of_mem _ (a x hx).1, (a x hx).2⟩, b⟩
  | [c], false, room, out, h => by
    simp only [strip_loop] at h
    split at h
    · injection h with h; subst h; simp
    · next hc =>
      split at h
      · injection h with h; subst h; simp
      · next hr =>
        injection h with h; subst h
        refine ⟨fun x hx => ?_, by simp; omega⟩
        rw [List.mem_singleton] at hx
        subst hx
        exact ⟨by simp, hc⟩
  | c :: d :: rest, false, room, out, h => by
    simp only [strip_loop] at h
    split at h
    · injection h with h; subst h; simp
    · next hc =>
      split at h
      · injection h with h; subst h; simp
      · next hr =>
        split at h
        · obtain ⟨a, b⟩ := strip_loop_out rest true room out h
          exact ⟨fun x hx => ⟨List.mem_cons_of_mem _ (List.mem_cons_of_mem _ (a x hx).1),
            (a x hx).2⟩, b⟩
        · cases hrec : strip_loop (d :: rest) false (room - 1) with
          | none => rw [hrec] at h; simp at h
          | some o =>
            rw [hrec] at h
            simp only [Option.map_some'] at h
            injection h with h
            subst h
            obtain ⟨a, b⟩ := strip_loop_out (d :: rest) false (room - 1) o hrec
            refine ⟨fun x hx => ?_, by simp; omega⟩
            rcases List.mem_cons.1 hx with e | e
            · subst e; exact ⟨by simp, hc⟩
            · exact ⟨List.mem_cons_of_mem _ (a x e).1, (a x e).2⟩

/-! ### The components of a path -/

/-- After a `'/'` the tokenizer starts afresh. -/
theorem tokens_loop_slash : ∀ (a b cur : List Nat),
    tokens_loop (a ++ SLASH :: b) cur = tokens_loop (a ++ [SLASH]) cur ++ tokens_loop b []
  | [], b, cur => by
    simp only [List.nil_append, tokens_loop, if_true]
    split <;> simp
  | c :: a, b, cur => by
    simp only [List.cons_append, tokens_loop, List.append_eq]
    split
    · rw [tokens_loop_slash a b []]
      split <;> simp
    · exact tokens_loop_slash a b (c :: cur)

/-- Trailing slashes add no component. -/
theorem tokens_loop_trailing : ∀ (l sl cur : List Nat), (∀ x ∈ sl, x = SLASH) →
    tokens_loop (l ++ sl) cur = tokens_loop l cur
  | [], [], cur, _ => rfl
  | [], x :: sl, cur, h => by
    have hx : x = SLASH := h x (by simp)
    have ih := tokens_loop_trailing [] sl [] (fun y hy => h y (List.mem_cons_of_mem _ hy))
    simp only [List.nil_append] at ih ⊢
    simp only [tokens_loop, if_pos hx, ih]
    split <;> simp
  | c :: l, sl, cur, h => by
    simp only [List.cons_append, tokens_loop, List.append_eq]
    split
    · rw [tokens_loop_trailing l sl [] h]
    · exact tokens_loop_trailing l sl (c :: cur) h

/-- A run of bytes other than `'/'` is read into the current component. -/
theorem tokens_loop_word : ∀ (w l cur : List Nat), SLASH ∉ w →
    tokens_loop (w ++ l) cur = tokens_loop l (w.reverse ++ cur)
  | [], l, cur, _ => rfl
  | c :: w, l, cur, h => by
    have hc : c ≠ SLASH := fun e => h (by simp [e])
    simp only [List.cons_append, tokens_loop, if_neg hc, List.append_eq]
    rw [tokens_loop_word w l (c :: cur) (fun hh => h (List.mem_cons_of_mem _ hh))]
    simp

theorem path_tokens_word {w : List Nat} (hw : w ≠ []) (hs : SLASH ∉ w) :
    path_tokens w = [w] := by
  unfold path_tokens
  have := tokens_loop_word w [] [] hs
  simp only [List.append_nil] at this
  rw [this]
  simp [tokens_loop, hw]

/-- The components of `P/b` are those of `P` followed by those of `b`. -/
theorem path_tokens_join (P b : List Nat) :
    path_tokens (P ++ SLASH :: b) = path_tokens P ++ path_tokens b := by
  unfold path_tokens
  rw [tokens_loop_slash, tokens_loop_trailing P [SLASH] [] (by simp)]

/-- A repeated slash does not change the components. -/
theorem path_tokens_double (a b : List Nat) :
    path_tokens (a ++ SLASH :: SLASH :: b) = path_tokens (a ++ SLASH :: b) := by
  unfold path_tokens
  rw [tokens_loop_slash a (SLASH :: b), tokens_loop_slash a b]
  simp [tokens_loop]

/-- A trailing slash does not change the components. -/
theorem path_tokens_trailing (P : List Nat) : path_tokens (P ++ [SLASH]) = path_tokens P := by
  unfold path_tokens
  exact tokens_loop_trailing P [SLASH] [] (by simp)

/-! ### The stack of the resolver -/

theorem head_cons {stack : List Nat} {cur : Nat} (hh : stack.head? = some cur) :
    ∃ tl, stack = cur :: tl := by
  cases stack with
  | nil => simp at hh
  | cons a tl =>
    simp only [List.head?_cons, Option.some.injEq] at hh
    exact ⟨tl, by rw [hh]⟩

theorem chain_head_live {s : Image} {a : Nat} {l : List Nat} (h : chain s (a :: l)) :
    live s a := by
  cases l with
  | nil => exact h
  | cons b rest => exact h.1

theorem chain_tail {s : Image} {a b : Nat} {l : List Nat} (h : chain s (a :: b :: l)) :
    chain s (b :: l) := h.2.2

theorem chain_push {s : Image} {a b : Nat} {l : List Nat} (ha : live s a) (he : edge s b a)
    (h : chain s (b :: l)) : chain s (a :: b :: l) := ⟨ha, he, h⟩

theorem chain_live {s : Image} : ∀ (l : List Nat), chain s l → ∀ x ∈ l, live s x
  | [], _, x, hx => by simp at hx
  | [a], h, x, hx => by
    rw [List.mem_singleton] at hx; subst hx; exact h
  | a :: b :: rest, h, x, hx => by
    rcases List.mem_cons.1 hx with e | e
    · subst e; exact h.1
    · exact chain_live (b :: rest) h.2.2 x e

/-- Along the stack the depth of the inodes decreases. -/
theorem chain_rank {s : Image} {r : Nat → Nat}
    (hr : ∀ k p, is_dir s k → is_slot s k p → dentry_num s.data p ≠ 0 →
      r (dentry_num s.data p).toNat = r k + 1) :
    ∀ (l : List Nat) (a : Nat), chain s (a :: l) → ∀ x ∈ l, r x < r a
  | [], _, _, x, hx => by simp at hx
  | b :: rest, a, h, x, hx => by
    obtain ⟨_, ⟨hd, p, hp, hn, he⟩, hc⟩ := h
    have e1 : r a = r b + 1 := by rw [← he]; exact hr b p hd hp hn
    rcases List.mem_cons.1 hx with e | e
    · subst e; omega
    · have := chain_rank hr rest b hc x e
      omega

theorem chain_nodup {s : Image} (hinv : Inv s) : ∀ (l : List Nat), chain s l → l.Nodup
  | [], _ => List.nodup_nil
  | [a], _ => List.nodup_singleton a
  | a :: b :: rest, h => by
    obtain ⟨r, hr⟩ := hinv.d.rank
    rw [List.nodup_cons]
    refine ⟨fun hx => ?_, chain_nodup hinv (b :: rest) h.2.2⟩
    have := chain_rank hr (b :: rest) a h a hx
    omega

/-- The stack never holds more entries than there are inodes. -/
theorem chain_length {s : Image} (hinv : Inv s) {l : List Nat} (h : chain s l) :
    l.length ≤ s.sb.num_inodes := by
  have hn := chain_nodup hinv l h
  have hsub : l.toFinset ⊆ Finset.range s.sb.num_inodes := by
    intro x hx
    rw [List.mem_toFinset] at hx
    rw [Finset.mem_range]
    exact (chain_live l h x hx).1
  have := Finset.card_le_card hsub
  rw [List.toFinset_card_of_nodup hn, Finset.card_range] at this
  exact this

/-- A successful lookup in a live directory gives an edge to a live inode. -/
theorem lookup_edge {s : Image} (hinv : Inv s) {cur : Nat} (hd : is_dir s cur)
    {t : List Nat} (hf : ¬ dir_find s cur t < 0) :
    ∃ n : Nat, dir_find s cur t = (n : Int) ∧ live s n ∧ edge s cur n ∧
      retrieve_inode s (dir_find s cur t) = some n := by
  obtain ⟨p, hp, hh, hn⟩ := dir_find_hit hf
  have hn0 := (dentry_vacant_false.1 hh.1).1
  obtain ⟨hpos, hl⟩ := hinv.d.dnum cur p hd hp hn0
  refine ⟨(dentry_num s.data p).toNat, ?_, hl, ⟨hd, p, hp, hn0, rfl⟩, ?_⟩
  · rw [← hn]; omega
  · rw [← hn]
    have e : dentry_num s.data p = ((dentry_num s.data p).toNat : Int) := by omega
    rw [e]
    exact retrieve_inode_live hl

/-- Resolving a list of components in two stages: the first stage leaves a well-formed
stack, from which the remaining components are resolved. -/
theorem walk_append {s : Image} (hinv : Inv s) : ∀ (pre : List (List Nat)) (cur : Nat)
    (stack : List Nat) (mid : Nat), stack.head? = some cur → chain s stack →
    walk s pre cur stack = path_result.found mid →
    ∃ st, st.head? = some mid ∧ chain s st ∧
      ∀ rest, walk s (pre ++ rest) cur stack = walk s rest mid st
  | [], cur, stack, mid, hh, hc, h => by
    simp only [walk] at h
    injection h with h
    subst h
    exact ⟨stack, hh, hc, fun rest => rfl⟩
  | t :: pre, cur, stack, mid, hh, hc, h => by
    simp only [walk] at h
    split at h
    · exact absurd h (by simp)
    · next hd =>
      split at h
      · next ht =>
        obtain ⟨st, a, b, c⟩ := walk_append hinv pre cur stack mid hh hc h
        refine ⟨st, a, b, fun rest => ?_⟩
        rw [← c rest]
        simp only [List.cons_append, walk, List.append_eq]
        rw [if_neg hd, if_pos ht]
      · next ht =>
        split at h
        · next ht2 =>
          split at h
          · next x prev below =>
            have hc1 : chain s (prev :: below) := chain_tail hc
            obtain ⟨st, a, b, c⟩ := walk_append hinv pre prev (prev :: below) mid rfl hc1 h
            refine ⟨st, a, b, fun rest => ?_⟩
            rw [← c rest]
            simp only [List.cons_append, walk, List.append_eq]
            rw [if_neg hd, if_neg ht, if_pos ht2]
          · exact absurd h (by simp)
        · next ht2 =>
          split at h
          · exact absurd h (by simp)
          · next hf =>
            split at h
            · exact absurd h (by simp)
            · next nxt hr =>
              split at h
              · exact absurd h (by simp)
              · next hlen =>
                obtain ⟨tl, etl⟩ := head_cons hh
                subst etl
                have hl := chain_head_live hc
                have hdir : is_dir s cur := ⟨hl, by simpa using hd⟩
                obtain ⟨n, _, hnl, hedge, hret⟩ := lookup_edge hinv hdir hf
                have en : nxt = n := by
                  rw [hret] at hr
                  injection hr with hr
                  exact hr.symm
                subst en
                have hc1 : chain s (nxt :: cur :: tl) := chain_push hnl hedge hc
                obtain ⟨st, a, b, c⟩ :=
                  walk_append hinv pre nxt (nxt :: cur :: tl) mid rfl hc1 h
                refine ⟨st, a, b, fun rest => ?_⟩
                rw [← c rest]
                simp only [List.cons_append, walk, List.append_eq]
                rw [if_neg hd, if_neg ht, if_neg ht2, if_neg hf]
                simp only [hr]
                rw [if_neg hlen]

/-- One lookup step of the resolver on a well-formed stack: the component is found in the
current directory and the walk goes on from the inode the dentry names. -/
theorem walk_step {s : Image} (hinv : Inv s) {cur : Nat} {stack : List Nat}
    (hh : stack.head? = some cur) (hc : chain s stack)
    (hd : S_ISDIR (s.inodes cur).mode = true) {t : List Nat} (ht : t ≠ [DOT])
    (ht2 : t ≠ [DOT, DOT]) {p : Int} (hp : is_slot s cur p) (hit : slot_hit s.data t p)
    (rest : List (List Nat)) :
    chain s ((dentry_num s.data p).toNat :: stack) ∧
    walk s (t :: rest) cur stack =
      walk s rest (dentry_num s.data p).toNat ((dentry_num s.data p).toNat :: stack) := by
  obtain ⟨tl, etl⟩ := head_cons hh
  subst etl
  have hl := chain_head_live hc
  have hdir : is_dir s cur := ⟨hl, hd⟩
  have hfind := dir_find_of_hit hinv hdir hp hit
  have hn0 := (dentry_vacant_false.1 hit.1).1
  obtain ⟨hpos, hnl⟩ := hinv.d.dnum cur p hdir hp hn0
  have hc1 : chain s ((dentry_num s.data p).toNat :: cur :: tl) :=
    chain_push hnl ⟨hdir, p, hp, hn0, rfl⟩ hc
  refine ⟨hc1, ?_⟩
  have hlen := chain_length hinv hc1
  have hret : retrieve_inode s (dentry_num s.data p) = some (dentry_num s.data p).toNat := by
    have e : dentry_num s.data p = ((dentry_num s.data p).toNat : Int) := by omega
    conv => lhs; rw [e]
    exact retrieve_inode_live hnl
  simp only [walk]
  rw [if_neg (by simp [hd]), if_neg ht, if_neg ht2, hfind, if_neg (by omega)]
  simp only [hret]
  rw [if_neg (by simp only [List.length_cons] at hlen ⊢; omega)]

/-- The resolver on a path other than `"/"`: a walk from the root over the components. -/
theorem resolve_eq_walk {s : Image} {path : List Nat} (hne : path ≠ [SLASH])
    (hh : path.head? = some SLASH) (hl : live s 0) :
    get_inode_from_path s path = walk s (path_tokens path) 0 [0] := by
  unfold get_inode_from_path
  rw [if_neg hne, if_neg (by simp [hh])]
  have := retrieve_inode_live hl
  simp only [Nat.cast_zero] at this
  simp only [this]

/-- A path that resolves starts with `'/'`, the root is in use, and the walk over its
components ends at the inode. -/
theorem walk_of_resolve {s : Image} {path : List Nat} {x : Nat}
    (h : get_inode_from_path s path = path_result.found x) :
    path.head? = some SLASH ∧ live s 0 ∧ walk s (path_tokens path) 0 [0] = path_result.found x := by
  have hl := (resolve_live h).2
  by_cases hne : path = [SLASH]
  · subst hne
    refine ⟨rfl, hl, ?_⟩
    unfold get_inode_from_path at h
    rw [if_pos rfl] at h
    have := retrieve_inode_live hl
    simp only [Nat.cast_zero] at this
    simp only [this] at h
    rw [← h]
    rfl
  · have hh : path.head? = some SLASH := by
      by_contra hx
      unfold get_inode_from_path at h
      rw [if_neg hne, if_pos hx] at h
      exact absurd h (by simp)
    refine ⟨hh, hl, ?_⟩
    rw [← resolve_eq_walk hne hh hl]
    exact h

end WFS

namespace WFS

/-! ### Paths with the same components -/

theorem path_tokens_root : path_tokens [SLASH] = [] := by decide

theorem head_append_slash {P : List Nat} (hh : P.head? = some SLASH) (b : List Nat) :
    (P ++ b).head? = some SLASH ∧ P ++ SLASH :: b ≠ [SLASH] := by
  obtain ⟨tl, e⟩ := head_cons hh
  subst e
  refine ⟨rfl, ?_⟩
  intro h
  have := congrArg List.length h
  simp at this

/-- The resolver on a path of slashes only gives what it gives on `"/"`. -/
theorem resolve_no_tokens {s : Image} {path : List Nat} (hh : path.head? = some SLASH)
    (ht : path_tokens path = []) :
    get_inode_from_path s path = get_inode_from_path s [SLASH] := by
  by_cases hne : path = [SLASH]
  · rw [hne]
  · unfold get_inode_from_path
    rw [if_neg hne, if_neg (by simp [hh]), if_pos rfl, ht]
    cases retrieve_inode s 0 <;> rfl

/-- Two paths that start with `'/'` and have the same components resolve alike. -/
theorem resolve_tokens_congr {s : Image} {p q : List Nat} (hp : p.head? = some SLASH)
    (hq : q.head? = some SLASH) (ht : path_tokens p = path_tokens q) :
    get_inode_from_path s p = get_inode_from_path s q := by
  by_cases hpe : p = [SLASH]
  · subst hpe
    rw [path_tokens_root] at ht
    exact (resolve_no_tokens hq ht.symm).symm
  · by_cases hqe : q = [SLASH]
    · subst hqe
      rw [path_tokens_root] at ht
      exact resolve_no_tokens hp ht
    · unfold get_inode_from_path
      rw [if_neg hpe, if_neg hqe, if_neg (by simp [hp]), if_neg (by simp [hq]), ht]

/-- A trailing slash does not change what a non-empty path resolves to. -/
theorem resolve_trailing_slash (s : Image) {path : List Nat} (hne : path ≠ []) :
    get_inode_from_path s (path ++ [SLASH]) = get_inode_from_path s path := by
  by_cases hh : path.head? = some SLASH
  · exact resolve_tokens_congr (head_append_slash hh [SLASH]).1 hh (path_tokens_trailing path)
  · have h1 : (path ++ [SLASH]).head? ≠ some SLASH := by
      cases path with
      | nil => exact absurd rfl hne
      | cons a tl => exact hh
    have h2 : path ≠ [SLASH] := fun e => hh (by rw [e]; rfl)
    have h3 : path ++ [SLASH] ≠ [SLASH] := by
      intro e
      have := congrArg List.length e
      simp at this
      exact hne this
    unfold get_inode_from_path
    rw [if_neg h2, if_neg h3, if_pos hh, if_pos h1]

/-- A repeated slash does not change what a path resolves to. -/
theorem resolve_double_slash (s : Image) (a b : List Nat) :
    get_inode_from_path s (a ++ SLASH :: SLASH :: b) = get_inode_from_path s (a ++ SLASH :: b) := by
  by_cases hh : (a ++ SLASH :: b).head? = some SLASH
  · have h1 : (a ++ SLASH :: SLASH :: b).head? = some SLASH := by
      cases a with
      | nil => rfl
      | cons x tl => exact hh
    exact resolve_tokens_congr h1 hh (path_tokens_double a b)
  · cases a with
    | nil => exact absurd rfl hh
    | cons x tl =>
      have h1 : (x :: tl ++ SLASH :: SLASH :: b).head? ≠ some SLASH := hh
      have h2 : x :: tl ++ SLASH :: b ≠ [SLASH] := fun e => hh (by rw [e]; rfl)
      have h3 : x :: tl ++ SLASH :: SLASH :: b ≠ [SLASH] := by
        intro e
        have := congrArg List.length e
        simp at this
      unfold get_inode_from_path
      rw [if_neg h2, if_neg h3, if_pos hh, if_pos h1]

theorem not_hit_nil {m : Int → Nat} {p : Int} : ¬ slot_hit m [] p := by
  intro ⟨h1, h2⟩
  have := (dentry_vacant_false.1 h1).2
  simp only [strcmp_eq, beq_iff_eq] at h2
  exact this h2

/-- The components of the path `Q/t` for a component `t`. -/
theorem path_tokens_snoc (Q : List Nat) {t : List Nat} (ht : t ≠ []) (hs : SLASH ∉ t) :
    path_tokens (Q ++ SLASH :: t) = path_tokens Q ++ [t] := by
  rw [path_tokens_join, path_tokens_word ht hs]

/-! ### Why `add_dentry` fails, and what it stores -/

/-- A failing `add_dentry` leaves the image unchanged, and the return value tells why: 1
for a parent that is not a directory or a name of `MAX_NAME` bytes or more, `-EEXIST` for
a name some live slot carries, `-ENOSPC` when no slot is vacant and either all six direct
entries are in use or no data block is free. -/
theorem add_dentry_failure {s : Image} (hb : InvB s) {parent : Nat} {num : Int}
    {name : List Nat} {now rc : Int} {s1 : Image}
    (h : add_dentry s parent num name now = (rc, s1)) (hrc : rc ≠ 0) :
    s1 = s ∧
    ((rc = 1 ∧ (S_ISDIR (s.inodes parent).mode = false ∨ 28 ≤ name.length)) ∨
     (rc = -EEXIST ∧ ∃ p, is_slot s parent p ∧ slot_hit s.data name p) ∨
     (rc = -ENOSPC ∧ (∀ p, is_slot s parent p → dentry_vacant s.data p = false) ∧
       (∀ p, is_slot s parent p → ¬ slot_hit s.data name p) ∧
       ((∀ i, i < 6 → (s.inodes parent).blocks i ≠ 0) ∨
        (∀ n, n < s.sb.num_data_blocks → bit_set s.d_bitmap n = true)))) := by
  unfold add_dentry at h
  split at h
  · next hdir =>
    injection h with h1 h2
    exact ⟨h2.symm, Or.inl ⟨h1.symm, Or.inl (by simpa using hdir)⟩⟩
  · next hdir =>
    split at h
    · next hlen =>
      injection h with h1 h2
      exact ⟨h2.symm, Or.inl ⟨h1.symm, Or.inr (by simpa using hlen)⟩⟩
    · next hlen =>
      split at h
      · next hst =>
        injection h with h1 h2
        obtain ⟨i1, j1, _, h3, h4, h5, h6⟩ := add_scan_blocks_none _ _ _ 6 0 _ hst
        exact ⟨h2.symm, Or.inr (Or.inl ⟨h1.symm, _, ⟨i1, j1, by omega, h5, h4, rfl⟩, h6⟩)⟩
      · next st hst =>
        have hnohit := no_hit_of_scan hst
        obtain ⟨_, r2, r3, r4, r5⟩ := add_scan_blocks_spec _ _ _ 6 0 _ st hst
        split at h
        · next p nfb hnf =>
          injection h with h1 h2
          exact absurd h1.symm hrc
        · next hnf =>
          obtain ⟨_, hfull⟩ := r3 hnf
          have hvac : ∀ p, is_slot s parent p → dentry_vacant s.data p = false := by
            intro p ⟨i, j, hi1, hj1, hbi, hp⟩
            rw [hp]
            exact hfull i j (by omega) (by omega) hbi hj1
          split at h
          · next hnb =>
            injection h with h1 h2
            obtain ⟨_, hall⟩ := r5 hnb
            exact ⟨h2.symm, Or.inr (Or.inr ⟨h1.symm, hvac, hnohit,
              Or.inl (fun i hi => hall i (by omega) (by omega))⟩)⟩
          · next nb hnb =>
            rcases allocate_data_block_cases hb with ⟨ha, hbits⟩ | ⟨n, hn, hbit, ha⟩
            · rw [ha] at h
              simp only at h
              rw [if_pos (by decide)] at h
              injection h with h1 h2
              exact ⟨h2.symm, Or.inr (Or.inr ⟨h1.symm, hvac, hnohit, Or.inr hbits⟩)⟩
            · rw [ha] at h
              simp only at h
              have hpos : ¬ block_off s n < 0 := by
                have := hb.sb.2.2.1
                unfold block_off; omega
              rw [if_neg hpos] at h
              injection h with h1 h2
              exact absurd h1.symm hrc

/-- After a successful `add_dentry` a slot of the parent holds the name, its terminating
zero byte and the inode number. -/
theorem add_dentry_stored {s : Image} (hb : InvB s) {parent : Nat} {num : Int}
    {name : List Nat} {now : Int} {s1 : Image}
    (h : add_dentry s parent num name now = (0, s1)) :
    ∃ p, is_slot s1 parent p ∧
      (∀ i : Nat, i ≤ name.length → s1.data (p + i) = (name ++ [0]).getD i 0) ∧
      (-2 ^ 31 ≤ num → num < 2 ^ 31 → dentry_num s1.data p = num) ∧
      s1.sb = s.sb ∧ s1.i_bitmap = s.i_bitmap := by
  rcases add_dentry_cases hb h with ⟨h0, _⟩ | ⟨_, hdir, hlen, hno, hc⟩
  · exact absurd rfl h0
  · rcases hc with ⟨i, j, hi, hj, hbi, hv, e⟩ | ⟨i, n, hi, hz, hn, hbit, _, e⟩
    · refine ⟨dentry_ptr ((s.inodes parent).blocks i) j, ?_, ?_, ?_, ?_, ?_⟩
      · rw [e, touch_parent_eq]
        exact ⟨i, j, hi, hj, by rw [set_inode_same]; exact hbi, by rw [set_inode_same]⟩
      · intro k hk
        rw [e, touch_parent_eq, set_inode_data]
        exact write_dentry_name hlen k hk
      · intro h1 h2
        rw [e, touch_parent_eq, set_inode_data]
        exact write_dentry_num _ _ _ h1 h2
      · rw [e]; rfl
      · rw [e]; rfl
    · have hbpos : block_off s n ≠ 0 := by
        have := hb.sb.2.2.1
        unfold block_off; omega
      have hblk : ((touch_parent
            { set_block (with_new_block s n) parent i (block_off s n) with
              data := write_dentry (with_new_block s n).data (block_off s n) name num }
            parent i now).inodes parent).blocks i = block_off s n := by
        rw [touch_parent_eq, set_inode_same]
        show ((set_block (with_new_block s n) parent i (block_off s n)).inodes parent).blocks i
          = block_off s n
        rw [set_block_blocks, if_pos rfl]
      refine ⟨block_off s n, ?_, ?_, ?_, ?_, ?_⟩
      · rw [e]
        refine ⟨i, 0, hi, by decide, by rw [hblk]; exact hbpos, ?_⟩
        rw [hblk]
        unfold dentry_ptr
        simp
      · intro k hk
        rw [e, touch_parent_eq, set_inode_data]
        exact write_dentry_name hlen k hk
      · intro h1 h2
        rw [e, touch_parent_eq, set_inode_data]
        exact write_dentry_num _ _ _ h1 h2
      · rw [e]; rfl
      · rw [e]; rfl

/-- When `add_dentry` succeeds: the parent is a directory, the name has fewer than
`MAX_NAME` bytes and no live slot carries it, and there is a vacant slot, or a free entry
of the address array and a free data block. -/
theorem add_dentry_success {s : Image} (hb : InvB s) {parent : Nat} (num : Int)
    {name : List Nat} (now : Int) (hd : S_ISDIR (s.inodes parent).mode = true)
    (hlen : name.length < 28)
    (hroom : (∃ p, is_slot s parent p ∧ dentry_vacant s.data p = true) ∨
      ((∃ i, i < 6 ∧ (s.inodes parent).blocks i = 0) ∧
        ∃ n, n < s.sb.num_data_blocks ∧ bit_set s.d_bitmap n = false))
    (hno : ∀ p, is_slot s parent p → ¬ slot_hit s.data name p) :
    ∃ s1, add_dentry s parent num name now = (0, s1) := by
  cases hr : add_dentry s parent num name now with
  | mk rc s1 =>
    by_cases hrc : rc = 0
    · subst hrc
      exact ⟨s1, rfl⟩
    · exfalso
      obtain ⟨_, hwhy⟩ := add_dentry_failure hb hr hrc
      rcases hwhy with ⟨_, h1 | h1⟩ | ⟨_, p, hp, hit⟩ | ⟨_, hvac, _, hfull⟩
      · rw [hd] at h1; exact Bool.noConfusion h1
      · omega
      · exact hno p hp hit
      · rcases hroom with ⟨p, hp, hv⟩ | ⟨⟨i, hi, hz⟩, n, hn, hbit⟩
        · rw [hvac p hp] at hv; exact Bool.noConfusion hv
        · rcases hfull with hf | hf
          · exact hf i hi hz
          · rw [hf n hn] at hbit; exact Bool.noConfusion hbit

/-! ### Counting the clear bits of a bitmap (`wfs_statfs`) -/

theorem clear_bits_add_set_bits (bitmap : Nat → Nat) :
    ∀ n, clear_bits bitmap n + set_bits bitmap n = n
  | 0 => rfl
  | n + 1 => by
    have := clear_bits_add_set_bits bitmap n
    simp only [clear_bits, set_bits]
    split <;> omega

theorem clear_bits_le (bitmap : Nat → Nat) (m : Nat) :
    ∀ k, clear_bits bitmap (m + k) ≤ clear_bits bitmap m + k
  | 0 => le_refl _
  | k + 1 => by
    have := clear_bits_le bitmap m k
    rw [← Nat.add_assoc]
    simp only [clear_bits]
    split <;> omega

theorem word_bit_clear (bitmap : Nat → Nat) (i b : Nat) (hb : b < 32) :
    ((bitmap i >>> b) &&& 1 = 0) ↔ bit_set bitmap (32 * i + b) = false := by
  have e1 : (32 * i + b) / 32 = i := by omega
  have e2 : (32 * i + b) % 32 = b := by omega
  rw [bit_set_eq, e1, e2, shift_and_one]

/-- The inner loop of `wfs_statfs` adds the clear bits among the bits it visits. -/
theorem count_free_word_spec (bitmap : Nat → Nat) (i limit : Nat) (hlim : limit < 2 ^ 32) :
    ∀ (n b acc : Nat), b + n ≤ 32 → 32 * i + b + n ≤ limit → acc + n < 2 ^ 32 →
      count_free_word (bitmap i) i limit n b acc + clear_bits bitmap (32 * i + b)
        = acc + clear_bits bitmap (32 * i + b + n)
  | 0, b, acc, _, _, _ => by simp [count_free_word]
  | n + 1, b, acc, h1, h2, h3 => by
    have e0 : (i * 32 + b) % 2 ^ 32 = 32 * i + b := by
      rw [Nat.mod_eq_of_lt (by omega)]; omega
    simp only [count_free_word, e0]
    rw [if_neg (by omega)]
    have hcb : clear_bits bitmap (32 * i + b + 1)
        = clear_bits bitmap (32 * i + b) + (if bit_set bitmap (32 * i + b) then 0 else 1) := rfl
    have e3 : 32 * i + b + (n + 1) = 32 * i + (b + 1) + n := by omega
    by_cases hc : (bitmap i >>> b) &&& 1 = 0
    · have hbs := (word_bit_clear bitmap i b (by omega)).1 hc
      rw [if_pos hc, Nat.mod_eq_of_lt (by omega)]
      have ih := count_free_word_spec bitmap i limit hlim n (b + 1) (acc + 1) (by omega)
        (by omega) (by omega)
      rw [e3]
      rw [show 32 * i + (b + 1) = 32 * i + b + 1 by omega, hcb, hbs] at ih
      simp only [Bool.false_eq_true, if_false] at ih
      rw [show 32 * i + (b + 1) + n = 32 * i + b + 1 + n by omega]
      omega
    · have hbs : bit_set bitmap (32 * i + b) = true := by
        cases hh : bit_set bitmap (32 * i + b)
        · exact absurd ((word_bit_clear bitmap i b (by omega)).2 hh) hc
        · rfl
      rw [if_neg hc]
      have ih := count_free_word_spec bitmap i limit hlim n (b + 1) acc (by omega)
        (by omega) (by omega)
      rw [e3]
      rw [show 32 * i + (b + 1) = 32 * i + b + 1 by omega, hcb, hbs] at ih
      simp only [if_true] at ih
      rw [show 32 * i + (b + 1) + n = 32 * i + b + 1 + n by omega]
      omega

/-- The outer loop of `wfs_statfs` adds the clear bits of the words it visits. -/
theorem count_free_spec (bitmap : Nat → Nat) (limit : Nat) (hlim : limit < 2 ^ 32) :
    ∀ (n i acc : Nat), 32 * (i + n) ≤ limit → acc + 32 * n < 2 ^ 32 →
      count_free bitmap limit n i acc + clear_bits bitmap (32 * i)
        = acc + clear_bits bitmap (32 * (i + n))
  | 0, i, acc, _, _ => by simp [count_free]
  | n + 1, i, acc, h1, h2 => by
    simp only [count_free]
    have hw := count_free_word_spec bitmap i limit hlim 32 0 acc (by omega) (by omega) (by omega)
    simp only [Nat.add_zero] at hw
    have hle := clear_bits_le bitmap (32 * i) 32
    have ih := count_free_spec bitmap limit hlim n (i + 1)
      (count_free_word (bitmap i) i limit 32 0 acc) (by omega) (by omega)
    rw [show 32 * (i + 1) = 32 * i + 32 by omega] at ih
    rw [show 32 * (i + (n + 1)) = 32 * (i + 1 + n) by omega]
    omega

/-- For a bitmap of `n` bits, `n` a multiple of 32 below `2^31`, the loops of `wfs_statfs`
count the clear bits among the first `n` bits. -/
theorem count_free_eq (bitmap : Nat → Nat) {n : Nat} (h32 : n % 32 = 0) (hn : n < 2 ^ 31) :
    count_free bitmap n (((n + 31) % 2 ^ 64) / 32) 0 0 = clear_bits bitmap n := by
  have e : ((n + 31) % 2 ^ 64) / 32 = n / 32 := by
    rw [Nat.mod_eq_of_lt (by omega)]; omega
  rw [e]
  have := count_free_spec bitmap n (by omega) (n / 32) 0 0 (by omega) (by omega)
  simp only [Nat.mul_zero, clear_bits, Nat.zero_add, Nat.add_zero] at this
  rw [this]
  congr 1
  omega

/-! ### `setup_sb` -/

/-- The value `setup_sb` returns: 1 exactly when the end of the data region lies strictly
below the size of the image file. -/
theorem setup_sb_accepts {inodes blocks sz : Nat} {sb : wfs_sb} {ok : Int}
    (h : setup_sb inodes blocks sz = some (sb, ok)) :
    sb.num_inodes = (roundup inodes 32).toNat ∧ sb.num_data_blocks = (roundup blocks 32).toNat ∧
    ok = if sb.i_blocks_ptr + 512 * (sb.num_inodes : Int) + 512 * (sb.num_data_blocks : Int) < sz
      then 1 else 0 := by
  unfold setup_sb at h
  simp only [BLOCK_SIZE] at h
  split at h
  · exact absurd h (by simp)
  · injection h with h
    injection h with h1 h2
    obtain ⟨a0, _, _⟩ := roundup_spec inodes
    obtain ⟨b0, _, _⟩ := roundup_spec blocks
    rw [← h1, ← h2]
    refine ⟨rfl, rfl, ?_⟩
    simp only
    rw [Int.toNat_of_nonneg a0, Int.toNat_of_nonneg b0]
    congr 1
    apply propext
    constructor <;> intro hx <;> omega

/-! ### The colour attribute -/

/-- Each name of the colour table is accepted by the parser with its code, is left alone
by `strip_ansi_codes`, and is the name `wfs_color_from_code` gives back for the code. -/
theorem color_table_facts : ∀ e ∈ color_table, e.1 ≠ [] ∧ e.1.length < 31 ∧
    strip_ansi_codes e.1 32 = some e.1 ∧ parse_color_name e.1 = some e.2 ∧
    (wfs_color_from_code e.2).2 = e.1 := by decide

theorem color_table_distinct :
    ∀ e ∈ color_table, ∀ e2 ∈ color_table, e2.1 ≠ e.1 → e2.2 ≠ e.2 := by decide

theorem cstr_user_color : cstr (str "user.color") = str "user.color" := by decide

theorem tolower_idem (x : Nat) : tolower (tolower x) = tolower x := by
  unfold tolower
  by_cases h : 65 ≤ x ∧ x ≤ 90
  · rw [if_pos h, if_neg (by omega)]
  · rw [if_neg h, if_neg h]

/-- `wfs_setxattr` with the name `user.color` and a value that is a colour name up to the
case of its letters stores the code of the colour. -/
theorem wfs_setxattr_color {s : Image} {path clean : List Nat} {inode : Nat} (now : Int)
    (hc : strip_ansi_codes path PATH_MAX = some clean)
    (hr : get_inode_from_path s clean = path_result.found inode)
    {c : List Nat} {code : Nat} (hm : (c, code) ∈ color_table) {v : List Nat}
    (hv : v.map tolower = c) :
    wfs_setxattr s path (str "user.color") v now =
      some (0, set_inode s inode { s.inodes inode with color := code, ctim := now }) := by
  obtain ⟨h1, h2, h3, h4, _⟩ := color_table_facts (c, code) hm
  simp only at h1 h2 h3 h4
  have hlen : v.length = c.length := by rw [← hv, List.length_map]
  have hne : v.length ≠ 0 := by
    rw [hlen]
    exact fun e => h1 (List.length_eq_zero.1 e)
  unfold wfs_setxattr
  simp only [hc, hr, cstr_user_color]
  rw [if_neg (by simp), if_neg hne, if_pos (by omega), List.take_length, hv]
  simp only [h3, h4]

/-- `wfs_getxattr` with the name `user.color` reports the name of the stored code. -/
theorem wfs_getxattr_color {s : Image} {path clean : List Nat} {inode : Nat}
    (hc : strip_ansi_codes path PATH_MAX = some clean)
    (hr : get_inode_from_path s clean = path_result.found inode)
    {c : List Nat} {code : Nat} (hm : (c, code) ∈ color_table)
    (hcol : (s.inodes inode).color = code) :
    wfs_getxattr s path (str "user.color") 0 = some ((c.length : Int) + 1, none, s) ∧
    ∀ size, c.length + 1 ≤ size →
      wfs_getxattr s path (str "user.color") size
        = some ((c.length : Int) + 1, some (c ++ [0]), s) := by
  obtain ⟨_, h2, _, _, h5⟩ := color_table_facts (c, code) hm
  simp only at h2 h5
  have hsz : size_to_int (c.length + 1) = (c.length : Int) + 1 := by
    rw [size_to_int_eq (by omega)]
    push_cast
    rfl
  constructor
  · unfold wfs_getxattr
    simp only [hc, hr, cstr_user_color, hcol, h5, hsz, ne_eq, not_true_eq_false, if_false,
      if_true]
  · intro size hs
    unfold wfs_getxattr
    simp only [hc, hr, cstr_user_color, hcol, h5, hsz, ne_eq, not_true_eq_false, if_false]
    rw [if_neg (by omega), if_neg (by omega)]

/-- What the value buffer of `wfs_setxattr` looks like after lower-casing and stripping: no
zero byte, at most 31 bytes, fixed by `tolower`; `parse_color_name` accepts it exactly when
it is a name of the colour table. -/
theorem parse_stripped {buf st : List Nat} (hl : ∀ x ∈ buf, tolower x = x)
    (hs : strip_ansi_codes buf 32 = some st) (hno : ∀ e ∈ color_table, e.1 ≠ st) :
    parse_color_name st = none := by
  unfold strip_ansi_codes at hs
  rw [if_neg (by decide)] at hs
  obtain ⟨a, b⟩ := strip_loop_out buf false 31 st hs
  have h1 : cstr st = st := by
    unfold cstr
    rw [List.takeWhile_eq_self_iff]
    intro x hx
    simpa using (a x hx).2
  have h2 : (st.take 31).map tolower = st := by
    rw [List.take_of_length_le (by omega)]
    conv => rhs; rw [← List.map_id st]
    apply List.map_congr_left
    intro x hx
    exact hl x (a x hx).1
  unfold parse_color_name
  simp only [h1, h2]
  rw [Option.map_eq_none', List.find?_eq_none]
  intro e he
  simpa using hno e he

/-! ### Directory listing -/

end WFS

namespace WFS

/-! ### The resolver on two images -/

theorem slot_hit_congr {s : Image} (hinv : Inv s) {k : Nat} {p : Int} (hk : is_dir s k)
    (hp : is_slot s k p) {m1 : Int → Nat} (h : ∀ q, p ≤ q → q < p + 32 → m1 q = s.data q)
    (name : List Nat) : slot_hit m1 name p ↔ slot_hit s.data name p := by
  obtain ⟨t, ht, hz⟩ := hinv.d.nul k p hk hp
  unfold slot_hit
  rw [dentry_vacant_congr h,
    strcmp_eq_congr name 28 p ⟨t, ht, hz⟩ (fun q h1 h2 => h q h1 (by omega))]

/-- The walk of the resolver in the image `s1` follows the walk in `s` as long as the walk
in `s` stays among the inodes `good`, on which the two images agree; when the walk in `s`
leaves them (which requires `Q`), the walk in `s1` ends with `-ENOENT`. -/
theorem walk_sim {s s1 : Image} (good : Nat → Prop) (Q : Prop)
    (hsb : s1.sb.num_inodes = s.sb.num_inodes)
    (hmode : ∀ j, good j → S_ISDIR (s1.inodes j).mode = S_ISDIR (s.inodes j).mode)
    (hstep : ∀ j t n, good j → S_ISDIR (s.inodes j).mode = true → ¬ dir_find s j t < 0 →
      retrieve_inode s (dir_find s j t) = some n →
      (good n ∧ dir_find s1 j t = dir_find s j t ∧
        retrieve_inode s1 (dir_find s j t) = some n) ∨
      (Q ∧ dir_find s1 j t < 0)) :
    ∀ (ts : List (List Nat)) (cur : Nat) (stack : List Nat) (x : Nat), good cur →
      (∀ y ∈ stack, good y) → walk s ts cur stack = path_result.found x →
      (good x ∧ walk s1 ts cur stack = path_result.found x) ∨
      (Q ∧ walk s1 ts cur stack = path_result.error (-ENOENT))
  | [], cur, stack, x, hg, _, h => by
    simp only [walk] at h
    injection h with h
    subst h
    exact Or.inl ⟨hg, rfl⟩
  | t :: rest, cur, stack, x, hg, hst, h => by
    simp only [walk] at h ⊢
    rw [hmode cur hg]
    split at h
    · exact absurd h (by simp)
    · next hd =>
      rw [if_neg hd]
      split at h
      · next ht =>
        rw [if_pos ht]
        exact walk_sim good Q hsb hmode hstep rest cur stack x hg hst h
      · next ht =>
        rw [if_neg ht]
        split at h
        · next ht2 =>
          rw [if_pos ht2]
          split at h
          · next a prev below =>
            exact walk_sim good Q hsb hmode hstep rest prev (prev :: below) x
              (hst prev (by simp)) (fun y hy => hst y (List.mem_cons_of_mem _ hy)) h
          · exact absurd h (by simp)
        · next ht2 =>
          rw [if_neg ht2]
          split at h
          · exact absurd h (by simp)
          · next hf =>
            split at h
            · exact absurd h (by simp)
            · next nxt hr =>
              split at h
              · exact absurd h (by simp)
              · next hlen =>
                rcases hstep cur t nxt hg (by simpa using hd) hf hr with ⟨hgn, e1, e2⟩ | ⟨hq, e1⟩
                · rw [e1, if_neg hf]
                  simp only [e2]
                  rw [hsb, if_neg hlen]
                  exact walk_sim good Q hsb hmode hstep rest nxt (nxt :: stack) x hgn
                    (fun y hy => by
                      rcases List.mem_cons.1 hy with e | e
                      · rw [e]; exact hgn
                      · exact hst y e) h
                · rw [if_pos e1]
                  exact Or.inr ⟨hq, rfl⟩

/-- Nothing resolves when inode 0 is not in use. -/
theorem resolve_no_root {s : Image} (h : retrieve_inode s 0 = none) (path : List Nat) :
    get_inode_from_path s path = path_result.error (-ENOENT) := by
  unfold get_inode_from_path
  simp only [h]
  split
  · rfl
  · split <;> rfl

/-! ### After a successful `wfs_rmdir` -/

set_option maxHeartbeats 1000000 in
/-- After `wfs_rmdir` returned 0: the path it resolved no longer resolves, the inode of the
directory is free, and the direct blocks the directory had are free and zero-filled. -/
theorem wfs_rmdir_gone {s : Image} (hinv : Inv s) {path : List Nat} {now : Int} {s1 : Image}
    (e : wfs_rmdir s path now = some (0, s1)) :
    ∃ clean_path clean child, strip_ansi_codes path PATH_MAX = some clean_path ∧
      strip_ansi_codes clean_path PATH_MAX = some clean ∧
      get_inode_from_path s clean = path_result.found child ∧
      S_ISDIR (s.inodes child).mode = true ∧
      get_inode_from_path s1 clean = path_result.error (-ENOENT) ∧
      bit_set s1.i_bitmap child = false ∧
      ∀ i, i < 6 → (s.inodes child).blocks i ≠ 0 →
        (∃ m, m < s.sb.num_data_blocks ∧ (s.inodes child).blocks i = block_off s m ∧
          bit_set s1.d_bitmap m = false) ∧
        ∀ q, (s.inodes child).blocks i ≤ q → q < (s.inodes child).blocks i + 512 →
          s1.data q = 0 := by
  have hinv3 : Inv s1 := wfs_rmdir_inv hinv e
  rcases wfs_rmdir_cases e with ⟨_, hneg⟩ |
    ⟨clean_path, cp, parent, clean, child, rc2, s2, hcp0, hns, hcp, hr, hd, hcl0, hrc, hcd, hrem,
      hres⟩
  · exact absurd hneg (by decide)
  · rcases hres with ⟨hneg, h0, _⟩ | ⟨hok, _, hs1⟩
    · rw [← h0] at hneg; exact absurd hneg (by decide)
    · refine ⟨clean_path, clean, child, hcp0, hcl0, hrc, hcd, ?_⟩
      have hpar := (resolve_live hr).1
      have hcl := (resolve_live hrc).1
      have hroot := (resolve_live hrc).2
      obtain ⟨hinv1, g⟩ := Inv.free_direct_blocks 6 0 s child hinv hcl (by omega)
      simp only [D_BLOCK] at hrem
      have hmodeF : ∀ j, ((free_direct_blocks 6 0 s child).inodes j).mode = (s.inodes j).mode := by
        intro j
        by_cases ej : j = child
        · subst ej
          obtain ⟨bl, hbl⟩ := g.fields
          rw [hbl]
        · rw [g.others j ej]
      have hnum : ((free_direct_blocks 6 0 s child).inodes child).num = (child : Int) := by
        obtain ⟨bl, hbl⟩ := g.fields
        rw [hbl]
        exact hinv.b.num child hcl
      have hparF : live (free_direct_blocks 6 0 s child) parent :=
        (live_congr g.sb g.ib parent).2 hpar
      have hpd1 : is_dir (free_direct_blocks 6 0 s child) parent :=
        ⟨hparF, by rw [hmodeF]; exact hd⟩
      have hinv2 := remove_dentry_inv hinv1 hpd1 hrem
      rw [hnum] at hrem
      rcases remove_dentry_cases hrem with ⟨e1, _, _⟩ | ⟨_, p0, hp0, hn0, e2⟩
      · rw [e1] at hok; exact absurd (by decide) hok
      · have hl1 : live (free_direct_blocks 6 0 s child) child :=
          (live_congr g.sb g.ib child).2 hcl
        have hl2 : live s2 child := by rw [e2]; exact hl1
        have hpc : parent ≠ child := by
          intro ex
          rw [ex] at hp0
          exact not_slot_of_zero (fun i hi => g.zero i (by omega) (by omega)) p0 hp0
        have hsb1 : s1.sb = s.sb := by
          rw [hs1, free_inode_sb, e2]
          exact g.sb
        have hlive1 : ∀ j, live s1 j ↔ live s j ∧ j ≠ child := by
          intro j
          rw [hs1, live_free_inode hinv2.b hl2 j]
          have : live s2 j ↔ live s j := by
            rw [e2]
            exact live_congr g.sb g.ib j
          rw [this]
        have hino1 : ∀ j, j ≠ child → (s1.inodes j).mode = (s.inodes j).mode ∧
            (s1.inodes j).blocks = (s.inodes j).blocks := by
          intro j hj
          rw [hs1, free_inode_other hinv2.b hl2 hj, e2]
          by_cases ej : j = parent
          · subst ej
            rw [set_inode_same]
            simp only
            rw [g.others j hj]
            exact ⟨rfl, rfl⟩
          · rw [set_inode_other _ _ ej]
            show ((free_direct_blocks 6 0 s child).inodes j).mode = _ ∧
              ((free_direct_blocks 6 0 s child).inodes j).blocks = _
            rw [g.others j hj]
            exact ⟨rfl, rfl⟩
        have hdata1 : s1.data
            = memcpy (wr_int (free_direct_blocks 6 0 s child).data (p0 + MAX_NAME) 0) p0 [0] := by
          rw [hs1, free_inode_data, e2]
          rfl
        have hdb1 : s1.d_bitmap = (free_direct_blocks 6 0 s child).d_bitmap := by
          rw [hs1, free_inode_d_bitmap, e2]
          rfl
        have hnl1 : ¬ live s1 child := fun h => ((hlive1 child).1 h).2 rfl
        refine ⟨?_, ?_, ?_⟩
        · -- the path no longer resolves
          by_cases hc0 : child = 0
          · apply resolve_no_root
            cases hret : retrieve_inode s1 0 with
            | none => rfl
            | some k =>
              obtain ⟨ek, hk⟩ := retrieve_inode_some hret
              have : k = 0 := by omega
              rw [this, ← hc0] at hk
              exact absurd hk hnl1
          · have hp0s : is_slot s parent p0 :=
              (is_slot_congr (fun i _ => by rw [g.others parent hpc]) p0).1 hp0
            have hn0s : dentry_num s.data p0 = (child : Int) := by
              rw [← hn0]
              exact (dentry_num_congr
                (freed_slot_frame hinv.b g (by omega) hcl hpar hpc hp0s)).symm
            have hpd : is_dir s parent := ⟨hpar, hd⟩
            have hbytes : ∀ j q', live s j → j ≠ child → is_slot s j q' → q' ≠ p0 →
                ∀ x, q' ≤ x → x < q' + 32 → s1.data x = s.data x := by
              intro j q' hj hjc hq' hne x h1 h2
              have hq'F : is_slot (free_direct_blocks 6 0 s child) j q' :=
                (is_slot_congr (fun i _ => by rw [g.others j hjc]) q').2 hq'
              have hjF : live (free_direct_blocks 6 0 s child) j :=
                (live_congr g.sb g.ib j).2 hj
              rw [hdata1]
              rcases slot_disjoint hinv1.b hparF hjF hp0 hq'F with e3 | e3 | e3
              · exact absurd e3 hne
              · rw [clear_slot_out (by omega)]
                exact freed_slot_frame hinv.b g (by omega) hcl hj hjc hq' x h1 h2
              · rw [clear_slot_out (by omega)]
                exact freed_slot_frame hinv.b g (by omega) hcl hj hjc hq' x h1 h2
            obtain ⟨hh, _, hw⟩ := walk_of_resolve hrc
            have hne : clean ≠ [SLASH] := by
              intro ex
              rw [ex, path_tokens_root] at hw
              simp only [walk] at hw
              injection hw with hw
              exact hc0 hw.symm
            have hroot1 : live s1 0 := (hlive1 0).2 ⟨hroot, fun ex => hc0 ex.symm⟩
            rw [resolve_eq_walk hne hh hroot1]
            have hsim := walk_sim (fun j => live s j ∧ j ≠ child) True
              (by rw [hsb1]) (fun j hj => by rw [(hino1 j hj.2).1])
              (fun j t n hg hdj hf hret => by
                obtain ⟨q, hq, hit, hnq⟩ := dir_find_hit hf
                obtain ⟨hmn, hln⟩ := retrieve_inode_some hret
                have hjd : is_dir s j := ⟨hg.1, hdj⟩
                have hjd1 : is_dir s1 j :=
                  ⟨(hlive1 j).2 hg, by rw [(hino1 j hg.2).1]; exact hdj⟩
                have hslot1 : ∀ q', is_slot s1 j q' ↔ is_slot s j q' :=
                  fun q' => is_slot_congr (fun i _ => by rw [(hino1 j hg.2).2]) q'
                by_cases hn : n = child
                · right
                  refine ⟨trivial, ?_⟩
                  rw [dir_find_no_hit]
                  · decide
                  · intro q' hq' hit'
                    have hq's := (hslot1 q').1 hq'
                    have hqp : q = p0 :=
                      hinv.d.duniq parent p0 j q hpd hjd hp0s hq
                        (by rw [hn0s]; exact_mod_cast hc0) (by rw [hnq, hmn, hn0s, hn])
                    by_cases ex : q' = p0
                    · have hv := hit'.1
                      rw [ex, hdata1] at hv
                      unfold dentry_vacant at hv
                      rw [clear_slot_num] at hv
                      simp at hv
                    · have h3 := (slot_hit_congr hinv hjd hq's
                        (hbytes j q' hg.1 hg.2 hq's ex) t).1 hit'
                      have h4 := hinv.d.names j q q' t hjd hq hq's hit.1 h3.1 hit.2 h3.2
                      exact ex (h4.trans hqp)
                · left
                  have hqne : q ≠ p0 := by
                    intro ex
                    rw [ex, hn0s, hmn] at hnq
                    exact hn (by exact_mod_cast hnq.symm)
                  have hb := hbytes j q hg.1 hg.2 hq hqne
                  have hit1 : slot_hit s1.data t q := (slot_hit_congr hinv hjd hq hb t).2 hit
                  refine ⟨⟨hln, hn⟩, ?_, ?_⟩
                  · rw [dir_find_of_hit hinv3 hjd1 ((hslot1 q).2 hq) hit1, dentry_num_congr hb, hnq]
                  · rw [hmn]
                    exact retrieve_inode_live ((hlive1 n).2 ⟨hln, hn⟩))
              (path_tokens clean) 0 [0] child ⟨hroot, fun ex => hc0 ex.symm⟩
              (fun y hy => by
                rw [List.mem_singleton] at hy
                rw [hy]
                exact ⟨hroot, fun ex => hc0 ex.symm⟩) hw
            rcases hsim with ⟨⟨_, hx⟩, _⟩ | ⟨_, herr⟩
            · exact absurd rfl hx
            · exact herr
        · -- the inode bit
          cases hb : bit_set s1.i_bitmap child
          · rfl
          · exact absurd ⟨by rw [hsb1]; exact hcl.1, hb⟩ hnl1
        · -- the direct blocks
          intro i hi hbi
          have hri : ref_at s child i ≠ 0 := by rw [ref_at_direct s child (by omega)]; exact hbi
          have hblk := hinv.b.blk child i hcl hri
          rw [ref_at_direct s child (by omega)] at hblk
          obtain ⟨m, hm, hbm, _⟩ := hblk
          obtain ⟨ga, gb⟩ := g.gone i (by omega) (by omega) hbi
          have hbo : (s.inodes child).blocks i = block_off s m := by
            rw [hbm]; rfl
          refine ⟨⟨m, hm, hbo, ?_⟩, ?_⟩
          · rw [hdb1]
            exact ga m hbo
          · intro q h1 h2
            rw [hdata1]
            obtain ⟨i1, j1, _, hj1, _, hb1, hpe⟩ := is_slot_block hinv1.b hparF hp0
            obtain ⟨m1, _, hbm1, hbit1⟩ := hb1
            have hmm : m1 ≠ m := by
              intro ex
              rw [ex, ga m hbo] at hbit1
              exact Bool.noConfusion hbit1
            have hsbF : (free_direct_blocks 6 0 s child).sb = s.sb := g.sb
            rw [hsbF] at hbm1
            rw [clear_slot_out (by omega)]
            exact gb q h1 h2

/-! ### Creating an entry -/

/-- What a successful `add_dentry` leaves alone: the superblock, the inode bitmap, the
types of all inodes, the other inodes, and the live slots of all directories. -/
theorem add_dentry_frame {s : Image} (hb : InvB s) {parent : Nat} {num : Int}
    {name : List Nat} {now : Int} {s1 : Image} (hpar : live s parent)
    (h : add_dentry s parent num name now = (0, s1)) :
    s1.sb = s.sb ∧ s1.i_bitmap = s.i_bitmap ∧
    (∀ j, (s1.inodes j).mode = (s.inodes j).mode) ∧
    (∀ j, j ≠ parent → s1.inodes j = s.inodes j) ∧
    (∀ j q, live s j → is_slot s j q → dentry_vacant s.data q = false →
      is_slot s1 j q ∧ ∀ x, q ≤ x → x < q + 32 → s1.data x = s.data x) := by
  rcases add_dentry_cases hb h with ⟨h0, _⟩ | ⟨_, hdir, hlen, hno, hc⟩
  · exact absurd rfl h0
  · rcases hc with ⟨i, j0, hi, hj0, hbi, hv, e⟩ | ⟨i, n, hi, hz, hn, hbit, _, e⟩
    · refine ⟨by rw [e]; rfl, by rw [e]; rfl, ?_, ?_, ?_⟩
      · intro j
        rw [e, touch_parent_eq]
        by_cases ej : j = parent
        · subst ej; rw [set_inode_same]
        · rw [set_inode_other _ _ ej]
      · intro j ej
        rw [e, touch_parent_eq, set_inode_other _ _ ej]
      · intro j q hj hq hnv
        constructor
        · refine (is_slot_congr (fun i1 _ => ?_) q).2 hq
          rw [e, touch_parent_eq]
          by_cases ej : j = parent
          · subst ej; rw [set_inode_same]
          · rw [set_inode_other _ _ ej]
        · intro x h1 h2
          rw [e, touch_parent_eq, set_inode_data]
          show write_dentry s.data _ name num x = s.data x
          have hp : is_slot s parent (dentry_ptr ((s.inodes parent).blocks i) j0) :=
            ⟨i, j0, hi, hj0, hbi, rfl⟩
          rcases slot_disjoint hb hpar hj hp hq with e3 | e3 | e3
          · rw [e3, hv] at hnv
            exact Bool.noConfusion hnv
          · exact write_dentry_out hlen (by omega)
          · exact write_dentry_out hlen (by omega)
    · refine ⟨by rw [e]; rfl, by rw [e]; rfl, ?_, ?_, ?_⟩
      · intro j
        rw [e, touch_parent_eq]
        by_cases ej : j = parent
        · subst ej
          rw [set_inode_same]
          show ((set_block (with_new_block s n) j i (block_off s n)).inodes j).mode = _
          rw [set_block_mode]
          rfl
        · rw [set_inode_other _ _ ej]
          show ((set_block (with_new_block s n) parent i (block_off s n)).inodes j).mode = _
          rw [set_block_mode]
          rfl
      · intro j ej
        rw [e, touch_parent_eq, set_inode_other _ _ ej]
        show (set_block (with_new_block s n) parent i (block_off s n)).inodes j = _
        rw [set_block_other _ _ _ ej]
        rfl
      · intro j q hj hq hnv
        obtain ⟨i1, j1, hi1, hj1, hb1, hpe⟩ := hq
        have hblocks : ((touch_parent
            { set_block (with_new_block s n) parent i (block_off s n) with
              data := write_dentry (with_new_block s n).data (block_off s n) name num }
            parent i now).inodes j).blocks i1 = (s.inodes j).blocks i1 := by
          rw [touch_parent_eq]
          by_cases ej : j = parent
          · subst ej
            rw [set_inode_same]
            show ((set_block (with_new_block s n) j i (block_off s n)).inodes j).blocks i1 = _
            rw [set_block_blocks, if_neg (fun ex => hb1 (by rw [ex]; exact hz))]
            rfl
          · rw [set_inode_other _ _ ej]
            show ((set_block (with_new_block s n) parent i (block_off s n)).inodes j).blocks i1 = _
            rw [set_block_other _ _ _ ej]
            rfl
        constructor
        · rw [e]
          exact ⟨i1, j1, hi1, hj1, by rw [hblocks]; exact hb1, by rw [hblocks]; exact hpe⟩
        · intro x h1 h2
          rw [e, touch_parent_eq, set_inode_data]
          show write_dentry (with_new_block s n).data (block_off s n) name num x = s.data x
          obtain ⟨i2, j2, _, hj2, _, hbb, hpe3⟩ :=
            is_slot_block hb hj ⟨i1, j1, hi1, hj1, hb1, hpe⟩
          have hbb1 := hbb
          obtain ⟨n1, _, en1, hbit1⟩ := hbb1
          have hne : n1 ≠ n := fun ex => by
            subst ex; rw [hbit] at hbit1; exact Bool.noConfusion hbit1
          have hout : x < block_off s n ∨ block_off s n + 512 ≤ x := by
            unfold block_off; omega
          rw [write_dentry_out hlen (by omega)]
          exact with_new_block_frame hbit hbb x (by omega) (by omega)

end WFS

namespace WFS

/-! ### `dirname` and `basename` -/

theorem dropWhile_head {p : Nat → Bool} : ∀ (l : List Nat) (c : Nat) (rest : List Nat),
    l.dropWhile p = c :: rest → p c = false
  | [], _, _, h => by simp at h
  | a :: l, c, rest, h => by
    rw [List.dropWhile_cons] at h
    split at h
    · exact dropWhile_head l c rest h
    · next hp =>
      injection h with h1 _
      rw [← h1]
      simpa using hp

/-- A list is what remains after the removal of the trailing slashes, followed by slashes. -/
theorem strip_trailing_decomp (l : List Nat) :
    ∃ sl, l = strip_trailing_slashes l ++ sl ∧ (∀ x ∈ sl, x = SLASH) := by
  refine ⟨(l.reverse.takeWhile (fun c => c == SLASH)).reverse, ?_, ?_⟩
  · unfold strip_trailing_slashes
    rw [← List.reverse_append, List.takeWhile_append_dropWhile, List.reverse_reverse]
  · intro x hx
    rw [List.mem_reverse] at hx
    have := List.mem_takeWhile_imp hx
    simpa using this

/-- What remains after the removal of the trailing slashes does not end in a slash. -/
theorem strip_trailing_last (l : List Nat) (h : strip_trailing_slashes l ≠ []) :
    ∃ c rest, (strip_trailing_slashes l).reverse = c :: rest ∧ c ≠ SLASH := by
  unfold strip_trailing_slashes at h ⊢
  rw [List.reverse_reverse]
  cases hd : l.reverse.dropWhile (fun c => c == SLASH) with
  | nil => rw [hd] at h; exact absurd rfl h
  | cons c rest =>
    refine ⟨c, rest, rfl, ?_⟩
    have := dropWhile_head _ c rest hd
    simpa using this

/-- A list is the part up to the last slash followed by the last component. -/
theorem last_component_decomp (l : List Nat) :
    l = drop_last_component l ++ last_component l ∧ SLASH ∉ last_component l ∧
    (drop_last_component l ≠ [] → ∃ d, drop_last_component l = d ++ [SLASH]) := by
  refine ⟨?_, ?_, ?_⟩
  · unfold drop_last_component last_component
    rw [← List.reverse_append, List.takeWhile_append_dropWhile, List.reverse_reverse]
  · unfold last_component
    intro hx
    rw [List.mem_reverse] at hx
    have := List.mem_takeWhile_imp hx
    simp at this
  · intro h
    unfold drop_last_component at h ⊢
    cases hd : l.reverse.dropWhile (fun c => c != SLASH) with
    | nil => rw [hd] at h; exact absurd rfl h
    | cons c rest =>
      have := dropWhile_head _ c rest hd
      simp only [bne_eq_false_iff_eq] at this
      refine ⟨rest.reverse, ?_⟩
      rw [List.reverse_cons, this]

theorem tokens_of_slashes {sl : List Nat} (h : ∀ x ∈ sl, x = SLASH) : path_tokens sl = [] := by
  have := tokens_loop_trailing [] sl [] h
  simpa [path_tokens, tokens_loop] using this

/-- For a path whose last component is a name (not `.` and without `'/'`) and whose
`dirname` starts with `'/'`: the path starts with `'/'`, and its components are those of
the `dirname` followed by the `basename`. -/
theorem path_split {path : List Nat} (h1 : basename path ≠ [DOT]) (h2 : SLASH ∉ basename path)
    (h3 : (dirname path).head? = some SLASH) :
    path.head? = some SLASH ∧ basename path ≠ [] ∧ path ≠ [SLASH] ∧
    path_tokens path = path_tokens (dirname path) ++ [basename path] ∧
    (∀ x ∈ basename path, x ∈ path) := by
  have hp : path ≠ [] := by
    intro e
    rw [e] at h1
    exact h1 rfl
  have ht : strip_trailing_slashes path ≠ [] := by
    intro e
    unfold basename at h2
    rw [if_neg hp] at h2
    simp only [e, if_true] at h2
    exact h2 (List.mem_singleton.2 rfl)
  have hbase : basename path = last_component (strip_trailing_slashes path) := by
    unfold basename
    rw [if_neg hp]
    simp only [if_neg ht]
  obtain ⟨sl, hsl, hall⟩ := strip_trailing_decomp path
  obtain ⟨c, rest, hrev, hc⟩ := strip_trailing_last path ht
  obtain ⟨hdec, hns, hdend⟩ := last_component_decomp (strip_trailing_slashes path)
  have hname : last_component (strip_trailing_slashes path) ≠ [] := by
    unfold last_component
    rw [hrev, List.takeWhile_cons, if_pos (by simpa using hc)]
    simp
  have hd : drop_last_component (strip_trailing_slashes path) ≠ [] := by
    intro e
    unfold dirname at h3
    simp only [if_neg ht, e, if_true] at h3
    simp at h3
  obtain ⟨d', hd'⟩ := hdend hd
  obtain ⟨sl2, hsl2, hall2⟩ :=
    strip_trailing_decomp (drop_last_component (strip_trailing_slashes path))
  have hdir : dirname path =
      if strip_trailing_slashes (drop_last_component (strip_trailing_slashes path)) = [] then
        (if (drop_last_component (strip_trailing_slashes path)).length = 2 then [SLASH, SLASH]
          else [SLASH])
      else strip_trailing_slashes (drop_last_component (strip_trailing_slashes path)) := by
    unfold dirname
    simp only [if_neg ht, if_neg hd]
  have htok_dir : path_tokens (dirname path)
      = path_tokens (drop_last_component (strip_trailing_slashes path)) := by
    rw [hdir]
    by_cases e : strip_trailing_slashes (drop_last_component (strip_trailing_slashes path)) = []
    · rw [if_pos e]
      rw [e, List.nil_append] at hsl2
      rw [hsl2, tokens_of_slashes hall2]
      split <;> decide
    · rw [if_neg e]
      conv => rhs; rw [hsl2]
      unfold path_tokens
      rw [tokens_loop_trailing _ sl2 [] hall2]
  have hdhead : (drop_last_component (strip_trailing_slashes path)).head? = some SLASH := by
    rw [hdir] at h3
    by_cases e : strip_trailing_slashes (drop_last_component (strip_trailing_slashes path)) = []
    · rw [e, List.nil_append] at hsl2
      cases hs : sl2 with
      | nil => rw [hs] at hsl2; exact absurd hsl2 hd
      | cons a tl =>
        rw [hsl2, hs]
        rw [hs] at hall2
        simp only [List.head?_cons, Option.some.injEq]
        exact hall2 a (List.mem_cons_self _ _)
    · rw [if_neg e] at h3
      obtain ⟨tl, etl⟩ := head_cons h3
      rw [hsl2, etl]
      rfl
  have hpath : path = drop_last_component (strip_trailing_slashes path) ++
      (last_component (strip_trailing_slashes path) ++ sl) := by
    rw [← List.append_assoc, ← hdec]
    exact hsl
  refine ⟨?_, by rw [hbase]; exact hname, ?_, ?_, ?_⟩
  · obtain ⟨tl, etl⟩ := head_cons hdhead
    rw [hpath, etl]
    rfl
  · intro e
    have := congrArg List.length e
    rw [hpath, hd'] at this
    have hl : 0 < (last_component (strip_trailing_slashes path)).length :=
      List.length_pos.2 hname
    simp at this
    omega
  · rw [htok_dir, hbase]
    conv => lhs; rw [hpath, hd']
    unfold path_tokens
    rw [List.append_assoc, List.singleton_append, tokens_loop_slash, ← hd',
      tokens_loop_word _ sl [] hns]
    congr 1
    have := tokens_loop_trailing [] sl
      ((last_component (strip_trailing_slashes path)).reverse ++ []) hall
    simp only [List.nil_append] at this
    rw [this]
    simp [tokens_loop, hname]
  · intro x hx
    rw [hbase] at hx
    rw [hpath]
    exact List.mem_append_right _ (List.mem_append_left _ hx)

/-! ### Create, then resolve -/

end WFS

namespace WFS

/-! ### A failing `wfs_mknod`, and a second `wfs_mknod` of the same path -/

/-- `add_dentry` with a name that a live slot of the directory carries returns `-EEXIST`. -/
theorem add_dentry_exists {s : Image} (hb : InvB s) {parent : Nat} (num : Int)
    {name : List Nat} (now : Int) (hd : S_ISDIR (s.inodes parent).mode = true)
    (hlen : name.length < 28) {p : Int} (hp : is_slot s parent p)
    (hit : slot_hit s.data name p) :
    add_dentry s parent num name now = (-EEXIST, s) := by
  cases hr : add_dentry s parent num name now with
  | mk rc s1 =>
    by_cases hrc : rc = 0
    · exfalso
      subst hrc
      rcases add_dentry_cases hb hr with ⟨h0, _⟩ | ⟨_, _, _, hno, _⟩
      · exact h0 rfl
      · exact hno p hp hit
    · obtain ⟨e, hwhy⟩ := add_dentry_failure hb hr hrc
      rcases hwhy with ⟨_, h1 | h1⟩ | ⟨h1, _⟩ | ⟨_, _, hno, _⟩
      · rw [hd] at h1; exact Bool.noConfusion h1
      · omega
      · rw [h1, e]
      · exact absurd hit (hno p hp)

theorem basename_ne_nil (path : List Nat) : basename path ≠ [] := by
  unfold basename
  split
  · simp
  · simp only
    split
    · simp
    · next ht =>
      obtain ⟨c, rest, hrev, hc⟩ := strip_trailing_last path ht
      unfold last_component
      rw [hrev, List.takeWhile_cons, if_pos (by simpa using hc)]
      simp

theorem basename_no_zero {path : List Nat} (h : 0 ∉ path) : 0 ∉ basename path := by
  unfold basename
  split
  · simp
  · simp only
    split
    · simp
    · intro hx
      obtain ⟨sl, hsl, _⟩ := strip_trailing_decomp path
      obtain ⟨hdec, _, _⟩ := last_component_decomp (strip_trailing_slashes path)
      apply h
      rw [hsl, hdec]
      exact List.mem_append_left _ (List.mem_append_right _ hx)

theorem strip_no_zero {path clean : List Nat} (hc : strip_ansi_codes path PATH_MAX = some clean) :
    0 ∉ clean := by
  unfold strip_ansi_codes at hc
  rw [if_neg (by decide)] at hc
  intro hx
  exact ((strip_loop_out path false _ clean hc).1 0 hx).2 rfl

end WFS

namespace WFS

/-! ### Bytes of a file that a write leaves alone -/

/-- A call of `data_offset` that returned `NULL` changed no byte of the file. -/
theorem data_offset_fail_bytes {s : Image} (h : Inv s) {inode : Nat} (hl : live s inode)
    (offset : Int) {s1 : Image} (e : data_offset s inode offset true = (none, s1)) (x : Int) :
    file_byte s1 inode x = file_byte s inode x := by
  by_cases hout : offset < 0 ∨ 35840 ≤ offset
  · rw [data_offset_out s inode offset true hout] at e
    obtain ⟨_, rfl⟩ := Prod.mk.inj e
    rfl
  obtain ⟨_, g, _, hnone⟩ := data_offset_alloc h hl offset e
  have hz : ref_at s1 inode (bpos offset) = 0 := by
    rcases hnone rfl with hh | hh
    · exact absurd hh hout
    · exact hh.2
  rw [file_byte_eq, file_byte_eq]
  by_cases hb : bpos x = bpos offset
  · have hz0 : ref_at s inode (bpos offset) = 0 := by
      by_contra hne
      have := g.keep inode (bpos offset) hl hne
      rw [hz] at this
      exact hne this.symm
    rw [hb, if_neg (by intro hh; exact hh.2.2 hz), if_neg (by intro hh; exact hh.2.2 hz0)]
  · have es := g.same inode (bpos x) hl (by intro hh; have := bpos_ne_six x; omega)
    rw [es]
    by_cases hr : 0 ≤ x ∧ x < 35840 ∧ ref_at s inode (bpos x) ≠ 0
    · rw [if_pos hr, if_pos hr]
      exact g.data inode (bpos x) hl (bpos_ne_six x) hr.2.2 _ (by omega) (by omega)
    · rw [if_neg hr, if_neg hr]

/-- The loop of `wfs_write` on a regular file, whether it completes or not, changes no byte
of the file outside the range `[off, off + left)`. -/
theorem write_loop_outside (inode : Nat) : ∀ (fuel : Nat) (s : Image) (buf : List Nat)
    (left off : Int) (ok : Bool) (s1 : Image), Inv s → live s inode →
    S_ISDIR (s.inodes inode).mode = false → 0 ≤ off →
    write_loop fuel s inode buf left off = (ok, s1) →
    ∀ x, ¬ (off ≤ x ∧ x < off + left) → file_byte s1 inode x = file_byte s inode x
  | 0, s, buf, left, off, ok, s1, _, _, _, _, e => by
    simp only [write_loop] at e
    obtain ⟨_, rfl⟩ := Prod.mk.inj e
    intro x _
    rfl
  | fuel + 1, s, buf, left, off, ok, s1, hinv, hl, hnd, h0, e => by
    simp only [write_loop] at e
    by_cases hpos : left ≤ 0
    · rw [if_pos hpos] at e
      obtain ⟨_, rfl⟩ := Prod.mk.inj e
      intro x _
      rfl
    rw [if_neg hpos, Int.tmod_eq_emod h0 (by norm_num)] at e
    simp only [BLOCK_SIZE] at e
    generalize hc : (if 512 - off % 512 > left then left else 512 - off % 512) = c at e
    have hc1 : 1 ≤ c ∧ c ≤ left ∧ c ≤ 512 - off % 512 := by
      rw [← hc]
      split <;> omega
    cases hdo : data_offset s inode off true with
    | mk r sA =>
      rw [hdo] at e
      cases r with
      | none =>
        simp only at e
        obtain ⟨_, rfl⟩ := Prod.mk.inj e
        intro x _
        exact data_offset_fail_bytes hinv hl off hdo x
      | some dst =>
        simp only at e
        have hclen : ((buf.take c.toNat).length : Int) ≤ c := by
          rw [List.length_take]
          omega
        obtain ⟨hinv2, hw, _, _, _, _, hbytes⟩ :=
          write_step hinv hl hnd h0 hdo (buf.take c.toNat) (by omega)
        have hl2 := (hw.live_kept inode).2 hl
        have hnd2 : S_ISDIR (({ sA with data := memcpy sA.data dst (buf.take c.toNat) } :
            Image).inodes inode).mode = false := by
          obtain ⟨bl, hbl⟩ := hw.fields
          rw [hbl]
          exact hnd
        have ih := write_loop_outside inode fuel _ (buf.drop c.toNat)
          (left - c) (off + c) ok s1 hinv2 hl2 hnd2 (by omega) e
        intro x hx
        rw [ih x (by omega), hbytes x, if_neg (by omega)]

/-- What a call of `wfs_write` on a path that names the regular file `F` keeps: the path
still names `F`, `F` is still a regular file, and the bytes of `F` outside the range
`[off, off + len)` are as before, whatever the call returned. -/
theorem wfs_write_outside {s : Image} (hinv : Inv s) {path clean buf : List Nat} {F : Nat}
    {off now rc : Int} {s1 : Image}
    (hc : strip_ansi_codes path PATH_MAX = some clean)
    (hr : get_inode_from_path s clean = path_result.found F)
    (hnd : S_ISDIR (s.inodes F).mode = false)
    (e : wfs_write s path buf off now = some (rc, s1)) :
    get_inode_from_path s1 clean = path_result.found F ∧
    S_ISDIR (s1.inodes F).mode = false ∧
    ∀ x, ¬ (off ≤ x ∧ x < off + buf.length) → file_byte s1 F x = file_byte s F x := by
  rcases wfs_write_cases e with ⟨rfl, _⟩ | ⟨clean1, F1, ok, sL, hc1, hr1, _, hw, hres⟩
  · exact ⟨hr, hnd, fun _ _ => rfl⟩
  rw [hc] at hc1
  injection hc1 with hc1
  subst hc1
  rw [hr] at hr1
  injection hr1 with hr1
  subst hr1
  have hl := (resolve_live hr).1
  obtain ⟨hinvL, g⟩ := write_loop_inv hinv hl hnd buf (size_to_int buf.length) off
    (size_to_int_le _) hw
  have hmode : (sL.inodes F).mode = (s.inodes F).mode := by
    obtain ⟨bl, hbl⟩ := g.fields
    rw [hbl]
  have hres1 : get_inode_from_path sL clean = path_result.found F := by
    rw [resolve_wrote hinv g hnd, hr]
  have hout : ∀ x, ¬ (off ≤ x ∧ x < off + buf.length) →
      file_byte sL F x = file_byte s F x := by
    intro x hx
    have hle := size_to_int_le buf.length
    by_cases h0 : 0 ≤ off
    · exact write_loop_outside F _ s buf _ off ok sL hinv hl hnd h0 hw x (by omega)
    · by_cases hpos : size_to_int buf.length ≤ 0
      · have : (size_to_int buf.length).toNat = 0 := by omega
        rw [this] at hw
        simp only [write_loop] at hw
        obtain ⟨_, rfl⟩ := Prod.mk.inj hw
        rfl
      · obtain ⟨f, hf⟩ : ∃ f, (size_to_int buf.length).toNat = f + 1 :=
          ⟨(size_to_int buf.length).toNat - 1, by omega⟩
        rw [hf] at hw
        simp only [write_loop] at hw
        rw [if_neg hpos, data_offset_out s F off true (by omega)] at hw
        simp only at hw
        obtain ⟨_, rfl⟩ := Prod.mk.inj hw
        rfl
  rcases hres with ⟨_, _, rfl⟩ | ⟨_, _, _, rfl⟩
  · exact ⟨hres1, by rw [hmode]; exact hnd, hout⟩
  · refine ⟨?_, ?_, ?_⟩
    · rw [← hres1]
      refine resolve_set_fields hinvL F _ ?_ ?_ clean <;> rfl
    · rw [set_inode_same]
      show S_ISDIR (sL.inodes F).mode = false
      rw [hmode]
      exact hnd
    · intro x hx
      refine Eq.trans (file_byte_set_fields sL F _ ?_ F x) (hout x hx)
      rfl

/-- A file without blocks reads as zero at every position. -/
theorem file_byte_no_blocks {s : Image} {F : Nat}
    (h : ∀ i, i < 7 → (s.inodes F).blocks i = 0) (x : Int) : file_byte s F x = 0 := by
  rw [file_byte_eq]
  have hz : ref_at s F (bpos x) = 0 := by
    unfold ref_at
    split
    · next hp => exact h _ hp
    · rw [if_neg (by intro hh; exact hh.2 (h 6 (by omega)))]
  rw [if_neg (by intro hh; exact hh.2.2 hz)]

/-- A history of writes to the regular file `F`: the image stays reachable, the path still
names `F`, and the positions outside the ranges of the writes hold the bytes they held. -/
theorem writes_outside {path clean : List Nat} {F : Nat}
    (hc : strip_ansi_codes path PATH_MAX = some clean) :
    ∀ (ws : List (List Nat × Int × Int)) (s s1 : Image), Reachable s →
    get_inode_from_path s clean = path_result.found F →
    S_ISDIR (s.inodes F).mode = false → writes s path ws = some s1 →
    Reachable s1 ∧ get_inode_from_path s1 clean = path_result.found F ∧
    S_ISDIR (s1.inodes F).mode = false ∧
    ∀ x, ¬ written ws x → file_byte s1 F x = file_byte s F x
  | [], s, s1, hs, hr, hnd, e => by
    simp only [writes] at e
    injection e with e
    subst e
    exact ⟨hs, hr, hnd, fun _ _ => rfl⟩
  | w :: ws, s, s1, hs, hr, hnd, e => by
    simp only [writes] at e
    cases hw : wfs_write s path w.1 w.2.1 w.2.2 with
    | none =>
      rw [hw] at e
      exact absurd e (by simp)
    | some r =>
      rw [hw] at e
      simp only at e
      obtain ⟨rc, sA⟩ := r
      have hsA : Reachable sA :=
        Reachable.step s w.2.2 0 0 (Op.write path w.1 w.2.1) rc sA hs hw
      obtain ⟨a1, a2, a3⟩ := wfs_write_outside (reachable_inv hs) hc hr hnd hw
      obtain ⟨b1, b2, b3, b4⟩ := writes_outside hc ws sA s1 hsA a1 a2 e
      refine ⟨b1, b2, b3, ?_⟩
      intro x hx
      rw [b4 x (fun ⟨v, hv, hv1⟩ => hx ⟨v, List.mem_cons_of_mem _ hv, hv1⟩)]
      exact a3 x (fun hv => hx ⟨w, List.mem_cons_self _ _, hv⟩)

end WFS

namespace WFS

/-! ### `wfs_mknod`, `wfs_unlink` and `wfs_mknod` again -/

end WFS

namespace WFS

/-! ### First fit -/

/-- The words `allocate_block` passes over are full, and so are the bits of the word it
stops in that come before the bit it returns. -/
theorem scan_bitmap_first (bm : Nat → Nat) : ∀ (n i a b : Nat),
    scan_bitmap bm n i = some (a, b) →
    (∀ w t, i ≤ w → w < a → t < 32 → (bm w).testBit t = true) ∧
    ∀ t, t < b → (bm a).testBit t = true
  | 0, _, _, _, h => by simp [scan_bitmap] at h
  | n + 1, i, a, b, h => by
    simp only [scan_bitmap] at h
    split at h
    · next hf =>
      obtain ⟨h1, h2⟩ := scan_bitmap_first bm n (i + 1) a b h
      refine ⟨fun w t hw1 hw2 ht => ?_, h2⟩
      by_cases e : w = i
      · subst e
        rw [hf]
        have : (0xFFFFFFFF : Nat) = 2 ^ 32 - 1 := by norm_num
        rw [this, Nat.testBit_two_pow_sub_one]
        simpa using ht
      · exact h1 w t (by omega) hw2 ht
    · split at h
      · next k hk =>
        injection h with h
        injection h with e1 e2
        subst e1; subst e2
        obtain ⟨_, _, _, h4⟩ := scan_word_some (bm i) 32 0 k hk
        exact ⟨fun w t hw1 hw2 _ => by omega, fun t ht => h4 t (by omega) ht⟩
      · next hn =>
        obtain ⟨h1, h2⟩ := scan_bitmap_first bm n (i + 1) a b h
        refine ⟨fun w t hw1 hw2 ht => ?_, h2⟩
        by_cases e : w = i
        · subst e
          exact scan_word_none _ _ _ hn t (by omega) (by omega)
        · exact h1 w t (by omega) hw2 ht

/-- Every index below the one `allocate_block` returns has its bit set. -/
theorem allocate_block_first {bm bm1 : Nat → Nat} {len k : Nat}
    (h : allocate_block bm len = (some k, bm1)) : ∀ j, j < k → bit_set bm j = true := by
  unfold allocate_block at h
  split at h
  · next i b hs =>
    obtain ⟨h1, h2⟩ := scan_bitmap_first bm len 0 i b hs
    obtain ⟨_, _, hb, _⟩ := scan_bitmap_some bm len 0 i b hs
    injection h with h5 _
    injection h5 with h5
    subst h5
    intro j hj
    rw [bit_set_eq]
    by_cases e : j / 32 = i
    · rw [e]
      exact h2 _ (by omega)
    · exact h1 _ _ (by omega) (by omega) (Nat.mod_lt _ (by norm_num))
  · simp at h

/-! ### `getattr` of the root -/

theorem wfs_getattr_root {s : Image} (hr : retrieve_inode s 0 ≠ none)
    (hsz : (s.inodes 0).size + 511 < 2 ^ 63) :
    ∃ st, wfs_getattr s (str "/") = some (0, some st, s) ∧ st.st_mode = (s.inodes 0).mode ∧
      st.st_nlink = ((s.inodes 0).nlinks % 2 ^ 64).toNat ∧
      st.st_size = (s.inodes 0).size := by
  have hc : strip_ansi_codes (str "/") PATH_MAX = some [SLASH] := by decide
  cases hret : retrieve_inode s 0 with
  | none => exact absurd hret hr
  | some root =>
    obtain ⟨e0, _⟩ := retrieve_inode_some hret
    have er : root = 0 := by omega
    subst er
    unfold wfs_getattr
    rw [hc]
    simp only
    unfold get_inode_from_path
    rw [if_pos rfl]
    simp only [hret]
    rw [if_neg (by omega)]
    exact ⟨_, rfl, rfl, rfl, rfl⟩

end WFS

namespace WFS

/-! ### What `strip_ansi_codes` leaves behind -/

theorem has_esc_csi_tail {c : Nat} {l : List Nat} (h : has_esc_csi (c :: l) = false) :
    has_esc_csi l = false := by
  cases l with
  | nil => rfl
  | cons d l1 =>
    cases l1 with
    | nil => rfl
    | cons e rest =>
      simp only [has_esc_csi, Bool.or_eq_false_iff] at h
      exact h.2

theorem csi_closed_tail {c : Nat} {l : List Nat} (h : csi_closed (c :: l) = true) :
    csi_closed l = true := by
  cases l with
  | nil => rfl
  | cons d rest =>
    simp only [csi_closed, Bool.and_eq_true] at h
    exact h.2

/-- The first byte `strip_ansi_codes` copies is the first byte of its input, unless the
input starts with an escape sequence. -/
theorem strip_head {d : Nat} {rest out : List Nat} {room : Nat}
    (h : strip_loop (d :: rest) false room = some out)
    (hd : ¬ (d = ESC ∧ rest.head? = some LBRACKET)) : out = [] ∨ out.head? = some d := by
  cases rest with
  | nil =>
    simp only [strip_loop] at h
    split at h
    · injection h with h; exact Or.inl h.symm
    · split at h
      · injection h with h; exact Or.inl h.symm
      · injection h with h; rw [← h]; exact Or.inr rfl
  | cons e rest1 =>
    simp only [strip_loop] at h
    split at h
    · injection h with h; exact Or.inl h.symm
    · split at h
      · injection h with h; exact Or.inl h.symm
      · split at h
        · next hx => exact absurd ⟨hx.1, by rw [hx.2]; rfl⟩ hd
        · cases hrec : strip_loop (e :: rest1) false (room - 1) with
          | none => rw [hrec] at h; simp at h
          | some o =>
            rw [hrec] at h
            simp only [Option.map_some'] at h
            injection h with h
            rw [← h]
            exact Or.inr rfl

/-- When the input has no `ESC` immediately before an escape sequence, the output of
`strip_ansi_codes` has no `ESC [`. -/
theorem strip_loop_no_csi : ∀ (l : List Nat) (esc : Bool) (room : Nat) (out : List Nat),
    strip_loop l esc room = some out → has_esc_csi l = false → has_csi out = false
  | [], false, _, out, h, _ => by
    simp [strip_loop] at h; subst h; rfl
  | [], true, _, out, h, _ => by simp [strip_loop] at h
  | c :: rest, true, room, out, h, hn => by
    simp only [strip_loop] at h
    split at h
    · exact absurd h (by simp)
    · split at h
      · exact strip_loop_no_csi rest false room out h (has_esc_csi_tail hn)
      · exact strip_loop_no_csi rest true room out h (has_esc_csi_tail hn)
  | [c], false, room, out, h, _ => by
    simp only [strip_loop] at h
    split at h
    · injection h with h; subst h; rfl
    · split at h
      · injection h with h; subst h; rfl
      · injection h with h; subst h; rfl
  | c :: d :: rest, false, room, out, h, hn => by
    simp only [strip_loop] at h
    split at h
    · injection h with h; subst h; rfl
    · split at h
      · injection h with h; subst h; rfl
      · split at h
        · exact strip_loop_no_csi rest true room out h (has_esc_csi_tail (has_esc_csi_tail hn))
        · next hcsi =>
          cases hrec : strip_loop (d :: rest) false (room - 1) with
          | none => rw [hrec] at h; simp at h
          | some o =>
            rw [hrec] at h
            simp only [Option.map_some'] at h
            injection h with h
            subst h
            have ih := strip_loop_no_csi (d :: rest) false (room - 1) o hrec
              (has_esc_csi_tail hn)
            cases o with
            | nil => rfl
            | cons x o1 =>
              simp only [has_csi, Bool.or_eq_false_iff]
              refine ⟨?_, ih⟩
              rw [Bool.and_eq_false_iff]
              by_cases hce : c = ESC
              · right
                rw [beq_eq_false_iff_ne]
                intro hx
                by_cases hd : d = ESC ∧ rest.head? = some LBRACKET
                · cases rest with
                  | nil => simp at hd
                  | cons e rest1 =>
                    simp only [List.head?_cons, Option.some.injEq] at hd
                    simp only [has_esc_csi, Bool.or_eq_false_iff, Bool.and_eq_false_iff,
                      beq_eq_false_iff_ne] at hn
                    rcases hn.1 with (h1 | h1) | h1
                    · exact h1 hce
                    · exact h1 hd.1
                    · exact h1 hd.2
                · rcases strip_head hrec hd with e | e
                  · exact absurd e (by simp)
                  · simp only [List.head?_cons, Option.some.injEq] at e
                    exact hcsi ⟨hce, by rw [← e]; exact hx⟩
              · left
                rw [beq_eq_false_iff_ne]
                exact hce

/-- A string without zero bytes and without `ESC [` that fits the buffer is copied
unchanged. -/
theorem strip_loop_fixed : ∀ (l : List Nat) (room : Nat), 0 ∉ l → has_csi l = false →
    l.length ≤ room → strip_loop l false room = some l
  | [], _, _, _, _ => by simp [strip_loop]
  | [c], room, h0, _, hl => by
    have hc : c ≠ 0 := fun e => h0 (by simp [e])
    have hr : room ≠ 0 := by simp at hl; omega
    simp [strip_loop, hc, hr]
  | c :: d :: rest, room, h0, he, hl => by
    have hc : c ≠ 0 := fun e => h0 (by simp [e])
    have hr : room ≠ 0 := by simp at hl; omega
    simp only [has_csi, Bool.or_eq_false_iff, Bool.and_eq_false_iff,
      beq_eq_false_iff_ne] at he
    have ih := strip_loop_fixed (d :: rest) (room - 1)
      (fun h => h0 (List.mem_cons_of_mem _ h)) he.2 (by simp at hl ⊢; omega)
    simp only [strip_loop, if_neg hc, if_neg hr, ih]
    rw [if_neg (fun h => by
      rcases he.1 with h1 | h1
      · exact h1 h.1
      · exact h1 h.2)]
    rfl

/-- The loop of `strip_ansi_codes` stays inside a string without zero bytes in which
every `ESC [` is followed by an `m`. -/
theorem strip_loop_defined : ∀ (l : List Nat) (esc : Bool) (room : Nat), 0 ∉ l →
    csi_closed l = true → (esc = true → LOWER_M ∈ l) → ∃ out, strip_loop l esc room = some out
  | [], false, _, _, _, _ => ⟨[], by simp [strip_loop]⟩
  | [], true, _, _, _, hm => absurd (hm rfl) (by simp)
  | c :: rest, true, room, h0, hc, hm => by
    have hc0 : c ≠ 0 := fun e => h0 (by simp [e])
    simp only [strip_loop, if_neg hc0]
    split
    · exact strip_loop_defined rest false room (fun h => h0 (List.mem_cons_of_mem _ h))
        (csi_closed_tail hc) (fun h => absurd h (by simp))
    · next hne =>
      refine strip_loop_defined rest true room (fun h => h0 (List.mem_cons_of_mem _ h))
        (csi_closed_tail hc) (fun _ => ?_)
      rcases List.mem_cons.1 (hm rfl) with e | e
      · exact absurd e.symm hne
      · exact e
  | [c], false, room, _, _, _ => by
    simp only [strip_loop]
    split
    · exact ⟨_, rfl⟩
    · split <;> exact ⟨_, rfl⟩
  | c :: d :: rest, false, room, h0, hc, _ => by
    simp only [strip_loop]
    split
    · exact ⟨_, rfl⟩
    · split
      · exact ⟨_, rfl⟩
      · split
        · next hx =>
          refine strip_loop_defined rest true room
            (fun h => h0 (List.mem_cons_of_mem _ (List.mem_cons_of_mem _ h)))
            (csi_closed_tail (csi_closed_tail hc)) (fun _ => ?_)
          simp only [csi_closed, Bool.and_eq_true, Bool.or_eq_true, Bool.not_eq_true',
            Bool.and_eq_false_iff, beq_eq_false_iff_ne] at hc
          rcases hc.1 with (h1 | h1) | h1
          · exact absurd hx.1 h1
          · exact absurd hx.2 h1
          · simpa using h1
        · obtain ⟨o, ho⟩ := strip_loop_defined (d :: rest) false (room - 1)
            (fun h => h0 (List.mem_cons_of_mem _ h)) (csi_closed_tail hc)
            (fun h => absurd h (by simp))
          exact ⟨c :: o, by rw [ho]; rfl⟩

/-- `strip_ansi_codes` on a zero-free string in which every `ESC [` is followed by an `m`
and no `ESC` stands immediately before an `ESC [`: the output has no `ESC [`, and
stripping it once more leaves it as it is. -/
theorem strip_ansi_codes_complete (inp : List Nat) (n : Nat) (h0 : 0 ∉ inp)
    (hc : csi_closed inp = true) (hn : has_esc_csi inp = false) :
    ∃ out, strip_ansi_codes inp n = some out ∧ has_csi out = false ∧
      strip_ansi_codes out n = some out := by
  unfold strip_ansi_codes
  by_cases hz : n = 0
  · rw [if_pos hz]
    exact ⟨[], rfl, rfl, by rw [if_pos hz]⟩
  · rw [if_neg hz]
    obtain ⟨out, ho⟩ := strip_loop_defined inp false (n - 1) h0 hc (fun h => absurd h (by simp))
    have h1 := strip_loop_no_csi inp false (n - 1) out ho hn
    obtain ⟨h2, h3⟩ := strip_loop_out inp false (n - 1) out ho
    refine ⟨out, ho, h1, ?_⟩
    rw [if_neg hz]
    exact strip_loop_fixed out (n - 1) (fun hx => (h2 0 hx).2 rfl) h1 h3

end WFS

namespace WFS

/-! ### What a write leaves alone -/

/-- A call of `wfs_write`, whatever it returns, keeps the superblock, the inode bitmap and
the result of every path resolution; every live inode other than the one the path names
keeps all its fields and the bytes a read returns for it; every live directory keeps its
inode and the 32 bytes of each of its slots. -/
theorem wfs_write_others {s : Image} (hinv : Inv s) {path buf : List Nat} {off now rc : Int}
    {s1 : Image} (e : wfs_write s path buf off now = some (rc, s1)) {clean : List Nat}
    (hc : strip_ansi_codes path PATH_MAX = some clean) :
    s1.sb = s.sb ∧ s1.i_bitmap = s.i_bitmap ∧
    (∀ path2, get_inode_from_path s1 path2 = get_inode_from_path s path2) ∧
    (∀ G, live s G → get_inode_from_path s clean ≠ path_result.found G →
      s1.inodes G = s.inodes G ∧ ∀ x, file_byte s1 G x = file_byte s G x) ∧
    (∀ D, is_dir s D → s1.inodes D = s.inodes D ∧
      ∀ p, is_slot s D p → ∀ t, 0 ≤ t → t < 32 → s1.data (p + t) = s.data (p + t)) := by
  rcases wfs_write_cases e with ⟨rfl, _⟩ | ⟨clean1, F, ok, sL, hc1, hr, hnd, hw, hres⟩
  · exact ⟨rfl, rfl, fun _ => rfl, fun _ _ _ => ⟨rfl, fun _ => rfl⟩,
      fun _ _ => ⟨rfl, fun _ _ _ _ _ => rfl⟩⟩
  rw [hc] at hc1
  injection hc1 with hc1
  subst hc1
  have hl := (resolve_live hr).1
  obtain ⟨hinvL, g⟩ := write_loop_inv hinv hl hnd buf (size_to_int buf.length) off
    (size_to_int_le _) hw
  have hmid : (∀ G, live s G → G ≠ F →
      sL.inodes G = s.inodes G ∧ ∀ x, file_byte sL G x = file_byte s G x) ∧
      (∀ D, is_dir s D → D ≠ F ∧ sL.inodes D = s.inodes D ∧
        ∀ p, is_slot s D p → ∀ t, 0 ≤ t → t < 32 → sL.data (p + t) = s.data (p + t)) := by
    refine ⟨fun G hG hne => ⟨g.others G hne, ?_⟩, fun D hD => ?_⟩
    · exact file_byte_congr (fun p => g.same G p hG hne)
        (fun p hp hz q h1 h2 => g.data G p hG hne hp hz q h1 h2)
    · have hne : D ≠ F := by
        intro e1
        subst e1
        rw [hD.2] at hnd
        exact Bool.noConfusion hnd
      refine ⟨hne, g.others D hne, ?_⟩
      rintro p ⟨i, j, hi, hj, hz, rfl⟩ t ht0 ht1
      have hr0 : ref_at s D i = (s.inodes D).blocks i := ref_at_direct s D (by omega)
      refine g.data D i hD.1 hne (by omega) (by rw [hr0]; exact hz) _ ?_ ?_
      · rw [hr0]; simp only [dentry_ptr, DENTRY_SIZE]; omega
      · rw [hr0]; simp only [dentry_ptr, DENTRY_SIZE]; omega
  have hresL : ∀ path2, get_inode_from_path sL path2 = get_inode_from_path s path2 :=
    fun path2 => resolve_wrote hinv g hnd path2
  rcases hres with ⟨_, _, rfl⟩ | ⟨_, _, _, rfl⟩
  · refine ⟨g.sb, g.ib, hresL, fun G hG hne => ?_, fun D hD => ?_⟩
    · exact hmid.1 G hG (fun e1 => hne (by rw [e1]; exact hr))
    · exact (hmid.2 D hD).2
  · refine ⟨g.sb, g.ib, fun path2 => ?_, fun G hG hne => ?_, fun D hD => ?_⟩
    · rw [← hresL path2]
      refine resolve_set_fields hinvL F _ ?_ ?_ path2 <;> rfl
    · have hGF : G ≠ F := fun e1 => hne (by rw [e1]; exact hr)
      refine ⟨?_, fun x => ?_⟩
      · rw [set_inode_other _ _ hGF]
        exact (hmid.1 G hG hGF).1
      · refine Eq.trans (file_byte_set_fields sL F _ ?_ G x) ((hmid.1 G hG hGF).2 x)
        rfl
    · obtain ⟨hne, h1, h2⟩ := hmid.2 D hD
      refine ⟨?_, h2⟩
      rw [set_inode_other _ _ hne]
      exact h1

/-- Two images in which a path names the same regular file with the same size and the
same bytes give the same result for a read of it. -/
theorem wfs_read_same {s s1 : Image} (hinv : Inv s) (hinv1 : Inv s1) {path clean : List Nat}
    {G : Nat} (hc : strip_ansi_codes path PATH_MAX = some clean)
    (hr : get_inode_from_path s clean = path_result.found G)
    (hr1 : get_inode_from_path s1 clean = path_result.found G)
    (hnd : S_ISDIR (s.inodes G).mode = false) (hi : s1.inodes G = s.inodes G)
    (hb : ∀ x, file_byte s1 G x = file_byte s G x) {off : Int} (h0 : 0 ≤ off) {len : Nat}
    (hlen : len < 2 ^ 31) (now now1 : Int) :
    ∃ out sA sB, wfs_read s path len off now = some ((out.length : Int), out, sA) ∧
      wfs_read s1 path len off now1 = some ((out.length : Int), out, sB) := by
  obtain ⟨out, sA, e, hl, hbytes⟩ := wfs_read_spec hinv hc hr hnd h0 hlen now
  obtain ⟨out1, sB, e1, hl1, hbytes1⟩ :=
    wfs_read_spec hinv1 hc hr1 (by rw [hi]; exact hnd) h0 hlen now1
  have hlen_eq : out1.length = out.length := by
    rw [hi, ← hl] at hl1
    exact_mod_cast hl1
  have heq : out1 = out := by
    apply List.ext_getElem hlen_eq
    intro i h1 h2
    have a := hbytes i h2
    have b := hbytes1 i h1
    rw [List.getD_eq_getElem _ _ h2] at a
    rw [List.getD_eq_getElem _ _ h1] at b
    rw [a, b, hb]
  subst heq
  exact ⟨out1, sA, sB, e, e1⟩

end WFS

namespace WFS

/-! ### Names in a directory -/

theorem strcmp_eq_nonzero {m : Int → Nat} : ∀ (name : List Nat) (p : Int),
    strcmp_eq m p name = true → 0 ∉ name → ∀ i : Nat, i < name.length → m (p + i) ≠ 0
  | [], _, _, _, i, hi => by simp at hi
  | c :: cs, p, h, h0, i, hi => by
    simp only [strcmp_eq, beq_iff_eq, Bool.and_eq_true, Bool.or_eq_true] at h
    have hc : c ≠ 0 := fun e => h0 (by simp [e])
    cases i with
    | zero =>
      simp only [Nat.cast_zero, add_zero]
      rw [h.1]
      exact hc
    | succ j =>
      have := strcmp_eq_nonzero cs (p + 1) (h.2.resolve_left hc)
        (fun hx => h0 (List.mem_cons_of_mem _ hx)) j (by simp at hi; omega)
      have e : p + ((j + 1 : Nat) : Int) = p + 1 + (j : Int) := by push_cast; ring
      rw [e]
      exact this

/-- A name without zero bytes that a slot of a live directory carries has fewer than
`MAX_NAME` bytes. -/
theorem hit_name_short {s : Image} (hinv : Inv s) {D : Nat} (hd : is_dir s D) {p : Int}
    (hp : is_slot s D p) {name : List Nat} (hh : strcmp_eq s.data p name = true)
    (h0 : 0 ∉ name) : name.length < 28 := by
  obtain ⟨t, ht, hz⟩ := hinv.d.nul D p hd hp
  by_contra hlen
  exact strcmp_eq_nonzero name p hh h0 t (by omega) hz

/-- A path whose last component is a name and that resolves, as its `dirname` does: the
directory that the `dirname` names has exactly one live slot that carries the `basename`,
and that slot names the inode of the path. -/
theorem resolved_entry {s : Image} (hinv : Inv s) {P : List Nat} {D N : Nat}
    (hD : get_inode_from_path s (dirname P) = path_result.found D)
    (hN : get_inode_from_path s P = path_result.found N)
    (h1 : basename P ≠ [DOT]) (h2 : basename P ≠ [DOT, DOT]) (h3 : SLASH ∉ basename P) :
    is_dir s D ∧ ∃ p, is_slot s D p ∧ slot_hit s.data (basename P) p ∧
      dentry_num s.data p = (N : Int) ∧
      ∀ p1, is_slot s D p1 → slot_hit s.data (basename P) p1 → p1 = p := by
  obtain ⟨hh, hl, hw⟩ := walk_of_resolve hD
  obtain ⟨hP, _, hne, htok, _⟩ := path_split h1 h3 hh
  obtain ⟨st, a, b, c⟩ := walk_append hinv (path_tokens (dirname P)) 0 [0] D rfl hl hw
  have hres : walk s [basename P] D st = path_result.found N := by
    rw [← c, ← htok, ← resolve_eq_walk hne hP hl]
    exact hN
  obtain ⟨tl, etl⟩ := head_cons a
  have hcl : live s D := by rw [etl] at b; exact chain_head_live b
  simp only [walk] at hres
  split at hres
  · exact absurd hres (by simp)
  · next hd =>
    have hdir : is_dir s D := ⟨hcl, by simpa using hd⟩
    split at hres
    · exact absurd hres (by simp)
    · next hf =>
      obtain ⟨p, hp, hit, hnum⟩ := dir_find_hit hf
      split at hres
      · exact absurd hres (by simp)
      · next next hret =>
        split at hres
        · exact absurd hres (by simp)
        · injection hres with hres
          subst hres
          have hk := (retrieve_inode_some hret).1
          refine ⟨hdir, p, hp, hit, ?_, fun p1 hp1 hit1 => ?_⟩
          · rw [hnum]; omega
          · exact hinv.d.names D p p1 _ hdir hp hp1 hit.1 hit1.1 hit.2 hit1.2

end WFS

namespace WFS

/-! ### The scan of `add_dentry` keeps the first vacant slot and the first empty entry -/

theorem add_scan_slots_keep (m : Int → Nat) (name : List Nat) (blk : Int) (i : Nat) :
    ∀ (n j : Nat) (st st1 : add_scan) (y : Int × Nat), st.next_free = some y →
      add_scan_slots m name blk i n j st = some st1 → st1.next_free = some y
  | 0, j, st, st1, y, hy, h => by
    simp only [add_scan_slots] at h
    injection h with h; subst h
    exact hy
  | n + 1, j, st, st1, y, hy, h => by
    simp only [add_scan_slots] at h
    split at h
    · refine add_scan_slots_keep m name blk i n (j + 1) _ st1 y ?_ h
      simp [hy]
    · split at h
      · exact absurd h (by simp)
      · exact add_scan_slots_keep m name blk i n (j + 1) st st1 y hy h

theorem add_scan_slots_first (m : Int → Nat) (name : List Nat) (blk : Int) (i : Nat) :
    ∀ (n j : Nat) (st st1 : add_scan) (x : Int × Nat), st.next_free = none →
      add_scan_slots m name blk i n j st = some st1 → st1.next_free = some x →
      ∃ j1, j ≤ j1 ∧ j1 < j + n ∧ x = (dentry_ptr blk j1, i) ∧
        dentry_vacant m (dentry_ptr blk j1) = true ∧
        ∀ j2, j ≤ j2 → j2 < j1 → dentry_vacant m (dentry_ptr blk j2) = false
  | 0, j, st, st1, x, hn, h, hx => by
    simp only [add_scan_slots] at h
    injection h with h; subst h
    rw [hn] at hx
    exact absurd hx (by simp)
  | n + 1, j, st, st1, x, hn, h, hx => by
    simp only [add_scan_slots] at h
    split at h
    · next hv =>
      have hk := add_scan_slots_keep m name blk i n (j + 1) _ st1 (dentry_ptr blk j, i)
        (by simp [hn]) h
      rw [hk] at hx
      injection hx with hx
      exact ⟨j, le_refl _, by omega, hx.symm, hv, fun j2 h1 h2 => by omega⟩
    · next hv =>
      split at h
      · exact absurd h (by simp)
      · obtain ⟨j1, a, b, c, d, f⟩ := add_scan_slots_first m name blk i n (j + 1) st st1 x hn h hx
        refine ⟨j1, by omega, by omega, c, d, fun j2 h1 h2 => ?_⟩
        by_cases e : j2 = j
        · subst e; simpa using hv
        · exact f j2 (by omega) h2

theorem add_scan_blocks_keep (m : Int → Nat) (name : List Nat) (blocks : Nat → Int) :
    ∀ (n i : Nat) (st st1 : add_scan) (y : Int × Nat), st.next_free = some y →
      add_scan_blocks m name blocks n i st = some st1 → st1.next_free = some y
  | 0, i, st, st1, y, hy, h => by
    simp only [add_scan_blocks] at h
    injection h with h; subst h
    exact hy
  | n + 1, i, st, st1, y, hy, h => by
    simp only [add_scan_blocks] at h
    split at h
    · refine add_scan_blocks_keep m name blocks n (i + 1) _ st1 y ?_ h
      split <;> exact hy
    · split at h
      · exact absurd h (by simp)
      · next st2 hs =>
        exact add_scan_blocks_keep m name blocks n (i + 1) st2 st1 y
          (add_scan_slots_keep m name (blocks i) i _ 0 st st2 y hy hs) h

/-- The vacant slot that the scan of `add_dentry` reports is the first one, in block-index
then slot order, among the slots of the allocated blocks. -/
theorem add_scan_blocks_first (m : Int → Nat) (name : List Nat) (blocks : Nat → Int) :
    ∀ (n i : Nat) (st st1 : add_scan) (x : Int × Nat), st.next_free = none →
      add_scan_blocks m name blocks n i st = some st1 → st1.next_free = some x →
      ∃ i1 j1, i ≤ i1 ∧ i1 < i + n ∧ blocks i1 ≠ 0 ∧ j1 < 16 ∧
        x = (dentry_ptr (blocks i1) j1, i1) ∧
        dentry_vacant m (dentry_ptr (blocks i1) j1) = true ∧
        ∀ i2 j2, i ≤ i2 → blocks i2 ≠ 0 → j2 < 16 → (i2 < i1 ∨ (i2 = i1 ∧ j2 < j1)) →
          dentry_vacant m (dentry_ptr (blocks i2) j2) = false
  | 0, i, st, st1, x, hn, h, hx => by
    simp only [add_scan_blocks] at h
    injection h with h; subst h
    rw [hn] at hx
    exact absurd hx (by simp)
  | n + 1, i, st, st1, x, hn, h, hx => by
    simp only [add_scan_blocks] at h
    split at h
    · next hz =>
      obtain ⟨i1, j1, a, b, c, d, e, f, g⟩ :=
        add_scan_blocks_first m name blocks n (i + 1) _ st1 x (by split <;> exact hn) h hx
      refine ⟨i1, j1, by omega, by omega, c, d, e, f, fun i2 j2 h1 h2 h3 h4 => ?_⟩
      by_cases e2 : i2 = i
      · subst e2; exact absurd hz h2
      · exact g i2 j2 (by omega) h2 h3 h4
    · next hz =>
      split at h
      · exact absurd h (by simp)
      · next st2 hs =>
        cases hf : st2.next_free with
        | some y =>
          have hk := add_scan_blocks_keep m name blocks n (i + 1) st2 st1 y hf h
          rw [hk] at hx
          injection hx with hx
          subst hx
          obtain ⟨j1, _, b, c, d, f⟩ :=
            add_scan_slots_first m name (blocks i) i 16 0 st st2 y hn hs hf
          refine ⟨i, j1, le_refl _, by omega, hz, by omega, c, d, fun i2 j2 h1 h2 h3 h4 => ?_⟩
          rcases h4 with h4 | ⟨h4, h5⟩
          · omega
          · subst h4
            exact f j2 (by omega) h5
        | none =>
          obtain ⟨_, q⟩ := (add_scan_slots_spec m name (blocks i) i 16 0 st st2 hs).2.2.2 hf
          obtain ⟨i1, j1, a, b, c, d, e, f, g⟩ :=
            add_scan_blocks_first m name blocks n (i + 1) st2 st1 x hf h hx
          refine ⟨i1, j1, by omega, by omega, c, d, e, f, fun i2 j2 h1 h2 h3 h4 => ?_⟩
          by_cases e2 : i2 = i
          · subst e2; exact q j2 (by omega) (by omega)
          · exact g i2 j2 (by omega) h2 h3 h4

theorem add_scan_blocks_keep_block (m : Int → Nat) (name : List Nat) (blocks : Nat → Int) :
    ∀ (n i : Nat) (st st1 : add_scan) (y : Nat), st.next_block = some y →
      add_scan_blocks m name blocks n i st = some st1 → st1.next_block = some y
  | 0, i, st, st1, y, hy, h => by
    simp only [add_scan_blocks] at h
    injection h with h; subst h
    exact hy
  | n + 1, i, st, st1, y, hy, h => by
    simp only [add_scan_blocks] at h
    split at h
    · refine add_scan_blocks_keep_block m name blocks n (i + 1) _ st1 y ?_ h
      simp [hy]
    · split at h
      · exact absurd h (by simp)
      · next st2 hs =>
        have e := (add_scan_slots_spec m name (blocks i) i 16 0 st st2 hs).2.1
        exact add_scan_blocks_keep_block m name blocks n (i + 1) st2 st1 y (by rw [e]; exact hy) h

/-- The empty entry of the address array that the scan of `add_dentry` reports is the
lowest one. -/
theorem add_scan_blocks_first_block (m : Int → Nat) (name : List Nat) (blocks : Nat → Int) :
    ∀ (n i : Nat) (st st1 : add_scan) (x : Nat), st.next_block = none →
      add_scan_blocks m name blocks n i st = some st1 → st1.next_block = some x →
      i ≤ x ∧ x < i + n ∧ blocks x = 0 ∧ ∀ i2, i ≤ i2 → i2 < x → blocks i2 ≠ 0
  | 0, i, st, st1, x, hn, h, hx => by
    simp only [add_scan_blocks] at h
    injection h with h; subst h
    rw [hn] at hx
    exact absurd hx (by simp)
  | n + 1, i, st, st1, x, hn, h, hx => by
    simp only [add_scan_blocks] at h
    split at h
    · next hz =>
      have hk := add_scan_blocks_keep_block m name blocks n (i + 1) _ st1 i (by simp [hn]) h
      rw [hk] at hx
      injection hx with hx
      subst hx
      exact ⟨le_refl _, by omega, hz, fun i2 h1 h2 => by omega⟩
    · next hz =>
      split at h
      · exact absurd h (by simp)
      · next st2 hs =>
        have e := (add_scan_slots_spec m name (blocks i) i 16 0 st st2 hs).2.1
        obtain ⟨a, b, c, d⟩ := add_scan_blocks_first_block m name blocks n (i + 1) st2 st1 x
          (by rw [e]; exact hn) h hx
        refine ⟨by omega, by omega, c, fun i2 h1 h2 => ?_⟩
        by_cases e2 : i2 = i
        · subst e2; exact hz
        · exact d i2 (by omega) h2

/-- A successful `add_dentry` fills the first vacant slot, in block-index then slot order,
of the allocated direct blocks of the parent; when no slot is vacant it attaches a
zero-filled block to the lowest empty entry of the address array and fills slot 0 of that
block. -/
theorem add_dentry_first {s : Image} (hb : InvB s) {parent : Nat} {num : Int}
    {name : List Nat} {now : Int} {s1 : Image}
    (h : add_dentry s parent num name now = (0, s1)) :
    (∃ i j : Nat, i < 6 ∧ j < 16 ∧ (s.inodes parent).blocks i ≠ 0 ∧
        dentry_vacant s.data (dentry_ptr ((s.inodes parent).blocks i) j) = true ∧
        (∀ i2 j2, i2 < 6 → j2 < 16 → (s.inodes parent).blocks i2 ≠ 0 →
          (i2 < i ∨ (i2 = i ∧ j2 < j)) →
          dentry_vacant s.data (dentry_ptr ((s.inodes parent).blocks i2) j2) = false) ∧
        s1 = touch_parent
          { s with data :=
              (write_dentry s.data (dentry_ptr ((s.inodes parent).blocks i) j) name num) }
          parent i now) ∨
    (∃ i n : Nat, i < 6 ∧ (s.inodes parent).blocks i = 0 ∧
        (∀ i2, i2 < i → (s.inodes parent).blocks i2 ≠ 0) ∧ n < s.sb.num_data_blocks ∧
        bit_set s.d_bitmap n = false ∧
        (∀ p, is_slot s parent p → dentry_vacant s.data p = false) ∧
        s1 = touch_parent
          { set_block (with_new_block s n) parent i (block_off s n) with
            data := write_dentry (with_new_block s n).data (block_off s n) name num }
          parent i now) := by
  unfold add_dentry at h
  split at h
  · injection h with h1 h2
    exact absurd h1 (by decide)
  · split at h
    · injection h with h1 h2
      exact absurd h1 (by decide)
    · split at h
      · injection h with h1 h2
        exact absurd h1 (by decide)
      · next st hst =>
        simp only [D_BLOCK] at hst
        obtain ⟨_, r2, r3, r4, r5⟩ := add_scan_blocks_spec _ _ _ 6 0 _ st hst
        split at h
        · next p nfb hnf =>
          injection h with h1 h2
          obtain ⟨i, j, _, hi, hbi, hj, hx, hv, hfirst⟩ :=
            add_scan_blocks_first _ _ _ 6 0 _ st (p, nfb) rfl hst hnf
          injection hx with hx1 hx2
          subst hx1; subst hx2
          exact Or.inl ⟨nfb, j, by omega, hj, hbi, hv,
            fun i2 j2 _ hj2 hb2 hlt => hfirst i2 j2 (by omega) hb2 hj2 hlt, h2.symm⟩
        · next hnf =>
          obtain ⟨_, hfull⟩ := r3 hnf
          split at h
          · injection h with h1 h2
            exact absurd h1 (by decide)
          · next nb hnb =>
            obtain ⟨_, hi, hz, hlow⟩ := add_scan_blocks_first_block _ _ _ 6 0 _ st nb rfl hst hnb
            rcases allocate_data_block_cases hb with ⟨ha, _⟩ | ⟨n, hn, hbit, ha⟩
            · rw [ha] at h
              simp only at h
              rw [if_pos (by decide)] at h
              injection h with h1 h2
              exact absurd h1 (by decide)
            · rw [ha] at h
              simp only at h
              have hpos : ¬ block_off s n < 0 := by
                have := hb.sb.2.2.1
                unfold block_off; omega
              rw [if_neg hpos] at h
              injection h with h1 h2
              refine Or.inr ⟨nb, n, by omega, hz, fun i2 h2 => hlow i2 (by omega) h2, hn, hbit,
                ?_, ?_⟩
              · intro p ⟨i, j, hi1, hj1, hbi, hp⟩
                rw [hp]
                exact hfull i j (by omega) (by omega) hbi hj1
              · rw [← h2]
                simp only [BLOCK_SIZE]
                have e1 : memset0 (with_new_block s n).data (block_off s n) 512
                    = (with_new_block s n).data := by
                  unfold with_new_block
                  exact memset0_idem _ _ _
                simp only [e1, set_block_blocks, if_true, set_block_data]

end WFS

namespace WFS

/-- A directory has at most 96 slots: pairwise different slots of one inode number at most
`6 * 16`. -/
theorem slots_le_96 (s : Image) (k : Nat) (l : List Int) (hn : l.Nodup)
    (h : ∀ p ∈ l, is_slot s k p) : l.length ≤ 96 := by
  have hsub : l.toFinset ⊆ (Finset.range 6 ×ˢ Finset.range 16).image
      (fun x : Nat × Nat => dentry_ptr ((s.inodes k).blocks x.1) x.2) := by
    intro p hp
    obtain ⟨i, j, hi, hj, _, e⟩ := h p (List.mem_toFinset.1 hp)
    exact Finset.mem_image.2 ⟨(i, j), Finset.mem_product.2
      ⟨Finset.mem_range.2 hi, Finset.mem_range.2 hj⟩, e.symm⟩
  have h1 := Finset.card_le_card hsub
  have h2 := Finset.card_image_le (s := Finset.range 6 ×ˢ Finset.range 16)
    (f := fun x : Nat × Nat => dentry_ptr ((s.inodes k).blocks x.1) x.2)
  rw [List.toFinset_card_of_nodup hn] at h1
  rw [Finset.card_product, Finset.card_range, Finset.card_range] at h2
  omega

theorem touch_parent_size (s : Image) (parent i : Nat) (now : Int) :
    ((touch_parent s parent i now).inodes parent).size
      = max (s.inodes parent).size (((i : Int) + 1) * 512) := by
  rw [touch_parent_eq, set_inode_same]
  simp only
  rw [max_def]
  split <;> split <;> omega

end WFS

namespace WFS

/-! ### Which inodes a dentry names, from one image to the next -/

/-- A live slot that keeps its directory and its 32 bytes still names its inode. -/
theorem named_keep {s s1 : Image} {k D : Nat} {p : Int} (hd : is_dir s1 D)
    (hs : is_slot s1 D p) (hb : ∀ q, p ≤ q → q < p + 32 → s1.data q = s.data q)
    (hv : dentry_vacant s.data p = false) (hn : dentry_num s.data p = (k : Int)) :
    named s1 k :=
  ⟨D, p, hd, hs, by rw [dentry_vacant_congr hb]; exact hv, by rw [dentry_num_congr hb]; exact hn⟩

theorem keeps_refl (s : Image) :
    (∀ k, live s k ↔ live s k) ∧ ∀ k, named s k → named s k :=
  ⟨fun _ => Iff.rfl, fun _ h => h⟩

/-- An update of fields of an inode other than the type and the address array keeps the
inodes in use and the dentries. -/
theorem keeps_set_inode (s : Image) (k : Nat) (v : wfs_inode)
    (hm : v.mode = (s.inodes k).mode) (hb : v.blocks = (s.inodes k).blocks) :
    (∀ j, live (set_inode s k v) j ↔ live s j) ∧ ∀ j, named s j → named (set_inode s k v) j := by
  have hf : ∀ j, ((set_inode s k v).inodes j).mode = (s.inodes j).mode ∧
      ((set_inode s k v).inodes j).blocks = (s.inodes j).blocks := by
    intro j
    by_cases e : j = k
    · subst e; rw [set_inode_same]; exact ⟨hm, hb⟩
    · rw [set_inode_other _ _ e]; exact ⟨rfl, rfl⟩
  refine ⟨fun j => Iff.rfl, ?_⟩
  rintro j ⟨D, p, hd, hs, hv, hn⟩
  exact named_keep ⟨hd.1, by rw [(hf D).1]; exact hd.2⟩
    ((is_slot_congr (fun i _ => by rw [(hf D).2]) p).2 hs) (fun q _ _ => rfl) hv hn

theorem wfs_setxattr_keeps {s : Image} {path name value : List Nat} {now rc : Int}
    {s1 : Image} (e : wfs_setxattr s path name value now = some (rc, s1)) :
    (∀ k, live s1 k ↔ live s k) ∧ ∀ k, named s k → named s1 k := by
  unfold wfs_setxattr at e
  split at e
  · exact absurd e (by simp)
  · split at e
    · exact absurd e (by simp)
    · injection e with e; injection e with _ e; rw [← e]; exact keeps_refl s
    · next inode hr =>
      split at e
      · injection e with e; injection e with _ e; rw [← e]; exact keeps_refl s
      · split at e
        · injection e with e; injection e with _ e; rw [← e]; exact keeps_refl s
        · simp only at e
          split at e
          · exact absurd e (by simp)
          · split at e
            · injection e with e; injection e with _ e; rw [← e]; exact keeps_refl s
            · injection e with e; injection e with _ e; rw [← e]
              exact keeps_set_inode s _ _ rfl rfl

theorem wfs_removexattr_keeps {s : Image} {path name : List Nat} {now rc : Int}
    {s1 : Image} (e : wfs_removexattr s path name now = some (rc, s1)) :
    (∀ k, live s1 k ↔ live s k) ∧ ∀ k, named s k → named s1 k := by
  unfold wfs_removexattr at e
  split at e
  · exact absurd e (by simp)
  · split at e
    · exact absurd e (by simp)
    · injection e with e; injection e with _ e; rw [← e]; exact keeps_refl s
    · next inode hr =>
      split at e
      · injection e with e; injection e with _ e; rw [← e]; exact keeps_refl s
      · injection e with e; injection e with _ e; rw [← e]
        exact keeps_set_inode s _ _ rfl rfl

theorem wfs_read_keeps {s : Image} {path : List Nat} {len : Nat} {off now rc : Int}
    {out : List Nat} {s1 : Image} (e : wfs_read s path len off now = some (rc, out, s1)) :
    (∀ k, live s1 k ↔ live s k) ∧ ∀ k, named s k → named s1 k := by
  unfold wfs_read at e
  split at e
  · exact absurd e (by simp)
  · split at e
    · exact absurd e (by simp)
    · injection e with e; injection e with _ e; injection e with _ e; rw [← e]
      exact keeps_refl s
    · next inode hr =>
      split at e
      · injection e with e; injection e with _ e; injection e with _ e; rw [← e]
        exact keeps_refl s
      · split at e
        · injection e with e; injection e with _ e; injection e with _ e; rw [← e]
          exact keeps_refl s
        · injection e with e; injection e with _ e; injection e with _ e; rw [← e]
          exact keeps_set_inode s _ _ rfl rfl

theorem wfs_readdir_keeps {s : Image} {path : List Nat} {is_ls : Bool} {now rc : Int}
    {out : List (List Nat)} {s1 : Image}
    (e : wfs_readdir s path is_ls now = some (rc, out, s1)) :
    (∀ k, live s1 k ↔ live s k) ∧ ∀ k, named s k → named s1 k := by
  unfold wfs_readdir at e
  split at e
  · exact absurd e (by simp)
  · split at e
    · exact absurd e (by simp)
    · injection e with e; injection e with _ e; injection e with _ e; rw [← e]
      exact keeps_refl s
    · next inode hr =>
      split at e
      · injection e with e; injection e with _ e; injection e with _ e; rw [← e]
        exact keeps_refl s
      · split at e
        · exact absurd e (by simp)
        · injection e with e; injection e with _ e; injection e with _ e; rw [← e]
          exact keeps_set_inode s _ _ rfl rfl

theorem wfs_write_keeps {s : Image} (hinv : Inv s) {path buf : List Nat} {off now rc : Int}
    {s1 : Image} (e : wfs_write s path buf off now = some (rc, s1)) :
    (∀ k, live s1 k ↔ live s k) ∧ ∀ k, named s k → named s1 k := by
  cases hc : strip_ansi_codes path PATH_MAX with
  | none =>
    unfold wfs_write at e
    simp only [hc] at e
    exact absurd e (by simp)
  | some clean =>
    obtain ⟨hsb, hib, _, _, hD⟩ := wfs_write_others hinv e hc
    refine ⟨fun k => live_congr hsb hib k, ?_⟩
    rintro k ⟨D, p, hd, hs, hv, hn⟩
    obtain ⟨hi, hb⟩ := hD D hd
    refine named_keep ⟨(live_congr hsb hib D).2 hd.1, by rw [hi]; exact hd.2⟩
      ((is_slot_congr (fun i _ => by rw [hi]) p).2 hs) (fun q h1 h2 => ?_) hv hn
    have := hb p hs (q - p) (by omega) (by omega)
    rw [show p + (q - p) = q by ring] at this
    exact this

/-- The part of `wfs_mknod` and `wfs_mkdir` after the allocation of inode `k`: when every
inode in use other than the root is named by a live dentry before the call, the same
holds after it, whether `add_dentry` succeeds or the inode is freed again. -/
theorem create_entry_named {s : Image} (h : Inv s)
    (hni : ∀ j, live s j → j ≠ 0 → named s j) {parent k : Nat} {now : Int}
    (hr0 : live s 0) (hpar : live s parent) (ha : (allocate_inode s now).1 = some k)
    (mode uid gid : Nat) {name : List Nat} (hne : name ≠ []) (h0 : 0 ∉ name) {rc1 : Int}
    {s4 : Image}
    (hadd : add_dentry (created s k mode now uid gid) parent
      ((created s k mode now uid gid).inodes k).num name now = (rc1, s4)) :
    (rc1 = 0 → ∀ j, live s4 j → j ≠ 0 → named s4 j) ∧
    (rc1 ≠ 0 → ∀ j, live (free_inode s4 k) j → j ≠ 0 → named (free_inode s4 k) j) := by
  obtain ⟨hk, hf, hpos, hinv4, hfail⟩ := create_entry_inv h hr0 hpar ha mode uid gid name hadd
  have hinvc : Inv (created s k mode now uid gid) := h.created hk hf mode now uid gid
  have hlk : live (created s k mode now uid gid) k :=
    (live_created hk mode now uid gid k).2 (Or.inr rfl)
  have hnotk : ∀ D, live s D → D ≠ k := by
    intro D hD e
    subst e
    have := hD.2
    rw [hf] at this
    exact Bool.noConfusion this
  have hnum : ((created s k mode now uid gid).inodes k).num = (k : Int) := by
    rw [created_same]
  rw [hnum] at hadd
  constructor
  · intro hz j hj hj0
    subst hz
    obtain ⟨hsb, hib, hmodes, _, hslots⟩ := add_dentry_frame hinvc.b
      ((live_created hk mode now uid gid parent).2 (Or.inl hpar)) hadd
    have hjc : live (created s k mode now uid gid) j := (live_congr hsb hib j).1 hj
    rcases (live_created hk mode now uid gid j).1 hjc with hjs | hjk
    · obtain ⟨D, p, hd, hs, hv, hn⟩ := hni j hjs hj0
      have hDk := hnotk D hd.1
      have hDc : live (created s k mode now uid gid) D :=
        (live_created hk mode now uid gid D).2 (Or.inl hd.1)
      have hsc : is_slot (created s k mode now uid gid) D p :=
        (is_slot_congr (fun i _ => by rw [created_other s mode now uid gid hDk]) p).2 hs
      obtain ⟨hs4, hb4⟩ := hslots D p hDc hsc hv
      refine named_keep ⟨(live_congr hsb hib D).2 hDc, ?_⟩ hs4 (fun q h1 h2 => ?_) hv hn
      · rw [hmodes D, created_other s mode now uid gid hDk]
        exact hd.2
      · exact hb4 q h1 h2
    · subst hjk
      obtain ⟨p, hp, hbytes, hnum4, _, _⟩ := add_dentry_stored hinvc.b hadd
      have hlim := h.b.sb.2.2.2.2.1
      have hn4 := hnum4 (by omega) (by omega)
      have hpd : S_ISDIR (s4.inodes parent).mode = true := by
        rcases add_dentry_cases hinvc.b hadd with ⟨hx, _⟩ | ⟨_, hdir, _⟩
        · exact absurd rfl hx
        · rw [hmodes parent]
          exact hdir
      refine ⟨parent, p, ⟨(live_congr hsb hib parent).2
        ((live_created hk mode now uid gid parent).2 (Or.inl hpar)), hpd⟩, hp, ?_, hn4⟩
      rw [dentry_vacant_false]
      refine ⟨by rw [hn4]; omega, ?_⟩
      have hb0 := hbytes 0 (Nat.zero_le _)
      simp only [Nat.cast_zero, add_zero] at hb0
      rw [hb0]
      cases name with
      | nil => exact absurd rfl hne
      | cons c cs =>
        simp only [List.cons_append, List.getD_cons_zero]
        exact fun e => h0 (by simp [e])
  · intro hrc j hj hj0
    obtain ⟨e4, _⟩ := hfail hrc
    rw [e4] at hj ⊢
    obtain ⟨hjc, hjk⟩ := (live_free_inode hinvc.b hlk j).1 hj
    have hjs : live s j := by
      rcases (live_created hk mode now uid gid j).1 hjc with hx | hx
      · exact hx
      · exact absurd hx hjk
    obtain ⟨D, p, hd, hs, hv, hn⟩ := hni j hjs hj0
    have hDk := hnotk D hd.1
    have hDc : live (created s k mode now uid gid) D :=
      (live_created hk mode now uid gid D).2 (Or.inl hd.1)
    have hino : (free_inode (created s k mode now uid gid) k).inodes D = s.inodes D := by
      rw [free_inode_other hinvc.b hlk hDk, created_other s mode now uid gid hDk]
    refine named_keep ⟨(live_free_inode hinvc.b hlk D).2 ⟨hDc, hDk⟩, by rw [hino]; exact hd.2⟩
      ((is_slot_congr (fun i _ => by rw [hino]) p).2 hs) (fun q _ _ => ?_) hv hn
    rw [free_inode_data]
    rfl

theorem wfs_mknod_named {s : Image} (h : Inv s) (hni : ∀ j, live s j → j ≠ 0 → named s j)
    {path : List Nat} {mode : Nat} {now rc : Int} {uid gid : Nat} {s1 : Image}
    (e : wfs_mknod s path mode now uid gid = some (rc, s1)) :
    ∀ j, live s1 j → j ≠ 0 → named s1 j := by
  rcases wfs_mknod_cases e with ⟨rfl, _⟩ |
    ⟨clean, cp, parent, k, rc1, s4, _, hc, _, hr, _, ha, hadd, hres⟩
  · exact hni
  · obtain ⟨hpar, hr0⟩ := resolve_live hr
    obtain ⟨hok, hfail⟩ := create_entry_named h hni hr0 hpar ha _ uid gid
      (basename_ne_nil clean) (basename_no_zero (strip_no_zero hc)) hadd
    rcases hres with ⟨hne, _, rfl⟩ | ⟨hz, _, rfl⟩
    · exact hfail hne
    · exact hok hz

theorem wfs_mkdir_named {s : Image} (h : Inv s) (hni : ∀ j, live s j → j ≠ 0 → named s j)
    {path : List Nat} {mode : Nat} {now rc : Int} {uid gid : Nat} {s1 : Image}
    (e : wfs_mkdir s path mode now uid gid = some (rc, s1)) :
    ∀ j, live s1 j → j ≠ 0 → named s1 j := by
  rcases wfs_mkdir_cases e with ⟨rfl, _⟩ |
    ⟨clean, cp, parent, k, rc1, s4, hc, _, hr, _, _, ha, hadd, hres⟩
  · exact hni
  · obtain ⟨hpar, hr0⟩ := resolve_live hr
    obtain ⟨hok, hfail⟩ := create_entry_named h hni hr0 hpar ha _ uid gid
      (basename_ne_nil clean) (basename_no_zero (strip_no_zero hc)) hadd
    rcases hres with ⟨hne, _, rfl⟩ | ⟨hz, _, rfl⟩
    · exact hfail hne
    · exact hok hz

/-- What `remove_dentry` keeps, whether it succeeds or not: the superblock, the inode
bitmap, the type and the address array of every inode, and the 32 bytes of every slot of
an inode in use whose `num` is not the number looked for. -/
theorem remove_dentry_keeps {s : Image} (hb : InvB s) {dir : Nat} {inum now rc : Int}
    {s1 : Image} (hd : live s dir) (h : remove_dentry s dir inum now = (rc, s1)) :
    s1.sb = s.sb ∧ s1.i_bitmap = s.i_bitmap ∧
    (∀ j, (s1.inodes j).mode = (s.inodes j).mode ∧
      (s1.inodes j).blocks = (s.inodes j).blocks) ∧
    ∀ D p, live s D → is_slot s D p → dentry_num s.data p ≠ inum →
      ∀ q, p ≤ q → q < p + 32 → s1.data q = s.data q := by
  rcases remove_dentry_cases h with ⟨_, e, _⟩ | ⟨_, p0, hp0, hn0, e⟩
  · rw [e]
    exact ⟨rfl, rfl, fun _ => ⟨rfl, rfl⟩, fun _ _ _ _ _ _ _ _ => rfl⟩
  · rw [e]
    refine ⟨rfl, rfl, fun j => ?_, fun D p hD hs hne q h1 h2 => ?_⟩
    · by_cases ej : j = dir
      · subst ej; rw [set_inode_same]; exact ⟨rfl, rfl⟩
      · rw [set_inode_other _ _ ej]; exact ⟨rfl, rfl⟩
    · show memcpy (wr_int s.data (p0 + MAX_NAME) 0) p0 [0] q = s.data q
      rcases slot_disjoint hb hD hd hs hp0 with e1 | e1 | e1
      · rw [e1] at hn0
        exact absurd hn0 hne
      · exact clear_slot_out (by omega)
      · exact clear_slot_out (by omega)

theorem wfs_unlink_named {s : Image} (h : Inv s) (hni : ∀ j, live s j → j ≠ 0 → named s j)
    {path : List Nat} {now rc : Int} {s1 : Image}
    (e : wfs_unlink s path now = some (rc, s1)) :
    ∀ j, live s1 j → j ≠ 0 → named s1 j := by
  rcases wfs_unlink_cases e with rfl |
    ⟨clean_path, clean, parent, file, err2, sA, _, _, hr, hd, hfound, hfile, hnd, hrem, hres⟩
  · exact hni
  · have hpar := (resolve_live hr).1
    have hpd : is_dir s parent := ⟨hpar, hd⟩
    have hinvA := remove_dentry_inv h hpd hrem
    obtain ⟨hsbA, hibA, hfA, hdataA⟩ := remove_dentry_keeps h.b hpar hrem
    rcases hres with ⟨hneg, _, rfl⟩ | ⟨hok, _, rfl⟩
    · rcases remove_dentry_cases hrem with ⟨_, e1, _⟩ | ⟨e0, _⟩
      · rw [e1]; exact hni
      · rw [e0] at hneg
        exact absurd hneg (by decide)
    · obtain ⟨hfe, hfl⟩ := retrieve_inode_some hfile
      have hflA : live sA file := (live_congr hsbA hibA file).2 hfl
      obtain ⟨hinv2, g⟩ := Inv.free_direct_blocks 6 0 sA file hinvA hflA (by omega)
      have hfl2 : live (free_direct_blocks 6 0 sA file) file := (live_congr g.sb g.ib file).2 hflA
      have hb7 := hinv2.b.b7 file hfl2
      simp only [D_BLOCK, IND_BLOCK]
      rw [if_neg (by intro hx; exact hx hb7)]
      intro j hj hj0
      obtain ⟨hjF, hjf⟩ := (live_free_inode hinv2.b hfl2 j).1 hj
      have hjs : live s j := (live_congr hsbA hibA j).1 ((live_congr g.sb g.ib j).1 hjF)
      obtain ⟨D, p, hdD, hs, hv, hn⟩ := hni j hjs hj0
      have hDf : D ≠ file := by
        intro e1
        subst e1
        rw [hdD.2] at hnd
        exact Bool.noConfusion hnd
      have hDA : live sA D := (live_congr hsbA hibA D).2 hdD.1
      have hsA : is_slot sA D p := (is_slot_congr (fun i _ => by rw [(hfA D).2]) p).2 hs
      have hino : (free_inode (free_direct_blocks 6 0 sA file) file).inodes D = sA.inodes D := by
        rw [free_inode_other hinv2.b hfl2 hDf, g.others D hDf]
      have hne : dentry_num s.data p ≠ dir_find s parent (last_component clean_path) := by
        rw [hn, hfe]
        exact fun e1 => hjf (by exact_mod_cast e1)
      refine named_keep ⟨(live_free_inode hinv2.b hfl2 D).2
          ⟨(live_congr g.sb g.ib D).2 hDA, hDf⟩, ?_⟩
        ((is_slot_congr (fun i _ => by rw [hino]) p).2 hsA) (fun q h1 h2 => ?_) hv hn
      · rw [hino, (hfA D).1]
        exact hdD.2
      · rw [free_inode_data, freed_slot_frame hinvA.b g (by omega) hflA hDA hDf hsA q h1 h2]
        exact hdataA D p hdD.1 hs hne q h1 h2

/-- A call of `wfs_rmdir` on a directory without live entries keeps every inode in use
other than the root named by a live dentry. -/
theorem wfs_rmdir_named {s : Image} (h : Inv s) (hni : ∀ j, live s j → j ≠ 0 → named s j)
    {path : List Nat} {now rc : Int} {s1 : Image}
    (e : wfs_rmdir s path now = some (rc, s1))
    (htidy : ∀ clean_path clean child, strip_ansi_codes path PATH_MAX = some clean_path →
      strip_ansi_codes clean_path PATH_MAX = some clean →
      get_inode_from_path s clean = path_result.found child → dir_empty s child) :
    ∀ j, live s1 j → j ≠ 0 → named s1 j := by
  rcases wfs_rmdir_cases e with ⟨rfl, _⟩ |
    ⟨clean_path, cp, parent, clean, child, rc2, s2, hc, _, _, hr, hd, hcc, hrc, hcd, hrem, hres⟩
  · exact hni
  · have hempty := htidy clean_path clean child hc hcc hrc
    have hpar := (resolve_live hr).1
    have hcl := (resolve_live hrc).1
    obtain ⟨hinv1, g⟩ := Inv.free_direct_blocks 6 0 s child h hcl (by omega)
    have hnum : ((free_direct_blocks 6 0 s child).inodes child).num = (child : Int) := by
      obtain ⟨bl, hbl⟩ := g.fields
      rw [hbl]
      exact h.b.num child hcl
    have hpar1 : live (free_direct_blocks 6 0 s child) parent := (live_congr g.sb g.ib parent).2 hpar
    have hcl1 : live (free_direct_blocks 6 0 s child) child := (live_congr g.sb g.ib child).2 hcl
    simp only [D_BLOCK] at hrem
    rw [hnum] at hrem
    obtain ⟨hsb2, hib2, hf2, hdata2⟩ := remove_dentry_keeps hinv1.b hpar1 hrem
    have hmodeD : ∀ D, D ≠ child →
        (free_direct_blocks 6 0 s child).inodes D = s.inodes D := fun D hD => g.others D hD
    have hA : ∀ j, live s j → j ≠ 0 → ∃ D p, D ≠ child ∧ is_dir s D ∧
        is_slot (free_direct_blocks 6 0 s child) D p ∧ dentry_vacant s.data p = false ∧
        dentry_num s.data p = (j : Int) ∧
        ∀ q, p ≤ q → q < p + 32 → (free_direct_blocks 6 0 s child).data q = s.data q := by
      intro j hj hj0
      obtain ⟨D, p, hdD, hs, hv, hn⟩ := hni j hj hj0
      have hDc : D ≠ child := by
        intro e1
        subst e1
        rw [hempty p hs] at hv
        exact Bool.noConfusion hv
      exact ⟨D, p, hDc, hdD, (is_slot_congr (fun i _ => by rw [hmodeD D hDc]) p).2 hs, hv, hn,
        freed_slot_frame h.b g (by omega) hcl hdD.1 hDc hs⟩
    have hl2 : live s2 child := (live_congr hsb2 hib2 child).2 hcl1
    have hinv2 := remove_dentry_inv hinv1 ⟨hpar1, by
      by_cases ep : parent = child
      · subst ep
        obtain ⟨bl, hbl⟩ := g.fields
        rw [hbl]
        exact hd
      · rw [hmodeD parent ep]; exact hd⟩ hrem
    have hgoal : ∀ j, live s j → j ≠ 0 → j ≠ child →
        ∃ D p, D ≠ child ∧ is_dir s2 D ∧ is_slot s2 D p ∧ dentry_vacant s2.data p = false ∧
          dentry_num s2.data p = (j : Int) := by
      intro j hj hj0 hjc
      obtain ⟨D, p, hDc, hdD, hs1, hv, hn, hb1⟩ := hA j hj hj0
      have hD1 : live (free_direct_blocks 6 0 s child) D := (live_congr g.sb g.ib D).2 hdD.1
      have hn1 : dentry_num (free_direct_blocks 6 0 s child).data p = (j : Int) := by
        rw [dentry_num_congr hb1]; exact hn
      have hb2 : ∀ q, p ≤ q → q < p + 32 → s2.data q = s.data q := by
        intro q h1 h2
        rw [hdata2 D p hD1 hs1 (by rw [hn1]; exact fun e1 => hjc (by exact_mod_cast e1)) q h1 h2]
        exact hb1 q h1 h2
      refine ⟨D, p, hDc, ⟨(live_congr hsb2 hib2 D).2 hD1, ?_⟩,
        (is_slot_congr (fun i _ => by rw [(hf2 D).2]) p).2 hs1, ?_, ?_⟩
      · rw [(hf2 D).1, hmodeD D hDc]
        exact hdD.2
      · rw [dentry_vacant_congr hb2]; exact hv
      · rw [dentry_num_congr hb2]; exact hn
    rcases hres with ⟨hneg, _, rfl⟩ | ⟨hok, _, rfl⟩
    · rcases remove_dentry_cases hrem with ⟨_, e1, _⟩ | ⟨e0, _⟩
      · rw [e1]
        intro j hj hj0
        obtain ⟨D, p, hDc, hdD, hs1, hv, hn, hb1⟩ := hA j ((live_congr g.sb g.ib j).1 hj) hj0
        exact named_keep ⟨(live_congr g.sb g.ib D).2 hdD.1, by rw [hmodeD D hDc]; exact hdD.2⟩
          hs1 hb1 hv hn
      · rw [e0] at hneg
        exact absurd hneg (by decide)
    · intro j hj hj0
      obtain ⟨hj2, hjc⟩ := (live_free_inode hinv2.b hl2 j).1 hj
      have hjs : live s j := (live_congr g.sb g.ib j).1 ((live_congr hsb2 hib2 j).1 hj2)
      obtain ⟨D, p, hDc, hdD, hs2, hv, hn⟩ := hgoal j hjs hj0 hjc
      have hino : (free_inode s2 child).inodes D = s2.inodes D :=
        free_inode_other hinv2.b hl2 hDc
      exact ⟨D, p, ⟨(live_free_inode hinv2.b hl2 D).2 ⟨hdD.1, hDc⟩, by rw [hino]; exact hdD.2⟩,
        (is_slot_congr (fun i _ => by rw [hino]) p).2 hs2, by rw [free_inode_data]; exact hv,
        by rw [free_inode_data]; exact hn⟩

/-- In a freshly formatted image the root is the only inode in use. -/
theorem fresh_live {s : Image} (h : Fresh s) : ∀ k, live s k → k = 0 := by
  obtain ⟨old, inodes, blocks, sz, uid, gid, hi, hd, hm, _⟩ := h
  unfold wfs_mkfs at hm
  split at hm
  · exact absurd hm (by simp)
  · next sb ok hsb =>
    split at hm
    · injection hm with hm; injection hm with hm _
      exact absurd hm (by decide)
    · injection hm with hm; injection hm with _ hm
      have hib : old.i_bitmap = fun _ => 0 := funext hi
      intro k hk
      have := hk.2
      rw [← hm] at this
      simp only [hib, bit_set_one, decide_eq_true_eq] at this
      exact this

/-- Every handler call other than a `wfs_rmdir` of a directory with live entries keeps
every inode in use other than the root named by a live dentry of a live directory. -/
theorem step_named {s : Image} (h : Inv s) (hni : ∀ j, live s j → j ≠ 0 → named s j)
    {now : Int} {uid gid : Nat} {op : Op} {rc : Int} {s1 : Image}
    (e : step s now uid gid op = some (rc, s1))
    (htidy : ∀ path clean_path clean child, op = Op.rmdir path →
      strip_ansi_codes path PATH_MAX = some clean_path →
      strip_ansi_codes clean_path PATH_MAX = some clean →
      get_inode_from_path s clean = path_result.found child → dir_empty s child) :
    ∀ j, live s1 j → j ≠ 0 → named s1 j := by
  have hkeep : ((∀ k, live s1 k ↔ live s k) ∧ ∀ k, named s k → named s1 k) →
      ∀ j, live s1 j → j ≠ 0 → named s1 j :=
    fun hk j hj hj0 => hk.2 j (hni j ((hk.1 j).1 hj) hj0)
  cases op with
  | mknod path mode => exact wfs_mknod_named h hni e
  | mkdir path mode => exact wfs_mkdir_named h hni e
  | read path len off =>
    simp only [step] at e
    cases hr : wfs_read s path len off now with
    | none => rw [hr] at e; exact absurd e (by simp)
    | some r =>
      obtain ⟨a, b, c⟩ := r
      rw [hr] at e
      simp only [Option.map_some', Option.some.injEq, Prod.mk.injEq] at e
      obtain ⟨_, rfl⟩ := e
      exact hkeep (wfs_read_keeps hr)
  | write path buf off => exact hkeep (wfs_write_keeps h e)
  | readdir path is_ls =>
    simp only [step] at e
    cases hr : wfs_readdir s path is_ls now with
    | none => rw [hr] at e; exact absurd e (by simp)
    | some r =>
      obtain ⟨a, b, c⟩ := r
      rw [hr] at e
      simp only [Option.map_some', Option.some.injEq, Prod.mk.injEq] at e
      obtain ⟨_, rfl⟩ := e
      exact hkeep (wfs_readdir_keeps hr)
  | unlink path => exact wfs_unlink_named h hni e
  | rmdir path =>
    exact wfs_rmdir_named h hni e (fun clean_path clean child => htidy path clean_path clean child rfl)
  | setxattr path name value => exact hkeep (wfs_setxattr_keeps e)
  | removexattr path name => exact hkeep (wfs_removexattr_keeps e)

theorem tidy_reachable {s : Image} (h : ReachableTidy s) : Reachable s := by
  induction h with
  | fresh s hf => exact Reachable.fresh s hf
  | step s now uid gid op rc s1 _ e _ ih => exact Reachable.step s now uid gid op rc s1 ih e

/-- In an image reached by handler calls among which every `wfs_rmdir` was given a
directory without live entries, every inode in use other than the root is named by a live
dentry of a live directory. -/
theorem tidy_named {s : Image} (h : ReachableTidy s) : ∀ j, live s j → j ≠ 0 → named s j := by
  induction h with
  | fresh s hf => exact fun j hj hj0 => absurd (fresh_live hf j hj) hj0
  | step s now uid gid op rc s1 hs e ht ih =>
    exact step_named (reachable_inv (tidy_reachable hs)) ih e ht

/-- A handler call other than `wfs_rmdir` extends a history in which every `wfs_rmdir` was
given a directory without live entries. -/
theorem tidy_after {s : Image} (h : ReachableTidy s) (now : Int) (uid gid : Nat) (op : Op)
    (hop : ∀ path, op ≠ Op.rmdir path) (hs : (step s now uid gid op).isSome = true) :
    ReachableTidy (after (step s now uid gid op)) := by
  cases hr : step s now uid gid op with
  | none => rw [hr] at hs; simp at hs
  | some r =>
    obtain ⟨rc, s1⟩ := r
    exact ReachableTidy.step s now uid gid op rc s1 h hr
      (fun path _ _ _ e => absurd e (hop path))

end WFS

namespace WFS

/-! ### What the handlers that only update inode fields leave alone -/

theorem frame_refl (s : Image) :
    s.sb = s.sb ∧ s.i_bitmap = s.i_bitmap ∧ s.d_bitmap = s.d_bitmap ∧ s.data = s.data ∧
    ∀ j, (s.inodes j).mode = (s.inodes j).mode ∧ (s.inodes j).blocks = (s.inodes j).blocks :=
  ⟨rfl, rfl, rfl, rfl, fun _ => ⟨rfl, rfl⟩⟩

theorem frame_set_inode (s : Image) (k : Nat) (v : wfs_inode)
    (hm : v.mode = (s.inodes k).mode) (hb : v.blocks = (s.inodes k).blocks) :
    (set_inode s k v).sb = s.sb ∧ (set_inode s k v).i_bitmap = s.i_bitmap ∧
    (set_inode s k v).d_bitmap = s.d_bitmap ∧ (set_inode s k v).data = s.data ∧
    ∀ j, ((set_inode s k v).inodes j).mode = (s.inodes j).mode ∧
      ((set_inode s k v).inodes j).blocks = (s.inodes j).blocks := by
  refine ⟨rfl, rfl, rfl, rfl, fun j => ?_⟩
  by_cases e : j = k
  · subst e; rw [set_inode_same]; exact ⟨hm, hb⟩
  · rw [set_inode_other _ _ e]; exact ⟨rfl, rfl⟩

theorem wfs_setxattr_frame {s : Image} {path name value : List Nat} {now rc : Int}
    {s1 : Image} (e : wfs_setxattr s path name value now = some (rc, s1)) :
    s1.sb = s.sb ∧ s1.i_bitmap = s.i_bitmap ∧ s1.d_bitmap = s.d_bitmap ∧ s1.data = s.data ∧
    ∀ j, (s1.inodes j).mode = (s.inodes j).mode ∧ (s1.inodes j).blocks = (s.inodes j).blocks := by
  unfold wfs_setxattr at e
  split at e
  · exact absurd e (by simp)
  · split at e
    · exact absurd e (by simp)
    · injection e with e; injection e with _ e; rw [← e]; exact frame_refl s
    · next inode hr =>
      split at e
      · injection e with e; injection e with _ e; rw [← e]; exact frame_refl s
      · split at e
        · injection e with e; injection e with _ e; rw [← e]; exact frame_refl s
        · simp only at e
          split at e
          · exact absurd e (by simp)
          · split at e
            · injection e with e; injection e with _ e; rw [← e]; exact frame_refl s
            · injection e with e; injection e with _ e; rw [← e]
              exact frame_set_inode s _ _ rfl rfl

theorem wfs_removexattr_frame {s : Image} {path name : List Nat} {now rc : Int}
    {s1 : Image} (e : wfs_removexattr s path name now = some (rc, s1)) :
    s1.sb = s.sb ∧ s1.i_bitmap = s.i_bitmap ∧ s1.d_bitmap = s.d_bitmap ∧ s1.data = s.data ∧
    ∀ j, (s1.inodes j).mode = (s.inodes j).mode ∧ (s1.inodes j).blocks = (s.inodes j).blocks := by
  unfold wfs_removexattr at e
  split at e
  · exact absurd e (by simp)
  · split at e
    · exact absurd e (by simp)
    · injection e with e; injection e with _ e; rw [← e]; exact frame_refl s
    · next inode hr =>
      split at e
      · injection e with e; injection e with _ e; rw [← e]; exact frame_refl s
      · injection e with e; injection e with _ e; rw [← e]
        exact frame_set_inode s _ _ rfl rfl

theorem wfs_read_frame {s : Image} {path : List Nat} {len : Nat} {off now rc : Int}
    {out : List Nat} {s1 : Image} (e : wfs_read s path len off now = some (rc, out, s1)) :
    s1.sb = s.sb ∧ s1.i_bitmap = s.i_bitmap ∧ s1.d_bitmap = s.d_bitmap ∧ s1.data = s.data ∧
    ∀ j, (s1.inodes j).mode = (s.inodes j).mode ∧ (s1.inodes j).blocks = (s.inodes j).blocks := by
  unfold wfs_read at e
  split at e
  · exact absurd e (by simp)
  · split at e
    · exact absurd e (by simp)
    · injection e with e; injection e with _ e; injection e with _ e; rw [← e]
      exact frame_refl s
    · next inode hr =>
      split at e
      · injection e with e; injection e with _ e; injection e with _ e; rw [← e]
        exact frame_refl s
      · split at e
        · injection e with e; injection e with _ e; injection e with _ e; rw [← e]
          exact frame_refl s
        · injection e with e; injection e with _ e; injection e with _ e; rw [← e]
          exact frame_set_inode s _ _ rfl rfl

theorem wfs_readdir_frame {s : Image} {path : List Nat} {is_ls : Bool} {now rc : Int}
    {out : List (List Nat)} {s1 : Image}
    (e : wfs_readdir s path is_ls now = some (rc, out, s1)) :
    s1.sb = s.sb ∧ s1.i_bitmap = s.i_bitmap ∧ s1.d_bitmap = s.d_bitmap ∧ s1.data = s.data ∧
    ∀ j, (s1.inodes j).mode = (s.inodes j).mode ∧ (s1.inodes j).blocks = (s.inodes j).blocks := by
  unfold wfs_readdir at e
  split at e
  · exact absurd e (by simp)
  · split at e
    · exact absurd e (by simp)
    · injection e with e; injection e with _ e; injection e with _ e; rw [← e]
      exact frame_refl s
    · next inode hr =>
      split at e
      · injection e with e; injection e with _ e; injection e with _ e; rw [← e]
        exact frame_refl s
      · split at e
        · exact absurd e (by simp)
        · injection e with e; injection e with _ e; injection e with _ e; rw [← e]
          exact frame_set_inode s _ _ rfl rfl

/-- The shape of the result of `wfs_write` on a well-formed image: nothing changed, or the
loop ran on a regular file `F` and then, possibly, the size and times of `F` were set. -/
theorem wfs_write_shape {s : Image} (hinv : Inv s) {path buf : List Nat} {off now rc : Int}
    {s1 : Image} (e : wfs_write s path buf off now = some (rc, s1)) :
    s1 = s ∨ ∃ F sL v, live s F ∧ S_ISDIR (s.inodes F).mode = false ∧ Inv sL ∧
      Wrote s sL F ∧ v.mode = (sL.inodes F).mode ∧ v.blocks = (sL.inodes F).blocks ∧
      (s1 = sL ∨ s1 = set_inode sL F v) := by
  rcases wfs_write_cases e with ⟨rfl, _⟩ | ⟨clean, F, ok, sL, _, hr, hnd, hw, hres⟩
  · exact Or.inl rfl
  · right
    have hl := (resolve_live hr).1
    obtain ⟨hinvL, g⟩ := write_loop_inv hinv hl hnd buf (size_to_int buf.length) off
      (size_to_int_le _) hw
    rcases hres with ⟨_, _, rfl⟩ | ⟨_, _, _, rfl⟩
    · exact ⟨F, s1, s1.inodes F, hl, hnd, hinvL, g, rfl, rfl, Or.inl rfl⟩
    · refine ⟨F, sL, _, hl, hnd, hinvL, g, ?_, ?_, Or.inr rfl⟩ <;> rfl

/-! ### Directories have no indirect block -/

theorem dn_frame {s s1 : Image} (hsb : s1.sb = s.sb) (hib : s1.i_bitmap = s.i_bitmap)
    (hf : ∀ j, (s1.inodes j).mode = (s.inodes j).mode ∧
      (s1.inodes j).blocks = (s.inodes j).blocks)
    (hdn : ∀ D, is_dir s D → (s.inodes D).blocks 6 = 0) :
    ∀ D, is_dir s1 D → (s1.inodes D).blocks 6 = 0 := by
  intro D hD
  rw [(hf D).2]
  exact hdn D ⟨(live_congr hsb hib D).1 hD.1, by rw [← (hf D).1]; exact hD.2⟩

theorem dn_write {s : Image} (hinv : Inv s) {path buf : List Nat} {off now rc : Int}
    {s1 : Image} (e : wfs_write s path buf off now = some (rc, s1))
    (hdn : ∀ D, is_dir s D → (s.inodes D).blocks 6 = 0) :
    ∀ D, is_dir s1 D → (s1.inodes D).blocks 6 = 0 := by
  rcases wfs_write_shape hinv e with rfl | ⟨F, sL, v, hl, hnd, _, g, hvm, hvb, hres⟩
  · exact hdn
  · have hL : ∀ D, is_dir sL D → (sL.inodes D).blocks 6 = 0 := by
      intro D hD
      have hDF : D ≠ F := by
        intro e1
        subst e1
        obtain ⟨bl, hbl⟩ := g.fields
        have := hD.2
        rw [hbl] at this
        rw [hnd] at this
        exact Bool.noConfusion this
      rw [g.others D hDF]
      exact hdn D ⟨(live_congr g.sb g.ib D).1 hD.1, by rw [← g.others D hDF]; exact hD.2⟩
    rcases hres with rfl | rfl
    · exact hL
    · obtain ⟨a, b, _, _, c⟩ := frame_set_inode sL F v hvm hvb
      exact dn_frame a b c hL

/-- What `add_dentry` keeps of every inode: the type and entry 6 of the address array. -/
theorem add_dentry_six {s : Image} (hb : InvB s) {parent : Nat} {num : Int}
    {name : List Nat} {now rc : Int} {s1 : Image}
    (h : add_dentry s parent num name now = (rc, s1)) :
    s1.sb = s.sb ∧ s1.i_bitmap = s.i_bitmap ∧
    ∀ j, (s1.inodes j).mode = (s.inodes j).mode ∧
      (s1.inodes j).blocks 6 = (s.inodes j).blocks 6 := by
  rcases add_dentry_cases hb h with ⟨_, e, _⟩ | ⟨_, _, _, _, hc⟩
  · rw [e]; exact ⟨rfl, rfl, fun _ => ⟨rfl, rfl⟩⟩
  · rcases hc with ⟨i, j0, _, _, _, _, e⟩ | ⟨i, n, hi, _, _, _, _, e⟩
    · rw [e, touch_parent_eq]
      refine ⟨rfl, rfl, fun j => ?_⟩
      by_cases ej : j = parent
      · subst ej; rw [set_inode_same]; exact ⟨rfl, rfl⟩
      · rw [set_inode_other _ _ ej]; exact ⟨rfl, rfl⟩
    · rw [e, touch_parent_eq]
      refine ⟨rfl, rfl, fun j => ?_⟩
      by_cases ej : j = parent
      · subst ej
        rw [set_inode_same]
        refine ⟨?_, ?_⟩
        · show ((set_block (with_new_block s n) j i (block_off s n)).inodes j).mode = _
          rw [set_block_mode]
          rfl
        · show ((set_block (with_new_block s n) j i (block_off s n)).inodes j).blocks 6 = _
          rw [set_block_blocks, if_neg (by omega)]
          rfl
      · rw [set_inode_other _ _ ej]
        show ((set_block (with_new_block s n) parent i (block_off s n)).inodes j).mode = _ ∧
          ((set_block (with_new_block s n) parent i (block_off s n)).inodes j).blocks 6 = _
        rw [set_block_other _ _ _ ej]
        exact ⟨rfl, rfl⟩

theorem dn_create {s : Image} (h : Inv s) {parent k : Nat} {now : Int}
    (hr0 : live s 0) (hpar : live s parent) (ha : (allocate_inode s now).1 = some k)
    (mode uid gid : Nat) (name : List Nat) {rc1 : Int} {s4 : Image}
    (hadd : add_dentry (created s k mode now uid gid) parent
      ((created s k mode now uid gid).inodes k).num name now = (rc1, s4))
    (hdn : ∀ D, is_dir s D → (s.inodes D).blocks 6 = 0) :
    (∀ D, is_dir s4 D → (s4.inodes D).blocks 6 = 0) ∧
    (rc1 ≠ 0 → ∀ D, is_dir (free_inode s4 k) D → ((free_inode s4 k).inodes D).blocks 6 = 0) := by
  obtain ⟨hk, hf, hpos, hinv4, hfail⟩ := create_entry_inv h hr0 hpar ha mode uid gid name hadd
  have hinvc : Inv (created s k mode now uid gid) := h.created hk hf mode now uid gid
  have hlk : live (created s k mode now uid gid) k :=
    (live_created hk mode now uid gid k).2 (Or.inr rfl)
  have hc : ∀ D, is_dir (created s k mode now uid gid) D →
      ((created s k mode now uid gid).inodes D).blocks 6 = 0 := by
    intro D hD
    by_cases e : D = k
    · subst e
      rw [created_same]
      rfl
    · rw [created_other s mode now uid gid e]
      have hl : live s D := by
        rcases (live_created hk mode now uid gid D).1 hD.1 with hx | hx
        · exact hx
        · exact absurd hx e
      exact hdn D ⟨hl, by rw [← created_other s mode now uid gid e]; exact hD.2⟩
  obtain ⟨hsb, hib, hsix⟩ := add_dentry_six hinvc.b hadd
  have h4 : ∀ D, is_dir s4 D → (s4.inodes D).blocks 6 = 0 := by
    intro D hD
    rw [(hsix D).2]
    exact hc D ⟨(live_congr hsb hib D).1 hD.1, by rw [← (hsix D).1]; exact hD.2⟩
  refine ⟨h4, fun hrc D hD => ?_⟩
  have hl4 : live s4 k := (live_congr hsb hib k).2 hlk
  obtain ⟨hD4, hDk⟩ := (live_free_inode hinv4.b hl4 D).1 hD.1
  rw [free_inode_other hinv4.b hl4 hDk]
  exact h4 D ⟨hD4, by rw [← free_inode_other hinv4.b hl4 hDk]; exact hD.2⟩

theorem dn_mknod {s : Image} (h : Inv s) {path : List Nat} {mode : Nat} {now rc : Int}
    {uid gid : Nat} {s1 : Image} (e : wfs_mknod s path mode now uid gid = some (rc, s1))
    (hdn : ∀ D, is_dir s D → (s.inodes D).blocks 6 = 0) :
    ∀ D, is_dir s1 D → (s1.inodes D).blocks 6 = 0 := by
  rcases wfs_mknod_cases e with ⟨rfl, _⟩ |
    ⟨clean, cp, parent, k, rc1, s4, _, _, _, hr, _, ha, hadd, hres⟩
  · exact hdn
  · obtain ⟨hpar, hr0⟩ := resolve_live hr
    obtain ⟨hok, hfail⟩ := dn_create h hr0 hpar ha _ uid gid _ hadd hdn
    rcases hres with ⟨hne, _, rfl⟩ | ⟨_, _, rfl⟩
    · exact hfail hne
    · exact hok

theorem dn_mkdir {s : Image} (h : Inv s) {path : List Nat} {mode : Nat} {now rc : Int}
    {uid gid : Nat} {s1 : Image} (e : wfs_mkdir s path mode now uid gid = some (rc, s1))
    (hdn : ∀ D, is_dir s D → (s.inodes D).blocks 6 = 0) :
    ∀ D, is_dir s1 D → (s1.inodes D).blocks 6 = 0 := by
  rcases wfs_mkdir_cases e with ⟨rfl, _⟩ |
    ⟨clean, cp, parent, k, rc1, s4, _, _, hr, _, _, ha, hadd, hres⟩
  · exact hdn
  · obtain ⟨hpar, hr0⟩ := resolve_live hr
    obtain ⟨hok, hfail⟩ := dn_create h hr0 hpar ha _ uid gid _ hadd hdn
    rcases hres with ⟨hne, _, rfl⟩ | ⟨_, _, rfl⟩
    · exact hfail hne
    · exact hok

theorem dn_unlink {s : Image} (h : Inv s) {path : List Nat} {now rc : Int} {s1 : Image}
    (e : wfs_unlink s path now = some (rc, s1))
    (hdn : ∀ D, is_dir s D → (s.inodes D).blocks 6 = 0) :
    ∀ D, is_dir s1 D → (s1.inodes D).blocks 6 = 0 := by
  rcases wfs_unlink_cases e with rfl |
    ⟨clean_path, clean, parent, file, err2, sA, _, _, hr, hd, hfound, hfile, hnd, hrem, hres⟩
  · exact hdn
  · have hpar := (resolve_live hr).1
    have hinvA := remove_dentry_inv h ⟨hpar, hd⟩ hrem
    obtain ⟨hsbA, hibA, hfA, _⟩ := remove_dentry_keeps h.b hpar hrem
    have hA := dn_frame hsbA hibA hfA hdn
    rcases hres with ⟨_, _, rfl⟩ | ⟨_, _, rfl⟩
    · exact hA
    · obtain ⟨_, hfl⟩ := retrieve_inode_some hfile
      have hflA : live sA file := (live_congr hsbA hibA file).2 hfl
      obtain ⟨hinv2, g⟩ := Inv.free_direct_blocks 6 0 sA file hinvA hflA (by omega)
      have hfl2 : live (free_direct_blocks 6 0 sA file) file := (live_congr g.sb g.ib file).2 hflA
      have hb7 := hinv2.b.b7 file hfl2
      simp only [D_BLOCK, IND_BLOCK]
      rw [if_neg (by intro hx; exact hx hb7)]
      intro D hD
      obtain ⟨hD2, hDf⟩ := (live_free_inode hinv2.b hfl2 D).1 hD.1
      rw [free_inode_other hinv2.b hfl2 hDf, g.others D hDf]
      refine hA D ⟨(live_congr g.sb g.ib D).1 hD2, ?_⟩
      have := hD.2
      rw [free_inode_other hinv2.b hfl2 hDf, g.others D hDf] at this
      exact this

theorem dn_rmdir {s : Image} (h : Inv s) {path : List Nat} {now rc : Int} {s1 : Image}
    (e : wfs_rmdir s path now = some (rc, s1))
    (hdn : ∀ D, is_dir s D → (s.inodes D).blocks 6 = 0) :
    ∀ D, is_dir s1 D → (s1.inodes D).blocks 6 = 0 := by
  rcases wfs_rmdir_cases e with ⟨rfl, _⟩ |
    ⟨clean_path, cp, parent, clean, child, rc2, s2, _, _, _, hr, hd, _, hrc, hcd, hrem, hres⟩
  · exact hdn
  · have hpar := (resolve_live hr).1
    have hcl := (resolve_live hrc).1
    obtain ⟨hinv1, g⟩ := Inv.free_direct_blocks 6 0 s child h hcl (by omega)
    have hF : ∀ D, is_dir (free_direct_blocks 6 0 s child) D →
        ((free_direct_blocks 6 0 s child).inodes D).blocks 6 = 0 := by
      intro D hD
      have hl : live s D := (live_congr g.sb g.ib D).1 hD.1
      by_cases e1 : D = child
      · subst e1
        rw [g.kept 6 (Or.inr (by omega))]
        exact hdn D ⟨hl, hcd⟩
      · rw [g.others D e1]
        exact hdn D ⟨hl, by rw [← g.others D e1]; exact hD.2⟩
    have hpar1 : live (free_direct_blocks 6 0 s child) parent := (live_congr g.sb g.ib parent).2 hpar
    have hcl1 : live (free_direct_blocks 6 0 s child) child := (live_congr g.sb g.ib child).2 hcl
    simp only [D_BLOCK] at hrem
    obtain ⟨hsb2, hib2, hf2, _⟩ := remove_dentry_keeps hinv1.b hpar1 hrem
    have h2 := dn_frame hsb2 hib2 hf2 hF
    have hpd1 : is_dir (free_direct_blocks 6 0 s child) parent := ⟨hpar1, by
      by_cases ep : parent = child
      · subst ep
        obtain ⟨bl, hbl⟩ := g.fields
        rw [hbl]
        exact hd
      · rw [g.others parent ep]; exact hd⟩
    have hinv2 := remove_dentry_inv hinv1 hpd1 hrem
    have hl2 : live s2 child := (live_congr hsb2 hib2 child).2 hcl1
    rcases hres with ⟨_, _, rfl⟩ | ⟨_, _, rfl⟩
    · exact h2
    · intro D hD
      obtain ⟨hD2, hDc⟩ := (live_free_inode hinv2.b hl2 D).1 hD.1
      rw [free_inode_other hinv2.b hl2 hDc]
      exact h2 D ⟨hD2, by rw [← free_inode_other hinv2.b hl2 hDc]; exact hD.2⟩

/-- In every image reachable from a freshly formatted one, entry 6 of the address array of
a directory, the entry `data_offset` uses for the indirect block, is 0. -/
theorem reachable_dn {s : Image} (hs : Reachable s) :
    ∀ D, is_dir s D → (s.inodes D).blocks 6 = 0 := by
  induction hs with
  | fresh s hf =>
    intro D hD
    have h0 := fresh_live hf D hD.1
    subst h0
    have hinv := fresh_inv hf
    by_contra hne
    have hr : ref_at s 0 6 ≠ 0 := by rw [ref_at_direct s 0 (by omega)]; exact hne
    obtain ⟨old, inodes, blocks, sz, uid, gid, _, hd, hm, _⟩ := hf
    obtain ⟨n, _, _, hbit⟩ := hinv.b.blk 0 6 hD.1 hr
    unfold wfs_mkfs at hm
    split at hm
    · exact absurd hm (by simp)
    · split at hm
      · injection hm with hm; injection hm with hm _
        exact absurd hm (by decide)
      · injection hm with hm; injection hm with _ hm
        rw [← hm] at hbit
        have hdb : old.d_bitmap = fun _ => 0 := funext hd
        simp only [hdb] at hbit
        rw [bit_set_eq] at hbit
        simp at hbit
  | step s now uid gid op rc s1 hs e ih =>
    have hinv := reachable_inv hs
    cases op with
    | mknod path mode => exact dn_mknod hinv e ih
    | mkdir path mode => exact dn_mkdir hinv e ih
    | read path len off =>
      simp only [step] at e
      cases hr : wfs_read s path len off now with
      | none => rw [hr] at e; exact absurd e (by simp)
      | some r =>
        obtain ⟨a, b, c⟩ := r
        rw [hr] at e
        simp only [Option.map_some', Option.some.injEq, Prod.mk.injEq] at e
        obtain ⟨_, rfl⟩ := e
        obtain ⟨x1, x2, _, _, x5⟩ := wfs_read_frame hr
        exact dn_frame x1 x2 x5 ih
    | write path buf off => exact dn_write hinv e ih
    | readdir path is_ls =>
      simp only [step] at e
      cases hr : wfs_readdir s path is_ls now with
      | none => rw [hr] at e; exact absurd e (by simp)
      | some r =>
        obtain ⟨a, b, c⟩ := r
        rw [hr] at e
        simp only [Option.map_some', Option.some.injEq, Prod.mk.injEq] at e
        obtain ⟨_, rfl⟩ := e
        obtain ⟨x1, x2, _, _, x5⟩ := wfs_readdir_frame hr
        exact dn_frame x1 x2 x5 ih
    | unlink path => exact dn_unlink hinv e ih
    | rmdir path => exact dn_rmdir hinv e ih
    | setxattr path name value =>
      obtain ⟨x1, x2, _, _, x5⟩ := wfs_setxattr_frame e
      exact dn_frame x1 x2 x5 ih
    | removexattr path name =>
      obtain ⟨x1, x2, _, _, x5⟩ := wfs_removexattr_frame e
      exact dn_frame x1 x2 x5 ih

end WFS

namespace WFS

/-! ### Data-bitmap bits set by an allocation are referenced -/

theorem nb_attach {s : Image} (h : InvB s) {inode i n : Nat} (hl : live s inode) (hi : i < 7)
    (h0 : (s.inodes inode).blocks i = 0) (hf : bit_set s.d_bitmap n = false) (m : Nat)
    (hm : bit_set (set_block (with_new_block s n) inode i (block_off s n)).d_bitmap m = true) :
    bit_set s.d_bitmap m = true ∨
    ∃ pos, ref_at (set_block (with_new_block s n) inode i (block_off s n)) inode pos
      = block_off s m := by
  simp only [set_block_d_bitmap, with_new_block, bit_set_upd_set, Bool.or_eq_true,
    decide_eq_true_eq] at hm
  rcases hm with hm | hm
  · exact Or.inl hm
  · subst hm
    right
    refine ⟨i, ?_⟩
    rw [ref_at_attach h hi h0 hf hl, if_pos ⟨rfl, rfl⟩]

theorem nb_attach_child {s : Image} (h : InvB s) {inode j n : Nat} (hl : live s inode)
    (h6 : (s.inodes inode).blocks 6 ≠ 0) (hj : j < 64) (hn : n < s.sb.num_data_blocks)
    (hf : bit_set s.d_bitmap n = false) (m : Nat)
    (hm : bit_set ({ with_new_block s n with
        data := wr_off (with_new_block s n).data ((s.inodes inode).blocks 6 + 8 * (j : Int))
          (block_off s n) } : Image).d_bitmap m = true) :
    bit_set s.d_bitmap m = true ∨
    ∃ pos, ref_at { with_new_block s n with
        data := wr_off (with_new_block s n).data ((s.inodes inode).blocks 6 + 8 * (j : Int))
          (block_off s n) } inode pos = block_off s m := by
  simp only [with_new_block, bit_set_upd_set, Bool.or_eq_true, decide_eq_true_eq] at hm
  rcases hm with hm | hm
  · exact Or.inl hm
  · subst hm
    right
    refine ⟨7 + j, ?_⟩
    rw [ref_at_attach_child h hl h6 hj hn hf hl, if_pos ⟨rfl, rfl⟩]

theorem data_offset_nb_aux {s : Image} (h : Inv s) {inode : Nat} (hl : live s inode)
    (offset : Int) (hcase : offset / 512 < 6 ∨ (s.inodes inode).blocks 6 ≠ 0)
    {r : Option Int} {s1 : Image} (e : data_offset s inode offset true = (r, s1)) (m : Nat)
    (hm : bit_set s1.d_bitmap m = true) :
    bit_set s.d_bitmap m = true ∨ ∃ pos, ref_at s1 inode pos = block_off s m := by
  by_cases hout : offset < 0 ∨ 35840 ≤ offset
  · rw [data_offset_out s inode offset true hout] at e
    obtain ⟨_, rfl⟩ := Prod.mk.inj e
    exact Or.inl hm
  have h0 : 0 ≤ offset := by omega
  have h1 : offset < 35840 := by omega
  by_cases hd : offset / 512 < 6
  · obtain ⟨hb, hlt⟩ := bpos_direct hd
    rw [data_offset_direct s inode offset h0 hd] at e
    by_cases hz : (s.inodes inode).blocks (offset / 512).toNat = 0
    · rw [if_pos hz] at e
      rcases allocate_data_block_cases h.b with ⟨ha, hfull⟩ | ⟨n, hn, hf, ha⟩
      · rw [ha, if_pos neg_enospc_lt] at e
        obtain ⟨_, rfl⟩ := Prod.mk.inj e
        exact Or.inl hm
      · rw [ha, if_neg (block_off_nonneg h.b n)] at e
        obtain ⟨_, rfl⟩ := Prod.mk.inj e
        exact nb_attach h.b hl (by omega) hz hf m hm
    · rw [if_neg hz] at e
      obtain ⟨_, rfl⟩ := Prod.mk.inj e
      exact Or.inl hm
  · have h6 : (s.inodes inode).blocks 6 ≠ 0 := hcase.resolve_left hd
    have hj : (offset / 512 - 6).toNat < 64 := by omega
    have hcast : offset / 512 - 6 = (((offset / 512 - 6).toNat : Nat) : Int) := by omega
    rw [data_offset_present s inode offset (by omega) h1 h6] at e
    rw [hcast] at e
    by_cases hz : rd_off s.data
        ((s.inodes inode).blocks 6 + 8 * (((offset / 512 - 6).toNat : Nat) : Int)) = 0
    · rw [if_pos hz] at e
      rcases allocate_data_block_cases h.b with ⟨ha, hfull⟩ | ⟨n, hn, hf, ha⟩
      · rw [ha, if_pos neg_enospc_lt] at e
        obtain ⟨_, rfl⟩ := Prod.mk.inj e
        exact Or.inl hm
      · rw [ha, if_neg (block_off_nonneg h.b n)] at e
        obtain ⟨_, rfl⟩ := Prod.mk.inj e
        exact nb_attach_child h.b hl h6 hj hn hf m hm
    · rw [if_neg hz] at e
      obtain ⟨_, rfl⟩ := Prod.mk.inj e
      exact Or.inl hm

/-- Every data-bitmap bit that is set after `data_offset(inode, offset, 1)` was set before
or belongs to a block that `inode` references. -/
theorem data_offset_nb {s : Image} (h : Inv s) {inode : Nat} (hl : live s inode)
    (offset : Int) {r : Option Int} {s1 : Image}
    (e : data_offset s inode offset true = (r, s1)) (m : Nat)
    (hm : bit_set s1.d_bitmap m = true) :
    bit_set s.d_bitmap m = true ∨ ∃ pos, ref_at s1 inode pos = block_off s m := by
  by_cases hcase : offset / 512 < 6 ∨ (s.inodes inode).blocks 6 ≠ 0
  · exact data_offset_nb_aux h hl offset hcase e m hm
  have hd : ¬ offset / 512 < 6 := fun x => hcase (Or.inl x)
  have h6 : (s.inodes inode).blocks 6 = 0 := by
    by_contra x; exact hcase (Or.inr x)
  by_cases hout : offset < 0 ∨ 35840 ≤ offset
  · rw [data_offset_out s inode offset true hout] at e
    obtain ⟨_, rfl⟩ := Prod.mk.inj e
    exact Or.inl hm
  have h0 : 3072 ≤ offset := by omega
  have h1 : offset < 35840 := by omega
  rcases allocate_data_block_cases h.b with ⟨ha, hfull⟩ | ⟨n, hn, hf, ha⟩
  · rw [data_offset_absent_full s inode offset h0 h1 h6 ha] at e
    obtain ⟨_, rfl⟩ := Prod.mk.inj e
    exact Or.inl hm
  · rw [data_offset_absent h.b inode offset h0 h1 h6 n ha] at e
    have hinv := inv_attach h hl (show 6 < 7 by omega) h6 hn hf
    have hg := @grow_attach s h.b inode 6 n (bpos offset) hl (by omega) (bpos_ne_six offset)
      (Or.inr ⟨rfl, by have := bpos_indirect hd; omega⟩) h6 hn hf
    have hl1 : live (set_block (with_new_block s n) inode 6 (block_off s n)) inode :=
      (hg.live_same inode).2 hl
    have e6 : ((set_block (with_new_block s n) inode 6 (block_off s n)).inodes inode).blocks 6
        ≠ 0 := by
      rw [set_block_blocks, if_pos rfl]
      exact ne_of_gt (block_off_pos h.b n)
    obtain ⟨_, g1, _, _⟩ := data_offset_alloc_aux hinv hl1 offset (Or.inr e6) e
    rcases data_offset_nb_aux hinv hl1 offset (Or.inr e6) e m hm with hx | ⟨pos, hx⟩
    · rcases nb_attach h.b hl (show 6 < 7 by omega) h6 hf m hx with hy | ⟨pos, hy⟩
      · exact Or.inl hy
      · right
        refine ⟨pos, ?_⟩
        rw [g1.keep inode pos hl1 (by rw [hy]; exact ne_of_gt (block_off_pos h.b m)), hy]
    · exact Or.inr ⟨pos, hx⟩

theorem write_loop_nb (inode : Nat) : ∀ (fuel : Nat) (s : Image) (buf : List Nat)
    (left off : Int) (ok : Bool) (s1 : Image), Inv s → live s inode →
    S_ISDIR (s.inodes inode).mode = false → 0 ≤ off → 0 ≤ left → left ≤ buf.length →
    left ≤ fuel →
    write_loop fuel s inode buf left off = (ok, s1) →
    ∀ m, bit_set s1.d_bitmap m = true →
      bit_set s.d_bitmap m = true ∨ ∃ pos, ref_at s1 inode pos = block_off s m
  | 0, s, buf, left, off, ok, s1, _, _, _, _, _, _, _, e => by
    simp only [write_loop] at e
    obtain ⟨_, rfl⟩ := Prod.mk.inj e
    exact fun m hm => Or.inl hm
  | fuel + 1, s, buf, left, off, ok, s1, hinv, hl, hnd, h0, hnn, hlen, hfuel, e => by
    simp only [write_loop] at e
    by_cases hpos : left ≤ 0
    · rw [if_pos hpos] at e
      obtain ⟨_, rfl⟩ := Prod.mk.inj e
      exact fun m hm => Or.inl hm
    rw [if_neg hpos, Int.tmod_eq_emod h0 (by norm_num)] at e
    simp only [BLOCK_SIZE] at e
    generalize hc : (if 512 - off % 512 > left then left else 512 - off % 512) = c at e
    have hc1 : 1 ≤ c ∧ c ≤ left ∧ c ≤ 512 - off % 512 := by
      rw [← hc]
      split <;> omega
    cases hdo : data_offset s inode off true with
    | mk r sA =>
      rw [hdo] at e
      have hnbA := data_offset_nb hinv hl off hdo
      cases r with
      | none =>
        simp only at e
        obtain ⟨_, rfl⟩ := Prod.mk.inj e
        exact hnbA
      | some dst =>
        simp only at e
        have hclen : ((buf.take c.toNat).length : Int) = c := by
          rw [List.length_take]
          omega
        obtain ⟨hinvA, g, hdst, _⟩ := data_offset_alloc hinv hl off hdo
        obtain ⟨_, _, hr, hd⟩ := hdst dst rfl
        have hlA : live sA inode := (g.live_same inode).2 hl
        have hmem : ∀ q, (q < ref_at sA inode (bpos off) ∨ ref_at sA inode (bpos off) + 512 ≤ q) →
            memcpy sA.data dst (buf.take c.toNat) q = sA.data q := by
          intro q hq
          apply memcpy_out
          omega
        have href : ∀ p, ref_at { sA with data := memcpy sA.data dst (buf.take c.toNat) } inode p
            = ref_at sA inode p :=
          fun p => ref_at_data_write hinvA.b _ hlA (bpos_ne_six off) hr hmem hlA p
        obtain ⟨hinv2, hw, _⟩ := write_step hinv hl hnd h0 hdo (buf.take c.toNat) (by omega)
        have hl2 := (hw.live_kept inode).2 hl
        have hnd2 : S_ISDIR (({ sA with data := memcpy sA.data dst (buf.take c.toNat) } :
            Image).inodes inode).mode = false := by
          obtain ⟨bl, hbl⟩ := hw.fields
          rw [hbl]
          exact hnd
        have hdl : left - c ≤ ((buf.drop c.toNat).length : Int) := by
          rw [List.length_drop]
          omega
        obtain ⟨_, hw3, _⟩ := write_loop_spec inode fuel _ (buf.drop c.toNat)
          (left - c) (off + c) ok s1 hinv2 hl2 hnd2 (by omega) (by omega) hdl
          (by push_cast at hfuel; omega) e
        have ih := write_loop_nb inode fuel _ (buf.drop c.toNat)
          (left - c) (off + c) ok s1 hinv2 hl2 hnd2 (by omega) (by omega) hdl
          (by push_cast at hfuel; omega) e
        have hoff : ∀ m, block_off sA m = block_off s m := by
          intro m
          unfold block_off
          rw [g.sb]
        intro m hm
        rcases ih m hm with hx | ⟨pos, hx⟩
        · rcases hnbA m hx with hy | ⟨pos, hy⟩
          · exact Or.inl hy
          · right
            refine ⟨pos, ?_⟩
            have hp := block_off_pos hinv.b m
            rw [hw3.keep inode pos hl2 (by rw [href, hy]; omega), href, hy]
        · right
          refine ⟨pos, ?_⟩
          rw [hx]
          exact hoff m

/-- Every data-bitmap bit that is set after `wfs_write` was set before or belongs to a
block that an inode in use references, and the references that existed are kept. -/
theorem wfs_write_nb {s : Image} (hinv : Inv s) {path buf : List Nat} {off now rc : Int}
    {s1 : Image} (e : wfs_write s path buf off now = some (rc, s1)) :
    s1.sb = s.sb ∧ (∀ k, live s1 k ↔ live s k) ∧
    (∀ k pos, live s k → ref_at s k pos ≠ 0 → ref_at s1 k pos = ref_at s k pos) ∧
    ∀ m, bit_set s1.d_bitmap m = true →
      bit_set s.d_bitmap m = true ∨ ∃ k pos, live s1 k ∧ ref_at s1 k pos = block_off s m := by
  rcases wfs_write_cases e with ⟨rfl, _⟩ | ⟨clean, F, ok, sL, _, hr, hnd, hw, hres⟩
  · exact ⟨rfl, fun _ => Iff.rfl, fun _ _ _ _ => rfl, fun m hm => Or.inl hm⟩
  · have hl := (resolve_live hr).1
    obtain ⟨hinvL, g⟩ := write_loop_inv hinv hl hnd buf (size_to_int buf.length) off
      (size_to_int_le _) hw
    have hnb : ∀ m, bit_set sL.d_bitmap m = true →
        bit_set s.d_bitmap m = true ∨ ∃ pos, ref_at sL F pos = block_off s m := by
      by_cases hpos : size_to_int buf.length ≤ 0
      · have : (size_to_int buf.length).toNat = 0 := by omega
        rw [this] at hw
        simp only [write_loop] at hw
        obtain ⟨_, rfl⟩ := Prod.mk.inj hw
        exact fun m hm => Or.inl hm
      by_cases h0 : 0 ≤ off
      · exact write_loop_nb F _ s buf _ off ok sL hinv hl hnd h0 (by omega) (size_to_int_le _)
          (by omega) hw
      · obtain ⟨f, hf⟩ : ∃ f, (size_to_int buf.length).toNat = f + 1 :=
          ⟨(size_to_int buf.length).toNat - 1, by omega⟩
        rw [hf] at hw
        simp only [write_loop] at hw
        rw [if_neg hpos, data_offset_out s F off true (by omega)] at hw
        simp only at hw
        obtain ⟨_, rfl⟩ := Prod.mk.inj hw
        exact fun m hm => Or.inl hm
    have hL : sL.sb = s.sb ∧ (∀ k, live sL k ↔ live s k) ∧
        (∀ k pos, live s k → ref_at s k pos ≠ 0 → ref_at sL k pos = ref_at s k pos) ∧
        ∀ m, bit_set sL.d_bitmap m = true →
          bit_set s.d_bitmap m = true ∨ ∃ k pos, live sL k ∧ ref_at sL k pos = block_off s m := by
      refine ⟨g.sb, fun k => live_congr g.sb g.ib k, g.keep, fun m hm => ?_⟩
      rcases hnb m hm with hx | ⟨pos, hx⟩
      · exact Or.inl hx
      · exact Or.inr ⟨F, pos, (live_congr g.sb g.ib F).2 hl, hx⟩
    rcases hres with ⟨_, _, rfl⟩ | ⟨_, _, _, rfl⟩
    · exact hL
    · obtain ⟨a, b, c, d⟩ := hL
      have href : ∀ k pos, ref_at (set_inode sL F
          { sL.inodes F with
            size := if off + buf.length > (sL.inodes F).size then off + buf.length
              else (sL.inodes F).size,
            mtim := now, ctim := now }) k pos = ref_at sL k pos := by
        intro k pos
        apply ref_at_congr
        · intro i _
          by_cases ek : k = F
          · subst ek; rw [set_inode_same]
          · rw [set_inode_other _ _ ek]
        · intro _ q _ _; rfl
      refine ⟨a, b, fun k pos hk hz => by rw [href]; exact c k pos hk hz, fun m hm => ?_⟩
      rcases d m hm with hx | ⟨k, pos, hk, hx⟩
      · exact Or.inl hx
      · exact Or.inr ⟨k, pos, hk, by rw [href]; exact hx⟩

/-! ### Every data-bitmap bit that is set belongs to a referenced block -/

/-- Transfer of "every set bit is referenced" to an image that keeps the inodes in use and
their references, and in which every new bit belongs to a referenced block. -/
theorem db_of_nb {s s1 : Image} (hb : InvB s) (hsb : s1.sb = s.sb)
    (hlive : ∀ k, live s k → live s1 k)
    (hkeep : ∀ k pos, live s k → ref_at s k pos ≠ 0 → ref_at s1 k pos = ref_at s k pos)
    (hnb : ∀ m, bit_set s1.d_bitmap m = true →
      bit_set s.d_bitmap m = true ∨ ∃ k pos, live s1 k ∧ ref_at s1 k pos = block_off s m)
    (hdb : ∀ m, m < s.sb.num_data_blocks → bit_set s.d_bitmap m = true → block_referenced s m) :
    ∀ m, m < s1.sb.num_data_blocks → bit_set s1.d_bitmap m = true → block_referenced s1 m := by
  intro m hm hbit
  have hoff : block_off s1 m = block_off s m := by unfold block_off; rw [hsb]
  rcases hnb m hbit with hx | ⟨k, pos, hk, hx⟩
  · obtain ⟨k, pos, hk, hr⟩ := hdb m (by rw [← hsb]; exact hm) hx
    have hp := block_off_pos hb m
    exact ⟨k, pos, hlive k hk, by rw [hkeep k pos hk (by rw [hr]; omega), hr, hoff]⟩
  · exact ⟨k, pos, hk, by rw [hx, hoff]⟩

theorem db_frame {s s1 : Image} (hb : InvB s) (hsb : s1.sb = s.sb)
    (hib : s1.i_bitmap = s.i_bitmap) (hdb1 : s1.d_bitmap = s.d_bitmap) (hdata : s1.data = s.data)
    (hf : ∀ j, (s1.inodes j).mode = (s.inodes j).mode ∧
      (s1.inodes j).blocks = (s.inodes j).blocks)
    (hdb : ∀ m, m < s.sb.num_data_blocks → bit_set s.d_bitmap m = true → block_referenced s m) :
    ∀ m, m < s1.sb.num_data_blocks → bit_set s1.d_bitmap m = true → block_referenced s1 m := by
  apply db_of_nb hb hsb (fun k hk => (live_congr hsb hib k).2 hk) ?_ ?_ hdb
  · intro k pos _ _
    apply ref_at_congr
    · intro i _; rw [(hf k).2]
    · intro _ q _ _; rw [hdata]
  · intro m hm
    rw [hdb1] at hm
    exact Or.inl hm

theorem db_write {s : Image} (hinv : Inv s) {path buf : List Nat} {off now rc : Int}
    {s1 : Image} (e : wfs_write s path buf off now = some (rc, s1))
    (hdb : ∀ m, m < s.sb.num_data_blocks → bit_set s.d_bitmap m = true → block_referenced s m) :
    ∀ m, m < s1.sb.num_data_blocks → bit_set s1.d_bitmap m = true → block_referenced s1 m := by
  obtain ⟨a, b, c, d⟩ := wfs_write_nb hinv e
  exact db_of_nb hinv.b a (fun k hk => (b k).2 hk) c d hdb

/-- What `add_dentry` does to the block references: those that existed are kept, and a bit
it sets in the data bitmap belongs to a block that the parent references. -/
theorem add_dentry_nb {s : Image} (hinv : Inv s) {parent : Nat} {num : Int}
    {name : List Nat} {now rc : Int} {s1 : Image} (hpar : live s parent)
    (h : add_dentry s parent num name now = (rc, s1)) :
    s1.sb = s.sb ∧ s1.i_bitmap = s.i_bitmap ∧
    (∀ k pos, live s k → ref_at s k pos ≠ 0 → ref_at s1 k pos = ref_at s k pos) ∧
    ∀ m, bit_set s1.d_bitmap m = true →
      bit_set s.d_bitmap m = true ∨ ∃ k pos, live s1 k ∧ ref_at s1 k pos = block_off s m := by
  rcases add_dentry_cases hinv.b h with ⟨_, e, _⟩ | ⟨_, _, hlen, _, hc⟩
  · rw [e]
    exact ⟨rfl, rfl, fun _ _ _ _ => rfl, fun m hm => Or.inl hm⟩
  · rcases hc with ⟨i, j, hi, hj, hbi, _, e⟩ | ⟨i, n, hi, hz, hn, hbit, _, e⟩
    · have hri : ref_at s parent i ≠ 0 := by rw [ref_at_direct s parent (by omega)]; exact hbi
      have href : ∀ k pos, live s k → ref_at s1 k pos = ref_at s k pos := by
        intro k pos hk
        rw [e, touch_parent_eq]
        refine Eq.trans ?_ (ref_at_data_write hinv.b
          (write_dentry s.data (dentry_ptr ((s.inodes parent).blocks i) j) name num) hpar
          (show i ≠ 6 by omega) hri ?_ hk pos)
        · apply ref_at_congr
          · intro i1 _
            by_cases ek : k = parent
            · subst ek; rw [set_inode_same]
            · rw [set_inode_other _ _ ek]
          · intro _ q _ _; rfl
        · intro q hq
          rw [ref_at_direct s parent (by omega)] at hq
          apply write_dentry_out hlen
          simp only [dentry_ptr, DENTRY_SIZE]
          omega
      refine ⟨by rw [e]; rfl, by rw [e]; rfl, fun k pos hk _ => href k pos hk, fun m hm => ?_⟩
      rw [e] at hm
      exact Or.inl hm
    · have hinvX := inv_attach hinv hpar (show i < 7 by omega) hz hn hbit
      have hlX : ∀ k, live (set_block (with_new_block s n) parent i (block_off s n)) k ↔
          live s k := fun k => Iff.rfl
      have hrX : ref_at (set_block (with_new_block s n) parent i (block_off s n)) parent i
          = block_off s n := by
        rw [ref_at_attach hinv.b (by omega) hz hbit hpar, if_pos ⟨rfl, rfl⟩]
      have hp := block_off_pos hinv.b n
      have href : ∀ k pos, live s k → ref_at s1 k pos =
          if k = parent ∧ pos = i then block_off s n else ref_at s k pos := by
        intro k pos hk
        rw [e, touch_parent_eq, ← ref_at_attach hinv.b (show i < 7 by omega) hz hbit hk pos]
        refine Eq.trans ?_ (ref_at_data_write hinvX.b
          (write_dentry (with_new_block s n).data (block_off s n) name num) ((hlX parent).2 hpar)
          (show i ≠ 6 by omega) (by rw [hrX]; omega) ?_ ((hlX k).2 hk) pos)
        · apply ref_at_congr
          · intro i1 _
            by_cases ek : k = parent
            · subst ek; rw [set_inode_same]
            · rw [set_inode_other _ _ ek]
          · intro _ q _ _; rfl
        · intro q hq
          rw [hrX] at hq
          rw [set_block_data]
          exact write_dentry_out hlen (by omega)
      refine ⟨by rw [e]; rfl, by rw [e]; rfl, fun k pos hk hr => ?_, fun m hm => ?_⟩
      · rw [href k pos hk, if_neg]
        rintro ⟨rfl, rfl⟩
        apply hr
        rw [ref_at_direct s k (by omega)]
        exact hz
      · have hm1 : bit_set (with_new_block s n).d_bitmap m = true := by
          rw [e] at hm
          exact hm
        simp only [with_new_block, bit_set_upd_set, Bool.or_eq_true, decide_eq_true_eq] at hm1
        rcases hm1 with hx | hx
        · exact Or.inl hx
        · subst hx
          right
          refine ⟨parent, i, ?_, ?_⟩
          · rw [e]; exact hpar
          · rw [href parent i hpar, if_pos ⟨rfl, rfl⟩]

theorem db_create {s : Image} (h : Inv s) {parent k : Nat} {now : Int}
    (hr0 : live s 0) (hpar : live s parent) (ha : (allocate_inode s now).1 = some k)
    (mode uid gid : Nat) (name : List Nat) {rc1 : Int} {s4 : Image}
    (hadd : add_dentry (created s k mode now uid gid) parent
      ((created s k mode now uid gid).inodes k).num name now = (rc1, s4))
    (hdb : ∀ m, m < s.sb.num_data_blocks → bit_set s.d_bitmap m = true → block_referenced s m) :
    (∀ m, m < s4.sb.num_data_blocks → bit_set s4.d_bitmap m = true → block_referenced s4 m) ∧
    (rc1 ≠ 0 → ∀ m, m < (free_inode s4 k).sb.num_data_blocks →
      bit_set (free_inode s4 k).d_bitmap m = true → block_referenced (free_inode s4 k) m) := by
  obtain ⟨hk, hf, hpos, hinv4, hfail⟩ := create_entry_inv h hr0 hpar ha mode uid gid name hadd
  have hinvc : Inv (created s k mode now uid gid) := h.created hk hf mode now uid gid
  have hlk : live (created s k mode now uid gid) k :=
    (live_created hk mode now uid gid k).2 (Or.inr rfl)
  have hnotk : ∀ D, live s D → D ≠ k := by
    intro D hD e
    subst e
    have := hD.2
    rw [hf] at this
    exact Bool.noConfusion this
  have hrc : ∀ j pos, j ≠ k → ref_at (created s k mode now uid gid) j pos = ref_at s j pos := by
    intro j pos hj
    apply ref_at_congr
    · intro i _; rw [created_other s mode now uid gid hj]
    · intro _ q _ _; rfl
  have hdbc : ∀ m, m < (created s k mode now uid gid).sb.num_data_blocks →
      bit_set (created s k mode now uid gid).d_bitmap m = true →
      block_referenced (created s k mode now uid gid) m :=
    db_of_nb h.b rfl (fun j hj => (live_created hk mode now uid gid j).2 (Or.inl hj))
      (fun j pos hj _ => hrc j pos (hnotk j hj)) (fun m hm => Or.inl hm) hdb
  obtain ⟨a, b, c, d⟩ := add_dentry_nb hinvc
    ((live_created hk mode now uid gid parent).2 (Or.inl hpar)) hadd
  refine ⟨db_of_nb hinvc.b a (fun j hj => (live_congr a b j).2 hj) c d hdbc, fun hne => ?_⟩
  obtain ⟨e4, _⟩ := hfail hne
  rw [e4]
  intro m hm hbit
  rw [free_inode_d_bitmap] at hbit
  rw [free_inode_sb] at hm
  obtain ⟨j, pos, hj, hr⟩ := hdb m hm hbit
  have hjk := hnotk j hj
  refine ⟨j, pos, (live_free_inode hinvc.b hlk j).2
    ⟨(live_created hk mode now uid gid j).2 (Or.inl hj), hjk⟩, ?_⟩
  have e1 : ref_at (free_inode (created s k mode now uid gid) k) j pos
      = ref_at (created s k mode now uid gid) j pos := by
    apply ref_at_congr
    · intro i _; rw [free_inode_other hinvc.b hlk hjk]
    · intro _ q _ _; rw [free_inode_data]
  rw [e1, hrc j pos hjk, hr]
  unfold block_off
  rw [free_inode_sb]
  rfl

theorem db_mknod {s : Image} (h : Inv s) {path : List Nat} {mode : Nat} {now rc : Int}
    {uid gid : Nat} {s1 : Image} (e : wfs_mknod s path mode now uid gid = some (rc, s1))
    (hdb : ∀ m, m < s.sb.num_data_blocks → bit_set s.d_bitmap m = true → block_referenced s m) :
    ∀ m, m < s1.sb.num_data_blocks → bit_set s1.d_bitmap m = true → block_referenced s1 m := by
  rcases wfs_mknod_cases e with ⟨rfl, _⟩ |
    ⟨clean, cp, parent, k, rc1, s4, _, _, _, hr, _, ha, hadd, hres⟩
  · exact hdb
  · obtain ⟨hpar, hr0⟩ := resolve_live hr
    obtain ⟨hok, hfail⟩ := db_create h hr0 hpar ha _ uid gid _ hadd hdb
    rcases hres with ⟨hne, _, rfl⟩ | ⟨_, _, rfl⟩
    · exact hfail hne
    · exact hok

theorem db_mkdir {s : Image} (h : Inv s) {path : List Nat} {mode : Nat} {now rc : Int}
    {uid gid : Nat} {s1 : Image} (e : wfs_mkdir s path mode now uid gid = some (rc, s1))
    (hdb : ∀ m, m < s.sb.num_data_blocks → bit_set s.d_bitmap m = true → block_referenced s m) :
    ∀ m, m < s1.sb.num_data_blocks → bit_set s1.d_bitmap m = true → block_referenced s1 m := by
  rcases wfs_mkdir_cases e with ⟨rfl, _⟩ |
    ⟨clean, cp, parent, k, rc1, s4, _, _, hr, _, _, ha, hadd, hres⟩
  · exact hdb
  · obtain ⟨hpar, hr0⟩ := resolve_live hr
    obtain ⟨hok, hfail⟩ := db_create h hr0 hpar ha _ uid gid _ hadd hdb
    rcases hres with ⟨hne, _, rfl⟩ | ⟨_, _, rfl⟩
    · exact hfail hne
    · exact hok

/-- The function `remove_dentry` keeps the data bitmap and every block reference. -/
theorem remove_dentry_refs {s : Image} (hb : InvB s) {dir : Nat} {inum now rc : Int}
    {s1 : Image} (hd : live s dir) (h : remove_dentry s dir inum now = (rc, s1)) :
    s1.d_bitmap = s.d_bitmap ∧ ∀ k pos, live s k → ref_at s1 k pos = ref_at s k pos := by
  rcases remove_dentry_cases h with ⟨_, e, _⟩ | ⟨_, p0, ⟨i0, j0, hi0, hj0, hb0, hp0⟩, _, e⟩
  · rw [e]; exact ⟨rfl, fun _ _ _ => rfl⟩
  · rw [e]
    refine ⟨rfl, fun k pos hk => ?_⟩
    have hri : ref_at s dir i0 ≠ 0 := by rw [ref_at_direct s dir (by omega)]; exact hb0
    refine Eq.trans ?_ (ref_at_data_write hb
      (memcpy (wr_int s.data (p0 + MAX_NAME) 0) p0 [0]) hd (show i0 ≠ 6 by omega) hri ?_ hk pos)
    · apply ref_at_congr
      · intro i1 _
        by_cases ek : k = dir
        · subst ek; rw [set_inode_same]
        · rw [set_inode_other _ _ ek]
      · intro _ q _ _; rfl
    · intro q hq
      rw [ref_at_direct s dir (by omega)] at hq
      apply clear_slot_out
      rw [hp0]
      simp only [dentry_ptr, DENTRY_SIZE]
      omega

/-- After the direct blocks of an inode without an indirect block were freed, every bit
still set in the data bitmap belongs to a block that another inode references as before. -/
theorem db_freed {s sF : Image} (hinv : Inv s) {k : Nat} (hk : live s k)
    (h6 : (s.inodes k).blocks 6 = 0) (g : Freed s sF k 0 6)
    (hdb : ∀ m, m < s.sb.num_data_blocks → bit_set s.d_bitmap m = true → block_referenced s m) :
    ∀ m, m < s.sb.num_data_blocks → bit_set sF.d_bitmap m = true →
      ∃ j pos, j ≠ k ∧ live s j ∧ ref_at s j pos = block_off s m ∧
        ref_at sF j pos = ref_at s j pos := by
  intro m hm hbit
  obtain ⟨j, pos, hj, hr⟩ := hdb m hm (g.bits m hbit)
  have hp := block_off_pos hinv.b m
  have hjk : j ≠ k := by
    intro e
    subst e
    by_cases hpos : pos < 6
    · rw [ref_at_direct s j (by omega)] at hr
      have := (g.gone pos (by omega) (by omega) (by rw [hr]; omega)).1 m hr
      rw [hbit] at this
      exact Bool.noConfusion this
    · by_cases h6p : pos = 6
      · subst h6p
        rw [ref_at_direct s j (by omega), h6] at hr
        omega
      · rw [ref_at_no_indirect s j (by omega) h6] at hr
        omega
  refine ⟨j, pos, hjk, hj, hr, ?_⟩
  apply ref_at_congr
  · intro i _; rw [g.others j hjk]
  · intro hj6 q h1 h2
    apply g.data
    intro p _ hp6 hbp
    have hrj : ref_at s j 6 ≠ 0 := by rw [ref_at_direct s j (by omega)]; exact hj6
    have hrk : ref_at s k p ≠ 0 := by rw [ref_at_direct s k (by omega)]; exact hbp
    have hbj := hinv.b.blk j 6 hj hrj
    have hbk := hinv.b.blk k p hk hrk
    rw [ref_at_direct s j (by omega)] at hbj
    rw [ref_at_direct s k (by omega)] at hbk
    rcases is_block_disjoint hbj hbk with e1 | e1 | e1
    · exfalso
      apply hjk
      have := (hinv.b.uniq j 6 k p hj hk hrj (by
        rw [ref_at_direct s k (show p < 7 by omega), ref_at_direct s j (show 6 < 7 by omega)]
        exact e1.symm)).1
      exact this.symm
    · left; omega
    · right; omega

theorem db_unlink {s : Image} (h : Inv s) {path : List Nat} {now rc : Int} {s1 : Image}
    (e : wfs_unlink s path now = some (rc, s1))
    (hdirect : ∀ clean_path clean parent file,
      strip_ansi_codes (cstr path) PATH_MAX = some clean_path →
      strip_ansi_codes
        (if (drop_last_component clean_path).dropLast = [] then [SLASH]
          else (drop_last_component clean_path).dropLast) PATH_MAX = some clean →
      get_inode_from_path s clean = path_result.found parent →
      retrieve_inode s (dir_find s parent (last_component clean_path)) = some file →
      (s.inodes file).blocks 6 = 0)
    (hdb : ∀ m, m < s.sb.num_data_blocks → bit_set s.d_bitmap m = true → block_referenced s m) :
    ∀ m, m < s1.sb.num_data_blocks → bit_set s1.d_bitmap m = true → block_referenced s1 m := by
  rcases wfs_unlink_cases e with rfl |
    ⟨clean_path, clean, parent, file, err2, sA, hc1, hc2, hr, hd, hfound, hfile, hnd, hrem, hres⟩
  · exact hdb
  · have h6 := hdirect clean_path clean parent file hc1 hc2 hr hfile
    have hpar := (resolve_live hr).1
    have hinvA := remove_dentry_inv h ⟨hpar, hd⟩ hrem
    obtain ⟨hsbA, hibA, hfA, _⟩ := remove_dentry_keeps h.b hpar hrem
    obtain ⟨hdA, hrA⟩ := remove_dentry_refs h.b hpar hrem
    have hdbA : ∀ m, m < sA.sb.num_data_blocks → bit_set sA.d_bitmap m = true →
        block_referenced sA m :=
      db_of_nb h.b hsbA (fun k hk => (live_congr hsbA hibA k).2 hk)
        (fun k pos hk _ => hrA k pos hk) (fun m hm => Or.inl (by rw [← hdA]; exact hm)) hdb
    rcases hres with ⟨_, _, rfl⟩ | ⟨_, _, rfl⟩
    · exact hdbA
    · obtain ⟨_, hfl⟩ := retrieve_inode_some hfile
      have hflA : live sA file := (live_congr hsbA hibA file).2 hfl
      obtain ⟨hinv2, g⟩ := Inv.free_direct_blocks 6 0 sA file hinvA hflA (by omega)
      have hfl2 : live (free_direct_blocks 6 0 sA file) file := (live_congr g.sb g.ib file).2 hflA
      have hb7 := hinv2.b.b7 file hfl2
      simp only [D_BLOCK, IND_BLOCK]
      rw [if_neg (by intro hx; exact hx hb7)]
      intro m hm hbit
      rw [free_inode_d_bitmap] at hbit
      rw [free_inode_sb, g.sb] at hm
      obtain ⟨j, pos, hjf, hj, hrj, hrF⟩ :=
        db_freed hinvA hflA (by rw [(hfA file).2]; exact h6) g hdbA m hm hbit
      refine ⟨j, pos, (live_free_inode hinv2.b hfl2 j).2 ⟨(live_congr g.sb g.ib j).2 hj, hjf⟩, ?_⟩
      have e1 : ref_at (free_inode (free_direct_blocks 6 0 sA file) file) j pos
          = ref_at (free_direct_blocks 6 0 sA file) j pos := by
        apply ref_at_congr
        · intro i _; rw [free_inode_other hinv2.b hfl2 hjf]
        · intro _ q _ _; rw [free_inode_data]
      rw [e1, hrF, hrj]
      unfold block_off
      rw [free_inode_sb, g.sb]

theorem db_rmdir {s : Image} (h : Inv s) {path : List Nat} {now rc : Int} {s1 : Image}
    (e : wfs_rmdir s path now = some (rc, s1))
    (hdn : ∀ D, is_dir s D → (s.inodes D).blocks 6 = 0)
    (hdb : ∀ m, m < s.sb.num_data_blocks → bit_set s.d_bitmap m = true → block_referenced s m) :
    ∀ m, m < s1.sb.num_data_blocks → bit_set s1.d_bitmap m = true → block_referenced s1 m := by
  rcases wfs_rmdir_cases e with ⟨rfl, _⟩ |
    ⟨clean_path, cp, parent, clean, child, rc2, s2, _, _, _, hr, hd, _, hrc, hcd, hrem, hres⟩
  · exact hdb
  · have hpar := (resolve_live hr).1
    have hcl := (resolve_live hrc).1
    obtain ⟨hinv1, g⟩ := Inv.free_direct_blocks 6 0 s child h hcl (by omega)
    have hpar1 : live (free_direct_blocks 6 0 s child) parent := (live_congr g.sb g.ib parent).2 hpar
    have hcl1 : live (free_direct_blocks 6 0 s child) child := (live_congr g.sb g.ib child).2 hcl
    simp only [D_BLOCK] at hrem
    obtain ⟨hsb2, hib2, hf2, _⟩ := remove_dentry_keeps hinv1.b hpar1 hrem
    obtain ⟨hd2, hr2⟩ := remove_dentry_refs hinv1.b hpar1 hrem
    have hpd1 : is_dir (free_direct_blocks 6 0 s child) parent := ⟨hpar1, by
      by_cases ep : parent = child
      · subst ep
        obtain ⟨bl, hbl⟩ := g.fields
        rw [hbl]
        exact hd
      · rw [g.others parent ep]; exact hd⟩
    have hinv2 := remove_dentry_inv hinv1 hpd1 hrem
    have hl2 : live s2 child := (live_congr hsb2 hib2 child).2 hcl1
    have hkey : ∀ m, m < s.sb.num_data_blocks → bit_set s2.d_bitmap m = true →
        ∃ j pos, j ≠ child ∧ live s2 j ∧ ref_at s2 j pos = block_off s m := by
      intro m hm hbit
      rw [hd2] at hbit
      obtain ⟨j, pos, hjc, hj, hrj, hrF⟩ := db_freed h hcl (hdn child ⟨hcl, hcd⟩) g hdb m hm hbit
      have hj1 : live (free_direct_blocks 6 0 s child) j := (live_congr g.sb g.ib j).2 hj
      exact ⟨j, pos, hjc, (live_congr hsb2 hib2 j).2 hj1, by rw [hr2 j pos hj1, hrF, hrj]⟩
    rcases hres with ⟨_, _, rfl⟩ | ⟨_, _, rfl⟩
    · intro m hm hbit
      rw [hsb2, g.sb] at hm
      obtain ⟨j, pos, _, hj, hrj⟩ := hkey m hm hbit
      refine ⟨j, pos, hj, ?_⟩
      rw [hrj]
      unfold block_off
      rw [hsb2, g.sb]
    · intro m hm hbit
      rw [free_inode_d_bitmap] at hbit
      rw [free_inode_sb, hsb2, g.sb] at hm
      obtain ⟨j, pos, hjc, hj, hrj⟩ := hkey m hm hbit
      refine ⟨j, pos, (live_free_inode hinv2.b hl2 j).2 ⟨hj, hjc⟩, ?_⟩
      have e1 : ref_at (free_inode s2 child) j pos = ref_at s2 j pos := by
        apply ref_at_congr
        · intro i _; rw [free_inode_other hinv2.b hl2 hjc]
        · intro _ q _ _; rw [free_inode_data]
      rw [e1, hrj]
      unfold block_off
      rw [free_inode_sb, hsb2, g.sb]

theorem direct_reachable {s : Image} (h : ReachableDirect s) : Reachable s := by
  induction h with
  | fresh s hf => exact Reachable.fresh s hf
  | step s now uid gid op rc s1 _ e _ ih => exact Reachable.step s now uid gid op rc s1 ih e

/-- In an image reached by handler calls among which every `wfs_unlink` was given a file
without an indirect block, every bit set in the data bitmap belongs to a block that an
inode in use references. -/
theorem direct_db {s : Image} (h : ReachableDirect s) :
    ∀ m, m < s.sb.num_data_blocks → bit_set s.d_bitmap m = true → block_referenced s m := by
  induction h with
  | fresh s hf =>
    intro m _ hbit
    exfalso
    obtain ⟨old, inodes, blocks, sz, uid, gid, _, hd, hm, _⟩ := hf
    unfold wfs_mkfs at hm
    split at hm
    · exact absurd hm (by simp)
    · split at hm
      · injection hm with hm; injection hm with hm _
        exact absurd hm (by decide)
      · injection hm with hm; injection hm with _ hm
        rw [← hm] at hbit
        have hdb : old.d_bitmap = fun _ => 0 := funext hd
        simp only [hdb] at hbit
        rw [bit_set_eq] at hbit
        simp at hbit
  | step s now uid gid op rc s1 hs e ht ih =>
    have hr := direct_reachable hs
    have hinv := reachable_inv hr
    cases op with
    | mknod path mode => exact db_mknod hinv e ih
    | mkdir path mode => exact db_mkdir hinv e ih
    | read path len off =>
      simp only [step] at e
      cases hrd : wfs_read s path len off now with
      | none => rw [hrd] at e; exact absurd e (by simp)
      | some r =>
        obtain ⟨a, b, c⟩ := r
        rw [hrd] at e
        simp only [Option.map_some', Option.some.injEq, Prod.mk.injEq] at e
        obtain ⟨_, rfl⟩ := e
        obtain ⟨x1, x2, x3, x4, x5⟩ := wfs_read_frame hrd
        exact db_frame hinv.b x1 x2 x3 x4 x5 ih
    | write path buf off => exact db_write hinv e ih
    | readdir path is_ls =>
      simp only [step] at e
      cases hrd : wfs_readdir s path is_ls now with
      | none => rw [hrd] at e; exact absurd e (by simp)
      | some r =>
        obtain ⟨a, b, c⟩ := r
        rw [hrd] at e
        simp only [Option.map_some', Option.some.injEq, Prod.mk.injEq] at e
        obtain ⟨_, rfl⟩ := e
        obtain ⟨x1, x2, x3, x4, x5⟩ := wfs_readdir_frame hrd
        exact db_frame hinv.b x1 x2 x3 x4 x5 ih
    | unlink path =>
      exact db_unlink hinv e
        (fun clean_path clean parent file => ht path clean_path clean parent file rfl) ih
    | rmdir path => exact db_rmdir hinv e (reachable_dn hr) ih
    | setxattr path name value =>
      obtain ⟨x1, x2, x3, x4, x5⟩ := wfs_setxattr_frame e
      exact db_frame hinv.b x1 x2 x3 x4 x5 ih
    | removexattr path name =>
      obtain ⟨x1, x2, x3, x4, x5⟩ := wfs_removexattr_frame e
      exact db_frame hinv.b x1 x2 x3 x4 x5 ih

/-- A handler call other than `wfs_unlink` extends a history in which every `wfs_unlink`
was given a file without an indirect block. -/
theorem direct_after {s : Image} (h : ReachableDirect s) (now : Int) (uid gid : Nat) (op : Op)
    (hop : ∀ path, op ≠ Op.unlink path) (hs : (step s now uid gid op).isSome = true) :
    ReachableDirect (after (step s now uid gid op)) := by
  cases hr : step s now uid gid op with
  | none => rw [hr] at hs; simp at hs
  | some r =>
    obtain ⟨rc, s1⟩ := r
    exact ReachableDirect.step s now uid gid op rc s1 h hr
      (fun path _ _ _ _ e => absurd e (hop path))

end WFS

namespace WFS

/-! ## The stack of the resolver -/

/-- On a well-formed stack every access to `inode_path` stays below `num_inodes`, and the
index is `-1` at the least. -/
theorem walk_indices_bound {s : Image} (hinv : Inv s) : ∀ (tokens : List (List Nat))
    (cur : Nat) (stack : List Nat), stack.head? = some cur → chain s stack →
    ∀ i ∈ walk_indices s tokens cur stack, -1 ≤ i ∧ i < (s.sb.num_inodes : Int)
  | [], _, _, _, _, i, hi => by simp [walk_indices] at hi
  | t :: rest, cur, stack, hh, hc, i, hi => by
    have hlen := chain_length hinv hc
    obtain ⟨tl, etl⟩ := head_cons hh
    simp only [walk_indices] at hi
    split at hi
    · simp at hi
    · next hd =>
      split at hi
      · exact walk_indices_bound hinv rest cur stack hh hc i hi
      · split at hi
        · rcases List.mem_cons.1 hi with e | e
          · subst etl
            simp only [List.length_cons] at hlen e
            omega
          · split at e
            · next x prev below =>
              exact walk_indices_bound hinv rest prev (prev :: below) rfl (chain_tail hc) i e
            · simp at e
        · split at hi
          · simp at hi
          · next hf =>
            split at hi
            · simp at hi
            · next nxt hr =>
              subst etl
              have hl := chain_head_live hc
              have hdir : is_dir s cur := ⟨hl, by simpa using hd⟩
              obtain ⟨n, _, hnl, hedge, hret⟩ := lookup_edge hinv hdir hf
              have en : nxt = n := by
                rw [hret] at hr
                injection hr with hr
                exact hr.symm
              subst en
              have hc1 : chain s (nxt :: cur :: tl) := chain_push hnl hedge hc
              have hlen1 := chain_length hinv hc1
              simp only [List.length_cons] at hlen1
              rcases List.mem_cons.1 hi with e | e
              · simp only [List.length_cons] at e
                omega
              · split at e
                · simp at e
                · exact walk_indices_bound hinv rest nxt (nxt :: cur :: tl) rfl hc1 i e

/-- On a well-formed stack the walk of the resolver leaves defined behaviour exactly when
it reads `inode_path[-1]`. -/
theorem walk_undefined_iff {s : Image} (hinv : Inv s) : ∀ (tokens : List (List Nat))
    (cur : Nat) (stack : List Nat), stack.head? = some cur → chain s stack →
    (walk s tokens cur stack = path_result.undefined ↔
      (-1 : Int) ∈ walk_indices s tokens cur stack)
  | [], _, _, _, _ => by simp [walk, walk_indices]
  | t :: rest, cur, stack, hh, hc => by
    obtain ⟨tl, etl⟩ := head_cons hh
    simp only [walk, walk_indices]
    split
    · simp
    · next hd =>
      split
      · exact walk_undefined_iff hinv rest cur stack hh hc
      · split
        · subst etl
          cases tl with
          | nil => simp
          | cons prev below =>
            simp only [List.length_cons, List.mem_cons]
            rw [walk_undefined_iff hinv rest prev (prev :: below) rfl (chain_tail hc)]
            constructor
            · exact fun h => Or.inr h
            · rintro (h | h)
              · exfalso; push_cast at h; omega
              · exact h
        · split
          · simp
          · next hf =>
            split
            · simp
            · next nxt hr =>
              subst etl
              have hl := chain_head_live hc
              have hdir : is_dir s cur := ⟨hl, by simpa using hd⟩
              obtain ⟨n, _, hnl, hedge, hret⟩ := lookup_edge hinv hdir hf
              have en : nxt = n := by
                rw [hret] at hr
                injection hr with hr
                exact hr.symm
              subst en
              have hc1 : chain s (nxt :: cur :: tl) := chain_push hnl hedge hc
              have hlen1 := chain_length hinv hc1
              simp only [List.length_cons] at hlen1
              have hlt : ¬ (cur :: tl).length ≥ s.sb.num_inodes := by
                simp only [List.length_cons]; omega
              rw [if_neg hlt, if_neg hlt, List.mem_cons,
                walk_undefined_iff hinv rest nxt (nxt :: cur :: tl) rfl hc1]
              constructor
              · exact fun h => Or.inr h
              · rintro (h | h)
                · exfalso; simp only [List.length_cons] at h; push_cast at h; omega
                · exact h

/-- The accesses of `get_inode_from_path` to `inode_path` in a consistent image: every
index is below `num_inodes` and at least `-1`. -/
theorem resolver_indices_bound {s : Image} (hinv : Inv s) (path : List Nat) :
    ∀ i ∈ resolver_indices s path, -1 ≤ i ∧ i < (s.sb.num_inodes : Int) := by
  intro i hi
  unfold resolver_indices at hi
  split at hi
  · simp at hi
  · split at hi
    · simp at hi
    · split at hi
      · simp at hi
      · next cur hr =>
        obtain ⟨e, hl⟩ := retrieve_inode_some hr
        rcases List.mem_cons.1 hi with e1 | e1
        · subst e1
          have := hl.1
          omega
        · exact walk_indices_bound hinv _ cur [cur] rfl hl i e1

/-- The resolver leaves defined behaviour exactly when it reads `inode_path[-1]`. -/
theorem resolver_undefined_iff {s : Image} (hinv : Inv s) (path : List Nat) :
    get_inode_from_path s path = path_result.undefined ↔
      (-1 : Int) ∈ resolver_indices s path := by
  unfold resolver_indices get_inode_from_path
  split
  · split <;> simp
  · split
    · simp
    · split
      · simp
      · next cur hr =>
        obtain ⟨e, hl⟩ := retrieve_inode_some hr
        rw [walk_undefined_iff hinv _ cur [cur] rfl hl, List.mem_cons]
        constructor
        · exact fun h => Or.inr h
        · rintro (h | h)
          · exact absurd h (by decide)
          · exact h

/-! ## The reads of `strip_ansi_codes` -/

theorem holds_string_zero {mem : Nat → Nat} : ∀ (l : List Nat) (i : Nat),
    holds_string mem i l → mem (i + l.length) = 0
  | [], i, h => h
  | c :: rest, i, h => by
    have := holds_string_zero rest (i + 1) h.2
    rw [List.length_cons, ← this]
    congr 1
    omega

/-- The first test of the `for` loop reads `in[i]`. -/
theorem strip_reads_head (mem : Nat → Nat) (fuel i room : Nat) :
    i ∈ strip_reads mem (fuel + 1) i false room := by
  simp only [strip_reads]
  split
  · simp
  · split
    · simp
    · split
      · split <;> simp
      · simp

/-- While the list model of the loop returns a string, the loop reads no byte behind the
terminating zero byte. -/
theorem strip_reads_inside {mem : Nat → Nat} : ∀ (l : List Nat) (esc : Bool) (room : Nat)
    (out : List Nat) (i fuel : Nat), 0 ∉ l → holds_string mem i l →
    strip_loop l esc room = some out →
    ∀ x ∈ strip_reads mem fuel i esc room, x ≤ i + l.length
  | _, _, _, _, _, 0, _, _, _, x, hx => by simp [strip_reads] at hx
  | [], false, _, _, i, fuel + 1, _, hm, _, x, hx => by
    have e : mem i = 0 := hm
    simp only [strip_reads, e, if_true, List.mem_singleton] at hx
    simp [hx]
  | [], true, _, _, _, _ + 1, _, _, h, _, _ => by simp [strip_loop] at h
  | c :: rest, true, room, out, i, fuel + 1, h0, hm, h, x, hx => by
    have hc0 : c ≠ 0 := fun e => h0 (by simp [e])
    have h0r : 0 ∉ rest := fun e => h0 (List.mem_cons_of_mem _ e)
    obtain ⟨e, hm1⟩ := hm
    simp only [strip_loop, if_neg hc0] at h
    simp only [strip_reads, e, hc0, false_or] at hx
    simp only [List.length_cons]
    split at h
    · next hcm =>
      rw [if_pos hcm] at hx
      rcases List.mem_cons.1 hx with e1 | e1
      · omega
      · have := strip_reads_inside rest false room out (i + 1) fuel h0r hm1 h x e1
        omega
    · next hcm =>
      rw [if_neg hcm] at hx
      rcases List.mem_cons.1 hx with e1 | e1
      · omega
      · have := strip_reads_inside rest true room out (i + 1) fuel h0r hm1 h x e1
        omega
  | [c], false, room, out, i, fuel + 1, h0, hm, h, x, hx => by
    have hc0 : c ≠ 0 := fun e => h0 (by simp [e])
    obtain ⟨e, hm1⟩ := hm
    have e1 : mem (i + 1) = 0 := hm1
    simp only [strip_reads, e, if_neg hc0, e1] at hx
    simp only [List.length_cons, List.length_nil]
    split at hx
    · simp only [List.mem_singleton] at hx; omega
    · split at hx
      · rw [if_neg (by decide)] at hx
        rcases List.mem_cons.1 hx with e2 | e2
        · omega
        · rcases List.mem_cons.1 e2 with e3 | e3
          · omega
          · have := strip_reads_inside [] false (room - 1) [] (i + 1) fuel (by simp) hm1
              (by simp [strip_loop]) x e3
            simp only [List.length_nil] at this
            omega
      · rcases List.mem_cons.1 hx with e2 | e2
        · omega
        · have := strip_reads_inside [] false (room - 1) [] (i + 1) fuel (by simp) hm1
            (by simp [strip_loop]) x e2
          simp only [List.length_nil] at this
          omega
  | c :: d :: rest, false, room, out, i, fuel + 1, h0, hm, h, x, hx => by
    have hc0 : c ≠ 0 := fun e => h0 (by simp [e])
    have h0r : 0 ∉ d :: rest := fun e => h0 (List.mem_cons_of_mem _ e)
    have h0rr : 0 ∉ rest := fun e => h0r (List.mem_cons_of_mem _ e)
    obtain ⟨e, hm1⟩ := hm
    have e1 : mem (i + 1) = d := hm1.1
    simp only [strip_loop, if_neg hc0] at h
    simp only [strip_reads, e, if_neg hc0, e1] at hx
    simp only [List.length_cons]
    split at h
    · next hr =>
      rw [if_pos hr] at hx
      simp only [List.mem_singleton] at hx; omega
    · next hr =>
      rw [if_neg hr] at hx
      split at h
      · next hcd =>
        rw [if_pos hcd.1, if_pos hcd.2] at hx
        rcases List.mem_cons.1 hx with e2 | e2
        · omega
        · rcases List.mem_cons.1 e2 with e3 | e3
          · omega
          · have hm2 : holds_string mem (i + 2) rest := hm1.2
            have := strip_reads_inside rest true room out (i + 2) fuel h0rr hm2 h x e3
            omega
      · next hcd =>
        cases h1 : strip_loop (d :: rest) false (room - 1) with
        | none => rw [h1] at h; simp at h
        | some out1 =>
          have ih := strip_reads_inside (d :: rest) false (room - 1) out1 (i + 1) fuel h0r hm1 h1
          simp only [List.length_cons] at ih
          split at hx
          · next hce =>
            rw [if_neg (fun hd => hcd ⟨hce, hd⟩)] at hx
            rcases List.mem_cons.1 hx with e2 | e2
            · omega
            · rcases List.mem_cons.1 e2 with e3 | e3
              · omega
              · have := ih x e3
                omega
          · rcases List.mem_cons.1 hx with e2 | e2
            · omega
            · have := ih x e2
              omega

/-- While the list model of the loop returns `none`, the loop reads the byte behind the
terminating zero byte. -/
theorem strip_reads_past {mem : Nat → Nat} : ∀ (l : List Nat) (esc : Bool) (room : Nat)
    (i fuel : Nat), 0 ∉ l → holds_string mem i l → strip_loop l esc room = none →
    l.length + 2 ≤ fuel → (i + l.length + 1) ∈ strip_reads mem fuel i esc room
  | [], false, _, _, _, _, _, h, _ => by simp [strip_loop] at h
  | [], true, room, i, fuel, _, hm, _, hf => by
    obtain ⟨f, rfl⟩ : ∃ f, fuel = f + 2 := ⟨fuel - 2, by simp only [List.length_nil] at hf; omega⟩
    have e : mem i = 0 := hm
    simp only [strip_reads, e, true_or, if_true, List.length_nil, Nat.add_zero]
    exact List.mem_cons_of_mem _ (strip_reads_head mem f (i + 1) room)
  | c :: rest, true, room, i, fuel, h0, hm, h, hf => by
    have hc0 : c ≠ 0 := fun e => h0 (by simp [e])
    have h0r : 0 ∉ rest := fun e => h0 (List.mem_cons_of_mem _ e)
    obtain ⟨e, hm1⟩ := hm
    simp only [List.length_cons] at hf ⊢
    obtain ⟨f, rfl⟩ : ∃ f, fuel = f + 1 := ⟨fuel - 1, by omega⟩
    simp only [strip_loop, if_neg hc0] at h
    simp only [strip_reads, e, hc0, false_or]
    have ei : i + (rest.length + 1) + 1 = i + 1 + rest.length + 1 := by omega
    rw [ei]
    split at h
    · next hcm =>
      rw [if_pos hcm]
      exact List.mem_cons_of_mem _
        (strip_reads_past rest false room (i + 1) f h0r hm1 h (by omega))
    · next hcm =>
      rw [if_neg hcm]
      exact List.mem_cons_of_mem _
        (strip_reads_past rest true room (i + 1) f h0r hm1 h (by omega))
  | [c], false, room, i, fuel, h0, hm, h, hf => by
    simp only [strip_loop] at h
    split at h
    · simp at h
    · split at h <;> simp at h
  | c :: d :: rest, false, room, i, fuel, h0, hm, h, hf => by
    have hc0 : c ≠ 0 := fun e => h0 (by simp [e])
    have h0r : 0 ∉ d :: rest := fun e => h0 (List.mem_cons_of_mem _ e)
    have h0rr : 0 ∉ rest := fun e => h0r (List.mem_cons_of_mem _ e)
    obtain ⟨e, hm1⟩ := hm
    have e1 : mem (i + 1) = d := hm1.1
    simp only [List.length_cons] at hf ⊢
    obtain ⟨f, rfl⟩ : ∃ f, fuel = f + 1 := ⟨fuel - 1, by omega⟩
    simp only [strip_loop, if_neg hc0] at h
    simp only [strip_reads, e, if_neg hc0, e1]
    split at h
    · simp at h
    · next hr =>
      rw [if_neg hr]
      split at h
      · next hcd =>
        rw [if_pos hcd.1, if_pos hcd.2]
        have hm2 : holds_string mem (i + 2) rest := hm1.2
        have := strip_reads_past rest true room (i + 2) f h0rr hm2 h (by omega)
        have ei : i + (rest.length + 1 + 1) + 1 = i + 2 + rest.length + 1 := by omega
        rw [ei]
        exact List.mem_cons_of_mem _ (List.mem_cons_of_mem _ this)
      · next hcd =>
        have h1 : strip_loop (d :: rest) false (room - 1) = none := by
          cases h2 : strip_loop (d :: rest) false (room - 1) with
          | none => rfl
          | some o => rw [h2] at h; simp at h
        have := strip_reads_past (d :: rest) false (room - 1) (i + 1) f h0r hm1 h1
          (by simp only [List.length_cons]; omega)
        simp only [List.length_cons] at this
        have ei : i + (rest.length + 1 + 1) + 1 = i + 1 + (rest.length + 1) + 1 := by omega
        rw [ei]
        split
        · next hce =>
          rw [if_neg (fun hd => hcd ⟨hce, hd⟩)]
          exact List.mem_cons_of_mem _ (List.mem_cons_of_mem _ this)
        · exact List.mem_cons_of_mem _ this

end WFS

namespace WFS

/-! ## One `mknod` in the root directory, written out -/

end WFS

namespace WFS

set_option maxRecDepth 1000000

theorem reachable_after {s : Image} (h : Reachable s) (now : Int) (uid gid : Nat) (op : Op)
    (hs : (step s now uid gid op).isSome = true) :
    Reachable (after (step s now uid gid op)) := by
  cases hr : step s now uid gid op with
  | none => rw [hr] at hs; simp at hs
  | some r =>
    obtain ⟨rc, s1⟩ := r
    exact Reachable.step s now uid gid op rc s1 h hr

theorem fresh_img0 : Fresh img0 := by
  refine ⟨blank, 32, 64, 100000, 0, 0, fun _ => rfl, fun _ => rfl, ?_, ?_⟩
  · rfl
  · decide!

theorem reachable_img0 : Reachable img0 := Reachable.fresh _ fresh_img0

theorem reachable_ex_f : Reachable ex_f :=
  reachable_after reachable_img0 _ _ _ _ (by decide!)

theorem reachable_ex_f_big : Reachable ex_f_big :=
  reachable_after reachable_ex_f _ _ _ _ (by decide!)

theorem reachable_ex_a : Reachable ex_a :=
  reachable_after reachable_img0 _ _ _ _ (by decide!)

theorem reachable_ex_af : Reachable ex_af :=
  reachable_after reachable_ex_a _ _ _ _ (by decide!)

/-- C2 (fails on the code): `/f` has one byte in block 6, so it owns an indirect block (data
block 1, stored in `blocks[D_BLOCK]`) and one block listed in it (data block 2).
`wfs_unlink("/f")` returns 0, yet both data-bitmap bits are still set and neither block is
zero-filled: `wfs_unlink` tests `blocks[IND_BLOCK]` (entry 7), which is never written. -/
theorem C2_unlink_leaks_indirect_blocks :
    Reachable ex_f_big ∧
    (ex_f_big.inodes 1).blocks D_BLOCK = ex_f_big.sb.d_blocks_ptr + 512 * 1 ∧
    rd_off ex_f_big.data ((ex_f_big.inodes 1).blocks D_BLOCK) = ex_f_big.sb.d_blocks_ptr + 512 * 2 ∧
    (wfs_unlink ex_f_big (str "/f") 3).map Prod.fst = some 0 ∧
    bit_set ex_f_gone.i_bitmap 1 = false ∧
    bit_set ex_f_gone.d_bitmap 1 = true ∧ bit_set ex_f_gone.d_bitmap 2 = true ∧
    rd_off ex_f_gone.data (ex_f_big.sb.d_blocks_ptr + 512 * 1) ≠ 0 ∧
    ex_f_gone.data (ex_f_big.sb.d_blocks_ptr + 512 * 2) = 7 := by
  refine ⟨reachable_ex_f_big, ?_, ?_, ?_, ?_, ?_, ?_, ?_, ?_⟩ <;> decide!

/-- C10 (fails on the code): after `mkdir("/a")` and `mknod("/a/f")`, the call
`rmdir("/a/..")` resolves its target to the root, finds a slot with `num == 0` in `/a` and
returns 0 having freed inode 0: bit 0 of the inode bitmap is clear and nothing resolves.
The guarded calls behave as the claim says: `rmdir("/")` is `-EPERM` and `unlink("/")` is 0. -/
theorem C10_rmdir_dotdot_removes_root :
    Reachable ex_af ∧
    (wfs_rmdir ex_af (str "/a/..") 3).map Prod.fst = some 0 ∧
    bit_set ex_noroot.i_bitmap 0 = false ∧
    retrieve_inode ex_noroot 0 = none ∧
    (∀ s now, wfs_rmdir s (str "/") now = some (-EPERM, s)) ∧
    (∀ s now, wfs_unlink s (str "/") now = some (0, s)) := by
  refine ⟨reachable_ex_af, ?_, ?_, ?_, ?_, ?_⟩
  · decide!
  · decide!
  · decide!
  · intro s now; rfl
  · intro s now; rfl

/-- C3 (counterexample): a write of two bytes at offset 35839 to the empty file `/f`
stores the first byte (allocating the indirect block and one data block) and fails on the
second, which lies past the capacity: it returns `-ENOSPC` and the data bitmap has grown
from one set bit to three. -/
theorem C3_failed_write_keeps_blocks :
    Reachable ex_f ∧
    (wfs_write ex_f (str "/f") [1, 2] 35839 2).map Prod.fst = some (-ENOSPC) ∧
    ex_f.d_bitmap 0 = 1 ∧
    (after (wfs_write ex_f (str "/f") [1, 2] 35839 2)).d_bitmap 0 = 7 := by
  refine ⟨reachable_ex_f, ?_, ?_, ?_⟩ <;> decide!

/-- C1 (write then read): in an image reachable from a freshly formatted one, when
`wfs_write(path, buf, len, off)` with `off >= 0` returns `len`, the call
`wfs_read(path, out, len, off)` that follows returns `len` and stores the bytes of `buf`.
The path then names a regular file, because the write returns a negative code otherwise;
the range may lie anywhere in the file, across block boundaries and across the boundary
between direct and indirect blocks. -/
theorem C1_write_then_read {s : Image} (hs : Reachable s) (path buf : List Nat)
    (off now now1 : Int) (s1 : Image) (hoff : 0 ≤ off)
    (hw : wfs_write s path buf off now = some ((buf.length : Int), s1)) :
    ∃ s2, wfs_read s1 path buf.length off now1 = some ((buf.length : Int), buf, s2) := by
  have hinv := reachable_inv hs
  obtain ⟨clean, F, sL, hc, hr, hl, hnd, hlt, hinvL, hwr, hs1, _, a2, _, _, _⟩ :=
    wfs_write_ok hinv hoff hw
  have hlL : live sL F := (hwr.live_kept F).2 hl
  have hszL := hinvL.b.size F hlL
  have hinv1 : Inv s1 := wfs_write_inv hinv hw
  have hr1 : get_inode_from_path s1 clean = path_result.found F := by
    have e1 : get_inode_from_path s1 clean = get_inode_from_path sL clean := by
      rw [hs1]
      refine resolve_set_fields hinvL F _ ?_ ?_ clean <;> rfl
    rw [e1, resolve_wrote hinv hwr hnd]
    exact hr
  have hfb : ∀ x, file_byte s1 F x = file_byte sL F x := by
    intro x
    rw [hs1]
    refine file_byte_set_fields sL F _ ?_ F x
    rfl
  have hmodeL : (sL.inodes F).mode = (s.inodes F).mode := by
    obtain ⟨bl, hbl⟩ := hwr.fields
    rw [hbl]
  have hnd1 : S_ISDIR (s1.inodes F).mode = false := by
    rw [hs1, set_inode_same]
    simp only
    rw [hmodeL]
    exact hnd
  have hsize : off + buf.length ≤ (s1.inodes F).size := by
    rw [hs1, set_inode_same]
    simp only
    split <;> omega
  obtain ⟨out, s2, hrd, hlen, hbytes⟩ := wfs_read_spec hinv1 hc hr1 hnd1 hoff hlt now1
  have hol : out.length = buf.length := by
    have h0 : (0 : Int) ≤ buf.length := Int.natCast_nonneg _
    split at hlen
    · omega
    · rw [min_def] at hlen
      split at hlen <;> omega
  have hob : out = buf := by
    apply list_eq_of_getD out buf hol
    intro i hi
    rw [hbytes i hi, hfb, a2, if_pos (by omega)]
    congr 1
    omega
  refine ⟨s2, ?_⟩
  rw [hrd, hol, hob]

/-- C1, an instance: one byte written at offset 3072 of `/f` (the first byte behind the
direct blocks) is read back. -/
theorem C1_write_then_read_witness :
    Reachable ex_f ∧ (0 : Int) ≤ 3072 ∧
    (wfs_write ex_f (str "/f") [7] 3072 2).map Prod.fst = some 1 ∧
    ∃ s2, wfs_read ex_f_big (str "/f") 1 3072 5 = some (1, [7], s2) :=
  ⟨reachable_ex_f, by decide, by decide!,
    C1_write_then_read reachable_ex_f (str "/f") [7] 3072 2 5 ex_f_big (by decide)
      (some_after (by decide!))⟩

/-- C3 (amended): a failing `wfs_write` is not rolled back, it only adds. When the call
returns `-ENOSPC` in a reachable image, the superblock and the inode bitmap are unchanged,
every data-bitmap bit that was set before the call is still set, the file keeps every block
it referenced, and the number of set data-bitmap bits has grown by exactly the number of
block references added to the file: the blocks allocated before the failure stay allocated
and attached. -/
theorem C3_failed_write_only_adds {s : Image} (hs : Reachable s) (path buf : List Nat)
    (off now : Int) (s1 : Image)
    (hw : wfs_write s path buf off now = some (-ENOSPC, s1)) :
    s1.sb = s.sb ∧ s1.i_bitmap = s.i_bitmap ∧
    (∀ n, bit_set s.d_bitmap n = true → bit_set s1.d_bitmap n = true) ∧
    ∃ clean F, strip_ansi_codes path PATH_MAX = some clean ∧
      get_inode_from_path s clean = path_result.found F ∧
      (∀ p, ref_at s F p ≠ 0 → ref_at s1 F p = ref_at s F p) ∧
      used_blocks s1 + nrefs s F = used_blocks s + nrefs s1 F := by
  have hinv := reachable_inv hs
  rcases wfs_write_cases hw with ⟨_, hrc⟩ | ⟨clean, F, ok, sL, hc, hr, hnd, hwl, hres⟩
  · exfalso
    rcases hrc with h | h <;> revert h <;> decide
  · have hl := (resolve_live hr).1
    obtain ⟨_, g⟩ := write_loop_inv hinv hl hnd buf _ off (size_to_int_le _) hwl
    rcases hres with ⟨_, _, rfl⟩ | ⟨_, _, _, rfl⟩
    · exact ⟨g.sb, g.ib, g.bits, clean, F, hc, hr, fun p hp => g.keep F p hl hp, g.count⟩
    · have href : ∀ p, ref_at (set_inode sL F
          { sL.inodes F with
            size := if off + buf.length > (sL.inodes F).size then off + buf.length
              else (sL.inodes F).size,
            mtim := now, ctim := now }) F p = ref_at sL F p := by
        intro p
        apply ref_at_congr
        · intro i _; rw [set_inode_same]
        · intro _ q _ _; rfl
      refine ⟨g.sb, g.ib, g.bits, clean, F, hc, hr, fun p hp => ?_, ?_⟩
      · rw [href]; exact g.keep F p hl hp
      · have e1 : nrefs (set_inode sL F
            { sL.inodes F with
              size := if off + buf.length > (sL.inodes F).size then off + buf.length
                else (sL.inodes F).size,
              mtim := now, ctim := now }) F = nrefs sL F := count_refs_congr href 71
        rw [e1]
        exact g.count

/-- C3 (amended), an instance: the write of two bytes at offset 35839 of `/f`. -/
theorem C3_failed_write_only_adds_witness :
    Reachable ex_f ∧
    (wfs_write ex_f (str "/f") [1, 2] 35839 2).map Prod.fst = some (-ENOSPC) ∧
    (after (wfs_write ex_f (str "/f") [1, 2] 35839 2)).sb = ex_f.sb ∧
    (after (wfs_write ex_f (str "/f") [1, 2] 35839 2)).i_bitmap = ex_f.i_bitmap ∧
    (∀ n, bit_set ex_f.d_bitmap n = true →
      bit_set (after (wfs_write ex_f (str "/f") [1, 2] 35839 2)).d_bitmap n = true) ∧
    ∃ clean F, strip_ansi_codes (str "/f") PATH_MAX = some clean ∧
      get_inode_from_path ex_f clean = path_result.found F ∧
      (∀ p, ref_at ex_f F p ≠ 0 →
        ref_at (after (wfs_write ex_f (str "/f") [1, 2] 35839 2)) F p = ref_at ex_f F p) ∧
      used_blocks (after (wfs_write ex_f (str "/f") [1, 2] 35839 2)) + nrefs ex_f F
        = used_blocks ex_f + nrefs (after (wfs_write ex_f (str "/f") [1, 2] 35839 2)) F :=
  ⟨reachable_ex_f, by decide!,
    C3_failed_write_only_adds reachable_ex_f (str "/f") [1, 2] 35839 2 _
      (some_after (by decide!))⟩

/-- C4 (capacity boundary): the capacity of a file is `(6 + 64) * 512 = 35840` bytes. In a
reachable image with at least 71 free data blocks, `wfs_write` of exactly 35840 bytes at
offset 0 to a regular file (an empty one in particular) returns 35840; after it a
`wfs_write` of one byte at offset 35840 returns `-ENOSPC` and leaves the image alone; and
`data_offset` returns `NULL` for every offset below 0 or from 35840 on, whatever the
`alloc` flag. -/
theorem C4_capacity_boundary {s : Image} (hs : Reachable s) (path clean : List Nat) (F : Nat)
    (buf : List Nat) (b : Nat) (now now1 : Int)
    (hc : strip_ansi_codes path PATH_MAX = some clean)
    (hr : get_inode_from_path s clean = path_result.found F)
    (hreg : S_ISDIR (s.inodes F).mode = false)
    (hfree : used_blocks s + 71 ≤ s.sb.num_data_blocks)
    (hlen : (buf.length : Int) = 35840) :
    (∃ s1, wfs_write s path buf 0 now = some (35840, s1) ∧
      wfs_write s1 path [b] 35840 now1 = some (-ENOSPC, s1)) ∧
    ∀ (s2 : Image) (inode : Nat) (off : Int) (alloc : Bool), off < 0 ∨ 35840 ≤ off →
      (data_offset s2 inode off alloc).1 = none := by
  have hinv := reachable_inv hs
  refine ⟨?_, fun s2 inode off alloc h => by rw [data_offset_out s2 inode off alloc h]⟩
  obtain ⟨sL, hinvL, g, hw⟩ := wfs_write_fits hinv hc hr hreg hfree (le_refl _)
    (show (0 : Int) + buf.length ≤ 35840 by omega) now
  rw [hlen] at hw
  refine ⟨_, hw, ?_⟩
  have hmodeL : (sL.inodes F).mode = (s.inodes F).mode := by
    obtain ⟨bl, hbl⟩ := g.fields
    rw [hbl]
  have hr1 : ∀ v : wfs_inode, v.mode = (sL.inodes F).mode → v.blocks = (sL.inodes F).blocks →
      get_inode_from_path (set_inode sL F v) clean = path_result.found F := by
    intro v h1 h2
    rw [resolve_set_fields hinvL F v h1 h2, resolve_wrote hinv g hreg]
    exact hr
  have hwl2 : ∀ s3 : Image,
      write_loop (size_to_int [b].length).toNat s3 F [b] (size_to_int [b].length) 35840
        = (false, s3) := by
    intro s3
    have : size_to_int [b].length = 1 := by
      rw [size_to_int_eq (by simp)]
      simp
    rw [this]
    show write_loop 1 s3 F [b] 1 35840 = _
    simp only [write_loop]
    rw [if_neg (by norm_num), data_offset_out _ F 35840 true (by norm_num)]
  have hw2 : ∀ v : wfs_inode, v.mode = (sL.inodes F).mode →
      v.blocks = (sL.inodes F).blocks →
      wfs_write (set_inode sL F v) path [b] 35840 now1
        = some (-ENOSPC, set_inode sL F v) := by
    intro v h1 h2
    have := wfs_write_eq hc (hr1 v h1 h2)
      (by rw [set_inode_same, h1, hmodeL]; exact hreg) (hwl2 _) now1
    rw [if_neg Bool.false_ne_true] at this
    exact this
  refine hw2 _ ?_ ?_ <;> rfl

theorem reachable_ex_g : Reachable ex_g :=
  reachable_after (Reachable.fresh _
    ⟨blank, 32, 128, 100000, 0, 0, fun _ => rfl, fun _ => rfl, rfl, by decide!⟩) _ _ _ _
    (by decide!)

/-- C4, an instance: the empty file `/f` of the image `ex_g`, which has 127 free blocks. -/
theorem C4_capacity_boundary_witness :
    Reachable ex_g ∧ strip_ansi_codes (str "/f") PATH_MAX = some (str "/f") ∧
    get_inode_from_path ex_g (str "/f") = path_result.found 1 ∧
    S_ISDIR (ex_g.inodes 1).mode = false ∧
    used_blocks ex_g + 71 ≤ ex_g.sb.num_data_blocks ∧
    ((List.replicate 35840 0).length : Int) = 35840 ∧
    ((∃ s1, wfs_write ex_g (str "/f") (List.replicate 35840 0) 0 2 = some (35840, s1) ∧
      wfs_write s1 (str "/f") [9] 35840 3 = some (-ENOSPC, s1)) ∧
    ∀ (s2 : Image) (inode : Nat) (off : Int) (alloc : Bool), off < 0 ∨ 35840 ≤ off →
      (data_offset s2 inode off alloc).1 = none) :=
  ⟨reachable_ex_g, by decide!, by decide!, by decide!, by decide!,
    by rw [List.length_replicate]; rfl,
    C4_capacity_boundary reachable_ex_g (str "/f") (str "/f") 1 (List.replicate 35840 0) 9 2 3
      (by decide!) (by decide!) (by decide!) (by decide!)
      (by rw [List.length_replicate]; rfl)⟩

/-- C6 (block accounting of a sequential write): in a reachable image, when `wfs_write`
of `n` bytes at offset 0 to a file that has no blocks yet (as `mknod` leaves it) returns
`n`, the number of set data-bitmap bits has grown by exactly `ceil(n / 512)`, plus 1 for
the indirect block when `ceil(n / 512) > 6`. -/
theorem C6_sequential_write_blocks {s : Image} (hs : Reachable s) (path clean buf : List Nat)
    (F : Nat) (now : Int) (s1 : Image)
    (hc : strip_ansi_codes path PATH_MAX = some clean)
    (hr : get_inode_from_path s clean = path_result.found F)
    (hnew : ∀ i, (s.inodes F).blocks i = 0)
    (hw : wfs_write s path buf 0 now = some ((buf.length : Int), s1)) :
    used_blocks s1 = used_blocks s + (buf.length + 511) / 512
      + (if (buf.length + 511) / 512 > 6 then 1 else 0) := by
  have hinv := reachable_inv hs
  obtain ⟨clean1, F1, sL, hc1, hr1, hl, hnd, hlt, hinvL, g, hs1, a1, _, a3, a4, a5⟩ :=
    wfs_write_ok hinv (le_refl _) hw
  rw [hc] at hc1
  injection hc1 with hc1
  subst hc1
  rw [hr] at hr1
  injection hr1 with hr1
  subst hr1
  have href0 : ∀ p, ref_at s F p = 0 := ref_at_zero_blocks s F (fun i _ => hnew i)
  have hn : buf.length ≤ 35840 := by
    rcases Nat.eq_zero_or_pos buf.length with e | e
    · omega
    · have := a1 e
      omega
  have hchar : ∀ p, p < 71 → (ref_at sL F p ≠ 0 ↔
      (decide (p < 6 ∧ p < (buf.length + 511) / 512)
        || decide (p = 6 ∧ 6 < (buf.length + 511) / 512)
        || decide (7 ≤ p ∧ p - 1 < (buf.length + 511) / 512)) = true) := by
    intro p hp
    simp only [Bool.or_eq_true, decide_eq_true_eq]
    by_cases hp6 : p = 6
    · subst hp6
      constructor
      · intro hne
        left
        right
        refine ⟨rfl, ?_⟩
        by_contra hle
        apply hne
        rw [a5 (by omega)]
        exact href0 6
      · intro hg
        have hm : 6 < (buf.length + 511) / 512 := by omega
        have h7 := a4 3072 (by norm_num) (by omega)
        have hb : bpos 3072 = 7 := by decide
        rw [hb] at h7
        intro hz
        apply h7
        apply ref_at_no_indirect sL F (by omega)
        rw [← ref_at_direct sL F (show 6 < 7 by omega)]
        exact hz
    · constructor
      · intro hne
        by_contra hg
        apply hne
        rw [a3 p hp6, href0]
        intro x hx1 hx2 hpx
        apply hg
        unfold bpos at hpx
        split at hpx
        · left; left
          omega
        · right
          omega
      · intro hg hz
        rcases hg with (⟨h1, h2⟩ | ⟨h1, _⟩) | ⟨h1, h2⟩
        · apply a4 (512 * (p : Int)) (by omega) (by omega)
          have : bpos (512 * (p : Int)) = p := by
            unfold bpos
            rw [if_pos (by omega)]
            omega
          rw [this]
          exact hz
        · exact hp6 h1
        · apply a4 (512 * ((p : Int) - 1)) (by omega) (by omega)
          have : bpos (512 * ((p : Int) - 1)) = p := by
            unfold bpos
            rw [if_neg (by omega)]
            omega
          rw [this]
          exact hz
  have hcount : nrefs sL F = (buf.length + 511) / 512
      + (if (buf.length + 511) / 512 > 6 then 1 else 0) := by
    unfold nrefs
    rw [count_refs_countP sL F _ 71 hchar]
    exact count_positions _ (by omega)
  have h0 : nrefs s F = 0 := count_refs_zero s F href0 71
  have hu : used_blocks s1 = used_blocks sL := by rw [hs1]; rfl
  have hcnt := g.count
  rw [hu]
  omega

/-- C6, the instance of the claim: 3585 bytes (seven blocks and one byte) written at offset
0 of the empty file `/f` of the image `ex_g` take 9 blocks: 6 direct blocks, the indirect
block and 2 blocks listed in it. -/
theorem C6_sequential_write_blocks_witness :
    Reachable ex_g ∧ strip_ansi_codes (str "/f") PATH_MAX = some (str "/f") ∧
    get_inode_from_path ex_g (str "/f") = path_result.found 1 ∧
    (∀ i, (ex_g.inodes 1).blocks i = 0) ∧
    (∃ s1, wfs_write ex_g (str "/f") (List.replicate 3585 0) 0 2 = some (3585, s1)) ∧
    used_blocks (after (wfs_write ex_g (str "/f") (List.replicate 3585 0) 0 2))
      = used_blocks ex_g + 9 := by
  have hc : strip_ansi_codes (str "/f") PATH_MAX = some (str "/f") := by decide!
  have hr : get_inode_from_path ex_g (str "/f") = path_result.found 1 := by decide!
  have hlen : (List.replicate 3585 0 : List Nat).length = 3585 := List.length_replicate _ _
  have hw : ∃ s1, wfs_write ex_g (str "/f") (List.replicate 3585 0) 0 2
      = some (((List.replicate 3585 0 : List Nat).length : Int), s1) := by
    obtain ⟨sL, _, _, h⟩ := wfs_write_fits (reachable_inv reachable_ex_g) hc hr (by decide!)
      (show used_blocks ex_g + 71 ≤ ex_g.sb.num_data_blocks by decide!) (le_refl _)
      (show (0 : Int) + (List.replicate 3585 0 : List Nat).length ≤ 35840 by
        rw [hlen]; norm_num) 2
    exact ⟨_, h⟩
  have h := C6_sequential_write_blocks reachable_ex_g (str "/f") (str "/f")
    (List.replicate 3585 0) 1 2 _ hc hr (fun _ => rfl) (some_after_of_exists hw)
  rw [hlen] at h hw
  exact ⟨reachable_ex_g, hc, hr, fun _ => rfl, hw, h⟩

end WFS

namespace WFS

set_option maxRecDepth 1000000

/-! ### The image with a full inode table -/

end WFS

namespace WFS

set_option maxRecDepth 1000000

/-- C19 (dot and dot-dot): in an image reachable from a freshly formatted one, let the path
`P` resolve to the directory `d`. Then `P/.` resolves to `d`; and for every live dentry of
`d` that carries a component name `c` (a name without `'/'` other than `.` and `..`) and
names a directory, `P/c/..` resolves to `d`: the `..` returns to the inode visited before
`c`. A trailing slash after a non-empty path and a repeated slash anywhere never change
the result of the resolver, on any image. -/
theorem C19_dot_and_dotdot {s : Image} (hs : Reachable s) (P : List Nat) (d : Nat)
    (hP : get_inode_from_path s P = path_result.found d)
    (hd : S_ISDIR (s.inodes d).mode = true) :
    get_inode_from_path s (P ++ SLASH :: [DOT]) = path_result.found d ∧
    (∀ c p, c ≠ [DOT] → c ≠ [DOT, DOT] → SLASH ∉ c → is_slot s d p → slot_hit s.data c p →
      S_ISDIR (s.inodes (dentry_num s.data p).toNat).mode = true →
      get_inode_from_path s (P ++ SLASH :: c ++ SLASH :: [DOT, DOT]) = path_result.found d) ∧
    (∀ (s1 : Image) (path : List Nat), path ≠ [] →
      get_inode_from_path s1 (path ++ [SLASH]) = get_inode_from_path s1 path) ∧
    (∀ (s1 : Image) (a b : List Nat),
      get_inode_from_path s1 (a ++ SLASH :: SLASH :: b) =
        get_inode_from_path s1 (a ++ SLASH :: b)) := by
  have hinv := reachable_inv hs
  obtain ⟨hh, hl, hw⟩ := walk_of_resolve hP
  obtain ⟨st, a, b, c⟩ := walk_append hinv (path_tokens P) 0 [0] d rfl hl hw
  refine ⟨?_, ?_, fun s1 path hne => resolve_trailing_slash s1 hne,
    fun s1 a b => resolve_double_slash s1 a b⟩
  · obtain ⟨h1, h2⟩ := head_append_slash hh [DOT]
    have h3 : (P ++ SLASH :: [DOT]).head? = some SLASH := by
      obtain ⟨tl, e⟩ := head_cons hh
      rw [e]; rfl
    rw [resolve_eq_walk h2 h3 hl, path_tokens_join, c]
    have : path_tokens [DOT] = [[DOT]] := by decide
    rw [this]
    simp [walk, hd]
  · intro nm p hn1 hn2 hns hp hit hcd
    have hne : nm ≠ [] := fun e => not_hit_nil (e ▸ hit)
    obtain ⟨tl, e⟩ := head_cons hh
    have h2 : P ++ SLASH :: nm ++ SLASH :: [DOT, DOT] ≠ [SLASH] := by
      intro hx
      have := congrArg List.length hx
      rw [e] at this
      simp at this
    have h3 : (P ++ SLASH :: nm ++ SLASH :: [DOT, DOT]).head? = some SLASH := by
      rw [e]; rfl
    rw [resolve_eq_walk h2 h3 hl, path_tokens_join, path_tokens_snoc P hne hns,
      List.append_assoc, c]
    have : path_tokens [DOT, DOT] = [[DOT, DOT]] := by decide
    rw [this]
    obtain ⟨_, hstep⟩ := walk_step hinv a b hd hn1 hn2 hp hit [[DOT, DOT]]
    simp only [List.singleton_append]
    rw [hstep]
    obtain ⟨tl1, e1⟩ := head_cons a
    subst e1
    simp [walk, hcd]

/-- C19, an instance: in the image with the directory `/a`, the paths `/.`, `/a/..`, `//`
and `//a/..` resolve to the root. -/
theorem C19_dot_and_dotdot_witness :
    get_inode_from_path ex_af (str "/" ++ SLASH :: [DOT]) = path_result.found 0 ∧
    get_inode_from_path ex_af (str "/" ++ SLASH :: str "a" ++ SLASH :: [DOT, DOT])
      = path_result.found 0 := by
  have h := C19_dot_and_dotdot reachable_ex_af (str "/") 0 (by decide!) (by decide!)
  refine ⟨h.1, h.2.1 (str "a") (ex_af.sb.d_blocks_ptr) (by decide) (by decide) (by decide)
    ⟨0, 0, by decide, by decide, by decide!, by decide!⟩ ⟨by decide!, by decide!⟩ (by decide!)⟩

/-- C11 (fails on the code): in the image with the directory `/a`, the path `/a` resolves
to inode 1, a directory, and `wfs_unlink("/a")` returns 0, not `-EISDIR`: the branch for a
directory target ends in `return 0`. The image is left alone: the dentry still resolves
and both bitmaps are as before. -/
theorem C11_unlink_directory_returns_zero :
    Reachable ex_a ∧
    get_inode_from_path ex_a (str "/a") = path_result.found 1 ∧
    S_ISDIR (ex_a.inodes 1).mode = true ∧
    (wfs_unlink ex_a (str "/a") 3).map Prod.fst = some 0 ∧
    get_inode_from_path (after (wfs_unlink ex_a (str "/a") 3)) (str "/a") = path_result.found 1 ∧
    (after (wfs_unlink ex_a (str "/a") 3)).i_bitmap 0 = ex_a.i_bitmap 0 ∧
    (after (wfs_unlink ex_a (str "/a") 3)).d_bitmap 0 = ex_a.d_bitmap 0 := by
  refine ⟨reachable_ex_a, ?_, ?_, ?_, ?_, ?_, ?_⟩ <;> decide!

/-- C20 (fails on the code): for 32 inodes and 32 data blocks the inode table starts at
byte 56 and the data region ends at byte 32824. On an image file of exactly 32824 bytes
`setup_sb` returns 0 and `wfs_mkfs` returns -1; one byte more and the image is accepted.
For all arguments the value of `setup_sb` is 1 exactly when the end of the data region is
strictly below the file size (the comparison is `<`, not `<=`). -/
theorem C20_exact_size_is_refused :
    (setup_sb 32 32 32824).map
      (fun r => (r.1.i_blocks_ptr + 512 * (r.1.num_inodes : Int) +
        512 * (r.1.num_data_blocks : Int), r.2)) = some (32824, 0) ∧
    (wfs_mkfs blank 32 32 32824 0 0).map Prod.fst = some (-1) ∧
    (wfs_mkfs blank 32 32 32825 0 0).map Prod.fst = some 0 ∧
    (∀ (inodes blocks sz : Nat) (r : wfs_sb × Int), setup_sb inodes blocks sz = some r →
      r.2 = if r.1.i_blocks_ptr + 512 * (r.1.num_inodes : Int) +
          512 * (r.1.num_data_blocks : Int) < sz then 1 else 0) := by
  refine ⟨by decide!, by decide!, by decide!, ?_⟩
  intro inodes blocks sz r h
  obtain ⟨sb, ok⟩ := r
  exact (setup_sb_accepts h).2.2

/-- C14 (statfs): in an image reachable from a freshly formatted one, with `D` data blocks
and `I` inodes, `wfs_statfs` returns 0 and stores `f_bfree = f_bavail =` the number of
clear bits among the first `D` bits of the data bitmap, `f_ffree =` the number of clear
bits among the first `I` bits of the inode bitmap, `f_blocks = D`, `f_files = I`,
`f_bsize = 512` and `f_namemax = 28`; so `f_bfree` plus the number of set bits among the
first `D` bits is `D`; the image is the same afterwards. -/
theorem C14_statfs_counts {s : Image} (hs : Reachable s) (path : List Nat) (st : statvfs) :
    (wfs_statfs s path st).1 = 0 ∧
    (wfs_statfs s path st).2.1.f_bfree = clear_bits s.d_bitmap s.sb.num_data_blocks ∧
    (wfs_statfs s path st).2.1.f_bavail = clear_bits s.d_bitmap s.sb.num_data_blocks ∧
    (wfs_statfs s path st).2.1.f_ffree = clear_bits s.i_bitmap s.sb.num_inodes ∧
    (wfs_statfs s path st).2.1.f_blocks = s.sb.num_data_blocks ∧
    (wfs_statfs s path st).2.1.f_files = s.sb.num_inodes ∧
    (wfs_statfs s path st).2.1.f_bsize = 512 ∧
    (wfs_statfs s path st).2.1.f_namemax = 28 ∧
    (wfs_statfs s path st).2.1.f_bfree + set_bits s.d_bitmap s.sb.num_data_blocks
      = s.sb.num_data_blocks ∧
    (wfs_statfs s path st).2.2 = s := by
  have hsb := (reachable_inv hs).b.sb
  obtain ⟨h1, h2, _, _, h5, h6⟩ := hsb
  have hd := count_free_eq s.d_bitmap h2 h6
  have hi := count_free_eq s.i_bitmap h1 h5
  refine ⟨rfl, hd, hd, hi, rfl, rfl, rfl, rfl, ?_, rfl⟩
  show count_free s.d_bitmap s.sb.num_data_blocks _ 0 0 + _ = _
  rw [hd]
  exact clear_bits_add_set_bits _ _

/-- C14, an instance: in the image with `/a/f` (64 data blocks, two of them in use, and 32
inodes, three of them in use) `statfs` reports 62 free blocks and 29 free inodes. -/
theorem C14_statfs_counts_witness :
    (wfs_statfs ex_af [] ⟨0, 0, 0, 0, 0, 0, 0, 0, 0, 0, 0⟩).2.1.f_bfree = 62 ∧
    (wfs_statfs ex_af [] ⟨0, 0, 0, 0, 0, 0, 0, 0, 0, 0, 0⟩).2.1.f_ffree = 29 := by
  have h := C14_statfs_counts reachable_ex_af [] ⟨0, 0, 0, 0, 0, 0, 0, 0, 0, 0, 0⟩
  refine ⟨?_, ?_⟩
  · rw [h.2.1]; decide!
  · rw [h.2.2.2.1]; decide!

/-- C12 (xattr round trip): in an image reachable from a freshly formatted one let the
path resolve to an inode. The colour table lists the 12 names none, red, green, blue,
yellow, magenta, cyan, white, black, orange, purple, gray. For each name `c` with code
`code` and every value `v` that is `c` up to the case of its letters,
`wfs_setxattr(path, "user.color", v, strlen(v), 0)` returns 0 and stores `code`; then
`wfs_getxattr(path, "user.color", NULL, 0)` returns `strlen(c) + 1` and writes nothing,
and with a buffer of at least `strlen(c) + 1` bytes it writes `c` followed by a zero byte
and returns `strlen(c) + 1`. Another name of the table has another code and is reported
under another name (purple and magenta included). -/
theorem C12_xattr_round_trip {s : Image} (hs : Reachable s) (path clean : List Nat)
    (inode : Nat) (now : Int) (hc : strip_ansi_codes path PATH_MAX = some clean)
    (hr : get_inode_from_path s clean = path_result.found inode) :
    color_table.map Prod.fst =
      [str "none", str "red", str "green", str "blue", str "yellow", str "magenta",
       str "cyan", str "white", str "black", str "orange", str "purple", str "gray"] ∧
    ∀ c code, (c, code) ∈ color_table → ∀ v, v.map tolower = c →
      ∃ s1, wfs_setxattr s path (str "user.color") v now = some (0, s1) ∧
        (s1.inodes inode).color = code ∧
        wfs_getxattr s1 path (str "user.color") 0 = some ((c.length : Int) + 1, none, s1) ∧
        (∀ size, c.length + 1 ≤ size →
          wfs_getxattr s1 path (str "user.color") size
            = some ((c.length : Int) + 1, some (c ++ [0]), s1)) ∧
        (∀ c2 code2, (c2, code2) ∈ color_table → c2 ≠ c →
          code2 ≠ code ∧ (wfs_color_from_code code2).2 ≠ c) := by
  have hinv := reachable_inv hs
  refine ⟨by decide, ?_⟩
  intro c code hm v hv
  refine ⟨_, wfs_setxattr_color now hc hr hm hv, ?_, ?_, ?_, ?_⟩
  · rw [set_inode_same]
  · have hr1 : get_inode_from_path
        (set_inode s inode { s.inodes inode with color := code, ctim := now }) clean
        = path_result.found inode := by
      have e1 : get_inode_from_path
          (set_inode s inode { s.inodes inode with color := code, ctim := now }) clean
          = get_inode_from_path s clean := by
        refine resolve_set_fields hinv inode _ ?_ ?_ clean <;> rfl
      rw [e1]
      exact hr
    exact (wfs_getxattr_color hc hr1 hm (by rw [set_inode_same])).1
  · have hr1 : get_inode_from_path
        (set_inode s inode { s.inodes inode with color := code, ctim := now }) clean
        = path_result.found inode := by
      have e1 : get_inode_from_path
          (set_inode s inode { s.inodes inode with color := code, ctim := now }) clean
          = get_inode_from_path s clean := by
        refine resolve_set_fields hinv inode _ ?_ ?_ clean <;> rfl
      rw [e1]
      exact hr
    exact (wfs_getxattr_color hc hr1 hm (by rw [set_inode_same])).2
  · intro c2 code2 hm2 hne
    refine ⟨color_table_distinct (c, code) hm (c2, code2) hm2 hne, ?_⟩
    rw [(color_table_facts (c2, code2) hm2).2.2.2.2]
    exact hne

/-- C12, an instance: on the file `/a/f` the value `"RED"` is accepted, and `getxattr` with
a buffer of 4 bytes returns 4 and writes the bytes `r`, `e`, `d`, 0. -/
theorem C12_xattr_round_trip_witness :
    ∃ s1, wfs_setxattr ex_af (str "/a/f") (str "user.color") (str "RED") 5 = some (0, s1) ∧
      wfs_getxattr s1 (str "/a/f") (str "user.color") 0 = some (4, none, s1) ∧
      wfs_getxattr s1 (str "/a/f") (str "user.color") 4 = some (4, some [114, 101, 100, 0], s1) := by
  obtain ⟨s1, h1, _, h3, h4, _⟩ :=
    (C12_xattr_round_trip reachable_ex_af (str "/a/f") (str "/a/f") 2 5 (by decide) (by decide!)).2
      (str "red") 1 (by decide) (str "RED") (by decide)
  exact ⟨s1, h1, h3, h4 4 (by decide)⟩

/-- C13 (xattr errors): let the path resolve to an inode. With an attribute name other
than `user.color`, `setxattr`, `getxattr` and `removexattr` return `-ENODATA`. With the
name `user.color`, `setxattr` returns `-EINVAL` when the value (its first 31 bytes,
lower-cased, then stripped of ANSI sequences) is not a name of the colour table, and
`getxattr` returns `-ERANGE` when `0 < size < strlen(name) + 1` for the name of the stored
colour. In each case the image, hence the colour code and `ctim` of the inode, is as
before and the buffer of the caller is not written. -/
theorem C13_xattr_errors (s : Image) (path clean : List Nat) (inode : Nat) (now : Int)
    (hc : strip_ansi_codes path PATH_MAX = some clean)
    (hr : get_inode_from_path s clean = path_result.found inode) :
    (∀ name value size, cstr name ≠ str "user.color" →
      wfs_setxattr s path name value now = some (-ENODATA, s) ∧
      wfs_getxattr s path name size = some (-ENODATA, none, s) ∧
      wfs_removexattr s path name now = some (-ENODATA, s)) ∧
    (∀ name value st, cstr name = str "user.color" →
      strip_ansi_codes ((value.take 31).map tolower) 32 = some st →
      (∀ e ∈ color_table, e.1 ≠ st) →
      wfs_setxattr s path name value now = some (-EINVAL, s)) ∧
    (∀ name size, cstr name = str "user.color" → 0 < size →
      size < (wfs_color_from_code (s.inodes inode).color).2.length + 1 →
      wfs_getxattr s path name size = some (-ERANGE, none, s)) := by
  refine ⟨?_, ?_, ?_⟩
  · intro name value size hn
    refine ⟨?_, ?_, ?_⟩
    · unfold wfs_setxattr
      simp only [hc, hr]
      rw [if_pos hn]
    · unfold wfs_getxattr
      simp only [hc, hr]
      rw [if_pos hn]
    · unfold wfs_removexattr
      simp only [hc, hr]
      rw [if_pos hn]
  · intro name value st hn hs hno
    unfold wfs_setxattr
    simp only [hc, hr]
    rw [if_neg (by rw [hn]; simp)]
    by_cases hz : value.length = 0
    · rw [if_pos hz]
    · rw [if_neg hz]
      have ht : List.take (if value.length < 32 - 1 then value.length else 32 - 1) value
          = value.take 31 := by
        split
        · rw [List.take_length, List.take_of_length_le (by omega)]
        · rfl
      rw [ht]
      simp only [hs]
      rw [parse_stripped (fun x hx => ?_) hs hno]
      obtain ⟨y, _, rfl⟩ := List.mem_map.1 hx
      exact tolower_idem y
  · intro name size hn h0 hlt
    unfold wfs_getxattr
    simp only [hc, hr]
    rw [if_neg (by rw [hn]; simp), if_neg (by omega), if_pos hlt]

/-- C13, an instance: on the file `/a/f`, whose colour is none, the attribute name
`user.colour` gives `-ENODATA`, the value `"pink"` gives `-EINVAL` and a buffer of 3 bytes
gives `-ERANGE`. -/
theorem C13_xattr_errors_witness :
    wfs_setxattr ex_af (str "/a/f") (str "user.colour") (str "red") 5 = some (-ENODATA, ex_af) ∧
    wfs_setxattr ex_af (str "/a/f") (str "user.color") (str "pink") 5 = some (-EINVAL, ex_af) ∧
    wfs_getxattr ex_af (str "/a/f") (str "user.color") 3 = some (-ERANGE, none, ex_af) := by
  have h := C13_xattr_errors ex_af (str "/a/f") (str "/a/f") 2 5 (by decide) (by decide!)
  exact ⟨(h.1 (str "user.colour") (str "red") 0 (by decide)).1,
    h.2.1 (str "user.color") (str "pink") (str "pink") (by decide) (by decide) (by decide),
    h.2.2 (str "user.color") 3 (by decide) (by decide) (by decide!)⟩

theorem reachable_ex_hello : Reachable ex_hello :=
  reachable_after reachable_ex_af _ _ _ _ (by decide!)

/-- C15 (write postcondition): in an image reachable from a freshly formatted one let the
path resolve to the inode `F`, and let `wfs_write(path, buf, len, off)` return `rc`. If `F`
is a directory, `rc = -EISDIR` and the image is unchanged. If `F` is not a directory and
the call succeeds (`rc >= 0`), then `rc` is `(int)len`, which is `len` for `len < 2^31`;
the size of `F` is the larger of the old size and `off + len`; `mtim = ctim = now`; and
`atim`, `mode`, `uid`, `gid`, `nlinks` and the colour of `F` are as before. -/
theorem C15_write_postcondition {s : Image} (hs : Reachable s) (path buf clean : List Nat)
    (off now rc : Int) (F : Nat) (s1 : Image)
    (hc : strip_ansi_codes path PATH_MAX = some clean)
    (hr : get_inode_from_path s clean = path_result.found F)
    (hw : wfs_write s path buf off now = some (rc, s1)) :
    (S_ISDIR (s.inodes F).mode = true → rc = -EISDIR ∧ s1 = s) ∧
    (S_ISDIR (s.inodes F).mode = false → 0 ≤ rc →
      rc = size_to_int buf.length ∧ (buf.length < 2 ^ 31 → rc = buf.length) ∧
      (s1.inodes F).size = max (s.inodes F).size (off + buf.length) ∧
      (s1.inodes F).mtim = now ∧ (s1.inodes F).ctim = now ∧
      (s1.inodes F).atim = (s.inodes F).atim ∧ (s1.inodes F).mode = (s.inodes F).mode ∧
      (s1.inodes F).uid = (s.inodes F).uid ∧ (s1.inodes F).gid = (s.inodes F).gid ∧
      (s1.inodes F).nlinks = (s.inodes F).nlinks ∧
      (s1.inodes F).color = (s.inodes F).color) := by
  have hinv := reachable_inv hs
  constructor
  · intro hd
    unfold wfs_write at hw
    simp only [hc, hr, hd, if_true] at hw
    injection hw with hw
    injection hw with h1 h2
    exact ⟨h1.symm, h2.symm⟩
  · intro hnd h0
    rcases wfs_write_cases hw with ⟨_, h | h⟩ | ⟨clean1, F1, ok, sL, hc1, hr1, _, hwl, hres⟩
    · rw [h] at h0; exact absurd h0 (by decide)
    · rw [h] at h0; exact absurd h0 (by decide)
    · rw [hc] at hc1
      injection hc1 with hc1
      subst hc1
      rw [hr] at hr1
      injection hr1 with hr1
      subst hr1
      have hl := (resolve_live hr).1
      obtain ⟨_, hwr⟩ := write_loop_inv hinv hl hnd buf _ off (size_to_int_le _) hwl
      obtain ⟨bl, hbl⟩ := hwr.fields
      rcases hres with ⟨_, h, _⟩ | ⟨_, _, hrc, e⟩
      · rw [h] at h0; exact absurd h0 (by decide)
      · refine ⟨hrc, fun hlt => by rw [hrc, size_to_int_eq hlt], ?_⟩
        rw [e, set_inode_same, hbl]
        refine ⟨?_, rfl, rfl, rfl, rfl, rfl, rfl, rfl, rfl⟩
        simp only
        rw [max_def]
        split <;> split <;> omega

/-- C15, an instance: writing `"hello"` at offset 0 to the new file `/a/f` returns 5 and
sets its size to 5, which `getattr` reports. -/
theorem C15_write_postcondition_witness :
    wfs_write ex_af (str "/a/f") (str "hello") 0 2 = some (5, ex_hello) ∧
    (ex_hello.inodes 2).size = max (ex_af.inodes 2).size (0 + ((str "hello").length : Int)) ∧
    (ex_hello.inodes 2).mtim = 2 ∧
    (wfs_getattr ex_hello (str "/a/f")).map (fun r => (r.1, r.2.1.map (fun x => x.st_size)))
      = some (0, some 5) := by
  have hw : wfs_write ex_af (str "/a/f") (str "hello") 0 2 = some (5, ex_hello) :=
    some_after (by decide!)
  have h := (C15_write_postcondition reachable_ex_af (str "/a/f") (str "hello") (str "/a/f")
    0 2 5 2 ex_hello (by decide) (by decide!) hw).2 (by decide!) (by decide)
  exact ⟨hw, h.2.2.1, h.2.2.2.1, by decide!⟩

/-- C16 (name-length boundary): in an image reachable from a freshly formatted one let
`parent` be a live directory. For a name of fewer than `MAX_NAME` bytes, so for one of
exactly 27, that no live slot of `parent` carries: if `parent` has a vacant slot, or a
direct entry without a block while a data block is free, `add_dentry` returns 0 and
afterwards a slot of `parent` holds the bytes of the name followed by a zero byte, and
`num`. For a name of 28 bytes or more `add_dentry` returns 1 and the image (directory
blocks, size and time stamps of `parent`, both bitmaps) is unchanged. -/
theorem C16_name_length_boundary {s : Image} (hs : Reachable s) (parent : Nat) (num : Int)
    (name : List Nat) (now : Int) (hd : is_dir s parent) :
    (name.length < MAX_NAME →
      ((∃ p, is_slot s parent p ∧ dentry_vacant s.data p = true) ∨
        ((∃ i, i < 6 ∧ (s.inodes parent).blocks i = 0) ∧
          ∃ n, n < s.sb.num_data_blocks ∧ bit_set s.d_bitmap n = false)) →
      (∀ p, is_slot s parent p → ¬ slot_hit s.data name p) →
      ∃ s1 p, add_dentry s parent num name now = (0, s1) ∧ is_slot s1 parent p ∧
        (∀ i : Nat, i < name.length → s1.data (p + i) = name.getD i 0) ∧
        s1.data (p + name.length) = 0 ∧
        (-2 ^ 31 ≤ num → num < 2 ^ 31 → dentry_num s1.data p = num)) ∧
    (MAX_NAME ≤ name.length → add_dentry s parent num name now = (1, s)) := by
  have hinv := reachable_inv hs
  constructor
  · intro hlen hroom hno
    obtain ⟨s1, h1⟩ := add_dentry_success hinv.b num now hd.2 hlen hroom hno
    obtain ⟨p, hp, hbytes, hnum, _, _⟩ := add_dentry_stored hinv.b h1
    refine ⟨s1, p, h1, hp, fun i hi => ?_, ?_, hnum⟩
    · rw [hbytes i (by omega), List.getD_append _ _ _ _ hi]
    · rw [hbytes name.length (le_refl _), List.getD_append_right _ _ _ _ (le_refl _)]
      simp
  · intro hlen
    unfold add_dentry
    rw [hd.2]
    simp only [Bool.not_true, Bool.false_eq_true, if_false]
    rw [if_pos hlen]

/-- C16, an instance: on the freshly formatted image a name of 27 characters is added to
the root directory, and one of 28 characters is refused with the image unchanged. -/
theorem C16_name_length_boundary_witness :
    (∃ s1 p, add_dentry img0 0 5 name27 7 = (0, s1) ∧ is_slot s1 0 p ∧
      (∀ i : Nat, i < name27.length → s1.data (p + i) = name27.getD i 0) ∧
      s1.data (p + name27.length) = 0 ∧
      (-2 ^ 31 ≤ (5 : Int) → (5 : Int) < 2 ^ 31 → dentry_num s1.data p = 5)) ∧
    add_dentry img0 0 5 name28 7 = (1, img0) := by
  have hz : ∀ i, i < 6 → (img0.inodes 0).blocks i = 0 := by decide!
  have hd : is_dir img0 0 := ⟨⟨by decide!, by decide!⟩, by decide!⟩
  refine ⟨(C16_name_length_boundary reachable_img0 0 5 name27 7 hd).1 (by decide)
    (Or.inr ⟨⟨0, by decide, by decide!⟩, 0, by decide!, by decide!⟩) ?_,
    (C16_name_length_boundary reachable_img0 0 5 name28 7 hd).2 (by decide)⟩
  intro p ⟨i, j, hi, _, hb, _⟩
  exact absurd (hz i hi) hb

/-- C9 (rmdir): in an image reachable from a freshly formatted one, when `wfs_rmdir(path)`
returns 0, the cleaned path resolved to a directory `child` before the call; after the
call it no longer resolves (`-ENOENT`), the inode-bitmap bit of `child` is clear, and every
direct block the directory had is a data block whose bitmap bit is clear and whose 512
bytes are zero. (`rmdir("/")` returns `-EPERM`, so the path is not `"/"`.) -/
theorem C9_rmdir_frees_directory {s : Image} (hs : Reachable s) (path : List Nat) (now : Int)
    (s1 : Image) (h : wfs_rmdir s path now = some (0, s1)) :
    ∃ clean_path clean child, strip_ansi_codes path PATH_MAX = some clean_path ∧
      strip_ansi_codes clean_path PATH_MAX = some clean ∧
      get_inode_from_path s clean = path_result.found child ∧
      S_ISDIR (s.inodes child).mode = true ∧
      get_inode_from_path s1 clean = path_result.error (-ENOENT) ∧
      bit_set s1.i_bitmap child = false ∧
      ∀ i, i < 6 → (s.inodes child).blocks i ≠ 0 →
        (∃ m, m < s.sb.num_data_blocks ∧ (s.inodes child).blocks i = block_off s m ∧
          bit_set s1.d_bitmap m = false) ∧
        ∀ q, (s.inodes child).blocks i ≤ q → q < (s.inodes child).blocks i + 512 →
          s1.data q = 0 :=
  wfs_rmdir_gone (reachable_inv hs) h

/-- C9, an instance: `rmdir("/a")` on the image with the directory `/a` (which has one
block, holding the dentry of `/a/f`) returns 0; afterwards `/a` does not resolve, inode 1
is free and data block 1 is free. -/
theorem C9_rmdir_frees_directory_witness :
    (∃ clean_path clean child, strip_ansi_codes (str "/a") PATH_MAX = some clean_path ∧
      strip_ansi_codes clean_path PATH_MAX = some clean ∧
      get_inode_from_path ex_af clean = path_result.found child ∧
      S_ISDIR (ex_af.inodes child).mode = true ∧
      get_inode_from_path (after (wfs_rmdir ex_af (str "/a") 3)) clean
        = path_result.error (-ENOENT) ∧
      bit_set (after (wfs_rmdir ex_af (str "/a") 3)).i_bitmap child = false ∧
      ∀ i, i < 6 → (ex_af.inodes child).blocks i ≠ 0 →
        (∃ m, m < ex_af.sb.num_data_blocks ∧ (ex_af.inodes child).blocks i = block_off ex_af m ∧
          bit_set (after (wfs_rmdir ex_af (str "/a") 3)).d_bitmap m = false) ∧
        ∀ q, (ex_af.inodes child).blocks i ≤ q → q < (ex_af.inodes child).blocks i + 512 →
          (after (wfs_rmdir ex_af (str "/a") 3)).data q = 0) ∧
    (ex_af.inodes 1).blocks 0 = block_off ex_af 1 ∧
    bit_set ex_af.d_bitmap 1 = true ∧
    bit_set (after (wfs_rmdir ex_af (str "/a") 3)).d_bitmap 1 = false :=
  ⟨C9_rmdir_frees_directory reachable_ex_af (str "/a") 3 _ (some_after (by decide!)),
    by decide!, by decide!, by decide!⟩

/-- The path conditions of the last part of C7 matter: `mknod("/f/")` on the fresh image
returns 0 and `unlink("/f/")` after it returns `-ENOENT`; `mknod("/")` returns 0 (it stores
a dentry named `/`), `unlink("/")` after it returns 0 without removing anything, and a
further `mknod("/")` returns `-EEXIST`. -/
theorem unlink_needs_plain_path :
    (wfs_mknod img0 (str "/f/") 0o644 1 0 0).map Prod.fst = some 0 ∧
    (wfs_unlink (after (wfs_mknod img0 (str "/f/") 0o644 1 0 0)) (str "/f/") 2).map Prod.fst
      = some (-ENOENT) ∧
    (wfs_mknod img0 (str "/") 0o644 1 0 0).map Prod.fst = some 0 ∧
    (wfs_unlink (after (wfs_mknod img0 (str "/") 0o644 1 0 0)) (str "/") 2).map Prod.fst
      = some 0 ∧
    (wfs_mknod (after (wfs_unlink (after (wfs_mknod img0 (str "/") 0o644 1 0 0)) (str "/") 2))
      (str "/") 0o644 3 0 0).map Prod.fst = some (-EEXIST) := by
  refine ⟨?_, ?_, ?_, ?_, ?_⟩ <;> decide!

theorem ex_f_strip : strip_ansi_codes (str "/f") PATH_MAX = some (str "/f") := by decide!

theorem ex_f_resolves : get_inode_from_path ex_f (str "/f") = path_result.found 1 := by decide!

theorem ex_f_regular : S_ISDIR (ex_f.inodes 1).mode = false := by decide!

theorem ex_f_no_blocks : ∀ i, i < 7 → (ex_f.inodes 1).blocks i = 0 := by decide!

theorem ex_f2000_writes : writes ex_f (str "/f") [([7], 2000, 2)] = some ex_f2000 := by
  have h : wfs_write ex_f (str "/f") [7] 2000 2 =
      some (1, after (wfs_write ex_f (str "/f") [7] 2000 2)) := some_after (by decide!)
  simp only [writes]
  rw [h]
  rfl

theorem ex_f2000_size : (ex_f2000.inodes 1).size = 2001 := by decide!

/-- C5 (hole read and clamping): in an image reachable from a freshly formatted one let the
path name the regular file `F`, and let `0 <= off` and `len < 2^31`. Then `wfs_read`
returns the number of bytes it stored, which is `min(len, size - off)` when `off < size`
and 0 when `off >= size`. Moreover, when `F` has no block (as after `wfs_mknod`) and the
image `sW` comes from a history `ws` of calls of `wfs_write` on the path, whatever they
returned, the read on `sW` is clamped in the same way and every byte it returns at a file
position outside the ranges `[off_i, off_i + len_i)` of these writes is zero, whether the
block of the position was never attached or was attached by a write to another part of
it. -/
theorem C5_hole_read_and_clamp {s : Image} (hs : Reachable s) (path : List Nat)
    {clean : List Nat} {F : Nat}
    (hc : strip_ansi_codes path PATH_MAX = some clean)
    (hr : get_inode_from_path s clean = path_result.found F)
    (hreg : S_ISDIR (s.inodes F).mode = false)
    (len : Nat) (off now : Int) (h0 : 0 ≤ off) (hlen : len < 2 ^ 31) :
    (∃ out s1, wfs_read s path len off now = some ((out.length : Int), out, s1) ∧
      (off < (s.inodes F).size →
        (out.length : Int) = min (len : Int) ((s.inodes F).size - off)) ∧
      ((s.inodes F).size ≤ off → out.length = 0)) ∧
    ∀ (ws : List (List Nat × Int × Int)) (sW : Image),
      (∀ i, i < 7 → (s.inodes F).blocks i = 0) → writes s path ws = some sW →
      ∃ out s1, wfs_read sW path len off now = some ((out.length : Int), out, s1) ∧
        (off < (sW.inodes F).size →
          (out.length : Int) = min (len : Int) ((sW.inodes F).size - off)) ∧
        ((sW.inodes F).size ≤ off → out.length = 0) ∧
        ∀ i, i < out.length → ¬ written ws (off + i) → out.getD i 0 = 0 := by
  constructor
  · obtain ⟨out, s1, e, hn, _⟩ := wfs_read_spec (reachable_inv hs) hc hr hreg h0 hlen now
    refine ⟨out, s1, e, ?_, ?_⟩
    · intro hlt
      rw [hn, if_neg (by omega)]
    · intro hge
      rw [if_pos (by omega)] at hn
      exact_mod_cast hn
  · intro ws sW hnew hw
    obtain ⟨hsW, hrW, hregW, hbytes⟩ := writes_outside hc ws s sW hs hr hreg hw
    obtain ⟨out, s1, e, hn, hb⟩ := wfs_read_spec (reachable_inv hsW) hc hrW hregW h0 hlen now
    refine ⟨out, s1, e, ?_, ?_, ?_⟩
    · intro hlt
      rw [hn, if_neg (by omega)]
    · intro hge
      rw [if_pos (by omega)] at hn
      exact_mod_cast hn
    · intro i hi hnw
      rw [hb i hi, hbytes _ hnw]
      exact file_byte_no_blocks hnew _

/-- C5, an instance: `/f` was created by `mknod` and its only write is one byte at offset
2000; the read of 2000 bytes at offset 0 returns 2000 and every byte it stores is zero. -/
theorem C5_hole_read_and_clamp_witness :
    ∃ out s1, wfs_read ex_f2000 (str "/f") 2000 0 3 = some (2000, out, s1) ∧
      out.length = 2000 ∧ ∀ i, i < 2000 → out.getD i 0 = 0 := by
  obtain ⟨out, s1, e, hn, _, hz⟩ :=
    (C5_hole_read_and_clamp reachable_ex_f (str "/f") ex_f_strip ex_f_resolves ex_f_regular
      2000 0 3 (by decide) (by decide)).2 [([7], 2000, 2)] ex_f2000 ex_f_no_blocks
      ex_f2000_writes
  have hlen : out.length = 2000 := by
    have := hn (by rw [ex_f2000_size]; decide)
    rw [ex_f2000_size] at this
    simp only [sub_zero, Nat.cast_ofNat] at this
    have h2 : min (2000 : Int) 2001 = 2000 := by decide
    rw [h2] at this
    exact_mod_cast this
  refine ⟨out, s1, ?_, hlen, ?_⟩
  · rw [e, hlen]
    rfl
  · intro i hi
    apply hz i (by omega)
    rintro ⟨w, hw, h1, h2⟩
    simp only [List.mem_singleton] at hw
    subst hw
    simp only [zero_add] at h1
    omega

end WFS

namespace WFS

set_option maxRecDepth 1000000

/-! ### The formatter and the allocators -/

/-- C27 (first-fit bitmap allocation): for a bitmap of `len` 32-bit words whose indices
fit `uint32_t`, when `allocate_block` returns `k`, `k` is the smallest index below
`32 * len` whose bit is clear, bit `k` is set afterwards and every other bit is as before,
and `free_bitmap(k)` restores the bitmap; `allocate_block` returns `-1` (here `none`)
exactly when all `32 * len` bits are set, and then the bitmap is unchanged; `free_bitmap(k)`
clears bit `k` and leaves every other bit as it was. -/
theorem C27_first_fit_allocation (bm : Nat → Nat) (len : Nat) (hw : ∀ i, bm i < 2 ^ 32)
    (hlen : 32 * len ≤ 2 ^ 32) :
    (∀ k bm1, allocate_block bm len = (some k, bm1) →
      k < 32 * len ∧ k < 2 ^ 32 ∧ bit_set bm k = false ∧ (∀ j, j < k → bit_set bm j = true) ∧
      (∀ j, bit_set bm1 j = (bit_set bm j || decide (j = k))) ∧
      (∀ i, bm1 i < 2 ^ 32) ∧ free_bitmap k bm1 = bm) ∧
    (∀ bm1, allocate_block bm len = (none, bm1) →
      bm1 = bm ∧ ∀ j, j < 32 * len → bit_set bm j = true) ∧
    ((∀ j, j < 32 * len → bit_set bm j = true) → allocate_block bm len = (none, bm)) ∧
    (∀ k j, bit_set (free_bitmap k bm) j = (bit_set bm j && !decide (j = k))) := by
  refine ⟨?_, ?_, ?_, ?_⟩
  · intro k bm1 h
    obtain ⟨h1, h2, h3⟩ := allocate_block_some h
    refine ⟨h1, by omega, h2, allocate_block_first h, ?_, ?_, ?_⟩
    · intro j
      rw [h3]
      exact bit_set_upd_set bm k j
    · rw [h3]
      exact upd_set_lt bm k hw
    · rw [h3]
      exact free_bitmap_set bm k hw h2
  · intro bm1 h
    exact ⟨allocate_block_none h, allocate_block_full hw h⟩
  · intro hall
    cases h : allocate_block bm len with
    | mk r bm1 =>
      cases r with
      | none => rw [allocate_block_none h]
      | some k =>
        obtain ⟨h1, h2, _⟩ := allocate_block_some h
        rw [hall k h1] at h2
        exact Bool.noConfusion h2
  · intro k j
    exact bit_set_free_bitmap bm k j

/-- C27, an instance: in the bitmap of two words `0xFFFFFFFF` and `5` the first clear bit
is bit 33; `allocate_block` returns 33, and freeing 33 afterwards restores the bitmap. -/
theorem C27_first_fit_allocation_witness :
    (allocate_block (fun i => if i = 0 then 0xFFFFFFFF else 5) 2).1 = some 33 ∧
    (∀ j, j < 33 → bit_set (fun i => if i = 0 then 0xFFFFFFFF else 5) j = true) ∧
    free_bitmap 33 (allocate_block (fun i => if i = 0 then 0xFFFFFFFF else 5) 2).2
      = (fun i => if i = 0 then 0xFFFFFFFF else 5) := by
  have h1 : (allocate_block (fun i => if i = 0 then 0xFFFFFFFF else 5) 2).1 = some 33 := by
    decide
  have h := (C27_first_fit_allocation (fun i => if i = 0 then 0xFFFFFFFF else 5) 2
    (fun i => by show (if i = 0 then 0xFFFFFFFF else 5) < 2 ^ 32; split <;> norm_num)
    (by norm_num)).1 33 _ (Prod.ext h1 rfl)
  exact ⟨h1, h.2.2.2.1, h.2.2.2.2.2.2⟩

/-- C23 (`retrieve_inode`): the result is `NULL` exactly when `k < 0`, or
`k >= num_inodes`, or bit `k mod 32` (least significant first) of word `k div 32` of the
inode bitmap is clear; otherwise it is the pointer to inode block `k`, whose byte offset is
`i_blocks_ptr + k * 512`. The function has no image among its results: it writes neither a
bitmap nor an inode. -/
theorem C23_retrieve_inode_result (s : Image) (k : Int) :
    (retrieve_inode s k = none ↔
      (k < 0 ∨ (s.sb.num_inodes : Int) ≤ k ∨
        (s.i_bitmap (k.toNat / 32)).testBit (k.toNat % 32) = false)) ∧
    (∀ j, retrieve_inode s k = some j →
      (j : Int) = k ∧ inode_off s j = s.sb.i_blocks_ptr + k * 512) := by
  constructor
  · unfold retrieve_inode
    constructor
    · intro h
      split at h
      · next h1 =>
        rcases h1 with h1 | h1
        · exact Or.inl h1
        · by_cases hk : k < 0
          · exact Or.inl hk
          · exact Or.inr (Or.inl (by omega))
      · split at h
        · next h2 => exact Or.inr (Or.inr ((shift_and_one _ _).1 h2))
        · exact absurd h (by simp)
    · intro h
      split
      · rfl
      · next h1 =>
        rcases h with h | h | h
        · exact absurd (Or.inl h) h1
        · exact absurd (Or.inr (by omega)) h1
        · rw [if_pos ((shift_and_one _ _).2 h)]
  · intro j h
    obtain ⟨e, _⟩ := retrieve_inode_some h
    refine ⟨e.symm, ?_⟩
    unfold inode_off
    rw [e]

/-- C22 (counterexample): for 4194304 requested inodes the product `inodes * BLOCK_SIZE`
is `2^31`, which is not a value of the type `int` in which `setup_sb` computes it: the call
has no defined result. -/
theorem C22_large_count_overflows : setup_sb 4194304 0 4294967296 = none := by
  rfl

/-- C22 (amended: formatter layout for counts whose byte sizes fit `int`). When
`512 * (I + D) < 2^31` for the rounded counts `I` and `D`, `setup_sb` stores
`num_inodes = I`, the least multiple of 32 that is at least `i`, and `num_data_blocks = D`,
the least multiple of 32 that is at least `b`, and sets `i_bitmap_ptr = sizeof(struct
wfs_sb) = 48`, `d_bitmap_ptr = i_bitmap_ptr + I/8`, `i_blocks_ptr = d_bitmap_ptr + D/8` and
`d_blocks_ptr = i_blocks_ptr + I*512`; the bitmaps have exactly one bit per inode and per
block, so the five regions follow each other in this order without overlap and without
gaps. -/
theorem C22_formatter_layout (i b sz : Nat)
    (h : 512 * (roundup i 32 + roundup b 32) < 2 ^ 31) :
    ∃ sb rc, setup_sb i b sz = some (sb, rc) ∧
      sb.num_inodes % 32 = 0 ∧ i ≤ sb.num_inodes ∧ sb.num_inodes < i + 32 ∧
      sb.num_data_blocks % 32 = 0 ∧ b ≤ sb.num_data_blocks ∧ sb.num_data_blocks < b + 32 ∧
      sb.i_bitmap_ptr = 48 ∧
      sb.d_bitmap_ptr = sb.i_bitmap_ptr + (sb.num_inodes : Int) / 8 ∧
      sb.i_blocks_ptr = sb.d_bitmap_ptr + (sb.num_data_blocks : Int) / 8 ∧
      sb.d_blocks_ptr = sb.i_blocks_ptr + (sb.num_inodes : Int) * 512 ∧
      8 * ((sb.num_inodes : Int) / 8) = sb.num_inodes ∧
      8 * ((sb.num_data_blocks : Int) / 8) = sb.num_data_blocks ∧
      0 < sb.i_bitmap_ptr ∧ sb.i_bitmap_ptr ≤ sb.d_bitmap_ptr ∧
      sb.d_bitmap_ptr ≤ sb.i_blocks_ptr ∧ sb.i_blocks_ptr ≤ sb.d_blocks_ptr := by
  obtain ⟨a0, a1, a2⟩ := roundup_spec i
  obtain ⟨b0, b1, b2⟩ := roundup_spec b
  have a3 : roundup i 32 < i + 32 := by
    unfold roundup
    split <;> omega
  have b3 : roundup b 32 < b + 32 := by
    unfold roundup
    split <;> omega
  have hok : (int_ok (roundup i 32) && int_ok (roundup b 32) &&
      int_ok (roundup i 32 * BLOCK_SIZE) && int_ok (roundup b 32 * BLOCK_SIZE) &&
      int_ok (roundup i 32 * BLOCK_SIZE + roundup b 32 * BLOCK_SIZE)) = true := by
    simp only [int_ok, BLOCK_SIZE, Bool.and_eq_true, decide_eq_true_eq]
    omega
  unfold setup_sb
  simp only [hok, Bool.not_true, Bool.false_eq_true, if_false]
  refine ⟨_, _, rfl, ?_⟩
  · simp only [BLOCK_SIZE]
    have e1 : (((roundup i 32).toNat : Nat) : Int) = roundup i 32 := Int.toNat_of_nonneg a0
    have e2 : (((roundup b 32).toNat : Nat) : Int) = roundup b 32 := Int.toNat_of_nonneg b0
    rw [e1, e2]
    refine ⟨?_, ?_, ?_, ?_, ?_, ?_, ?_, ?_, ?_, ?_, ?_, ?_, ?_, ?_, ?_, ?_⟩
    all_goals first | trivial | rfl | omega

/-- C22, an instance: 30 inodes and 33 blocks are rounded to 32 and 64; the inode bitmap
starts at byte 48, the data bitmap at 52, the inode table at 60 and the data region at
16444. -/
theorem C22_formatter_layout_witness :
    ∃ sb rc, setup_sb 30 33 100000 = some (sb, rc) ∧ sb.num_inodes = 32 ∧
      sb.num_data_blocks = 64 ∧ sb.i_bitmap_ptr = 48 ∧ sb.d_bitmap_ptr = 52 ∧
      sb.i_blocks_ptr = 60 ∧ sb.d_blocks_ptr = 16444 := by
  obtain ⟨sb, rc, h, a1, a2, a3, b1, b2, b3, c1, c2, c3, c4, _⟩ :=
    C22_formatter_layout 30 33 100000 (by decide)
  have hI : sb.num_inodes = 32 := by omega
  have hD : sb.num_data_blocks = 64 := by omega
  rw [hI] at c2 c4
  rw [hD] at c3
  refine ⟨sb, rc, h, hI, hD, c1, ?_, ?_, ?_⟩
  · rw [c2, c1]; rfl
  · rw [c3, c2, c1]; rfl
  · rw [c4, c3, c2, c1]; rfl

/-- C21 (fails on the code for the three times): after a successful `wfs_mkfs`, bit 0 of
the inode bitmap is set and the root inode has `num` 0, mode
`S_IFDIR | S_IRUSR | S_IWUSR | S_IXUSR`, `nlinks` 1, size 0 and an all-zero address array,
and `getattr("/")` on the mounted image returns a directory mode, `nlink` 1 and size 0; but
`atim`, `mtim` and `ctim` are 0 whatever the time of the call: `wfs_mkfs` reads the clock
and stores it nowhere. -/
theorem C21_mkfs_root_times_zero (old : Image) (inodes blocks sz uid gid : Nat) (s : Image)
    (h : wfs_mkfs old inodes blocks sz uid gid = some (0, s)) :
    bit_set s.i_bitmap 0 = true ∧ (s.inodes 0).num = 0 ∧
    (s.inodes 0).mode = S_IFDIR ||| 0o400 ||| 0o200 ||| 0o100 ∧
    (s.inodes 0).nlinks = 1 ∧ (s.inodes 0).size = 0 ∧ (∀ i, (s.inodes 0).blocks i = 0) ∧
    (s.inodes 0).atim = 0 ∧ (s.inodes 0).mtim = 0 ∧ (s.inodes 0).ctim = 0 ∧
    (retrieve_inode s 0 ≠ none →
      ∃ st, wfs_getattr s (str "/") = some (0, some st, s) ∧ S_ISDIR st.st_mode = true ∧
        st.st_nlink = 1 ∧ st.st_size = 0) := by
  have hs : s.i_bitmap = upd old.i_bitmap 0 1 ∧
      s.inodes 0 = { zero_inode with mode := S_IFDIR ||| S_IRWXU, uid := uid, gid := gid,
                                     size := 0, nlinks := 1 } := by
    unfold wfs_mkfs at h
    split at h
    · exact absurd h (by simp)
    · split at h
      · injection h with h
        injection h with h1 _
        exact absurd h1 (by decide)
      · injection h with h
        injection h with _ h2
        rw [← h2]
        exact ⟨rfl, rfl⟩
  obtain ⟨hbm, hino⟩ := hs
  have hmode : (s.inodes 0).mode = S_IFDIR ||| S_IRWXU := by rw [hino]
  have hnl : (s.inodes 0).nlinks = 1 := by rw [hino]
  have hsize : (s.inodes 0).size = 0 := by rw [hino]
  refine ⟨?_, ?_, ?_, hnl, hsize, ?_, ?_, ?_, ?_, ?_⟩
  · rw [bit_set_eq, hbm]
    simp only [Nat.zero_div, upd_same]
    decide
  · rw [hino]; rfl
  · rw [hmode]; decide
  · intro i
    rw [hino]; rfl
  · rw [hino]; rfl
  · rw [hino]; rfl
  · rw [hino]; rfl
  · intro hr
    obtain ⟨st, h1, h2, h3, h4⟩ := wfs_getattr_root hr (by rw [hsize]; norm_num)
    refine ⟨st, h1, ?_, ?_, ?_⟩
    · rw [h2, hmode]; decide
    · rw [h3, hnl]; rfl
    · rw [h4, hsize]

/-- C21, an instance: `mkfs` for 32 inodes and 64 blocks on a zeroed image file gives
`img0`, whose root inode has the three times 0. -/
theorem C21_mkfs_root_times_zero_witness :
    wfs_mkfs blank 32 64 100000 0 0 = some (0, img0) ∧ bit_set img0.i_bitmap 0 = true ∧
    (img0.inodes 0).atim = 0 ∧ (img0.inodes 0).mtim = 0 ∧ (img0.inodes 0).ctim = 0 ∧
    ∃ st, wfs_getattr img0 (str "/") = some (0, some st, img0) ∧ S_ISDIR st.st_mode = true ∧
      st.st_nlink = 1 ∧ st.st_size = 0 := by
  have h := C21_mkfs_root_times_zero blank 32 64 100000 0 0 img0 rfl
  exact ⟨rfl, h.1, h.2.2.2.2.2.2.1, h.2.2.2.2.2.2.2.1, h.2.2.2.2.2.2.2.2.1,
    h.2.2.2.2.2.2.2.2.2 (by decide!)⟩

/-- C30 (fails on the code): in the image with the directory `/a` and the file `/a/f`,
`rmdir("/a/.")` returns `-ENOENT`, yet the data block of `/a` has lost its bitmap bit, the
block is zero-filled, so that the entry `f` is gone, and the first entry of the address
array of `/a` is reset to 0: the blocks are freed before `remove_dentry` looks for the
entry in the parent. -/
theorem C30_rmdir_failure_frees_blocks :
    Reachable ex_af ∧
    (wfs_rmdir ex_af (str "/a/.") 3).map Prod.fst = some (-ENOENT) ∧
    (ex_af.inodes 1).blocks 0 = block_off ex_af 1 ∧ bit_set ex_af.d_bitmap 1 = true ∧
    rd_cstr ex_af.data 28 (block_off ex_af 1) = str "f" ∧
    dentry_num ex_af.data (block_off ex_af 1) = 2 ∧
    bit_set ex_dot.d_bitmap 1 = false ∧ (ex_dot.inodes 1).blocks 0 = 0 ∧
    rd_cstr ex_dot.data 28 (block_off ex_af 1) = [] ∧
    dentry_num ex_dot.data (block_off ex_af 1) = 0 ∧
    bit_set ex_dot.i_bitmap 2 = true := by
  refine ⟨reachable_ex_af, ?_, ?_, ?_, ?_, ?_, ?_, ?_, ?_, ?_, ?_⟩ <;> decide!

/-- C29 (fails on the code): the six bytes `ESC ESC [ m [ x` are stripped in one pass to
`ESC [ x`: the escape sequence that is removed stood between an `ESC` and a `[`. The
output contains `ESC [`, and it is not a fixed point of `strip_ansi_codes`: on it the
scan for the closing `m` runs past the terminating zero byte. -/
theorem C29_single_pass_leaves_csi :
    strip_ansi_codes esc_twice PATH_MAX = some [ESC, LBRACKET, 120] ∧
    0 ∉ esc_twice ∧ esc_twice.length < PATH_MAX ∧
    has_csi [ESC, LBRACKET, 120] = true ∧
    strip_ansi_codes [ESC, LBRACKET, 120] PATH_MAX = none := by
  refine ⟨?_, ?_, ?_, ?_, ?_⟩ <;> decide!

/-- C29 (amended): for an input without zero bytes in which every `ESC [` is followed
later by an `m` and in which no `ESC` stands immediately before an `ESC [`,
`strip_ansi_codes` returns an output without any `ESC` immediately followed by `[`, and
stripping that output again returns it unchanged. -/
theorem C29_strip_complete (inp : List Nat) (n : Nat) (h0 : 0 ∉ inp)
    (hc : csi_closed inp = true) (hn : has_esc_csi inp = false) :
    ∃ out, strip_ansi_codes inp n = some out ∧ has_csi out = false ∧
      strip_ansi_codes out n = some out :=
  strip_ansi_codes_complete inp n h0 hc hn

/-- C29, an instance: `ESC [ 3 1 m / a ESC [ m` is stripped to `/a`. -/
theorem C29_strip_complete_witness :
    0 ∉ [ESC, LBRACKET, 51, 49, LOWER_M, SLASH, 97, ESC, LBRACKET, LOWER_M] ∧
    strip_ansi_codes [ESC, LBRACKET, 51, 49, LOWER_M, SLASH, 97, ESC, LBRACKET, LOWER_M]
      PATH_MAX = some [SLASH, 97] ∧
    ∃ out, strip_ansi_codes [ESC, LBRACKET, 51, 49, LOWER_M, SLASH, 97, ESC, LBRACKET, LOWER_M]
      PATH_MAX = some out ∧ has_csi out = false ∧ strip_ansi_codes out PATH_MAX = some out :=
  ⟨by decide, by decide!,
    C29_strip_complete [ESC, LBRACKET, 51, 49, LOWER_M, SLASH, 97, ESC, LBRACKET, LOWER_M]
      PATH_MAX (by decide) (by decide) (by decide)⟩

/-- C24 (exclusive block ownership): in an image reachable from a freshly formatted one,
every non-zero offset in the address array of a live inode or in its indirect block
(`ref_at`, positions 0 to 70; entry 7 of the array is always 0) is
`d_blocks_ptr + 512 * n` for a data block `n < num_data_blocks` whose bitmap bit is set,
and an offset occurs at one position of one live inode only, the position of the indirect
block included. A call of `wfs_write` that returns, whatever its result, leaves every live
inode that its path does not name with the same fields and the same bytes at every
position, so that a read of another regular file returns the same bytes before and after
it, and leaves every live directory a directory with the same slots and the same 32 bytes
in each slot. -/
theorem C24_exclusive_block_ownership {s : Image} (hs : Reachable s) :
    (∀ k pos, live s k → ref_at s k pos ≠ 0 →
      ∃ n : Nat, n < s.sb.num_data_blocks ∧
        ref_at s k pos = s.sb.d_blocks_ptr + 512 * (n : Int) ∧ bit_set s.d_bitmap n = true) ∧
    (∀ k, live s k → (s.inodes k).blocks 7 = 0) ∧
    (∀ k pos k1 pos1, live s k → live s k1 → ref_at s k pos ≠ 0 →
      ref_at s k1 pos1 = ref_at s k pos → k1 = k ∧ pos1 = pos) ∧
    (∀ path buf off now rc s1 clean, wfs_write s path buf off now = some (rc, s1) →
      strip_ansi_codes path PATH_MAX = some clean →
      (∀ G, live s G → get_inode_from_path s clean ≠ path_result.found G →
        s1.inodes G = s.inodes G ∧ ∀ x, file_byte s1 G x = file_byte s G x) ∧
      (∀ path2 clean2 G (len : Nat) (off2 now2 now3 : Int),
        strip_ansi_codes path2 PATH_MAX = some clean2 →
        get_inode_from_path s clean2 = path_result.found G →
        get_inode_from_path s clean ≠ path_result.found G →
        S_ISDIR (s.inodes G).mode = false → 0 ≤ off2 → len < 2 ^ 31 →
        ∃ out sA sB, wfs_read s path2 len off2 now2 = some ((out.length : Int), out, sA) ∧
          wfs_read s1 path2 len off2 now3 = some ((out.length : Int), out, sB)) ∧
      (∀ D, is_dir s D → is_dir s1 D ∧ ∀ p, (is_slot s1 D p ↔ is_slot s D p) ∧
        (is_slot s D p → ∀ t, 0 ≤ t → t < 32 → s1.data (p + t) = s.data (p + t)))) := by
  have hinv := reachable_inv hs
  refine ⟨fun k pos hk hz => hinv.b.blk k pos hk hz, hinv.b.b7, hinv.b.uniq, ?_⟩
  intro path buf off now rc s1 clean e hc
  obtain ⟨hsb, hib, hres, hG, hD⟩ := wfs_write_others hinv e hc
  have hinv1 : Inv s1 := reachable_inv (Reachable.step s now 0 0 (Op.write path buf off) rc s1 hs e)
  refine ⟨hG, ?_, ?_⟩
  · intro path2 clean2 G len off2 now2 now3 hc2 hr2 hne hnd h0 hlen
    obtain ⟨hi, hb⟩ := hG G (resolve_live hr2).1 hne
    exact wfs_read_same hinv hinv1 hc2 hr2 (by rw [hres]; exact hr2) hnd hi hb h0 hlen now2 now3
  · intro D hDd
    obtain ⟨hi, hb⟩ := hD D hDd
    refine ⟨⟨(live_congr hsb hib D).2 hDd.1, by rw [hi]; exact hDd.2⟩, fun p => ⟨?_, hb p⟩⟩
    unfold is_slot
    rw [hi]

/-- C24, an instance: in the image with the file `/a/f`, the first block of the directory
`/a` is an allocated data block, and writing `"hello"` to `/a/f` leaves the root a directory
and the 32 bytes of the dentry `f` of `/a` as they were. -/
theorem C24_exclusive_block_ownership_witness :
    Reachable ex_af ∧
    (∃ n : Nat, n < ex_af.sb.num_data_blocks ∧
      ref_at ex_af 1 0 = ex_af.sb.d_blocks_ptr + 512 * (n : Int) ∧
      bit_set ex_af.d_bitmap n = true) ∧
    wfs_write ex_af (str "/a/f") (str "hello") 0 2 = some (5, ex_hello) ∧
    is_dir ex_hello 1 ∧
    ∀ t, 0 ≤ t → t < 32 → ex_hello.data (dentry_ptr ((ex_af.inodes 1).blocks 0) 0 + t)
      = ex_af.data (dentry_ptr ((ex_af.inodes 1).blocks 0) 0 + t) := by
  have h := @C24_exclusive_block_ownership ex_af reachable_ex_af
  have hw : wfs_write ex_af (str "/a/f") (str "hello") 0 2 = some (5, ex_hello) :=
    some_after (by decide!)
  have hd : is_dir ex_af 1 := ⟨⟨by decide, by decide!⟩, by decide!⟩
  have h2 := (h.2.2.2 (str "/a/f") (str "hello") 0 2 5 ex_hello (str "/a/f") hw
    (by decide)).2.2 1 hd
  exact ⟨reachable_ex_af, h.1 1 0 hd.1 (by decide!), hw, h2.1,
    (h2.2 _).2 ⟨0, 0, by decide, by decide, by decide!, rfl⟩⟩

/-- C26 (fails on the code): on the fresh image the path `"/"` resolves to inode 0, and so
does its `dirname`, yet no directory holds an entry for it: the root has no slot at all.
In the image with the directory `/a`, the path `/a/.` resolves to inode 1, as does its
`dirname`, and its `basename` is `.`, a name that no slot of `/a` carries. -/
theorem C26_root_has_no_entry :
    Reachable img0 ∧
    get_inode_from_path img0 [SLASH] = path_result.found 0 ∧
    get_inode_from_path img0 (dirname [SLASH]) = path_result.found 0 ∧
    (∀ p, ¬ is_slot img0 0 p) ∧
    Reachable ex_af ∧
    get_inode_from_path ex_af (str "/a/.") = path_result.found 1 ∧
    get_inode_from_path ex_af (dirname (str "/a/.")) = path_result.found 1 ∧
    basename (str "/a/.") = [DOT] ∧
    (∀ p, is_slot ex_af 1 p → ¬ slot_hit ex_af.data [DOT] p) := by
  refine ⟨reachable_img0, by decide!, by decide!, ?_, reachable_ex_af, by decide!, by decide!,
    by decide, ?_⟩
  · rintro p ⟨i, j, hi, hj, hb, _⟩
    have h0 : ∀ i, i < 6 → (img0.inodes 0).blocks i = 0 := by decide!
    exact hb (h0 i hi)
  · rintro p ⟨i, j, hi, hj, hb, rfl⟩ hit
    have h0 : ∀ i, i < 6 → i ≠ 0 → (ex_af.inodes 1).blocks i = 0 := by decide!
    have hi0 : i = 0 := by
      by_contra hne
      exact hb (h0 i hi hne)
    subst hi0
    have h1 : ex_af.data ((ex_af.inodes 1).blocks 0) = 102 := by decide!
    have h2 : ∀ j, j < 16 → j ≠ 0 →
        dentry_vacant ex_af.data (dentry_ptr ((ex_af.inodes 1).blocks 0) j) = true := by
      decide!
    by_cases hj0 : j = 0
    · subst hj0
      have hs := hit.2
      have e : dentry_ptr ((ex_af.inodes 1).blocks 0) 0 = (ex_af.inodes 1).blocks 0 := by
        simp [dentry_ptr]
      rw [e] at hs
      simp only [strcmp_eq, h1, DOT] at hs
      exact absurd hs (by decide)
    · have := hit.1
      rw [h2 j hj hj0] at this
      exact Bool.noConfusion this

/-- C26 (amended: unique names per directory). In an image reachable from a freshly
formatted one: `add_dentry` on a live directory with a name (a C string) that a live slot
of an allocated direct block of the directory carries returns `-EEXIST` and leaves the
image unchanged, whichever slots are vacant; two live slots of a directory that carry the
same name are the same slot; and when `dirname(P)` resolves to `D` and `P`, whose
`basename` is a name other than `.` and `..` (so `P` is not the root), resolves to `N`,
then `D` is a live directory, exactly one live slot of `D` carries `basename(P)`, and the
`num` of that slot is `N`. -/
theorem C26_unique_names {s : Image} (hs : Reachable s) :
    (∀ parent num name now p, is_dir s parent → 0 ∉ name → is_slot s parent p →
      slot_hit s.data name p → add_dentry s parent num name now = (-EEXIST, s)) ∧
    (∀ D p p1 name, is_dir s D → is_slot s D p → is_slot s D p1 →
      slot_hit s.data name p → slot_hit s.data name p1 → p1 = p) ∧
    (∀ P D N, get_inode_from_path s (dirname P) = path_result.found D →
      get_inode_from_path s P = path_result.found N →
      basename P ≠ [DOT] → basename P ≠ [DOT, DOT] → SLASH ∉ basename P →
      is_dir s D ∧ ∃ p, is_slot s D p ∧ slot_hit s.data (basename P) p ∧
        dentry_num s.data p = (N : Int) ∧
        ∀ p1, is_slot s D p1 → slot_hit s.data (basename P) p1 → p1 = p) := by
  have hinv := reachable_inv hs
  refine ⟨?_, ?_, ?_⟩
  · intro parent num name now p hd h0 hp hit
    exact add_dentry_exists hinv.b num now hd.2 (hit_name_short hinv hd hp hit.2 h0) hp hit
  · intro D p p1 name hd hp hp1 hit hit1
    exact hinv.d.names D p p1 name hd hp hp1 hit.1 hit1.1 hit.2 hit1.2
  · intro P D N hD hN h1 h2 h3
    exact resolved_entry hinv hD hN h1 h2 h3

/-- C26, an instance: in the image in which slot 0 of the root is vacant and slot 1 holds
`g`, `add_dentry` with the name `g` returns `-EEXIST` although a vacant slot comes first;
and the path `/g` resolves to inode 2, the `num` of the one slot of the root that carries
`g`. -/
theorem C26_unique_names_witness :
    Reachable ex_hole ∧
    dentry_vacant ex_hole.data (dentry_ptr ((ex_hole.inodes 0).blocks 0) 0) = true ∧
    add_dentry ex_hole 0 5 (str "g") 9 = (-EEXIST, ex_hole) ∧
    ∃ p, is_slot ex_hole 0 p ∧ slot_hit ex_hole.data (str "g") p ∧
      dentry_num ex_hole.data p = 2 ∧
      ∀ p1, is_slot ex_hole 0 p1 → slot_hit ex_hole.data (str "g") p1 → p1 = p := by
  have hr : Reachable ex_hole :=
    reachable_after (reachable_after reachable_ex_f _ _ _ _ (by decide!)) _ _ _ _ (by decide!)
  have h := @C26_unique_names ex_hole hr
  have hd : is_dir ex_hole 0 := ⟨⟨by decide, by decide!⟩, by decide!⟩
  refine ⟨hr, by decide!, ?_, ?_⟩
  · exact h.1 0 5 (str "g") 9 (dentry_ptr ((ex_hole.inodes 0).blocks 0) 1) hd (by decide)
      ⟨0, 1, by decide, by decide, by decide!, rfl⟩ ⟨by decide!, by decide!⟩
  · have h3 := (h.2.2 (str "/g") 0 2 (by decide!) (by decide!) (by decide) (by decide)
      (by decide)).2
    exact h3

/-- C28 (first-hole insertion): in an image reachable from a freshly formatted one let
`parent` be a live directory and `name` a name of fewer than `MAX_NAME` bytes that no live
slot of `parent` carries. If an allocated direct block of `parent` has a vacant slot,
`add_dentry` returns 0 and stores the name, its zero byte and `num` in the first vacant
slot, in block-index then slot order, and changes neither the address array nor the data
bitmap. If no slot is vacant, an entry of the address array is 0 and a data block is free,
it returns 0, attaches a free block, zero-filled, to the lowest entry `i` that is 0 and
stores the name and `num` in slot 0 of that block. If no slot is vacant and either no
entry of the address array is 0 or no data block is free, it returns `-ENOSPC` and leaves
the image unchanged. On success every slot that was live, of any inode in use, is still a
slot with the same 32 bytes, and the size of `parent` is the larger of its old size and
`(i + 1) * 512` for the block index `i` used. A directory has at most 96 slots. -/
theorem C28_first_hole_insertion {s : Image} (hs : Reachable s) (parent : Nat) (num : Int)
    (name : List Nat) (now : Int) (hd : is_dir s parent) (hlen : name.length < 28)
    (hno : ∀ p, is_slot s parent p → ¬ slot_hit s.data name p) :
    ((∃ p, is_slot s parent p ∧ dentry_vacant s.data p = true) →
      ∃ (i j : Nat) (s1 : Image), i < 6 ∧ j < 16 ∧ (s.inodes parent).blocks i ≠ 0 ∧
        dentry_vacant s.data (dentry_ptr ((s.inodes parent).blocks i) j) = true ∧
        (∀ i2 j2, i2 < 6 → j2 < 16 → (s.inodes parent).blocks i2 ≠ 0 →
          (i2 < i ∨ (i2 = i ∧ j2 < j)) →
          dentry_vacant s.data (dentry_ptr ((s.inodes parent).blocks i2) j2) = false) ∧
        add_dentry s parent num name now = (0, s1) ∧
        (∀ t : Nat, t ≤ name.length →
          s1.data (dentry_ptr ((s.inodes parent).blocks i) j + t) = (name ++ [0]).getD t 0) ∧
        (-2 ^ 31 ≤ num → num < 2 ^ 31 →
          dentry_num s1.data (dentry_ptr ((s.inodes parent).blocks i) j) = num) ∧
        (s1.inodes parent).blocks = (s.inodes parent).blocks ∧
        s1.d_bitmap = s.d_bitmap ∧
        (s1.inodes parent).size = max (s.inodes parent).size (((i : Int) + 1) * 512)) ∧
    ((∀ p, is_slot s parent p → dentry_vacant s.data p = false) →
      (∃ i, i < 6 ∧ (s.inodes parent).blocks i = 0) →
      (∃ n, n < s.sb.num_data_blocks ∧ bit_set s.d_bitmap n = false) →
      ∃ (i n : Nat) (s1 : Image), i < 6 ∧ (s.inodes parent).blocks i = 0 ∧
        (∀ i2, i2 < i → (s.inodes parent).blocks i2 ≠ 0) ∧
        n < s.sb.num_data_blocks ∧ bit_set s.d_bitmap n = false ∧
        add_dentry s parent num name now = (0, s1) ∧
        (s1.inodes parent).blocks i = block_off s n ∧
        (∀ i2, i2 ≠ i → (s1.inodes parent).blocks i2 = (s.inodes parent).blocks i2) ∧
        bit_set s1.d_bitmap n = true ∧
        (∀ t : Nat, t ≤ name.length → s1.data (block_off s n + t) = (name ++ [0]).getD t 0) ∧
        (-2 ^ 31 ≤ num → num < 2 ^ 31 → dentry_num s1.data (block_off s n) = num) ∧
        (∀ q, block_off s n + 32 ≤ q → q < block_off s n + 512 → s1.data q = 0) ∧
        (s1.inodes parent).size = max (s.inodes parent).size (((i : Int) + 1) * 512)) ∧
    ((∀ p, is_slot s parent p → dentry_vacant s.data p = false) →
      ((∀ i, i < 6 → (s.inodes parent).blocks i ≠ 0) ∨
        (∀ n, n < s.sb.num_data_blocks → bit_set s.d_bitmap n = true)) →
      add_dentry s parent num name now = (-ENOSPC, s)) ∧
    (∀ s1, add_dentry s parent num name now = (0, s1) →
      ∀ k q, live s k → is_slot s k q → dentry_vacant s.data q = false →
        is_slot s1 k q ∧ ∀ x, q ≤ x → x < q + 32 → s1.data x = s.data x) ∧
    (∀ l : List Int, l.Nodup → (∀ p ∈ l, is_slot s parent p) → l.length ≤ 96) := by
  have hinv := reachable_inv hs
  refine ⟨?_, ?_, ?_, ?_, slots_le_96 s parent⟩
  · intro hvac
    obtain ⟨s1, e⟩ := add_dentry_success hinv.b num now hd.2 hlen (Or.inl hvac) hno
    rcases add_dentry_first hinv.b e with
      ⟨i, j, hi, hj, hbi, hv, hfirst, es⟩ | ⟨_, _, _, _, _, _, _, hfull, _⟩
    · refine ⟨i, j, s1, hi, hj, hbi, hv, hfirst, e, ?_, ?_, ?_, ?_, ?_⟩
      · intro t ht
        rw [es, touch_parent_eq, set_inode_data]
        exact write_dentry_name hlen t ht
      · intro h1 h2
        rw [es, touch_parent_eq, set_inode_data]
        exact write_dentry_num _ _ _ h1 h2
      · rw [es, touch_parent_eq, set_inode_same]
      · rw [es]; rfl
      · rw [es]
        exact touch_parent_size _ parent i now
    · obtain ⟨p, hp, hv⟩ := hvac
      rw [hfull p hp] at hv
      exact Bool.noConfusion hv
  · intro hfull hz hfree
    obtain ⟨s1, e⟩ := add_dentry_success hinv.b num now hd.2 hlen (Or.inr ⟨hz, hfree⟩) hno
    rcases add_dentry_first hinv.b e with
      ⟨i, j, hi, hj, hbi, hv, _, _⟩ | ⟨i, n, hi, hzi, hlow, hn, hbit, _, es⟩
    · rw [hfull _ ⟨i, j, hi, hj, hbi, rfl⟩] at hv
      exact Bool.noConfusion hv
    · refine ⟨i, n, s1, hi, hzi, hlow, hn, hbit, e, ?_, ?_, ?_, ?_, ?_, ?_, ?_⟩
      · rw [es, touch_parent_eq, set_inode_same]
        show ((set_block (with_new_block s n) parent i (block_off s n)).inodes parent).blocks i
          = block_off s n
        rw [set_block_blocks, if_pos rfl]
      · intro i2 hne
        rw [es, touch_parent_eq, set_inode_same]
        show ((set_block (with_new_block s n) parent i (block_off s n)).inodes parent).blocks i2
          = (s.inodes parent).blocks i2
        rw [set_block_blocks, if_neg hne]
        rfl
      · rw [es]
        show bit_set (upd s.d_bitmap (n / 32) (s.d_bitmap (n / 32) ||| (1 <<< (n % 32)))) n
          = true
        rw [bit_set_upd_set]
        simp
      · intro t ht
        rw [es, touch_parent_eq, set_inode_data]
        exact write_dentry_name hlen t ht
      · intro h1 h2
        rw [es, touch_parent_eq, set_inode_data]
        exact write_dentry_num _ _ _ h1 h2
      · intro q h1 h2
        rw [es, touch_parent_eq, set_inode_data]
        show write_dentry (with_new_block s n).data (block_off s n) name num q = 0
        rw [write_dentry_out hlen (Or.inr h1)]
        exact with_new_block_data_in (by omega) h2
      · rw [es]
        refine (touch_parent_size _ parent i now).trans ?_
        show max ((set_block (with_new_block s n) parent i (block_off s n)).inodes parent).size
          _ = _
        unfold set_block
        rw [set_inode_same]
        rfl
  · intro hfull hwhy
    cases hr : add_dentry s parent num name now with
    | mk rc s1 =>
      by_cases hrc : rc = 0
      · exfalso
        subst hrc
        rcases add_dentry_first hinv.b hr with
          ⟨i, j, hi, hj, hbi, hv, _, _⟩ | ⟨i, n, hi, hzi, _, hn, hbit, _, _⟩
        · rw [hfull _ ⟨i, j, hi, hj, hbi, rfl⟩] at hv
          exact Bool.noConfusion hv
        · rcases hwhy with h1 | h1
          · exact h1 i hi hzi
          · rw [h1 n hn] at hbit
            exact Bool.noConfusion hbit
      · obtain ⟨e, hcase⟩ := add_dentry_failure hinv.b hr hrc
        rcases hcase with ⟨_, h1 | h1⟩ | ⟨_, p, hp, hit⟩ | ⟨h1, _⟩
        · rw [hd.2] at h1; exact Bool.noConfusion h1
        · omega
        · exact absurd hit (hno p hp)
        · rw [h1, e]
  · intro s1 e
    exact (add_dentry_frame hinv.b hd.1 e).2.2.2.2

/-- C28, an instance: in the image in which slot 0 of the root is vacant and slot 1 holds
`g`, `add_dentry` with the new name `h` returns 0 and stores inode number 5 in slot 0 of
block 0, the first vacant slot, without changing the size of the root. -/
theorem C28_first_hole_insertion_witness :
    is_dir ex_hole 0 ∧
    dentry_vacant ex_hole.data (dentry_ptr ((ex_hole.inodes 0).blocks 0) 0) = true ∧
    dentry_vacant ex_hole.data (dentry_ptr ((ex_hole.inodes 0).blocks 0) 1) = false ∧
    ∃ s1, add_dentry ex_hole 0 5 (str "h") 9 = (0, s1) ∧
      dentry_num s1.data (dentry_ptr ((ex_hole.inodes 0).blocks 0) 0) = 5 ∧
      (s1.inodes 0).size = 512 := by
  have hr : Reachable ex_hole :=
    reachable_after (reachable_after reachable_ex_f _ _ _ _ (by decide!)) _ _ _ _ (by decide!)
  have hd : is_dir ex_hole 0 := ⟨⟨by decide, by decide!⟩, by decide!⟩
  have hb0 : (ex_hole.inodes 0).blocks 0 ≠ 0 := by decide!
  have hv0 : dentry_vacant ex_hole.data (dentry_ptr ((ex_hole.inodes 0).blocks 0) 0) = true := by
    decide!
  have hno : ∀ p, is_slot ex_hole 0 p → ¬ slot_hit ex_hole.data (str "h") p := by
    rintro p ⟨i, j, hi, hj, hb, rfl⟩ hit
    have h0 : ∀ i, i < 6 → i ≠ 0 → (ex_hole.inodes 0).blocks i = 0 := by decide!
    have hi0 : i = 0 := by
      by_contra hne
      exact hb (h0 i hi hne)
    subst hi0
    have h2 : ∀ j, j < 16 →
        (dentry_vacant ex_hole.data (dentry_ptr ((ex_hole.inodes 0).blocks 0) j) = false ∧
          strcmp_eq ex_hole.data (dentry_ptr ((ex_hole.inodes 0).blocks 0) j) (str "h") = true)
          = False := by
      decide!
    exact (h2 j hj).mp hit
  obtain ⟨i, j, s1, hi, hj, hbi, hv, hfirst, e, _, hnum, _, _, hsize⟩ :=
    (C28_first_hole_insertion hr 0 5 (str "h") 9 hd (by decide) hno).1
      ⟨_, ⟨0, 0, by decide, by decide, hb0, rfl⟩, hv0⟩
  have hij : i = 0 ∧ j = 0 := by
    by_contra hne
    have := hfirst 0 0 (by decide) (by decide) hb0 (by omega)
    rw [hv0] at this
    exact Bool.noConfusion this
  obtain ⟨rfl, rfl⟩ := hij
  refine ⟨hd, hv0, by decide!, s1, e, hnum (by decide) (by decide), ?_⟩
  rw [hsize]
  have : (ex_hole.inodes 0).size = 512 := by decide!
  rw [this]
  decide

/-- C25 (fails on the code): in the image with the directory `/a` and the file `/a/f`,
`rmdir("/a")` returns 0. Afterwards inode 2, the inode of the file, still has its bitmap
bit set, but no live dentry of a live directory has `num = 2`: the only directory left
is the root, and all its slots are vacant. -/
theorem C25_orphan_after_rmdir :
    Reachable ex_af ∧ (wfs_rmdir ex_af (str "/a") 3).map Prod.fst = some 0 ∧
    2 < ex_orphan.sb.num_inodes ∧ bit_set ex_orphan.i_bitmap 2 = true ∧
    ¬ ∃ D p, is_dir ex_orphan D ∧ is_slot ex_orphan D p ∧
      dentry_vacant ex_orphan.data p = false ∧ dentry_num ex_orphan.data p = 2 := by
  refine ⟨reachable_ex_af, by decide!, by decide, by decide!, ?_⟩
  rintro ⟨D, p, hd, ⟨i, j, hi, hj, hb, rfl⟩, hv, _⟩
  have h1 : ∀ D, D < 32 → bit_set ex_orphan.i_bitmap D = true →
      S_ISDIR (ex_orphan.inodes D).mode = true → D = 0 := by decide!
  have hD : D = 0 := h1 D hd.1.1 hd.1.2 hd.2
  subst hD
  have h2 : ∀ i, i < 6 → i ≠ 0 → (ex_orphan.inodes 0).blocks i = 0 := by decide!
  have hi0 : i = 0 := by
    by_contra hne
    exact hb (h2 i hi hne)
  subst hi0
  have h3 : ∀ j, j < 16 →
      dentry_vacant ex_orphan.data (dentry_ptr ((ex_orphan.inodes 0).blocks 0) j) = true := by
    decide!
  rw [h3 j hj] at hv
  exact Bool.noConfusion hv

/-- C25 (amended: bitmap and reference consistency). In an image reachable from a freshly
formatted one, every live dentry of a live directory names an inode in range whose
inode-bitmap bit is set, and every block that an inode in use references, directly or
through its indirect block, is a data block in range whose data-bitmap bit is set. When no
`wfs_rmdir` of the history was given a directory that still had live entries, every inode
other than the root whose bitmap bit is set is named by a live dentry of a live
directory. When no `wfs_unlink` of the history was given a file with an indirect block
(`wfs_unlink` frees the direct blocks only), every data block whose bitmap bit is set is
referenced by an inode in use, directly or through its indirect block. -/
theorem C25_bitmap_reference_consistency {s : Image} (hs : Reachable s) :
    (∀ D p, is_dir s D → is_slot s D p → dentry_vacant s.data p = false →
      0 < dentry_num s.data p ∧ (dentry_num s.data p).toNat < s.sb.num_inodes ∧
      bit_set s.i_bitmap (dentry_num s.data p).toNat = true) ∧
    (∀ k pos, live s k → ref_at s k pos ≠ 0 →
      ∃ n : Nat, n < s.sb.num_data_blocks ∧
        ref_at s k pos = s.sb.d_blocks_ptr + 512 * (n : Int) ∧ bit_set s.d_bitmap n = true) ∧
    (ReachableTidy s → ∀ k, k < s.sb.num_inodes → k ≠ 0 → bit_set s.i_bitmap k = true →
      ∃ D p, is_dir s D ∧ is_slot s D p ∧ dentry_vacant s.data p = false ∧
        dentry_num s.data p = (k : Int)) ∧
    (ReachableDirect s → ∀ n, n < s.sb.num_data_blocks → bit_set s.d_bitmap n = true →
      ∃ k pos, k < s.sb.num_inodes ∧ bit_set s.i_bitmap k = true ∧
        ref_at s k pos = s.sb.d_blocks_ptr + 512 * (n : Int)) := by
  have hinv := reachable_inv hs
  refine ⟨?_, fun k pos hk hz => hinv.b.blk k pos hk hz, ?_, ?_⟩
  · intro D p hd hp hv
    obtain ⟨h1, h2⟩ := hinv.d.dnum D p hd hp (dentry_vacant_false.1 hv).1
    exact ⟨h1, h2.1, h2.2⟩
  · intro ht k hk hk0 hbit
    exact tidy_named ht k ⟨hk, hbit⟩ hk0
  · intro ht n hn hbit
    obtain ⟨k, pos, hk, hr⟩ := direct_db ht n hn hbit
    exact ⟨k, pos, hk.1, hk.2, hr⟩

/-- C25, an instance: the image with the directory `/a` and the file `/a/f` is reached
without any `wfs_rmdir` or `wfs_unlink`; the first slot of `/a` is live and names inode 2,
whose bitmap bit is set; inode 2 is named by a live dentry of a live directory; and data
block 1, whose bitmap bit is set, is referenced by an inode in use. -/
theorem C25_bitmap_reference_consistency_witness :
    Reachable ex_af ∧ ReachableTidy ex_af ∧ ReachableDirect ex_af ∧
    bit_set ex_af.i_bitmap (dentry_num ex_af.data
      (dentry_ptr ((ex_af.inodes 1).blocks 0) 0)).toNat = true ∧
    (∃ D p, is_dir ex_af D ∧ is_slot ex_af D p ∧ dentry_vacant ex_af.data p = false ∧
      dentry_num ex_af.data p = 2) ∧
    bit_set ex_af.d_bitmap 1 = true ∧
    ∃ k pos, k < ex_af.sb.num_inodes ∧ bit_set ex_af.i_bitmap k = true ∧
      ref_at ex_af k pos = ex_af.sb.d_blocks_ptr + 512 * ((1 : Nat) : Int) := by
  have ht : ReachableTidy ex_af :=
    tidy_after (tidy_after (ReachableTidy.fresh _ fresh_img0) _ _ _ _ (fun _ e => by cases e)
      (by decide!)) _ _ _ _ (fun _ e => by cases e) (by decide!)
  have hdir : ReachableDirect ex_af :=
    direct_after (direct_after (ReachableDirect.fresh _ fresh_img0) _ _ _ _
      (fun _ e => by cases e) (by decide!)) _ _ _ _ (fun _ e => by cases e) (by decide!)
  have h := @C25_bitmap_reference_consistency ex_af reachable_ex_af
  have hd : is_dir ex_af 1 := ⟨⟨by decide, by decide!⟩, by decide!⟩
  have hbit : bit_set ex_af.d_bitmap 1 = true := by decide!
  exact ⟨reachable_ex_af, ht, hdir,
    (h.1 1 _ hd ⟨0, 0, by decide, by decide, by decide!, rfl⟩ (by decide!)).2.2,
    h.2.2.1 ht 2 (by decide) (by decide) (by decide!), hbit,
    h.2.2.2 hdir 1 (by decide) hbit⟩

end WFS

namespace WFS

/-- A failing `add_dentry` in `wfs_mknod` or `wfs_mkdir` returns a negative number, or 1 for
a name of 28 bytes or more. -/
theorem create_entry_sign {s : Image} (h : Inv s) {parent k : Nat} {now : Int}
    (hr0 : live s 0) (hpar : live s parent) (hdir : S_ISDIR (s.inodes parent).mode = true)
    (ha : (allocate_inode s now).1 = some k)
    (mode uid gid : Nat) (name : List Nat) {rc1 : Int} {s4 : Image}
    (hadd : add_dentry (created s k mode now uid gid) parent
      ((created s k mode now uid gid).inodes k).num name now = (rc1, s4))
    (hrc : rc1 ≠ 0) : rc1 < 0 ∨ (rc1 = 1 ∧ MAX_NAME ≤ name.length) := by
  obtain ⟨hk, hf, _, _, _⟩ := create_entry_inv h hr0 hpar ha mode uid gid name hadd
  have hne : parent ≠ k := by
    rintro rfl
    rw [hpar.2] at hf
    exact absurd hf (by simp)
  obtain ⟨_, hc⟩ := add_dentry_failure (h.created hk hf mode now uid gid).b hadd hrc
  rcases hc with ⟨e, hc⟩ | ⟨e, _⟩ | ⟨e, _⟩
  · rcases hc with hc | hc
    · rw [created_other s mode now uid gid hne, hdir] at hc
      exact absurd hc (by simp)
    · exact Or.inr ⟨e, hc⟩
  · exact Or.inl (by rw [e]; decide)
  · exact Or.inl (by rw [e]; decide)

/-- C33 (errno sign convention), what the code does: in an image reachable from a freshly
formatted one every result of `wfs_mknod` and of `wfs_mkdir` is 0, a negative number, or
the positive number 1, and it is 1 only when `add_dentry` refused a basename of `MAX_NAME`
(28) bytes or more and the handler passed that value on. -/
theorem C33_return_sign {s : Image} (hs : Reachable s) (path : List Nat) (mode : Nat)
    (now rc : Int) (uid gid : Nat) (s1 : Image) :
    (wfs_mknod s path mode now uid gid = some (rc, s1) →
      rc = 0 ∨ rc < 0 ∨ (rc = 1 ∧ ∃ clean, strip_ansi_codes path PATH_MAX = some clean ∧
        MAX_NAME ≤ (basename clean).length)) ∧
    (wfs_mkdir s path mode now uid gid = some (rc, s1) →
      rc = 0 ∨ rc < 0 ∨ (rc = 1 ∧ ∃ clean, strip_ansi_codes path PATH_MAX = some clean ∧
        MAX_NAME ≤ (basename clean).length)) := by
  have hinv := reachable_inv hs
  constructor
  · intro e
    rcases wfs_mknod_cases e with ⟨_, hrc⟩ | ⟨clean, cp, parent, k, rc1, s4, _, hc, _, hr, hdir,
      ha, hadd, hres⟩
    · rcases hrc with rfl | rfl | rfl | ⟨_, _, _, _, hr⟩
      · exact Or.inr (Or.inl (by decide))
      · exact Or.inr (Or.inl (by decide))
      · exact Or.inr (Or.inl (by decide))
      · exact Or.inr (Or.inl (resolve_error_neg hr))
    · obtain ⟨hpar, hr0⟩ := resolve_live hr
      rcases hres with ⟨hne, rfl, _⟩ | ⟨_, rfl, _⟩
      · rcases create_entry_sign hinv hr0 hpar hdir ha _ uid gid _ hadd hne with h1 | ⟨h1, h2⟩
        · exact Or.inr (Or.inl h1)
        · exact Or.inr (Or.inr ⟨h1, clean, hc, h2⟩)
      · exact Or.inl rfl
  · intro e
    rcases wfs_mkdir_cases e with ⟨_, hrc⟩ | ⟨clean, cp, parent, k, rc1, s4, hc, _, hr, hdir, _,
      ha, hadd, hres⟩
    · rcases hrc with rfl | rfl | rfl | ⟨rfl, _⟩
      · exact Or.inr (Or.inl (by decide))
      · exact Or.inr (Or.inl (by decide))
      · exact Or.inr (Or.inl (by decide))
      · exact Or.inr (Or.inl (by decide))
    · obtain ⟨hpar, hr0⟩ := resolve_live hr
      rcases hres with ⟨hne, rfl, _⟩ | ⟨_, rfl, _⟩
      · rcases create_entry_sign hinv hr0 hpar hdir ha _ uid gid _ hadd hne with h1 | ⟨h1, h2⟩
        · exact Or.inr (Or.inl h1)
        · exact Or.inr (Or.inr ⟨h1, clean, hc, h2⟩)
      · exact Or.inl rfl

/-- C33, an instance: on the freshly formatted image `mknod` and `mkdir` of
`/abcdefghijklmnopqrstuvwxyz01`, a basename of 28 characters, both return 1. -/
theorem C33_return_sign_witness :
    (wfs_mknod img0 (SLASH :: name28) 0o644 1 0 0).map Prod.fst = some 1 ∧
    (wfs_mkdir img0 (SLASH :: name28) 0o755 1 0 0).map Prod.fst = some 1 ∧
    ((1 : Int) = 0 ∨ (1 : Int) < 0 ∨ ((1 : Int) = 1 ∧
      ∃ clean, strip_ansi_codes (SLASH :: name28) PATH_MAX = some clean ∧
        MAX_NAME ≤ (basename clean).length)) := by
  have h1 : (wfs_mknod img0 (SLASH :: name28) 0o644 1 0 0).map Prod.fst = some 1 := by decide!
  have h2 : (wfs_mkdir img0 (SLASH :: name28) 0o755 1 0 0).map Prod.fst = some 1 := by decide!
  refine ⟨h1, h2, ?_⟩
  cases e : wfs_mknod img0 (SLASH :: name28) 0o644 1 0 0 with
  | none => rw [e] at h1; exact absurd h1 (by simp)
  | some r =>
    obtain ⟨rc, s1⟩ := r
    rw [e] at h1
    have hrc : rc = 1 := by simpa using h1
    subst hrc
    exact (C33_return_sign reachable_img0 (SLASH :: name28) 0o644 1 1 0 0 s1).1 e

/-- C31 (resolver stack safety), what the code does: in an image reachable from a freshly
formatted one, for every path, each index at which `get_inode_from_path` accesses
`inode_path` is below `num_inodes` and not less than `-1`, and the resolver leaves defined
behaviour exactly when the index `-1` occurs: a `".."` applied while the stack holds only
the root is not refused, it decrements `idx` to `-1` and reads `inode_path[-1]`. -/
theorem C31_stack_indices {s : Image} (hs : Reachable s) (path : List Nat) :
    (∀ i ∈ resolver_indices s path, -1 ≤ i ∧ i < (s.sb.num_inodes : Int)) ∧
    (get_inode_from_path s path = path_result.undefined ↔
      (-1 : Int) ∈ resolver_indices s path) :=
  ⟨resolver_indices_bound (reachable_inv hs) path,
    resolver_undefined_iff (reachable_inv hs) path⟩

/-- C31, an instance: on the freshly formatted image the path `/..` makes the resolver
access `inode_path[0]` and then `inode_path[-1]`, and `getattr` of it has no defined
result. -/
theorem C31_stack_indices_witness :
    resolver_indices img0 (str "/..") = [0, -1] ∧
    get_inode_from_path img0 (str "/..") = path_result.undefined ∧
    (wfs_getattr img0 (str "/..")).isSome = false ∧
    (∀ i ∈ resolver_indices img0 (str "/.."), -1 ≤ i ∧ i < (img0.sb.num_inodes : Int)) ∧
    (get_inode_from_path img0 (str "/..") = path_result.undefined ↔
      (-1 : Int) ∈ resolver_indices img0 (str "/..")) := by
  have h := C31_stack_indices reachable_img0 (str "/..")
  exact ⟨by decide!, by decide!, by decide!, h.1, h.2⟩

/-- C32 (`strip_ansi_codes` stays inside its input), what the code does: let the memory
behind `in` hold the string `l` and its terminating zero byte, and let `out_len ≥ 1`. When
the function has a defined result, every index it reads is at most the index of the
terminating zero byte, and the output has no zero byte and fewer than `out_len` bytes, so
with its terminating zero byte at most `out_len` bytes are written; that is so whenever
every `ESC [` of `l` is followed later by an `m`. In the remaining case, where the scan for
the closing `m` stops at the terminating zero byte, the `i++` of the `for` steps over that
byte and the next test reads the byte behind it. -/
theorem C32_strip_reads (mem : Nat → Nat) (l : List Nat) (out_len : Nat) (h0 : 0 ∉ l)
    (hm : holds_string mem 0 l) (hn : 1 ≤ out_len) :
    (∀ out, strip_ansi_codes l out_len = some out →
      (∀ fuel, ∀ x ∈ strip_ansi_reads mem out_len fuel, x ≤ l.length) ∧
      out.length + 1 ≤ out_len ∧ 0 ∉ out) ∧
    (strip_ansi_codes l out_len = none →
      ∀ fuel, l.length + 2 ≤ fuel → (l.length + 1) ∈ strip_ansi_reads mem out_len fuel) ∧
    (csi_closed l = true → ∃ out, strip_ansi_codes l out_len = some out) := by
  have hz : ¬ out_len = 0 := by omega
  unfold strip_ansi_codes strip_ansi_reads
  simp only [if_neg hz]
  refine ⟨fun out ho => ⟨fun fuel x hx => ?_, ?_, ?_⟩, fun hnone fuel hf => ?_, fun hc => ?_⟩
  · have := strip_reads_inside l false (out_len - 1) out 0 fuel h0 hm ho x hx
    omega
  · have := (strip_loop_out l false (out_len - 1) out ho).2
    omega
  · exact fun hx => ((strip_loop_out l false (out_len - 1) out ho).1 0 hx).2 rfl
  · have := strip_reads_past l false (out_len - 1) 0 fuel h0 hm hnone hf
    simpa using this
  · exact strip_loop_defined l false (out_len - 1) h0 hc (fun h => absurd h (by simp))

/-- C32, an instance: on the input `ESC [ 3 1`, whose terminating zero byte has index 4,
`strip_ansi_codes` with an output buffer of `PATH_MAX` bytes reads `in[5]` and goes on
from there; the same happens for the path `/` followed by these bytes, for which `getattr`
has no defined result. -/
theorem C32_strip_reads_witness :
    holds_string mem_open_csi 0 [ESC, LBRACKET, 51, 49] ∧
    strip_ansi_codes [ESC, LBRACKET, 51, 49] PATH_MAX = none ∧
    strip_ansi_reads mem_open_csi PATH_MAX 6 = [0, 1, 2, 3, 4, 5, 6] ∧
    5 ∈ strip_ansi_reads mem_open_csi PATH_MAX 6 ∧
    strip_ansi_codes [SLASH, ESC, LBRACKET, 51, 49] PATH_MAX = none ∧
    (wfs_getattr img0 [SLASH, ESC, LBRACKET, 51, 49]).isSome = false := by
  have hm : holds_string mem_open_csi 0 [ESC, LBRACKET, 51, 49] := by
    refine ⟨?_, ?_, ?_, ?_, ?_⟩ <;> rfl
  have hnone : strip_ansi_codes [ESC, LBRACKET, 51, 49] PATH_MAX = none := by decide!
  exact ⟨hm, hnone, by decide!,
    (C32_strip_reads mem_open_csi [ESC, LBRACKET, 51, 49] PATH_MAX (by decide) hm
      (by decide)).2.1 hnone 6 (by decide),
    by decide!, by decide!⟩

end WFS
